import Mathlib

/-! # Weave construction (`weave.cpp`)

A shallow embedding of `ocl::Weave` — fiber partitioning (`sort_fibers`), graph
construction (`build`), component splitting (`split_components`), the embedding builder
(`build_embedding`) and face traversal (`face_traverse`) — together with theorems about the
built graph.

Conventions of the embedding

* Coordinates (`double` in the source) are exact integers: the construction code only
  compares coordinates and takes differences whose sign is tested.
* A vertex descriptor is the index of the vertex in the vertex list of the graph
  (the graph is an adjacency list over a vector of vertices); the edge list is kept in
  insertion order, which is also the order in which the out-edges of a vertex are visited.
* Dereferencing an iterator that is `end()` or before `begin()` has no defined behaviour in
  the source; the embedding reports it as `Failure.undefinedBehaviour`, distinct from a failed
  `assert`, reported as `Failure.assertion`. The source has no guard there and does not stop:
  a theorem that assumes `build` returns `Except.ok` speaks of the runs that never reach such
  a dereference, and says nothing of what a compiled build leaves behind when it does.
* An edge descriptor is the rank of the edge in the edge list; the out-edges of a vertex are
  its incident edges in edge order.
* The two algorithms of the graph library that the source calls, `connected_components` and
  `planar_face_traversal`, are modelled after their documented behaviour; the face walks take
  a fuel argument, and the theorems give the amount that is always enough.
-/

namespace ocl

/-! ## Data model -/

/-- A 3D coordinate. -/
structure Point where
  x : Int
  y : Int
  z : Int
deriving DecidableEq, Repr

/-- The vertex type tags named in `weave.cpp`. -/
inductive VertexType where
  | CL
  | ADJ
  | TWOADJ
  | INT
deriving DecidableEq, Repr

/-- The pair `(vertex, coordinate)` stored in an interval's intersection set; a vertex
descriptor is the index of the vertex in the vertex list, a natural number. -/
abbrev VertexPair := Nat × Int

/-- Modelled from the spec: the type of `Interval::intersections` is declared outside
`weave.cpp`; the spec describes it as "an ordered set of (vertex-handle, coordinate) pairs kept
sorted by coordinate", in which "coordinates are strictly ordered". It is a list of pairs in
increasing order of the coordinate; two pairs with the same coordinate are equivalent keys. -/
abbrev VertexPairSet := List VertexPair

/-- The `insert` of the ordered set: the pair is placed before the first element with a larger
coordinate; when an element with the same coordinate is present the set is left unchanged. -/
def VertexPairSet.insert : VertexPairSet → VertexPair → VertexPairSet
  | [], p => [p]
  | q :: t, p =>
    if p.2 < q.2 then p :: q :: t
    else if q.2 < p.2 then q :: VertexPairSet.insert t p
    else q :: t

/-- The `lower_bound` of the ordered set: the position of the first element whose coordinate is
not less than `key` (the length of the list stands for `end()`). -/
def VertexPairSet.lower_bound : VertexPairSet → Int → Nat
  | [], _ => 0
  | q :: t, key => if q.2 < key then VertexPairSet.lower_bound t key + 1 else 0

/-- A contact interval of a fiber: scalar bounds, the materialisation guard and the ordered
set of vertices registered on it. -/
structure Interval where
  lower : Int
  upper : Int
  in_weave : Bool
  intersections : VertexPairSet
deriving DecidableEq, Repr

/-- A scan-line: its two defining points (`p1` is the anchor), its direction and its
intervals. -/
structure Fiber where
  p1 : Point
  p2 : Point
  dir : Point
  ints : List Interval
deriving DecidableEq, Repr

/-- The operations of `Point` and `Fiber` that `weave.cpp` calls and that are defined outside
it: `Point::xParallel`, `Point::yParallel` (applied to `Fiber::dir`) and `Fiber::point`, which
maps a scalar position on the fiber through `p1`, `p2` to a `Point`. -/
structure FiberOps where
  xParallel : Point → Bool
  yParallel : Point → Bool
  point : Point → Point → Int → Point

/-- The call `f.point(t)`. -/
def Fiber.point (ops : FiberOps) (f : Fiber) (t : Int) : Point :=
  ops.point f.p1 f.p2 t

/-- The vertex properties of the graph: position, type and component label. -/
structure VertexProps where
  position : Point
  type : VertexType
  component : Nat
deriving DecidableEq, Repr

/-- An undirected edge with its properties (`color` is the capping flag). -/
structure Edge where
  source : Nat
  target : Nat
  color : Bool
  index : Nat
deriving DecidableEq, Repr

/-- The graph: the vertex vector and the edge list, both in creation order. -/
structure WeaveGraph where
  verts : List VertexProps
  edges : List Edge
deriving DecidableEq, Repr

/-- The aggregate: the fibers, their two partitions and the graph. -/
structure Weave where
  fibers : List Fiber
  xfibers : List Fiber
  yfibers : List Fiber
  g : WeaveGraph
deriving DecidableEq, Repr

/-- The two ways construction can stop without a graph. -/
inductive Failure where
  | assertion
  | undefinedBehaviour
deriving DecidableEq, Repr

/-! ## Graph primitives -/

/-- The empty graph. -/
def WeaveGraph.empty : WeaveGraph := ⟨[], []⟩

/-- The sequence `v = boost::add_vertex(g)`, `put(vertex_position, g, v, position)`,
`put(vertex_type, g, v, t)`: the new vertex takes the next index. -/
def WeaveGraph.new_vertex (g : WeaveGraph) (position : Point) (t : VertexType) : WeaveGraph :=
  { g with verts := g.verts ++ [⟨position, t, 0⟩] }

/-- The number of vertices, `boost::num_vertices`. -/
def WeaveGraph.num_vertices (g : WeaveGraph) : Nat := g.verts.length

/-- Whether edge `e` joins the unordered pair `u`, `v`. -/
def Edge.joins (e : Edge) (u v : Nat) : Bool :=
  (e.source == u && e.target == v) || (e.source == v && e.target == u)

/-- The call `boost::remove_edge(u, v, g)`: every edge joining `u` and `v` is removed. -/
def WeaveGraph.remove_edge (u v : Nat) (g : WeaveGraph) : WeaveGraph :=
  { g with edges := g.edges.filter (fun e => !e.joins u v) }

/-- The call `boost::add_edge(u, v, g)`: a new edge with default properties is appended. -/
def WeaveGraph.add_edge (u v : Nat) (g : WeaveGraph) : WeaveGraph :=
  { g with edges := g.edges ++ [⟨u, v, false, 0⟩] }

/-! ## `Weave::sort_fibers` -/

/-- One iteration of the loop of `sort_fibers` over `fibers`. -/
def sort_step (ops : FiberOps) (acc : List Fiber × List Fiber) (f : Fiber) :
    List Fiber × List Fiber :=
  (if ops.xParallel f.dir && !f.ints.isEmpty then acc.1 ++ [f] else acc.1,
   if ops.yParallel f.dir && !f.ints.isEmpty then acc.2 ++ [f] else acc.2)

/-- The function `Weave::sort_fibers`: both partitions are cleared and refilled by one pass
over `fibers`. -/
def sort_fibers (ops : FiberOps) (w : Weave) : Weave :=
  { w with
    xfibers := (w.fibers.foldl (sort_step ops) ([], [])).1
    yfibers := (w.fibers.foldl (sort_step ops) ([], [])).2 }

/-! ## `Weave::build` -/

/-- The function `Weave::add_vertex`: a new vertex is created and registered in the interval's
set under the coordinate `ipos`. -/
def add_vertex (g : WeaveGraph) (position : Point) (t : VertexType) (i : Interval)
    (ipos : Int) : WeaveGraph × Interval :=
  (g.new_vertex position t,
   { i with intersections := VertexPairSet.insert i.intersections (g.num_vertices, ipos) })

/-- The block guarded by `!in_weave` (lines 163-170 for an X-interval with `key = Point.x`,
lines 181-187 for a Y-interval with `key = Point.y`): both end-points become CL vertices
registered under their own coordinate and the guard is set. -/
def add_endpoints (ops : FiberOps) (f : Fiber) (key : Point → Int) (g : WeaveGraph)
    (i : Interval) : WeaveGraph × Interval :=
  if !i.in_weave then
    let r1 := add_vertex g (f.point ops i.lower) VertexType.CL i (key (f.point ops i.lower))
    let r2 := add_vertex r1.1 (f.point ops i.upper) VertexType.CL r1.2
      (key (f.point ops i.upper))
    (r2.1, { r2.2 with in_weave := true })
  else (g, i)

/-- The position of the crossing of X-fiber `xf` and Y-fiber `yf` (line 191). -/
def crossing_position (xf yf : Fiber) : Point := ⟨yf.p1.x, xf.p1.y, xf.p1.z⟩

/-- Lines 188-195: the crossing vertex is created with type INT and inserted in the sets of
both intervals. The result is the grown graph and the two intervals. -/
def add_crossing_vertex (xf yf : Fiber) (g : WeaveGraph) (xi yi : Interval) :
    WeaveGraph × Interval × Interval :=
  (g.new_vertex (crossing_position xf yf) VertexType.INT,
   { xi with intersections :=
      VertexPairSet.insert xi.intersections (g.num_vertices, (crossing_position xf yf).x) },
   { yi with intersections :=
      VertexPairSet.insert yi.intersections (g.num_vertices, (crossing_position xf yf).y) })

/-- Lines 199-209 (and 212-222): the neighbours of `v` in the ordered set `s` are looked up
around `lower_bound (v, key)`; any edge joining them is removed and both are joined to `v`.
The `assert` guards `lower_bound` returning `end()`; incrementing to `end()` or decrementing
`begin()` and dereferencing is not guarded. -/
def rewire (s : VertexPairSet) (v : Nat) (key : Int) (g : WeaveGraph) :
    Except Failure WeaveGraph :=
  if VertexPairSet.lower_bound s key = s.length then Except.error Failure.assertion
  else
    match s[VertexPairSet.lower_bound s key + 1]?,
      (if VertexPairSet.lower_bound s key = 0 then none
       else s[VertexPairSet.lower_bound s key - 1]?) with
    | some above, some below =>
      Except.ok ((g.remove_edge above.1 below.1).add_edge above.1 v |>.add_edge below.1 v)
    | _, _ => Except.error Failure.undefinedBehaviour

/-- Lines 180-222: the body executed for an X-interval `xi` of `xf` and a Y-interval `yi` of
`yf` that intersect. -/
def crossing (ops : FiberOps) (xf yf : Fiber) (g : WeaveGraph) (xi yi : Interval) :
    Except Failure (WeaveGraph × Interval × Interval) :=
  let y := add_endpoints ops yf Point.y g yi
  let c := add_crossing_vertex xf yf y.1 xi y.2
  match rewire c.2.1.intersections y.1.num_vertices (crossing_position xf yf).x c.1 with
  | Except.error e => Except.error e
  | Except.ok g3 =>
    match rewire c.2.2.intersections y.1.num_vertices (crossing_position xf yf).y g3 with
    | Except.error e => Except.error e
    | Except.ok g4 => Except.ok (g4, c.2.1, c.2.2)

/-- A `BOOST_FOREACH` over a container by reference: `step` may update the element and the
state carried around the loop; the first failure stops the loop. -/
def foreach {σ α : Type} (step : σ → α → Except Failure (σ × α)) :
    σ → List α → Except Failure (σ × List α)
  | s, [] => Except.ok (s, [])
  | s, a :: rest =>
    match step s a with
    | Except.error e => Except.error e
    | Except.ok r =>
      match foreach step r.1 rest with
      | Except.error e => Except.error e
      | Except.ok r2 => Except.ok (r2.1, r.2 :: r2.2)

/-- The actual-intersection test of line 176. -/
def y_range_test (ops : FiberOps) (xf yf : Fiber) (yi : Interval) : Bool :=
  decide ((yf.point ops yi.lower).y ≤ xf.p1.y) && decide (xf.p1.y ≤ (yf.point ops yi.upper).y)

/-- The potential-intersection test of line 172. -/
def x_range_test (ops : FiberOps) (xf : Fiber) (xi : Interval) (yf : Fiber) : Bool :=
  decide ((xf.point ops xi.lower).x ≤ yf.p1.x) && decide (yf.p1.x ≤ (xf.point ops xi.upper).x)

/-- The body of the loop over the intervals `yi` of `yf` (lines 173-224). -/
def y_interval_step (ops : FiberOps) (xf yf : Fiber) (s : WeaveGraph × Interval)
    (yi : Interval) : Except Failure ((WeaveGraph × Interval) × Interval) :=
  if y_range_test ops xf yf yi then
    match crossing ops xf yf s.1 s.2 yi with
    | Except.error e => Except.error e
    | Except.ok r => Except.ok ((r.1, r.2.1), r.2.2)
  else Except.ok (s, yi)

/-- The body of the loop over the Y-fibers (lines 171-226). -/
def y_fiber_step (ops : FiberOps) (xf : Fiber) (xi0 : Interval) (s : WeaveGraph × Interval)
    (yf : Fiber) : Except Failure ((WeaveGraph × Interval) × Fiber) :=
  if x_range_test ops xf xi0 yf then
    match foreach (y_interval_step ops xf yf) s yf.ints with
    | Except.error e => Except.error e
    | Except.ok r => Except.ok (r.1, { yf with ints := r.2 })
  else Except.ok (s, yf)

/-- The body of the loop over the intervals `xi` of `xf` (lines 160-227); the state carried
around the loop is the graph and the Y-fibers. -/
def x_interval_step (ops : FiberOps) (xf : Fiber) (s : WeaveGraph × List Fiber)
    (xi : Interval) : Except Failure ((WeaveGraph × List Fiber) × Interval) :=
  match foreach (y_fiber_step ops xf xi) (add_endpoints ops xf Point.x s.1 xi) s.2 with
  | Except.error e => Except.error e
  | Except.ok r => Except.ok ((r.1.1, r.2), r.1.2)

/-- The body of the loop over the X-fibers (lines 158-229). -/
def x_fiber_step (ops : FiberOps) (s : WeaveGraph × List Fiber) (xf : Fiber) :
    Except Failure ((WeaveGraph × List Fiber) × Fiber) :=
  if !xf.ints.isEmpty then
    match foreach (x_interval_step ops xf) s xf.ints with
    | Except.error e => Except.error e
    | Except.ok r => Except.ok (r.1, { xf with ints := r.2 })
  else Except.ok (s, xf)

/-- The function `Weave::build`. -/
def build (ops : FiberOps) (w : Weave) : Except Failure Weave :=
  match foreach (x_fiber_step ops) ((sort_fibers ops w).g, (sort_fibers ops w).yfibers)
      (sort_fibers ops w).xfibers with
  | Except.error e => Except.error e
  | Except.ok r => Except.ok { sort_fibers ops w with g := r.1.1, xfibers := r.2, yfibers := r.1.2 }

/-! ## A concrete instance of the fiber operations -/

/-- Exact axis tests and linear interpolation `p1 + t * (p2 - p1)`, used to evaluate the
construction on concrete fibers. -/
def axisOps : FiberOps where
  xParallel := fun d => decide (d.y = 0) && decide (d.z = 0)
  yParallel := fun d => decide (d.x = 0) && decide (d.z = 0)
  point := fun p1 p2 t =>
    ⟨p1.x + t * (p2.x - p1.x), p1.y + t * (p2.y - p1.y), p1.z + t * (p2.z - p1.z)⟩

/-- A fiber from `p1` to `p2` with fresh intervals given by their bounds. -/
def mkFiber (p1 p2 : Point) (bounds : List (Int × Int)) : Fiber :=
  ⟨p1, p2, ⟨p2.x - p1.x, p2.y - p1.y, p2.z - p1.z⟩, bounds.map fun b => ⟨b.1, b.2, false, []⟩⟩

/-- A weave holding the given fibers, with empty partitions and an empty graph. -/
def mkWeave (fibers : List Fiber) : Weave := ⟨fibers, [], [], WeaveGraph.empty⟩

/-! ## Read-out of the graph -/

/-- The positions returned by `Weave::getCLPoints`: the CL vertices in vertex order. -/
def getCLPoints (g : WeaveGraph) : List Point :=
  (g.verts.filter fun v => v.type == VertexType.CL).map fun v => v.position

/-- The positions returned by `Weave::getIPoints`: the INT vertices in vertex order. -/
def getIPoints (g : WeaveGraph) : List Point :=
  (g.verts.filter fun v => v.type == VertexType.INT).map fun v => v.position

/-! ## Specification-side notions -/

/-- The two range tests of the claim about crossings, written on the geometry: the anchor x of
`yf` lies in the x-range of `xi` and the anchor y of `xf` lies in the y-range of `yi`. -/
def crosses (ops : FiberOps) (xf : Fiber) (xi : Interval) (yf : Fiber) (yi : Interval) : Prop :=
  ((xf.point ops xi.lower).x ≤ yf.p1.x ∧ yf.p1.x ≤ (xf.point ops xi.upper).x) ∧
  ((yf.point ops yi.lower).y ≤ xf.p1.y ∧ xf.p1.y ≤ (yf.point ops yi.upper).y)

instance (ops : FiberOps) (xf : Fiber) (xi : Interval) (yf : Fiber) (yi : Interval) :
    Decidable (crosses ops xf xi yf yi) := by
  unfold crosses
  infer_instance

/-- The number of (X-interval, Y-interval) pairs over `xs` and `ys` that pass both range
tests. -/
def crossing_count (ops : FiberOps) (xs ys : List Fiber) : Nat :=
  (xs.map fun xf => (xf.ints.map fun xi =>
    (ys.map fun yf => yf.ints.countP fun yi => decide (crosses ops xf xi yf yi)).sum).sum).sum

/-- The geometry of an interval: its two bounds. -/
def Interval.bounds (i : Interval) : Int × Int := (i.lower, i.upper)

/-- The geometry of a fiber: its points, direction and the bounds of its intervals. -/
def Fiber.shape (f : Fiber) : Point × Point × Point × List (Int × Int) :=
  (f.p1, f.p2, f.dir, f.ints.map Interval.bounds)

/-- The number of intervals of a Y-fiber, given by its geometry `sh`, that pass both range
tests against the X-interval `xi` of `xf`. -/
def shape_count (ops : FiberOps) (xf : Fiber) (xi : Interval)
    (sh : Point × Point × Point × List (Int × Int)) : Nat :=
  sh.2.2.2.countP fun b =>
    decide (((xf.point ops xi.lower).x ≤ sh.1.x ∧ sh.1.x ≤ (xf.point ops xi.upper).x) ∧
      ((ops.point sh.1 sh.2.1 b.1).y ≤ xf.p1.y ∧ xf.p1.y ≤ (ops.point sh.1 sh.2.1 b.2).y))

/-! ## Concrete fibers and weaves -/

/-- The value of a computation that completed (`d` when it failed). -/
def result_or {α : Type} (d : α) : Except Failure α → α
  | Except.ok a => a
  | Except.error _ => d

/-- The weave after `build` when construction completes (the weave itself otherwise). -/
def built (ops : FiberOps) (w : Weave) : Weave := result_or w (build ops w)

/-- An X-fiber on the line `y = 0` with one interval spanning `x` in `[0, 10]`. -/
def fiberX0 : Fiber := mkFiber ⟨0, 0, 0⟩ ⟨1, 0, 0⟩ [(0, 10)]

/-- A Y-fiber on the line `x = 5`, anchored at `y = 0`, with one interval spanning `y` in
`[-1, 2]`. -/
def fiberY5 : Fiber := mkFiber ⟨5, 0, 0⟩ ⟨5, 1, 0⟩ [(-1, 2)]

/-- The same line and interval as `fiberY5`, anchored at `y = 7`: the interval spans `y` in
`[-1, 2]`, which does not contain the anchor. -/
def fiberY5far : Fiber := mkFiber ⟨5, 7, 0⟩ ⟨5, 8, 0⟩ [(-8, -5)]

/-- A Y-fiber on the line `x = 0`, through the lower end-point of the interval of `fiberX0`. -/
def fiberY0 : Fiber := mkFiber ⟨0, 0, 0⟩ ⟨0, 1, 0⟩ [(-1, 2)]

/-- One X-fiber crossed by one Y-fiber. -/
def weaveCross : Weave := mkWeave [fiberX0, fiberY5]

/-- One X-fiber crossed at the same point by two Y-fibers. -/
def weaveTwice : Weave := mkWeave [fiberX0, fiberY5, fiberY5]

/-- One X-fiber met by a Y-fiber at the lower end-point of its interval. -/
def weaveCorner : Weave := mkWeave [fiberX0, fiberY0]

/-- One X-fiber crossed by a Y-fiber anchored outside its own interval. -/
def weaveFar : Weave := mkWeave [fiberX0, fiberY5far]

/-- A weave holding a single Y-fiber. -/
def weaveOnlyY : Weave := mkWeave [fiberY5]

/-- An X-fiber on the line `y = 1` with one interval spanning `x` in `[0, 10]`. -/
def fiberX1 : Fiber := mkFiber ⟨0, 1, 0⟩ ⟨1, 1, 0⟩ [(0, 10)]

/-- A Y-fiber on the line `x = 7` with one interval spanning `y` in `[-1, 2]`. -/
def fiberY7 : Fiber := mkFiber ⟨7, 0, 0⟩ ⟨7, 1, 0⟩ [(-1, 2)]

/-- Two X-fibers crossed by two Y-fibers: four crossings, two on every interval. -/
def weaveGrid : Weave := mkWeave [fiberX0, fiberX1, fiberY5, fiberY7]

/-- The graph and the interval of `fiberX0` once its end-points have been materialised on an
empty graph. -/
def stateX0 : WeaveGraph × Interval :=
  add_endpoints axisOps fiberX0 Point.x WeaveGraph.empty ⟨0, 10, false, []⟩

/-! ## End-point bookkeeping -/

/-- The two end-points of interval `i` of fiber `f`, lower first. -/
def cl_points (ops : FiberOps) (f : Fiber) (i : Interval) : List Point :=
  [f.point ops i.lower, f.point ops i.upper]

/-- An interval seen through its bounds and its materialisation guard. -/
def Interval.mark (i : Interval) : Int × Int × Bool := (i.lower, i.upper, i.in_weave)

/-- A fiber seen through its two points and the marks of its intervals. -/
abbrev FiberMarks := Point × Point × List (Int × Int × Bool)

/-- The marks of a fiber. -/
def Fiber.marks (f : Fiber) : FiberMarks := (f.p1, f.p2, f.ints.map Interval.mark)

/-- Both range tests of X-interval `xi` of `xf` against the Y-interval with bounds `b` on the
fiber through `p1`, `p2`. -/
def crosses_marks (ops : FiberOps) (xf : Fiber) (xi : Interval) (p1 p2 : Point)
    (b : Int × Int × Bool) : Bool :=
  decide (((xf.point ops xi.lower).x ≤ p1.x ∧ p1.x ≤ (xf.point ops xi.upper).x) ∧
    ((ops.point p1 p2 b.1).y ≤ xf.p1.y ∧ xf.p1.y ≤ (ops.point p1 p2 b.2.1).y))

/-- The marks of a Y-fiber after X-interval `xi` of `xf` has been processed: the guard of every
interval it crosses is set. -/
def upd_marks (ops : FiberOps) (xf : Fiber) (xi : Interval) (fm : FiberMarks) : FiberMarks :=
  (fm.1, fm.2.1, fm.2.2.map fun b => (b.1, b.2.1, b.2.2 || crosses_marks ops xf xi fm.1 fm.2.1 b))

/-- The end-points materialised on a Y-fiber while X-interval `xi` of `xf` is processed: those
of the intervals it crosses whose guard is not yet set. -/
def delta_points (ops : FiberOps) (xf : Fiber) (xi : Interval) (fm : FiberMarks) : List Point :=
  fm.2.2.flatMap fun b =>
    if !b.2.2 && crosses_marks ops xf xi fm.1 fm.2.1 b then
      [ops.point fm.1 fm.2.1 b.1, ops.point fm.1 fm.2.1 b.2.1]
    else []

/-- The marks of the Y-fibers after a list of X-intervals has been processed. -/
def upd_all (ops : FiberOps) (tasks : List (Fiber × Interval)) (m : List FiberMarks) :
    List FiberMarks :=
  tasks.foldl (fun m t => m.map (upd_marks ops t.1 t.2)) m

/-- The CL positions created, in creation order, while a list of X-intervals is processed
against Y-fibers with marks `m`. -/
def cl_trace (ops : FiberOps) : List (Fiber × Interval) → List FiberMarks → List Point
  | [], _ => []
  | t :: rest, m =>
    (if t.2.in_weave then [] else cl_points ops t.1 t.2) ++ m.flatMap (delta_points ops t.1 t.2)
      ++ cl_trace ops rest (m.map (upd_marks ops t.1 t.2))

/-- The X-intervals of a list of fibers in the order in which `build` visits them, each with
its fiber. -/
def x_tasks (xs : List Fiber) : List (Fiber × Interval) :=
  xs.flatMap fun xf => xf.ints.map fun xi => (xf, xi)

/-- The end-points that the amended claim about CL vertices expects: both end-points of every
interval of the X-set, and both end-points of every interval of the Y-set that passes both
range tests against at least one X-interval. -/
def expected_cl_points (ops : FiberOps) (xs ys : List Fiber) : List Point :=
  (xs.flatMap fun xf => xf.ints.flatMap fun xi => cl_points ops xf xi) ++
  (ys.flatMap fun yf =>
    (yf.ints.filter fun yi =>
      xs.any fun xf => xf.ints.any fun xi => decide (crosses ops xf xi yf yi)).flatMap
      fun yi => cl_points ops yf yi)

/-- The end-points materialised on a Y-fiber with marks `fm` by a whole list of X-intervals:
those of the intervals whose guard is not set and that at least one of them crosses. -/
def crossed_points (ops : FiberOps) (tasks : List (Fiber × Interval)) (fm : FiberMarks) :
    List Point :=
  fm.2.2.flatMap fun b =>
    if !b.2.2 && tasks.any (fun t => crosses_marks ops t.1 t.2 fm.1 fm.2.1 b) then
      [ops.point fm.1 fm.2.1 b.1, ops.point fm.1 fm.2.1 b.2.1]
    else []

/-! ## Invariants of the construction -/

/-- The unordered pair of end-points of an edge. -/
def edge_key (e : Edge) : Sym2 Nat := s(e.source, e.target)

/-- A graph without parallel edges and without self-loops whose edges join existing vertices. -/
def GraphOK (g : WeaveGraph) : Prop :=
  (g.edges.map edge_key).Nodup ∧ (∀ e ∈ g.edges, e.source ≠ e.target) ∧
    ∀ e ∈ g.edges, e.source < g.num_vertices ∧ e.target < g.num_vertices

/-- An ordered set whose entries are distinct vertices of the graph. -/
def SetOK (g : WeaveGraph) (s : VertexPairSet) : Prop :=
  (s.map Prod.fst).Nodup ∧ ∀ p ∈ s, p.1 < g.num_vertices

/-- Two ordered sets without a common vertex. -/
def SetsDisjoint (s t : VertexPairSet) : Prop :=
  ∀ p ∈ s, ∀ q ∈ t, p.1 ≠ q.1

/-! ## Degrees and compass slots -/

/-- The neighbours of vertex `u` in the order of its out-edges: every edge contributes the end
opposite to `u` (a self-loop contributes twice). -/
def neighbours (l : List Edge) (u : Nat) : List Nat :=
  l.flatMap fun e =>
    (if e.source = u then [e.target] else []) ++ (if e.target = u then [e.source] else [])

/-- The degree of a vertex, `boost::out_degree`. -/
def WeaveGraph.degree (g : WeaveGraph) (u : Nat) : Nat := (neighbours g.edges u).length

/-- The position property of a vertex (the origin for an index that is not a vertex). -/
def WeaveGraph.position (g : WeaveGraph) (u : Nat) : Point :=
  match g.verts[u]? with
  | some p => p.position
  | none => ⟨0, 0, 0⟩

/-- The type property of a vertex. -/
def WeaveGraph.vertex_type (g : WeaveGraph) (u : Nat) : Option VertexType :=
  g.verts[u]?.map fun p => p.type

/-- The chain of tests of lines 96-105 on `diff = v_pos - adj_pos`: the index of the slot of
`ordered_edges` that the edge is stored in, `none` when the chain reaches `assert(0)`. -/
def slot_of (diff : Point) : Option Nat :=
  if diff.y > 0 then some 0
  else if diff.x > 0 then some 1
  else if diff.y < 0 then some 2
  else if diff.x < 0 then some 3
  else none

/-- The slot of the out-edge of `u` that leads to `adjacent` (lines 93-105). -/
def edge_slot (g : WeaveGraph) (u adjacent : Nat) : Option Nat :=
  slot_of ⟨(g.position u).x - (g.position adjacent).x, (g.position u).y - (g.position adjacent).y,
    (g.position u).z - (g.position adjacent).z⟩

/-- The slots of the out-edges of `u`, in out-edge order. -/
def slots (g : WeaveGraph) (u : Nat) : List (Option Nat) :=
  (neighbours g.edges u).map (edge_slot g u)

/-- The unordered pairs of consecutive entries of a list of vertices. -/
def chain (l : List Nat) : List (Sym2 Nat) :=
  List.zipWith (fun a b => s(a, b)) l l.tail

/-- The edges that an ordered set accounts for: the pairs of consecutive entries once the set
holds a crossing (three entries or more), nothing before. -/
def chain_edges (s : VertexPairSet) : Multiset (Sym2 Nat) :=
  if 3 ≤ s.length then (chain (s.map Prod.fst) : Multiset (Sym2 Nat)) else 0

/-- The unordered pairs joined by the edges of a graph, with multiplicity. -/
def edge_keys (g : WeaveGraph) : Multiset (Sym2 Nat) :=
  (g.edges.map edge_key : Multiset (Sym2 Nat))

/-- The coordinate `k` is new in the ordered set and lies strictly between two of its
entries. -/
def Between (s : VertexPairSet) (k : Int) : Prop :=
  (∃ a ∈ s, a.2 < k) ∧ (∃ b ∈ s, k < b.2) ∧ ∀ p ∈ s, p.2 ≠ k

/-- Vertex `u` is registered in the ordered set, neither first nor last. -/
def Inner (s : VertexPairSet) (u : Nat) : Prop :=
  u ∈ s.map Prod.fst ∧ (∀ p ∈ s.head?, p.1 ≠ u) ∧ (∀ p ∈ s.getLast?, p.1 ≠ u)

/-- The entry `p` of an ordered set lies on its fiber: on the line `y = line` at `x = p.2`
for an X-fiber (`horiz`), on the line `x = line` at `y = p.2` for a Y-fiber. -/
def OnLine (g : WeaveGraph) (horiz : Bool) (line : Int) (p : VertexPair) : Prop :=
  if horiz then (g.position p.1).x = p.2 ∧ (g.position p.1).y = line
  else (g.position p.1).y = p.2 ∧ (g.position p.1).x = line

/-- An ordered set strictly sorted by coordinate whose entries lie on the fiber. The flag
`geo` tells whether the line of the fiber is tracked: without it only the order is stated, and
that every entry is registered under its own coordinate along the fiber (`x` for an X-fiber,
`y` for a Y-fiber). -/
def SetGeo (geo : Bool) (g : WeaveGraph) (horiz : Bool) (line : Int) (s : VertexPairSet) : Prop :=
  s.Pairwise (fun p q => p.2 < q.2) ∧ (geo = true → ∀ p ∈ s, OnLine g horiz line p) ∧
    ∀ p ∈ s, (if horiz then (g.position p.1).x else (g.position p.1).y) = p.2

/-- The out-edges of a vertex occupy pairwise distinct slots and none falls through the chain
of tests (when positions are tracked, `geo`), an INT vertex has degree 4 and a CL vertex has
degree at most 1. -/
def VertexGood (geo : Bool) (g : WeaveGraph) (u : Nat) : Prop :=
  (geo = true → (slots g u).Nodup ∧ ∀ σ ∈ slots g u, σ ≠ none) ∧
    (g.vertex_type u = some VertexType.INT → g.degree u = 4) ∧
    (g.vertex_type u = some VertexType.CL → g.degree u ≤ 1)

/-- What the construction maintains about an ordered set: its entries are distinct vertices of
the graph lying on the fiber in increasing coordinate order, and as long as it holds no
crossing its vertices have no edge. -/
def SetInv (geo : Bool) (g : WeaveGraph) (horiz : Bool) (line : Int) (s : VertexPairSet) : Prop :=
  SetOK g s ∧ SetGeo geo g horiz line s ∧ (s.length ≤ 2 → ∀ p ∈ s, neighbours g.edges p.1 = [])

/-- The coordinate that is constant along a fiber: `y` for an X-fiber (`horiz`), `x` for a
Y-fiber. -/
def axis_line (horiz : Bool) (f : Fiber) : Int := if horiz then f.p1.y else f.p1.x

/-- The coordinate of a point along a fiber: `x` for an X-fiber, `y` for a Y-fiber. -/
def axis_key (horiz : Bool) (p : Point) : Int := if horiz then p.x else p.y

/-- The coordinate of a point across a fiber: `y` for an X-fiber, `x` for a Y-fiber. -/
def axis_off (horiz : Bool) (p : Point) : Int := if horiz then p.y else p.x

/-- Both end-points of interval `i` lie on the line of its fiber `f`. -/
def OnAxis (ops : FiberOps) (horiz : Bool) (f : Fiber) (i : Interval) : Prop :=
  axis_off horiz (f.point ops i.lower) = axis_line horiz f ∧
    axis_off horiz (f.point ops i.upper) = axis_line horiz f

/-- The state of an interval between two crossings: either it is not materialised and its set
is empty (and, when positions are tracked, its end-points lie on the line of the fiber), or it
is materialised and its set holds at least one crossing between its two end-points. -/
def IntervalStruct (geo : Bool) (ops : FiberOps) (g : WeaveGraph) (horiz : Bool) (f : Fiber)
    (i : Interval) : Prop :=
  if i.in_weave then
    SetOK g i.intersections ∧ SetGeo geo g horiz (axis_line horiz f) i.intersections ∧
      3 ≤ i.intersections.length
  else i.intersections = [] ∧ (geo = true → OnAxis ops horiz f i)

/-- The coordinate `k` of a coming crossing is new on interval `i` and strictly inside it. -/
def KeyCond (ops : FiberOps) (horiz : Bool) (f : Fiber) (i : Interval) (k : Int) : Prop :=
  if i.in_weave then Between i.intersections k
  else axis_key horiz (f.point ops i.lower) < k ∧ k < axis_key horiz (f.point ops i.upper)

/-- What one crossing body establishes on well-formed data, from the graph `g` and the
intervals `xi`, `yi` to the result `r`; `C` stands for the edges accounted for by all other
ordered sets. -/
structure CrossPost (geo : Bool) (ops : FiberOps) (xf yf : Fiber) (g : WeaveGraph)
    (xi yi : Interval)
    (C : Multiset (Sym2 Nat)) (r : WeaveGraph × Interval × Interval) : Prop where
  graph : GraphOK r.1
  good : ∀ u < r.1.num_vertices, VertexGood geo r.1 u
  keys : edge_keys r.1
    = chain_edges r.2.1.intersections + chain_edges r.2.2.intersections + C
  grow : g.num_vertices ≤ r.1.num_vertices
  stable : ∀ w < g.num_vertices,
    r.1.position w = g.position w ∧ r.1.vertex_type w = g.vertex_type w
  setX : SetOK r.1 r.2.1.intersections ∧
    SetGeo geo r.1 true (axis_line true xf) r.2.1.intersections ∧ 3 ≤ r.2.1.intersections.length
  setY : SetOK r.1 r.2.2.intersections ∧
    SetGeo geo r.1 false (axis_line false yf) r.2.2.intersections ∧ 3 ≤ r.2.2.intersections.length
  markX : r.2.1.in_weave = xi.in_weave ∧ r.2.1.lower = xi.lower ∧ r.2.1.upper = xi.upper
  markY : r.2.2.in_weave = true ∧ r.2.2.lower = yi.lower ∧ r.2.2.upper = yi.upper
  memX : ∀ p ∈ r.2.1.intersections, p ∈ xi.intersections ∨ g.num_vertices ≤ p.1
  memY : ∀ p ∈ r.2.2.intersections, p ∈ yi.intersections ∨ g.num_vertices ≤ p.1
  betweenX : ∀ k, k ≠ yf.p1.x → Between xi.intersections k → Between r.2.1.intersections k
  betweenY : ∀ k, k ≠ xf.p1.y → KeyCond ops false yf yi k → Between r.2.2.intersections k
  innerX : ∀ u, Inner xi.intersections u → Inner r.2.1.intersections u
  innerY : ∀ u, Inner yi.intersections u → Inner r.2.2.intersections u
  ints : ∀ u < r.1.num_vertices, r.1.vertex_type u = some VertexType.INT →
    (u < g.num_vertices ∧ g.vertex_type u = some VertexType.INT) ∨
      (Inner r.2.1.intersections u ∧ Inner r.2.2.intersections u)

/-! ## Well-formed input -/

/-- The coordinates under which the Y-intervals `yis` of `yf` will register a crossing on the
X-interval `xi` of `xf`, in visiting order. -/
def x_keys_ints (ops : FiberOps) (xf : Fiber) (xi : Interval) (yf : Fiber)
    (yis : List Interval) : List Int :=
  (yis.filter fun yi => decide (crosses ops xf xi yf yi)).map fun _ => yf.p1.x

/-- The coordinates under which the Y-fibers `ys` will register a crossing on the X-interval
`xi` of `xf`, in visiting order. -/
def x_keys (ops : FiberOps) (xf : Fiber) (xi : Interval) (ys : List Fiber) : List Int :=
  ys.flatMap fun yf => x_keys_ints ops xf xi yf yf.ints

/-- The coordinates under which the X-intervals `T` will register a crossing on the Y-interval
`yi` of `yf`, in visiting order. -/
def y_keys (ops : FiberOps) (T : List (Fiber × Interval)) (yf : Fiber) (yi : Interval) :
    List Int :=
  (T.filter fun t => decide (crosses ops t.1 t.2 yf yi)).map fun t => t.1.p1.y

/-- Well-formed input of `build`, on the two partitions: no interval has been materialised,
and on every interval the coordinates of its crossings are pairwise distinct and lie strictly
between the coordinates of its two end-points. With the flag `geo` set, the end-points of every
interval moreover lie on the line of its fiber (the `y` of the anchor for an X-fiber, the `x`
of the anchor for a Y-fiber), which is what the compass slots of `build_embedding` rely on. -/
def WellFormed (geo : Bool) (ops : FiberOps) (xs ys : List Fiber) : Prop :=
  (∀ xf ∈ xs, ∀ xi ∈ xf.ints,
    (xi.in_weave = false ∧ xi.intersections = [] ∧ (geo = true → OnAxis ops true xf xi)) ∧
    (x_keys ops xf xi ys).Nodup ∧
    ∀ k ∈ x_keys ops xf xi ys, (xf.point ops xi.lower).x < k ∧ k < (xf.point ops xi.upper).x) ∧
  (∀ yf ∈ ys, ∀ yi ∈ yf.ints,
    (yi.in_weave = false ∧ yi.intersections = [] ∧ (geo = true → OnAxis ops false yf yi)) ∧
    (y_keys ops (x_tasks xs) yf yi).Nodup ∧
    ∀ k ∈ y_keys ops (x_tasks xs) yf yi,
      (yf.point ops yi.lower).y < k ∧ k < (yf.point ops yi.upper).y)

/-- The graph invariant on well-formed input. -/
def Global (geo : Bool) (g : WeaveGraph) : Prop :=
  GraphOK g ∧ ∀ u < g.num_vertices, VertexGood geo g u

/-- Graph `g'` has the vertices of `g`, unchanged, and possibly more. -/
def Extends (g g' : WeaveGraph) : Prop :=
  g.num_vertices ≤ g'.num_vertices ∧
    ∀ w < g.num_vertices, g'.position w = g.position w ∧ g'.vertex_type w = g.vertex_type w

/-- The X-interval being processed: its set is consistent with the graph and the coordinates
of its coming crossings are new and strictly inside. -/
def XInv (geo : Bool) (g : WeaveGraph) (xf : Fiber) (xi : Interval) (keys : List Int) : Prop :=
  SetInv geo g true (axis_line true xf) xi.intersections ∧ keys.Nodup ∧
    ∀ k ∈ keys, Between xi.intersections k

/-- A Y-interval between two crossings, with the X-intervals `T` still to come. -/
def YInv (geo : Bool) (ops : FiberOps) (g : WeaveGraph) (T : List (Fiber × Interval)) (yf : Fiber)
    (yj : Interval) : Prop :=
  IntervalStruct geo ops g false yf yj ∧ (y_keys ops T yf yj).Nodup ∧
    ∀ k ∈ y_keys ops T yf yj, KeyCond ops false yf yj k

/-- The edges accounted for by the ordered sets of a list of intervals. -/
def ints_chain (l : List Interval) : Multiset (Sym2 Nat) :=
  (l.map fun i => chain_edges i.intersections).sum

/-- The edges accounted for by the ordered sets of a list of fibers. -/
def fibers_chain (fs : List Fiber) : Multiset (Sym2 Nat) :=
  (fs.map fun f => ints_chain f.ints).sum

/-- Vertex `u` is registered, neither first nor last, in the set of one of the intervals. -/
def inner_in (l : List Interval) (u : Nat) : Prop :=
  ∃ i ∈ l, Inner i.intersections u

/-- Vertex `u` is registered, neither first nor last, in the set of an interval of one of the
fibers. -/
def inner_fibers (fs : List Fiber) (u : Nat) : Prop :=
  ∃ f ∈ fs, inner_in f.ints u

/-- The invariant of the loop over the intervals of the Y-fiber `yf`, for the X-interval `xi0`
of `xf`: `T` are the X-intervals still to come, `K` the coordinates of the crossings of `xi0`
with later Y-fibers, `C`, `PX`, `PY` stand for the ordered sets not touched by this loop, and
`g0`, `x0` are the graph and the X-interval when the loop starts. -/
def Inv4 (geo : Bool) (ops : FiberOps) (xf : Fiber) (xi0 : Interval) (yf : Fiber)
    (T : List (Fiber × Interval)) (K : List Int) (C : Multiset (Sym2 Nat))
    (PX PY : Nat → Prop) (g0 : WeaveGraph) (x0 : Interval) (s : WeaveGraph × Interval)
    (done rest : List Interval) : Prop :=
  Global geo s.1 ∧ Extends g0 s.1 ∧
  (∀ p ∈ s.2.intersections, p ∈ x0.intersections ∨ g0.num_vertices ≤ p.1) ∧
  XInv geo s.1 xf s.2 (x_keys_ints ops xf xi0 yf rest ++ K) ∧
  (∀ yj ∈ done, YInv geo ops s.1 T yf yj) ∧
  (∀ yj ∈ rest, YInv geo ops s.1 ((xf, xi0) :: T) yf yj ∧
    SetsDisjoint s.2.intersections yj.intersections) ∧
  edge_keys s.1 = chain_edges s.2.intersections + ints_chain (done ++ rest) + C ∧
  (∀ u < s.1.num_vertices, s.1.vertex_type u = some VertexType.INT →
    (Inner s.2.intersections u ∨ PX u) ∧ (inner_in (done ++ rest) u ∨ PY u))

/-- The invariant of the loop over the Y-fibers for the X-interval `xi0` of `xf`: `T` are the
X-intervals still to come, `C` and `PX` stand for the ordered sets of the X-intervals already
processed, and `g0`, `x0` are the graph and the X-interval when the loop starts. -/
def Inv3 (geo : Bool) (ops : FiberOps) (xf : Fiber) (xi0 : Interval) (T : List (Fiber × Interval))
    (C : Multiset (Sym2 Nat)) (PX : Nat → Prop) (g0 : WeaveGraph) (x0 : Interval)
    (s : WeaveGraph × Interval) (done rest : List Fiber) : Prop :=
  Global geo s.1 ∧ Extends g0 s.1 ∧
  (∀ p ∈ s.2.intersections, p ∈ x0.intersections ∨ g0.num_vertices ≤ p.1) ∧
  XInv geo s.1 xf s.2 (x_keys ops xf xi0 rest) ∧
  (∀ yf ∈ done, ∀ yj ∈ yf.ints, YInv geo ops s.1 T yf yj) ∧
  (∀ yf ∈ rest, ∀ yj ∈ yf.ints, YInv geo ops s.1 ((xf, xi0) :: T) yf yj ∧
    SetsDisjoint s.2.intersections yj.intersections) ∧
  edge_keys s.1 = chain_edges s.2.intersections + fibers_chain (done ++ rest) + C ∧
  (∀ u < s.1.num_vertices, s.1.vertex_type u = some VertexType.INT →
    (Inner s.2.intersections u ∨ PX u) ∧ inner_fibers (done ++ rest) u)


/-- An X-interval that the construction has not reached yet, against the Y-fibers `ys`: it is
not materialised, the coordinates of its crossings are pairwise distinct and strictly between
those of its end-points, and (with `geo`) its end-points lie on the line of its fiber. -/
def XFresh (geo : Bool) (ops : FiberOps) (ys : List Fiber) (xf : Fiber) (xi : Interval) : Prop :=
  (xi.in_weave = false ∧ xi.intersections = [] ∧ (geo = true → OnAxis ops true xf xi)) ∧
    (x_keys ops xf xi ys).Nodup ∧
    ∀ k ∈ x_keys ops xf xi ys, (xf.point ops xi.lower).x < k ∧ k < (xf.point ops xi.upper).x

/-- An X-interval that the construction has finished: its set holds distinct vertices of the
graph, in increasing coordinate order along the fiber. -/
def XDone (geo : Bool) (g : WeaveGraph) (xf : Fiber) (xi : Interval) : Prop :=
  SetOK g xi.intersections ∧ SetGeo geo g true (axis_line true xf) xi.intersections

/-- The invariant of the loop over the intervals of the X-fiber `xf`: `T` are the X-intervals
of the later X-fibers, `C` and `PX` stand for the ordered sets of the earlier X-fibers, and
`g0` is the graph when the loop starts. -/
def Inv2 (geo : Bool) (ops : FiberOps) (xf : Fiber) (T : List (Fiber × Interval))
    (C : Multiset (Sym2 Nat)) (PX : Nat → Prop) (g0 : WeaveGraph)
    (s : WeaveGraph × List Fiber) (done rest : List Interval) : Prop :=
  Global geo s.1 ∧ Extends g0 s.1 ∧
  (∀ xi ∈ done, XDone geo s.1 xf xi) ∧
  (∀ xi ∈ rest, XFresh geo ops s.2 xf xi) ∧
  (∀ yf ∈ s.2, ∀ yj ∈ yf.ints,
    YInv geo ops s.1 ((rest.map fun xi => (xf, xi)) ++ T) yf yj) ∧
  edge_keys s.1 = ints_chain done + fibers_chain s.2 + C ∧
  (∀ u < s.1.num_vertices, s.1.vertex_type u = some VertexType.INT →
    (inner_in done u ∨ PX u) ∧ inner_fibers s.2 u)

/-- The invariant of the loop over the X-fibers. -/
def Inv1 (geo : Bool) (ops : FiberOps) (s : WeaveGraph × List Fiber)
    (done rest : List Fiber) : Prop :=
  Global geo s.1 ∧
  (∀ xf ∈ done, ∀ xi ∈ xf.ints, XDone geo s.1 xf xi) ∧
  (∀ xf ∈ rest, ∀ xi ∈ xf.ints, XFresh geo ops s.2 xf xi) ∧
  (∀ yf ∈ s.2, ∀ yj ∈ yf.ints, YInv geo ops s.1 (x_tasks rest) yf yj) ∧
  edge_keys s.1 = fibers_chain done + fibers_chain s.2 ∧
  (∀ u < s.1.num_vertices, s.1.vertex_type u = some VertexType.INT →
    inner_fibers done u ∧ inner_fibers s.2 u)

/-- Vertices `a`, `u`, `b` are registered in the ordered set in three consecutive places, in
that order: `a` is the predecessor of `u` and `b` its successor. -/
def Consecutive (s : VertexPairSet) (a u b : Nat) : Prop :=
  ∃ i, (s.map Prod.fst)[i]? = some a ∧ (s.map Prod.fst)[i + 1]? = some u ∧
    (s.map Prod.fst)[i + 2]? = some b

/-! ## Further read-out and concrete instances -/

/-- The position pairs returned by `Weave::getEdges`: one pair per edge whose capping flag is
not set, in edge order. -/
def getEdges (g : WeaveGraph) : List (Point × Point) :=
  (g.edges.filter fun e => !e.color).map fun e => (g.position e.source, g.position e.target)

/-- The position pairs returned by `Weave::getCLEdges`: one pair per edge whose capping flag is
set, in edge order. -/
def getCLEdges (g : WeaveGraph) : List (Point × Point) :=
  (g.edges.filter fun e => e.color).map fun e => (g.position e.source, g.position e.target)

/-- A fiber whose two defining points coincide: its direction is the zero vector, which passes
both orientation tests of `axisOps`. -/
def fiberDot : Fiber := mkFiber ⟨5, 0, 0⟩ ⟨5, 0, 0⟩ [(0, 1)]

/-- A weave holding the degenerate fiber only. -/
def weaveDot : Weave := mkWeave [fiberDot]

/-- Two X-fibers, on the lines `y = 0` and `y = 1`, crossed by one Y-fiber on the line
`x = 5`. -/
def weaveTwoX : Weave := mkWeave [fiberX0, fiberX1, fiberY5]

/-! ## `Weave::build_embedding` -/

/-- An edge descriptor as the out-edge iterator of a vertex yields it: the index of the edge in
the edge list and the vertex the edge leads to (`boost::target`). -/
abbrev EdgeDescriptor := Nat × Nat

/-- The out-edges of `u` among the edges `l`, the first of which has index `i`, in edge order;
a self-loop is met twice. -/
def out_edges_from (u : Nat) : List Edge → Nat → List EdgeDescriptor
  | [], _ => []
  | e :: t, i =>
    (if e.source = u then [(i, e.target)] else []) ++
      (if e.target = u then [(i, e.source)] else []) ++ out_edges_from u t (i + 1)

/-- The range `boost::out_edges(u, g)`. -/
def out_edges (g : WeaveGraph) (u : Nat) : List EdgeDescriptor := out_edges_from u g.edges 0

/-- One iteration of the loop over the out-edges of `u` (lines 92-106): the edge is stored in
the slot that the chain of tests selects, overwriting what the slot held; when no test matches
the `assert(0)` is reached. -/
def place_edge (g : WeaveGraph) (u : Nat) (ordered_edges : List (Option EdgeDescriptor))
    (oe : EdgeDescriptor) : Except Failure (List (Option EdgeDescriptor)) :=
  match edge_slot g u oe.2 with
  | some k => Except.ok (ordered_edges.set k (some oe))
  | none => Except.error Failure.assertion

/-- The loop over the out-edges of `u` (lines 92-106). -/
def classify_edges (g : WeaveGraph) (u : Nat) :
    List EdgeDescriptor → List (Option EdgeDescriptor) →
      Except Failure (List (Option EdgeDescriptor))
  | [], acc => Except.ok acc
  | oe :: t, acc =>
    match place_edge g u acc oe with
    | Except.ok acc' => classify_edges g u t acc'
    | Except.error e => Except.error e

/-- The row of vertex `u` (lines 86-110): the four slots start empty, the out-edges are
classified, and the occupied slots are listed in slot order. -/
def embedding_row (g : WeaveGraph) (u : Nat) : Except Failure (List EdgeDescriptor) :=
  match classify_edges g u (out_edges g u) [none, none, none, none] with
  | Except.ok ordered_edges => Except.ok (ordered_edges.filterMap id)
  | Except.error e => Except.error e

/-- The loop over the vertices of `build_embedding`. -/
def embedding_rows (g : WeaveGraph) : List Nat → Except Failure (List (List EdgeDescriptor))
  | [] => Except.ok []
  | u :: t =>
    match embedding_row g u with
    | Except.error e => Except.error e
    | Except.ok row =>
      match embedding_rows g t with
      | Except.error e => Except.error e
      | Except.ok rows => Except.ok (row :: rows)

/-- The function `Weave::build_embedding`: one row per vertex, in vertex order. -/
def build_embedding (g : WeaveGraph) : Except Failure (List (List EdgeDescriptor)) :=
  embedding_rows g (List.range g.num_vertices)

/-- The edge that ends up in slot `k` of vertex `u`: the last out-edge of `u`, in out-edge
order, that the chain of tests classifies into slot `k`. -/
def slot_edge (g : WeaveGraph) (u k : Nat) : Option EdgeDescriptor :=
  ((out_edges g u).filter fun oe => edge_slot g u oe.2 == some k).getLast?

/-- The two end-points of edge `e` have the same position in the plane (`z` is not looked
at). -/
def zero_delta (g : WeaveGraph) (e : Edge) : Prop :=
  (g.position e.source).x = (g.position e.target).x ∧
    (g.position e.source).y = (g.position e.target).y

/-- Every edge joins two vertices of the graph, as in an adjacency list. -/
def EdgesBounded (g : WeaveGraph) : Prop :=
  ∀ e ∈ g.edges, e.source < g.num_vertices ∧ e.target < g.num_vertices

/-- Two vertices at the same place joined by an edge. -/
def graphCoincident : WeaveGraph :=
  ⟨[⟨⟨1, 2, 0⟩, VertexType.CL, 0⟩, ⟨⟨1, 2, 5⟩, VertexType.CL, 0⟩], [⟨0, 1, false, 0⟩]⟩

/-! ## `Weave::split_components` -/

/-- The component property of a vertex (0 for an index that is not a vertex). -/
def WeaveGraph.component (g : WeaveGraph) (u : Nat) : Nat :=
  match g.verts[u]? with
  | some p => p.component
  | none => 0

/-- Edge `e` is taken into account in a table that gives every vertex a representative of its
component: the two components of the end-points of `e` become one, represented by the smaller
of their two representatives. -/
def merge_roots (roots : List Nat) (e : Edge) : List Nat :=
  roots.map fun r =>
    if r = max (roots.getD e.source e.source) (roots.getD e.target e.target) then
      min (roots.getD e.source e.source) (roots.getD e.target e.target)
    else r

/-- The table that gives every vertex the smallest vertex of its connected component. -/
def component_roots (g : WeaveGraph) : List Nat :=
  g.edges.foldl merge_roots (List.range g.num_vertices)

/-- The number of vertices below `k` that represent their own component in `roots`. -/
def count_roots (roots : List Nat) : Nat → Nat
  | 0 => 0
  | k + 1 => count_roots roots k + (if roots.getD k k = k then 1 else 0)

/-- Modelled from the spec: `boost::connected_components(g, comp_map)` is library code; the
spec says that it "computes connected components over the full vertex set" and that "component
numbering must be deterministic for identical input". Every vertex receives the number of its
connected component, the components being numbered from 0 in the order of their first vertex
(the order in which a search started at every vertex not yet reached meets them); the labels
are written to the `component` property of the graph and the number of components is
returned. -/
def connected_components (g : WeaveGraph) : WeaveGraph × Nat :=
  ({ g with
      verts := List.zipWith
        (fun p r => { p with component := count_roots (component_roots g) r })
        g.verts (component_roots g) },
   count_roots (component_roots g) g.num_vertices)

/-- The call `boost::clear_vertex(v, g)`: every edge incident to `v` is removed. -/
def WeaveGraph.clear_vertex (v : Nat) (g : WeaveGraph) : WeaveGraph :=
  { g with edges := g.edges.filter fun e => !(e.source == v || e.target == v) }

/-- The call `boost::put(boost::vertex_type, g, v, t)`. -/
def WeaveGraph.put_type (v : Nat) (t : VertexType) (g : WeaveGraph) : WeaveGraph :=
  match g.verts[v]? with
  | some p => { g with verts := g.verts.set v { p with type := t } }
  | none => g

/-- The body of the loop over the vertices of the copy (lines 248-252): a vertex that is not in
component `m` loses its edges and is marked INT. -/
def restrict_step (m : Nat) (gcomp : WeaveGraph) (v : Nat) : WeaveGraph :=
  if gcomp.component v ≠ m then (gcomp.clear_vertex v).put_type v VertexType.INT else gcomp

/-- The copy of the graph restricted to component `m` (lines 244-253). -/
def restrict (g : WeaveGraph) (m : Nat) : WeaveGraph :=
  (List.range g.num_vertices).foldl (restrict_step m) g

/-- The function `Weave::split_components`: the weave itself afterwards (its graph carries the
component labels) and the list of the new weaves, one for every label `m` below the number of
components, each with no fibers and the restricted copy of the graph. -/
def split_components (w : Weave) : Weave × List Weave :=
  ({ w with g := (connected_components w.g).1 },
   (List.range (connected_components w.g).2).map fun m =>
     ⟨[], [], [], restrict (connected_components w.g).1 m⟩)

/-- Some edge of `l` leads from `a` to `b`. -/
def Adjacent (l : List Edge) (a b : Nat) : Prop := ∃ e ∈ l, e.source = a ∧ e.target = b

/-- Vertices `u` and `v` are joined by a path of edges of `l`, each taken in either direction
(a path of length 0 when `u = v`): the equivalence generated by adjacency. -/
def Connected (l : List Edge) (u v : Nat) : Prop := Relation.EqvGen (Adjacent l) u v

/-- Four vertices, the first two joined by an edge, the third isolated, the fourth with a
self-loop. -/
def graphThree : WeaveGraph :=
  ⟨[⟨⟨0, 0, 0⟩, VertexType.CL, 0⟩, ⟨⟨1, 0, 0⟩, VertexType.CL, 0⟩, ⟨⟨2, 0, 0⟩, VertexType.CL, 0⟩,
    ⟨⟨3, 0, 0⟩, VertexType.ADJ, 0⟩], [⟨1, 0, false, 0⟩, ⟨3, 3, true, 0⟩]⟩

/-- What the table of representatives satisfies once the edges `l` have been taken into
account, on a graph of `n` vertices: every vertex has a representative among the vertices, a
representative represents itself, the two end-points of every edge of `l` have the same
representative, and every vertex is connected to its representative through `l`. -/
structure RootsInv (n : Nat) (l : List Edge) (roots : List Nat) : Prop where
  len : roots.length = n
  lt : ∀ v < n, roots.getD v v < n
  idem : ∀ v < n, roots.getD (roots.getD v v) (roots.getD v v) = roots.getD v v
  edge : ∀ e ∈ l, roots.getD e.source e.source = roots.getD e.target e.target
  conn : ∀ v < n, Connected l v (roots.getD v v)

/-! ## `Weave::face_traverse` -/

/-- The loop of lines 119-122 over the edges `l`, the first of which receives index `i`. -/
def index_from : List Edge → Nat → List Edge
  | [], _ => []
  | e :: t, i => { e with index := i } :: index_from t (i + 1)

/-- Lines 119-122 of `face_traverse`: every edge receives its rank in the edge list as its
`edge_index` property. -/
def index_edges (g : WeaveGraph) : WeaveGraph := { g with edges := index_from g.edges 0 }

/-- A directed edge as the face visitor is told of it: the vertex the walk leaves
(`next_vertex`) and the index of the edge it leaves along (`next_edge`). -/
abbrev Dart := Nat × Nat

/-- The directed edges of the graph, in the order in which the traversal looks at them: every
edge in edge order, from its source and then from its target. -/
def darts_from : List Edge → Nat → List Dart
  | [], _ => []
  | e :: t, i => (e.source, i) :: (e.target, i) :: darts_from t (i + 1)

/-- The directed edges of the graph. -/
def darts (g : WeaveGraph) : List Dart := darts_from g.edges 0

/-- The end of edge `e` that is not `v` (`source(e) == v ? target(e) : source(e)`). -/
def opposite (g : WeaveGraph) (e v : Nat) : Nat :=
  match g.edges[e]? with
  | some ed => if ed.source = v then ed.target else ed.source
  | none => v

/-- The edge that follows `e` in the rotation `row` of a vertex, the first edge of the row
following the last one; `none` when `e` is not in the row. -/
def row_next (row : List Nat) (e : Nat) : Option Nat :=
  (List.zip row (row.rotate 1)).foldl (fun acc p => if p.1 = e then some p.2 else acc) none

/-- The rotation of vertex `v` in the embedding, as edge indices. -/
def rotation (emb : List (List EdgeDescriptor)) (v : Nat) : List Nat :=
  (emb.getD v []).map Prod.fst

/-- The ways in which the model of the face traversal can stop without a result: the embedding
could not be built, an edge is looked up in the rotation of a vertex that does not list it, or
the walk was given too little fuel. -/
inductive TraversalFailure where
  | embedding (f : Failure)
  | noNextEdge
  | outOfFuel
deriving DecidableEq, Repr

/-- One face walk: as long as the directed edge `(v, e)` has not been consumed, the visitor is
told of `v` and `e`, the directed edge is marked, the walk moves to the other end of `e` and
continues along the edge that follows `e` in the rotation of that vertex. The result is the
set of consumed directed edges and the face, which started as `face`. -/
def face_walk (g : WeaveGraph) (emb : List (List EdgeDescriptor)) :
    Nat → Nat → Nat → List Dart → List Dart → Except TraversalFailure (List Dart × List Dart)
  | 0, e, v, visited, face =>
    if (v, e) ∈ visited then Except.ok (visited, face)
    else Except.error TraversalFailure.outOfFuel
  | fuel + 1, e, v, visited, face =>
    if (v, e) ∈ visited then Except.ok (visited, face)
    else
      match row_next (rotation emb (opposite g e v)) e with
      | none => Except.error TraversalFailure.noNextEdge
      | some e' =>
        face_walk g emb fuel e' (opposite g e v) ((v, e) :: visited) (face ++ [(v, e)])

/-- The traversal looks at one directed edge: when it has not been consumed a new face is
begun, walked and ended. The state is the set of consumed directed edges and the faces found
so far. -/
def visit_dart (g : WeaveGraph) (emb : List (List EdgeDescriptor)) (fuel : Nat)
    (s : List Dart × List (List Dart)) (d : Dart) :
    Except TraversalFailure (List Dart × List (List Dart)) :=
  if d ∈ s.1 then Except.ok s
  else
    match face_walk g emb fuel d.2 d.1 s.1 [] with
    | Except.ok r => Except.ok (r.1, s.2 ++ [r.2])
    | Except.error x => Except.error x

/-- The loop of the traversal over the directed edges. -/
def visit_darts (g : WeaveGraph) (emb : List (List EdgeDescriptor)) (fuel : Nat) :
    List Dart → List Dart × List (List Dart) →
      Except TraversalFailure (List Dart × List (List Dart))
  | [], s => Except.ok s
  | d :: t, s =>
    match visit_dart g emb fuel s d with
    | Except.ok s' => visit_darts g emb fuel t s'
    | Except.error x => Except.error x

/-- The faces that the traversal adds for the self-loops, one per self-loop, after the main
loop. -/
def self_loop_faces : List Edge → Nat → List (List Dart)
  | [], _ => []
  | e :: t, i =>
    (if e.source = e.target then [[(e.source, i)]] else []) ++ self_loop_faces t (i + 1)

/-- Modelled from the spec: `boost::planar_face_traversal` is library code; the spec says that
it "traces faces using the standard rule: at each arrival, continue along the next edge in
rotation order after the one arrived on, consuming every directed edge exactly once". The
traversal looks at every edge in edge order, from its source and from its target, and walks a
face from every directed edge not consumed before; the result is the list of faces, each the
list of the directed edges the visitor was told of. `fuel` bounds the length of one walk. -/
def planar_face_traversal (g : WeaveGraph) (emb : List (List EdgeDescriptor)) (fuel : Nat) :
    Except TraversalFailure (List (List Dart)) :=
  match visit_darts g emb fuel (darts g) ([], []) with
  | Except.ok s => Except.ok (s.2 ++ self_loop_faces g.edges 0)
  | Except.error x => Except.error x

/-- The function `Weave::face_traverse`: the edges are indexed, the embedding is built and the
faces are traversed; the result is the graph with its edge indices and the faces. -/
def face_traverse (g : WeaveGraph) (fuel : Nat) :
    Except TraversalFailure (WeaveGraph × List (List Dart)) :=
  match build_embedding (index_edges g) with
  | Except.error f => Except.error (TraversalFailure.embedding f)
  | Except.ok emb =>
    match planar_face_traversal (index_edges g) emb fuel with
    | Except.ok faces => Except.ok (index_edges g, faces)
    | Except.error x => Except.error x

/-- The rule of the traversal between two consecutive directed edges of a face: the second
leaves the vertex at which the first arrives, along the edge that follows the edge of the first
in the rotation of that vertex. -/
def Follows (g : WeaveGraph) (emb : List (List EdgeDescriptor)) (d1 d2 : Dart) : Prop :=
  d2.1 = opposite g d1.2 d1.1 ∧ row_next (rotation emb d2.1) d1.2 = some d2.2

/-- The embedding serves every directed edge of the graph: at the vertex where a directed edge
arrives, its edge is listed in the rotation, and the edge that follows it there is again an
edge of that vertex. -/
def RotationSystem (g : WeaveGraph) (emb : List (List EdgeDescriptor)) : Prop :=
  ∀ d ∈ darts g, ∃ e', row_next (rotation emb (opposite g d.2 d.1)) d.2 = some e' ∧
    (opposite g d.2 d.1, e') ∈ darts g

/-! ## Read-out of the remaining vertex types, and further instances -/

/-- The positions returned by `Weave::getADJPoints`: the ADJ vertices in vertex order. -/
def getADJPoints (g : WeaveGraph) : List Point :=
  (g.verts.filter fun v => v.type == VertexType.ADJ).map fun v => v.position

/-- The positions returned by `Weave::get2ADJPoints`: the TWOADJ vertices in vertex order. -/
def get2ADJPoints (g : WeaveGraph) : List Point :=
  (g.verts.filter fun v => v.type == VertexType.TWOADJ).map fun v => v.position

/-- A graph in which no edge carries the capping flag and every vertex is of type CL or
INT. -/
def PlainGraph (g : WeaveGraph) : Prop :=
  (∀ e ∈ g.edges, e.color = false) ∧
    ∀ p ∈ g.verts, p.type = VertexType.CL ∨ p.type = VertexType.INT

/-- What the read-out functions return on a graph without capping edge and without ADJ or
TWOADJ vertex: `getCLEdges`, `getADJPoints` and `get2ADJPoints` return nothing, `getEdges`
returns the pair of end-point positions of every edge, in edge order, and `getCLPoints`
followed by `getIPoints` lists the position of every vertex once. -/
def PlainReadOut (g : WeaveGraph) : Prop :=
  getCLEdges g = [] ∧ getADJPoints g = [] ∧ get2ADJPoints g = [] ∧
    getEdges g = (g.edges.map fun e => (g.position e.source, g.position e.target)) ∧
    (getCLPoints g ++ getIPoints g).Perm (g.verts.map fun p => p.position)

/-- A fiber along the diagonal, with one interval: neither X-parallel nor Y-parallel. -/
def fiberDiag : Fiber := mkFiber ⟨0, 0, 0⟩ ⟨1, 1, 0⟩ [(0, 1)]

/-- An X-parallel fiber without interval. -/
def fiberBare : Fiber := mkFiber ⟨0, 0, 0⟩ ⟨1, 0, 0⟩ []

/-- Whether the Y-interval `yi` of `yf` passes both range tests against at least one interval
of the X-fibers `xs`. -/
def y_crossed (ops : FiberOps) (xs : List Fiber) (yf : Fiber) (yi : Interval) : Bool :=
  xs.any fun xf => xf.ints.any fun xi => decide (crosses ops xf xi yf yi)

/-- Whether the X-interval `xi` of `xf` passes both range tests against at least one interval
of the Y-fibers `ys`. -/
def x_crossed (ops : FiberOps) (ys : List Fiber) (xf : Fiber) (xi : Interval) : Bool :=
  ys.any fun yf => yf.ints.any fun yi => decide (crosses ops xf xi yf yi)

/-- The number of intervals of a list of fibers. -/
def interval_count (fs : List Fiber) : Nat := (fs.map fun f => f.ints.length).sum

/-- The number of intervals of the Y-fibers `ys` that take part in at least one crossing with
the X-fibers `xs`. -/
def crossed_y_count (ops : FiberOps) (xs ys : List Fiber) : Nat :=
  (ys.map fun yf => yf.ints.countP (y_crossed ops xs yf)).sum

/-- The number of intervals of the X-fibers `xs` that take part in at least one crossing with
the Y-fibers `ys`. -/
def crossed_x_count (ops : FiberOps) (xs ys : List Fiber) : Nat :=
  (xs.map fun xf => xf.ints.countP (x_crossed ops ys xf)).sum

/-- A weave holding a single X-fiber. -/
def weaveOnlyX : Weave := mkWeave [fiberX0]

/-- Input of `build`, on the two partitions, in which the coordinates registered on every
interval are distinct: no interval has been materialised, and on every interval the coordinates
of its crossings are pairwise distinct and differ from the coordinates of its two
end-points. -/
def DistinctCoordinates (ops : FiberOps) (xs ys : List Fiber) : Prop :=
  (∀ xf ∈ xs, ∀ xi ∈ xf.ints,
    (xi.in_weave = false ∧ xi.intersections = []) ∧
    (x_keys ops xf xi ys).Nodup ∧
    ∀ k ∈ x_keys ops xf xi ys, (xf.point ops xi.lower).x ≠ k ∧ k ≠ (xf.point ops xi.upper).x) ∧
  (∀ yf ∈ ys, ∀ yi ∈ yf.ints,
    (yi.in_weave = false ∧ yi.intersections = []) ∧
    (y_keys ops (x_tasks xs) yf yi).Nodup ∧
    ∀ k ∈ y_keys ops (x_tasks xs) yf yi,
      (yf.point ops yi.lower).y ≠ k ∧ k ≠ (yf.point ops yi.upper).y)

/-! ## The coordinates registered on the intervals -/

/-- The coordinates of an ordered set after the `insert` of an entry with coordinate `k`. -/
def key_insert : List Int → Int → List Int
  | [], k => [k]
  | q :: t, k =>
    if k < q then k :: q :: t
    else if q < k then q :: key_insert t k
    else q :: t

/-- An interval seen through its bounds, its materialisation guard and the coordinates
registered in its set. -/
abbrev IntervalView := Int × Int × Bool × List Int

/-- The view of an interval. -/
def Interval.view (i : Interval) : IntervalView :=
  (i.lower, i.upper, i.in_weave, i.intersections.map Prod.snd)

/-- A fiber seen through its two points and the views of its intervals. -/
abbrev FiberView := Point × Point × List IntervalView

/-- The view of a fiber. -/
def Fiber.view (f : Fiber) : FiberView := (f.p1, f.p2, f.ints.map Interval.view)

/-- The coordinates registered on an interval once the block guarded by `!in_weave` has been
passed: the coordinates `lo` and `up` of the two end-points are inserted when the guard `b` is
not set. -/
def end_keys (lo up : Int) (b : Bool) (ks : List Int) : List Int :=
  if b then ks else key_insert (key_insert ks lo) up

/-- The view of a Y-interval on the fiber through `p1`, `p2` after the X-interval `xi` of `xf`
has been processed: when both range tests pass, the interval is materialised and the
coordinate of the crossing is inserted. -/
def upd_interval_view (ops : FiberOps) (xf : Fiber) (xi : Interval) (p1 p2 : Point)
    (b : IntervalView) : IntervalView :=
  if crosses_marks ops xf xi p1 p2 (b.1, b.2.1, b.2.2.1) then
    (b.1, b.2.1, true,
      key_insert (end_keys (ops.point p1 p2 b.1).y (ops.point p1 p2 b.2.1).y b.2.2.1 b.2.2.2)
        xf.p1.y)
  else b

/-- The view of a Y-fiber after the X-interval `xi` of `xf` has been processed. -/
def upd_view (ops : FiberOps) (xf : Fiber) (xi : Interval) (fv : FiberView) : FiberView :=
  (fv.1, fv.2.1, fv.2.2.map (upd_interval_view ops xf xi fv.1 fv.2.1))

/-- The views of the Y-fibers after a list of X-intervals has been processed. -/
def upd_all_view (ops : FiberOps) (tasks : List (Fiber × Interval)) (vs : List FiberView) :
    List FiberView :=
  tasks.foldl (fun vs t => vs.map (upd_view ops t.1 t.2)) vs

/-- The coordinates under which the Y-fibers with views `vs` register a crossing on the
X-interval `xi` of `xf`, in visiting order. -/
def x_keys_view (ops : FiberOps) (xf : Fiber) (xi : Interval) (vs : List FiberView) :
    List Int :=
  vs.flatMap fun fv =>
    (fv.2.2.filter fun b => crosses_marks ops xf xi fv.1 fv.2.1 (b.1, b.2.1, b.2.2.1)).map
      fun _ => fv.1.x

/-- The view of the X-interval `xi` of `xf` after it has been processed against the Y-fibers
with views `vs`: it is materialised and the coordinates of its crossings are inserted. -/
def x_view (ops : FiberOps) (xf : Fiber) (xi : Interval) (vs : List FiberView) :
    IntervalView :=
  (xi.lower, xi.upper, true,
    (x_keys_view ops xf xi vs).foldl key_insert
      (end_keys (xf.point ops xi.lower).x (xf.point ops xi.upper).x xi.in_weave
        (xi.intersections.map Prod.snd)))

/-- The number of edges that an ordered set of `n` entries accounts for. -/
def chain_count (n : Nat) : Nat := if 3 ≤ n then n - 1 else 0

/-- The view of the Y-interval `yi` of `yf` after one pass of the body of the loop over the
Y-intervals, for the X-fiber `xf`. -/
def y_step_view (ops : FiberOps) (xf yf : Fiber) (yi : Interval) : IntervalView :=
  if y_range_test ops xf yf yi then
    (yi.lower, yi.upper, true,
      key_insert (end_keys (yf.point ops yi.lower).y (yf.point ops yi.upper).y
        yi.in_weave (yi.intersections.map Prod.snd)) xf.p1.y)
  else yi.view

/-- The view of a Y-interval on the fiber through `p1`, `p2` after a list of X-intervals has
been processed. -/
def y_view (ops : FiberOps) (tasks : List (Fiber × Interval)) (p1 p2 : Point)
    (b : IntervalView) : IntervalView :=
  tasks.foldl (fun b t => upd_interval_view ops t.1 t.2 p1 p2 b) b

/-- What an interval with `n` crossings accounts for when it is crossed: its set has `n + 2`
entries and accounts for all pairs of consecutive entries; an interval that is not crossed
accounts for no edge. -/
def IntervalEdges (crossed : Bool) (n : Nat) (i : Interval) : Prop :=
  if crossed then
    i.intersections.length = n + 2 ∧
      chain_edges i.intersections = (chain (i.intersections.map Prod.fst) : Multiset (Sym2 Nat))
  else chain_edges i.intersections = 0

/-- An X-fiber on the line `y = 9` with one interval spanning `x` in `[0, 10]`: above the
interval of `fiberY5`, which it does not reach. -/
def fiberX9 : Fiber := mkFiber ⟨0, 9, 0⟩ ⟨1, 9, 0⟩ [(0, 10)]

/-- Two X-fibers and one Y-fiber that crosses the first of them only. -/
def weaveSparse : Weave := mkWeave [fiberX0, fiberX9, fiberY5]

/-- A Y-fiber on the line `x = 10`, through the upper end-point of the interval of
`fiberX0`. -/
def fiberY10 : Fiber := mkFiber ⟨10, 0, 0⟩ ⟨10, 1, 0⟩ [(-1, 2)]

/-- One X-fiber met by a Y-fiber at the upper end-point of its interval. -/
def weaveEnd : Weave := mkWeave [fiberX0, fiberY10]


theorem foldl_sort_step (ops : FiberOps) (l : List Fiber) (acc : List Fiber × List Fiber) :
    l.foldl (sort_step ops) acc =
      (acc.1 ++ l.filter (fun f => ops.xParallel f.dir && !f.ints.isEmpty),
       acc.2 ++ l.filter (fun f => ops.yParallel f.dir && !f.ints.isEmpty)) := by
  induction l generalizing acc with
  | nil => simp
  | cons f t ih =>
    rw [List.foldl_cons, ih]
    by_cases hx : (ops.xParallel f.dir && !f.ints.isEmpty) = true <;>
      by_cases hy : (ops.yParallel f.dir && !f.ints.isEmpty) = true <;>
      simp [sort_step, hx, hy, List.filter_cons]

theorem lower_bound_append (pre post : VertexPairSet) (p : VertexPair) (key : Int)
    (hpre : ∀ q ∈ pre, q.2 < key) (hp : ¬ p.2 < key) :
    VertexPairSet.lower_bound (pre ++ p :: post) key = pre.length := by
  induction pre with
  | nil => simp [VertexPairSet.lower_bound, hp]
  | cons q t ih =>
    have hq : q.2 < key := hpre q (List.mem_cons_self _ _)
    have := ih (fun r hr => hpre r (List.mem_cons_of_mem _ hr))
    simp [VertexPairSet.lower_bound, hq, this]

theorem rewire_verts (s : VertexPairSet) (v : Nat) (key : Int) (g g' : WeaveGraph)
    (h : rewire s v key g = Except.ok g') : g'.verts = g.verts := by
  unfold rewire at h
  split at h
  · cases h
  · split at h
    · cases h; rfl
    · cases h

theorem rewire_between (pre post : VertexPairSet) (a b : VertexPair) (v : Nat)
    (key : Int) (g : WeaveGraph)
    (hs : (pre ++ a :: (v, key) :: b :: post).Pairwise (fun p q => p.2 < q.2)) :
    rewire (pre ++ a :: (v, key) :: b :: post) v key g =
      Except.ok ⟨g.verts, g.edges.filter (fun e => !e.joins b.1 a.1) ++
        [⟨b.1, v, false, 0⟩, ⟨a.1, v, false, 0⟩]⟩ := by
  have hlb : VertexPairSet.lower_bound (pre ++ a :: (v, key) :: b :: post) key
      = pre.length + 1 := by
    have h1 : pre ++ a :: (v, key) :: b :: post = (pre ++ [a]) ++ (v, key) :: b :: post := by
      simp
    rw [h1, lower_bound_append]
    · simp
    · intro q hq
      rw [h1] at hs
      exact (List.pairwise_append.1 hs).2.2 q hq (v, key) (List.mem_cons_self _ _)
    · simp
  unfold rewire
  rw [hlb]
  have hlen : ¬ (pre.length + 1 = (pre ++ a :: (v, key) :: b :: post).length) := by
    simp
  rw [if_neg hlen]
  have h2 : (pre ++ a :: (v, key) :: b :: post)[pre.length + 1 + 1]? = some b := by
    rw [List.getElem?_append_right (by omega)]
    have : pre.length + 1 + 1 - pre.length = 2 := by omega
    rw [this]
    simp
  have h3 : (pre ++ a :: (v, key) :: b :: post)[pre.length + 1 - 1]? = some a := by
    rw [List.getElem?_append_right (by omega)]
    have : pre.length + 1 - 1 - pre.length = 0 := by omega
    rw [this]
    simp
  rw [h2, h3, if_neg (by omega)]
  simp [WeaveGraph.remove_edge, WeaveGraph.add_edge]

theorem foreach_induction {σ α : Type} (step : σ → α → Except Failure (σ × α))
    (I : σ → List α → List α → Prop)
    (hstep : ∀ s done a rest r, I s done (a :: rest) → step s a = Except.ok r →
      I r.1 (done ++ [r.2]) rest)
    (l : List α) (s : σ) (r : σ × List α) (h0 : I s [] l)
    (h : foreach step s l = Except.ok r) : I r.1 r.2 [] := by
  have key : ∀ (l : List α) (s : σ) (done : List α) (r : σ × List α), I s done l →
      foreach step s l = Except.ok r → I r.1 (done ++ r.2) [] := by
    intro l
    induction l with
    | nil =>
      intro s done r hI h
      simp only [foreach] at h
      cases h
      simpa using hI
    | cons a rest ih =>
      intro s done r hI h
      simp only [foreach] at h
      cases hs : step s a with
      | error e => simp only [hs] at h; cases h
      | ok r1 =>
        simp only [hs] at h
        cases hf : foreach step r1.1 rest with
        | error e => simp only [hf] at h; cases h
        | ok r2 =>
          simp only [hf] at h
          cases h
          have := ih r1.1 (done ++ [r1.2]) r2 (hstep s done a rest r1 hI hs) hf
          simpa using this
  simpa using key l s [] r h0 h

theorem foreach_total {σ α : Type} (step : σ → α → Except Failure (σ × α))
    (I : σ → List α → List α → Prop)
    (hstep : ∀ s done a rest, I s done (a :: rest) →
      ∃ r, step s a = Except.ok r ∧ I r.1 (done ++ [r.2]) rest)
    (l : List α) (s : σ) (h0 : I s [] l) :
    ∃ r, foreach step s l = Except.ok r ∧ I r.1 r.2 [] := by
  have key : ∀ (l : List α) (s : σ) (done : List α), I s done l →
      ∃ r, foreach step s l = Except.ok r ∧ I r.1 (done ++ r.2) [] := by
    intro l
    induction l with
    | nil =>
      intro s done hI
      exact ⟨(s, []), rfl, by simpa using hI⟩
    | cons a rest ih =>
      intro s done hI
      obtain ⟨r1, hs, hI1⟩ := hstep s done a rest hI
      obtain ⟨r2, hf, hI2⟩ := ih r1.1 (done ++ [r1.2]) hI1
      refine ⟨(r2.1, r1.2 :: r2.2), ?_, by simpa using hI2⟩
      simp only [foreach, hs, hf]
  simpa using key l s [] h0

/-! ## Vertices created by the construction steps -/

theorem add_endpoints_bounds (ops : FiberOps) (f : Fiber) (key : Point → Int) (g : WeaveGraph)
    (i : Interval) : (add_endpoints ops f key g i).2.bounds = i.bounds := by
  unfold add_endpoints
  split <;> rfl

theorem add_endpoints_getIPoints (ops : FiberOps) (f : Fiber) (key : Point → Int)
    (g : WeaveGraph) (i : Interval) :
    getIPoints (add_endpoints ops f key g i).1 = getIPoints g := by
  unfold add_endpoints
  split
  · simp [add_vertex, WeaveGraph.new_vertex, getIPoints, List.filter_append, List.filter_cons]
  · rfl

theorem add_endpoints_edges (ops : FiberOps) (f : Fiber) (key : Point → Int)
    (g : WeaveGraph) (i : Interval) :
    (add_endpoints ops f key g i).1.edges = g.edges := by
  unfold add_endpoints
  split <;> rfl

theorem crossing_getIPoints (ops : FiberOps) (xf yf : Fiber) (g : WeaveGraph)
    (xi yi : Interval) (r : WeaveGraph × Interval × Interval)
    (h : crossing ops xf yf g xi yi = Except.ok r) :
    getIPoints r.1 = getIPoints g ++ [crossing_position xf yf] ∧
      r.2.1.bounds = xi.bounds ∧ r.2.2.bounds = yi.bounds := by
  unfold crossing at h
  simp only at h
  split at h
  · cases h
  · rename_i g3 h3
    split at h
    · cases h
    · rename_i g4 h4
      cases h
      refine ⟨?_, rfl, ?_⟩
      · have e3 := rewire_verts _ _ _ _ _ h3
        have e4 := rewire_verts _ _ _ _ _ h4
        have : getIPoints g4 = getIPoints (add_crossing_vertex xf yf
            (add_endpoints ops yf Point.y g yi).1 xi (add_endpoints ops yf Point.y g yi).2).1 := by
          simp only [getIPoints, e4, e3]
        rw [this, ← add_endpoints_getIPoints ops yf Point.y g yi]
        simp [add_crossing_vertex, WeaveGraph.new_vertex, getIPoints, List.filter_append]
      · exact add_endpoints_bounds ops yf Point.y g yi

/-! ## Counting the crossing vertices through the four loops -/

theorem y_interval_step_count (ops : FiberOps) (xf yf : Fiber) (s : WeaveGraph × Interval)
    (yi : Interval) (r : (WeaveGraph × Interval) × Interval)
    (h : y_interval_step ops xf yf s yi = Except.ok r) :
    (getIPoints r.1.1).length
        = (getIPoints s.1).length + (if y_range_test ops xf yf yi then 1 else 0) ∧
      r.1.2.bounds = s.2.bounds ∧ r.2.bounds = yi.bounds := by
  unfold y_interval_step at h
  by_cases ht : y_range_test ops xf yf yi = true
  · simp only [ht, if_true] at h ⊢
    cases hc : crossing ops xf yf s.1 s.2 yi with
    | error e => simp only [hc] at h; cases h
    | ok c =>
      simp only [hc] at h
      cases h
      obtain ⟨h1, h2, h3⟩ := crossing_getIPoints ops xf yf s.1 s.2 yi c hc
      simp [h1, h2, h3]
  · simp only [ht] at h ⊢
    cases h
    simp

theorem y_interval_loop_count (ops : FiberOps) (xf yf : Fiber) (s : WeaveGraph × Interval)
    (yis : List Interval) (r : (WeaveGraph × Interval) × List Interval)
    (h : foreach (y_interval_step ops xf yf) s yis = Except.ok r) :
    (getIPoints r.1.1).length
        = (getIPoints s.1).length + yis.countP (y_range_test ops xf yf) ∧
      r.1.2.bounds = s.2.bounds ∧ r.2.map Interval.bounds = yis.map Interval.bounds := by
  have := foreach_induction (y_interval_step ops xf yf)
    (fun s' done rest =>
      (getIPoints s'.1).length + rest.countP (y_range_test ops xf yf)
          = (getIPoints s.1).length + yis.countP (y_range_test ops xf yf) ∧
        s'.2.bounds = s.2.bounds ∧
        done.map Interval.bounds ++ rest.map Interval.bounds = yis.map Interval.bounds)
    (by
      intro s' done a rest r' hI hs
      obtain ⟨h1, h2, h3⟩ := y_interval_step_count ops xf yf s' a r' hs
      obtain ⟨i1, i2, i3⟩ := hI
      refine ⟨?_, by rw [h2, i2], ?_⟩
      · rw [h1, ← i1, List.countP_cons]
        omega
      · rw [← i3]
        simp [h3])
    yis s r ⟨rfl, rfl, by simp⟩ h
  simpa using this

theorem shape_count_eq (ops : FiberOps) (xf : Fiber) (xi : Interval) (yf : Fiber) :
    shape_count ops xf xi yf.shape
      = yf.ints.countP fun yi => decide (crosses ops xf xi yf yi) := by
  simp only [shape_count, Fiber.shape, List.countP_map]
  rfl

theorem y_fiber_step_count (ops : FiberOps) (xf : Fiber) (xi0 : Interval)
    (s : WeaveGraph × Interval) (yf : Fiber) (r : (WeaveGraph × Interval) × Fiber)
    (h : y_fiber_step ops xf xi0 s yf = Except.ok r) :
    (getIPoints r.1.1).length = (getIPoints s.1).length + shape_count ops xf xi0 yf.shape ∧
      r.1.2.bounds = s.2.bounds ∧ r.2.shape = yf.shape := by
  unfold y_fiber_step at h
  rw [shape_count_eq]
  by_cases ht : x_range_test ops xf xi0 yf = true
  · simp only [ht, if_true] at h
    cases hc : foreach (y_interval_step ops xf yf) s yf.ints with
    | error e => simp only [hc] at h; cases h
    | ok c =>
      simp only [hc] at h
      cases h
      obtain ⟨h1, h2, h3⟩ := y_interval_loop_count ops xf yf s yf.ints c hc
      refine ⟨?_, h2, ?_⟩
      · rw [h1]
        congr 1
        apply List.countP_congr
        intro yi _
        simp only [x_range_test, Bool.and_eq_true, decide_eq_true_eq] at ht
        simp [y_range_test, crosses, ht]
      · simp [Fiber.shape, h3]
  · simp only [ht] at h
    cases h
    refine ⟨?_, rfl, rfl⟩
    have : yf.ints.countP (fun yi => decide (crosses ops xf xi0 yf yi)) = 0 := by
      rw [List.countP_eq_zero]
      intro yi _
      simp only [x_range_test, Bool.and_eq_true, decide_eq_true_eq] at ht
      simp only [crosses, decide_eq_true_eq]
      tauto
    rw [this]
    rfl

theorem y_fiber_loop_count (ops : FiberOps) (xf : Fiber) (xi0 : Interval)
    (s : WeaveGraph × Interval) (ys : List Fiber) (r : (WeaveGraph × Interval) × List Fiber)
    (h : foreach (y_fiber_step ops xf xi0) s ys = Except.ok r) :
    (getIPoints r.1.1).length
        = (getIPoints s.1).length + ((ys.map Fiber.shape).map (shape_count ops xf xi0)).sum ∧
      r.1.2.bounds = s.2.bounds ∧ r.2.map Fiber.shape = ys.map Fiber.shape := by
  have := foreach_induction (y_fiber_step ops xf xi0)
    (fun s' done rest =>
      (getIPoints s'.1).length + ((rest.map Fiber.shape).map (shape_count ops xf xi0)).sum
          = (getIPoints s.1).length + ((ys.map Fiber.shape).map (shape_count ops xf xi0)).sum ∧
        s'.2.bounds = s.2.bounds ∧
        done.map Fiber.shape ++ rest.map Fiber.shape = ys.map Fiber.shape)
    (by
      intro s' done a rest r' hI hs
      obtain ⟨h1, h2, h3⟩ := y_fiber_step_count ops xf xi0 s' a r' hs
      obtain ⟨i1, i2, i3⟩ := hI
      refine ⟨?_, by rw [h2, i2], ?_⟩
      · rw [h1, ← i1]
        simp only [List.map_cons, List.sum_cons]
        omega
      · rw [← i3]
        simp [h3])
    ys s r ⟨rfl, rfl, by simp⟩ h
  simpa using this

theorem x_interval_step_count (ops : FiberOps) (xf : Fiber) (s : WeaveGraph × List Fiber)
    (xi : Interval) (r : (WeaveGraph × List Fiber) × Interval)
    (h : x_interval_step ops xf s xi = Except.ok r) :
    (getIPoints r.1.1).length
        = (getIPoints s.1).length + ((s.2.map Fiber.shape).map (shape_count ops xf xi)).sum ∧
      r.1.2.map Fiber.shape = s.2.map Fiber.shape ∧ r.2.bounds = xi.bounds := by
  unfold x_interval_step at h
  cases hc : foreach (y_fiber_step ops xf xi) (add_endpoints ops xf Point.x s.1 xi) s.2 with
  | error e => simp only [hc] at h; cases h
  | ok c =>
    simp only [hc] at h
    cases h
    obtain ⟨h1, h2, h3⟩ := y_fiber_loop_count ops xf xi _ s.2 c hc
    refine ⟨?_, h3, ?_⟩
    · rw [h1, add_endpoints_getIPoints]
    · rw [h2, add_endpoints_bounds]

theorem x_interval_loop_count (ops : FiberOps) (xf : Fiber) (s : WeaveGraph × List Fiber)
    (xis : List Interval) (r : (WeaveGraph × List Fiber) × List Interval)
    (h : foreach (x_interval_step ops xf) s xis = Except.ok r) :
    (getIPoints r.1.1).length
        = (getIPoints s.1).length +
          (xis.map fun xi => ((s.2.map Fiber.shape).map (shape_count ops xf xi)).sum).sum ∧
      r.1.2.map Fiber.shape = s.2.map Fiber.shape ∧
      r.2.map Interval.bounds = xis.map Interval.bounds := by
  have := foreach_induction (x_interval_step ops xf)
    (fun s' done rest =>
      (getIPoints s'.1).length +
          (rest.map fun xi => ((s.2.map Fiber.shape).map (shape_count ops xf xi)).sum).sum
          = (getIPoints s.1).length +
            (xis.map fun xi => ((s.2.map Fiber.shape).map (shape_count ops xf xi)).sum).sum ∧
        s'.2.map Fiber.shape = s.2.map Fiber.shape ∧
        done.map Interval.bounds ++ rest.map Interval.bounds = xis.map Interval.bounds)
    (by
      intro s' done a rest r' hI hs
      obtain ⟨h1, h2, h3⟩ := x_interval_step_count ops xf s' a r' hs
      obtain ⟨i1, i2, i3⟩ := hI
      refine ⟨?_, by rw [h2, i2], ?_⟩
      · rw [h1, ← i1, i2]
        simp only [List.map_cons, List.sum_cons]
        omega
      · rw [← i3]
        simp [h3])
    xis s r ⟨rfl, rfl, by simp⟩ h
  simpa using this

theorem x_fiber_step_count (ops : FiberOps) (s : WeaveGraph × List Fiber) (xf : Fiber)
    (r : (WeaveGraph × List Fiber) × Fiber) (h : x_fiber_step ops s xf = Except.ok r) :
    (getIPoints r.1.1).length
        = (getIPoints s.1).length +
          (xf.ints.map fun xi => ((s.2.map Fiber.shape).map (shape_count ops xf xi)).sum).sum ∧
      r.1.2.map Fiber.shape = s.2.map Fiber.shape ∧ r.2.shape = xf.shape := by
  unfold x_fiber_step at h
  by_cases ht : (!xf.ints.isEmpty) = true
  · simp only [ht, if_true] at h
    cases hc : foreach (x_interval_step ops xf) s xf.ints with
    | error e => simp only [hc] at h; cases h
    | ok c =>
      simp only [hc] at h
      cases h
      obtain ⟨h1, h2, h3⟩ := x_interval_loop_count ops xf s xf.ints c hc
      exact ⟨h1, h2, by simp [Fiber.shape, h3]⟩
  · simp only [ht] at h
    cases h
    have : xf.ints = [] := by simpa using ht
    simp [this]

theorem x_fiber_loop_count (ops : FiberOps) (s : WeaveGraph × List Fiber) (xs : List Fiber)
    (r : (WeaveGraph × List Fiber) × List Fiber)
    (h : foreach (x_fiber_step ops) s xs = Except.ok r) :
    (getIPoints r.1.1).length = (getIPoints s.1).length + crossing_count ops xs s.2 ∧
      r.1.2.map Fiber.shape = s.2.map Fiber.shape ∧
      r.2.map Fiber.shape = xs.map Fiber.shape := by
  have hcc : ∀ l : List Fiber, crossing_count ops l s.2 = (l.map fun xf =>
      (xf.ints.map fun xi => ((s.2.map Fiber.shape).map (shape_count ops xf xi)).sum).sum).sum := by
    intro l
    simp only [crossing_count, List.map_map]
    congr 1
    apply List.map_congr_left
    intro xf _
    congr 1
    apply List.map_congr_left
    intro xi _
    congr 1
    apply List.map_congr_left
    intro yf _
    simp only [Function.comp, shape_count_eq]
  have := foreach_induction (x_fiber_step ops)
    (fun s' done rest =>
      (getIPoints s'.1).length + crossing_count ops rest s.2
          = (getIPoints s.1).length + crossing_count ops xs s.2 ∧
        s'.2.map Fiber.shape = s.2.map Fiber.shape ∧
        done.map Fiber.shape ++ rest.map Fiber.shape = xs.map Fiber.shape)
    (by
      intro s' done a rest r' hI hs
      obtain ⟨h1, h2, h3⟩ := x_fiber_step_count ops s' a r' hs
      obtain ⟨i1, i2, i3⟩ := hI
      refine ⟨?_, by rw [h2, i2], ?_⟩
      · rw [h1, ← i1, i2, hcc (a :: rest), hcc rest]
        simp only [List.map_cons, List.sum_cons]
        omega
      · rw [← i3]
        simp [h3])
    xs s r ⟨rfl, rfl, by simp⟩ h
  have h0 : crossing_count ops [] s.2 = 0 := rfl
  simpa [h0] using this

theorem insert_between (pre post : VertexPairSet) (a b p : VertexPair)
    (hs : (pre ++ a :: b :: post).Pairwise (fun p q => p.2 < q.2))
    (ha : a.2 < p.2) (hb : p.2 < b.2) :
    VertexPairSet.insert (pre ++ a :: b :: post) p = pre ++ a :: p :: b :: post := by
  induction pre with
  | nil =>
    have h1 : ¬ p.2 < a.2 := by omega
    simp [VertexPairSet.insert, h1, ha, hb]
  | cons q t ih =>
    have hs' := hs
    rw [List.cons_append, List.pairwise_cons] at hs'
    have hq : q.2 < a.2 := hs'.1 a (by simp)
    have h1 : ¬ p.2 < q.2 := by omega
    have h2 : q.2 < p.2 := by omega
    simp only [List.cons_append, VertexPairSet.insert, h1, h2, if_true, if_false]
    exact congrArg (fun l => q :: l) (ih hs'.2)

theorem pairwise_insert_between (pre post : VertexPairSet) (a b p : VertexPair)
    (hs : (pre ++ a :: b :: post).Pairwise (fun p q => p.2 < q.2))
    (ha : a.2 < p.2) (hb : p.2 < b.2) :
    (pre ++ a :: p :: b :: post).Pairwise (fun p q => p.2 < q.2) := by
  rw [List.pairwise_append] at hs ⊢
  obtain ⟨h1, h2, h3⟩ := hs
  rw [List.pairwise_cons] at h2
  obtain ⟨h4, h5⟩ := h2
  rw [List.pairwise_cons] at h5
  refine ⟨h1, ?_, ?_⟩
  · rw [List.pairwise_cons, List.pairwise_cons, List.pairwise_cons]
    refine ⟨?_, ?_, h5⟩
    · intro q hq
      rcases List.mem_cons.1 hq with rfl | hq
      · exact ha
      · exact h4 q hq
    · intro q hq
      rcases List.mem_cons.1 hq with rfl | hq
      · exact hb
      · have := h5.1 q hq
        omega
  · intro x hx y hy
    rcases List.mem_cons.1 hy with rfl | hy
    · exact h3 x hx _ (List.mem_cons_self _ _)
    · rcases List.mem_cons.1 hy with rfl | hy
      · have := h3 x hx a (List.mem_cons_self _ _)
        omega
      · exact h3 x hx y (List.mem_cons_of_mem _ hy)


theorem mem_insert_of_new (s : VertexPairSet) (p : VertexPair)
    (h : ∀ q ∈ s, q.2 ≠ p.2) : p ∈ VertexPairSet.insert s p := by
  induction s with
  | nil => simp [VertexPairSet.insert]
  | cons q t ih =>
    have hq : q.2 ≠ p.2 := h q (List.mem_cons_self _ _)
    unfold VertexPairSet.insert
    split
    · simp
    · split
      · exact List.mem_cons_of_mem _ (ih (fun r hr => h r (List.mem_cons_of_mem _ hr)))
      · omega

theorem lower_bound_insert_lt (s : VertexPairSet) (p : VertexPair) :
    VertexPairSet.lower_bound (VertexPairSet.insert s p) p.2
      < (VertexPairSet.insert s p).length := by
  induction s with
  | nil => simp [VertexPairSet.insert, VertexPairSet.lower_bound]
  | cons q t ih =>
    unfold VertexPairSet.insert
    split
    · simp [VertexPairSet.lower_bound]
    · split
      · rename_i h
        simp only [VertexPairSet.lower_bound, h, if_true, List.length_cons]
        omega
      · rename_i h
        simp [VertexPairSet.lower_bound, h]

theorem rewire_insert_ne_assertion (s : VertexPairSet) (v : Nat) (key : Int)
    (g : WeaveGraph) :
    rewire (VertexPairSet.insert s (v, key)) v key g ≠ Except.error Failure.assertion := by
  have h := lower_bound_insert_lt s (v, key)
  unfold rewire
  rw [if_neg (by exact Nat.ne_of_lt h)]
  split <;> simp

theorem crossing_ne_assertion (ops : FiberOps) (xf yf : Fiber) (g : WeaveGraph)
    (xi yi : Interval) : crossing ops xf yf g xi yi ≠ Except.error Failure.assertion := by
  unfold crossing
  simp only
  split
  · rename_i e h
    intro he
    cases he
    exact rewire_insert_ne_assertion _ _ _ _ h
  · split
    · rename_i e h
      intro he
      cases he
      exact rewire_insert_ne_assertion _ _ _ _ h
    · simp

theorem foreach_ne_assertion {σ α : Type} (step : σ → α → Except Failure (σ × α))
    (hstep : ∀ s a, step s a ≠ Except.error Failure.assertion) (l : List α) (s : σ) :
    foreach step s l ≠ Except.error Failure.assertion := by
  induction l generalizing s with
  | nil => simp [foreach]
  | cons a rest ih =>
    simp only [foreach]
    split
    · rename_i e h
      intro he
      cases he
      exact hstep s a h
    · split
      · rename_i e h
        intro he
        cases he
        exact ih _ h
      · simp

/-- The `assert` of lines 201 and 214 never fails: `build` never stops on an assertion. -/
theorem build_ne_assertion (ops : FiberOps) (w : Weave) :
    build ops w ≠ Except.error Failure.assertion := by
  have h4 : ∀ xf yf s yi, y_interval_step ops xf yf s yi ≠ Except.error Failure.assertion := by
    intro xf yf s yi
    unfold y_interval_step
    split
    · split
      · rename_i e h
        intro he
        cases he
        exact crossing_ne_assertion _ _ _ _ _ _ h
      · simp
    · simp
  have h3 : ∀ xf xi s yf, y_fiber_step ops xf xi s yf ≠ Except.error Failure.assertion := by
    intro xf xi s yf
    unfold y_fiber_step
    split
    · split
      · rename_i e h
        intro he
        cases he
        exact foreach_ne_assertion _ (h4 xf yf) _ _ h
      · simp
    · simp
  have h2 : ∀ xf s xi, x_interval_step ops xf s xi ≠ Except.error Failure.assertion := by
    intro xf s xi
    unfold x_interval_step
    split
    · rename_i e h
      intro he
      cases he
      exact foreach_ne_assertion _ (h3 xf xi) _ _ h
    · simp
  have h1 : ∀ s xf, x_fiber_step ops s xf ≠ Except.error Failure.assertion := by
    intro s xf
    unfold x_fiber_step
    split
    · split
      · rename_i e h
        intro he
        cases he
        exact foreach_ne_assertion _ (h2 xf) _ _ h
      · simp
    · simp
  unfold build
  split
  · rename_i e h
    intro he
    cases he
    exact foreach_ne_assertion _ h1 _ _ h
  · simp

/-! ## The CL vertices created by the construction -/

theorem add_endpoints_getCLPoints (ops : FiberOps) (f : Fiber) (key : Point → Int)
    (g : WeaveGraph) (i : Interval) :
    getCLPoints (add_endpoints ops f key g i).1
        = getCLPoints g ++ (if i.in_weave then [] else cl_points ops f i) ∧
      (add_endpoints ops f key g i).2.mark = (i.lower, i.upper, true) := by
  unfold add_endpoints
  cases hw : i.in_weave
  · simp [add_vertex, WeaveGraph.new_vertex, getCLPoints, List.filter_append, cl_points,
      Interval.mark]
  · simp [Interval.mark, hw]

theorem crossing_getCLPoints (ops : FiberOps) (xf yf : Fiber) (g : WeaveGraph)
    (xi yi : Interval) (r : WeaveGraph × Interval × Interval)
    (h : crossing ops xf yf g xi yi = Except.ok r) :
    getCLPoints r.1 = getCLPoints g ++ (if yi.in_weave then [] else cl_points ops yf yi) ∧
      r.2.1.mark = xi.mark ∧ r.2.2.mark = (yi.lower, yi.upper, true) := by
  unfold crossing at h
  simp only at h
  split at h
  · cases h
  · rename_i g3 h3
    split at h
    · cases h
    · rename_i g4 h4
      cases h
      obtain ⟨e1, e2⟩ := add_endpoints_getCLPoints ops yf Point.y g yi
      refine ⟨?_, rfl, ?_⟩
      · have e3 := rewire_verts _ _ _ _ _ h3
        have e4 := rewire_verts _ _ _ _ _ h4
        have : getCLPoints g4 = getCLPoints (add_crossing_vertex xf yf
            (add_endpoints ops yf Point.y g yi).1 xi (add_endpoints ops yf Point.y g yi).2).1 := by
          simp only [getCLPoints, e4, e3]
        rw [this, ← e1]
        simp [add_crossing_vertex, WeaveGraph.new_vertex, getCLPoints, List.filter_append]
      · exact e2

theorem y_interval_step_cl (ops : FiberOps) (xf yf : Fiber) (s : WeaveGraph × Interval)
    (yi : Interval) (r : (WeaveGraph × Interval) × Interval)
    (h : y_interval_step ops xf yf s yi = Except.ok r) :
    getCLPoints r.1.1 = getCLPoints s.1 ++
        (if !yi.in_weave && y_range_test ops xf yf yi then cl_points ops yf yi else []) ∧
      r.1.2.mark = s.2.mark ∧
      r.2.mark = (yi.lower, yi.upper, yi.in_weave || y_range_test ops xf yf yi) := by
  unfold y_interval_step at h
  by_cases ht : y_range_test ops xf yf yi = true
  · simp only [ht, if_true] at h ⊢
    cases hc : crossing ops xf yf s.1 s.2 yi with
    | error e => simp only [hc] at h; cases h
    | ok c =>
      simp only [hc] at h
      cases h
      obtain ⟨h1, h2, h3⟩ := crossing_getCLPoints ops xf yf s.1 s.2 yi c hc
      refine ⟨?_, h2, ?_⟩
      · rw [h1]
        cases yi.in_weave <;> simp
      · rw [h3]
        simp
  · simp only [ht] at h ⊢
    cases h
    simp [Interval.mark]

theorem y_interval_loop_cl (ops : FiberOps) (xf yf : Fiber) (s : WeaveGraph × Interval)
    (yis : List Interval) (r : (WeaveGraph × Interval) × List Interval)
    (h : foreach (y_interval_step ops xf yf) s yis = Except.ok r) :
    getCLPoints r.1.1 = getCLPoints s.1 ++ yis.flatMap (fun yi =>
        if !yi.in_weave && y_range_test ops xf yf yi then cl_points ops yf yi else []) ∧
      r.1.2.mark = s.2.mark ∧
      r.2.map Interval.mark = yis.map (fun yi =>
        (yi.lower, yi.upper, yi.in_weave || y_range_test ops xf yf yi)) := by
  have := foreach_induction (y_interval_step ops xf yf)
    (fun s' done rest =>
      getCLPoints s'.1 ++ rest.flatMap (fun yi =>
          if !yi.in_weave && y_range_test ops xf yf yi then cl_points ops yf yi else [])
        = getCLPoints s.1 ++ yis.flatMap (fun yi =>
          if !yi.in_weave && y_range_test ops xf yf yi then cl_points ops yf yi else []) ∧
        s'.2.mark = s.2.mark ∧
        done.map Interval.mark ++ rest.map (fun yi =>
          (yi.lower, yi.upper, yi.in_weave || y_range_test ops xf yf yi))
          = yis.map (fun yi =>
            (yi.lower, yi.upper, yi.in_weave || y_range_test ops xf yf yi)))
    (by
      intro s' done a rest r' hI hs
      obtain ⟨h1, h2, h3⟩ := y_interval_step_cl ops xf yf s' a r' hs
      obtain ⟨i1, i2, i3⟩ := hI
      refine ⟨?_, by rw [h2, i2], ?_⟩
      · rw [h1, ← i1]
        simp [List.flatMap_cons]
      · rw [← i3]
        simp [h3])
    yis s r ⟨rfl, rfl, by simp⟩ h
  simpa using this

theorem y_fiber_step_cl (ops : FiberOps) (xf : Fiber) (xi0 : Interval)
    (s : WeaveGraph × Interval) (yf : Fiber) (r : (WeaveGraph × Interval) × Fiber)
    (h : y_fiber_step ops xf xi0 s yf = Except.ok r) :
    getCLPoints r.1.1 = getCLPoints s.1 ++ delta_points ops xf xi0 yf.marks ∧
      r.1.2.mark = s.2.mark ∧ r.2.marks = upd_marks ops xf xi0 yf.marks := by
  unfold y_fiber_step at h
  by_cases ht : x_range_test ops xf xi0 yf = true
  · simp only [ht, if_true] at h
    have hx := ht
    simp only [x_range_test, Fiber.point, Bool.and_eq_true, decide_eq_true_eq] at hx
    cases hc : foreach (y_interval_step ops xf yf) s yf.ints with
    | error e => simp only [hc] at h; cases h
    | ok c =>
      simp only [hc] at h
      cases h
      obtain ⟨h1, h2, h3⟩ := y_interval_loop_cl ops xf yf s yf.ints c hc
      refine ⟨?_, h2, ?_⟩
      · rw [h1]
        congr 1
        simp only [delta_points, Fiber.marks, List.flatMap_map]
        apply List.flatMap_congr
        intro yi _
        simp [crosses_marks, y_range_test, Interval.mark, hx, cl_points, Fiber.point]
      · simp only [Fiber.marks, upd_marks, h3, List.map_map]
        congr 2
        apply List.map_congr_left
        intro yi _
        simp [crosses_marks, y_range_test, Interval.mark, hx, Fiber.point]
  · simp only [ht] at h
    cases h
    have hx : ¬ ((xf.point ops xi0.lower).x ≤ yf.p1.x ∧ yf.p1.x ≤ (xf.point ops xi0.upper).x) := by
      simpa [x_range_test] using ht
    have hcm : ∀ b, crosses_marks ops xf xi0 yf.p1 yf.p2 b = false := by
      intro b
      simp only [crosses_marks]
      rw [decide_eq_false_iff_not]
      intro hc
      exact hx hc.1
    refine ⟨?_, rfl, ?_⟩
    · have : delta_points ops xf xi0 yf.marks = [] := by
        simp only [delta_points, Fiber.marks, List.flatMap_map]
        rw [List.flatMap_eq_nil_iff]
        intro yi _
        simp [hcm]
      rw [this, List.append_nil]
    · simp only [Fiber.marks, upd_marks, List.map_map]
      congr 2
      symm
      apply List.map_congr_left
      intro yi _
      simp [hcm, Interval.mark]

theorem y_fiber_loop_cl (ops : FiberOps) (xf : Fiber) (xi0 : Interval)
    (s : WeaveGraph × Interval) (ys : List Fiber) (r : (WeaveGraph × Interval) × List Fiber)
    (h : foreach (y_fiber_step ops xf xi0) s ys = Except.ok r) :
    getCLPoints r.1.1
        = getCLPoints s.1 ++ (ys.map Fiber.marks).flatMap (delta_points ops xf xi0) ∧
      r.1.2.mark = s.2.mark ∧
      r.2.map Fiber.marks = (ys.map Fiber.marks).map (upd_marks ops xf xi0) := by
  have := foreach_induction (y_fiber_step ops xf xi0)
    (fun s' done rest =>
      getCLPoints s'.1 ++ (rest.map Fiber.marks).flatMap (delta_points ops xf xi0)
        = getCLPoints s.1 ++ (ys.map Fiber.marks).flatMap (delta_points ops xf xi0) ∧
        s'.2.mark = s.2.mark ∧
        done.map Fiber.marks ++ (rest.map Fiber.marks).map (upd_marks ops xf xi0)
          = (ys.map Fiber.marks).map (upd_marks ops xf xi0))
    (by
      intro s' done a rest r' hI hs
      obtain ⟨h1, h2, h3⟩ := y_fiber_step_cl ops xf xi0 s' a r' hs
      obtain ⟨i1, i2, i3⟩ := hI
      refine ⟨?_, by rw [h2, i2], ?_⟩
      · rw [h1, ← i1]
        simp [List.flatMap_cons]
      · rw [← i3]
        simp [h3])
    ys s r ⟨rfl, rfl, by simp⟩ h
  simpa using this

theorem x_interval_step_cl (ops : FiberOps) (xf : Fiber) (s : WeaveGraph × List Fiber)
    (xi : Interval) (r : (WeaveGraph × List Fiber) × Interval)
    (h : x_interval_step ops xf s xi = Except.ok r) :
    getCLPoints r.1.1 = getCLPoints s.1 ++
        ((if xi.in_weave then [] else cl_points ops xf xi) ++
          (s.2.map Fiber.marks).flatMap (delta_points ops xf xi)) ∧
      r.1.2.map Fiber.marks = (s.2.map Fiber.marks).map (upd_marks ops xf xi) ∧
      r.2.mark = (xi.lower, xi.upper, true) := by
  unfold x_interval_step at h
  cases hc : foreach (y_fiber_step ops xf xi) (add_endpoints ops xf Point.x s.1 xi) s.2 with
  | error e => simp only [hc] at h; cases h
  | ok c =>
    simp only [hc] at h
    cases h
    obtain ⟨h1, h2, h3⟩ := y_fiber_loop_cl ops xf xi _ s.2 c hc
    obtain ⟨e1, e2⟩ := add_endpoints_getCLPoints ops xf Point.x s.1 xi
    refine ⟨?_, h3, ?_⟩
    · rw [h1, e1, List.append_assoc]
    · rw [h2, e2]

theorem x_interval_loop_cl (ops : FiberOps) (xf : Fiber) (s : WeaveGraph × List Fiber)
    (xis : List Interval) (r : (WeaveGraph × List Fiber) × List Interval)
    (h : foreach (x_interval_step ops xf) s xis = Except.ok r) :
    getCLPoints r.1.1 = getCLPoints s.1 ++
        cl_trace ops (xis.map fun xi => (xf, xi)) (s.2.map Fiber.marks) ∧
      r.1.2.map Fiber.marks = upd_all ops (xis.map fun xi => (xf, xi)) (s.2.map Fiber.marks) := by
  have := foreach_induction (x_interval_step ops xf)
    (fun s' _ rest =>
      getCLPoints s'.1 ++ cl_trace ops (rest.map fun xi => (xf, xi)) (s'.2.map Fiber.marks)
        = getCLPoints s.1 ++ cl_trace ops (xis.map fun xi => (xf, xi)) (s.2.map Fiber.marks) ∧
        upd_all ops (rest.map fun xi => (xf, xi)) (s'.2.map Fiber.marks)
          = upd_all ops (xis.map fun xi => (xf, xi)) (s.2.map Fiber.marks))
    (by
      intro s' done a rest r' hI hs
      obtain ⟨h1, h2, -⟩ := x_interval_step_cl ops xf s' a r' hs
      obtain ⟨i1, i2⟩ := hI
      refine ⟨?_, ?_⟩
      · rw [← i1, h1, h2]
        simp [cl_trace]
      · rw [← i2, h2]
        simp [upd_all])
    xis s r ⟨rfl, rfl⟩ h
  simpa [cl_trace, upd_all] using this

theorem upd_all_append (ops : FiberOps) (t1 t2 : List (Fiber × Interval))
    (m : List FiberMarks) :
    upd_all ops (t1 ++ t2) m = upd_all ops t2 (upd_all ops t1 m) := by
  simp [upd_all, List.foldl_append]

theorem cl_trace_append (ops : FiberOps) (t1 t2 : List (Fiber × Interval))
    (m : List FiberMarks) :
    cl_trace ops (t1 ++ t2) m = cl_trace ops t1 m ++ cl_trace ops t2 (upd_all ops t1 m) := by
  induction t1 generalizing m with
  | nil => simp [cl_trace, upd_all]
  | cons t rest ih =>
    show cl_trace ops (t :: (rest ++ t2)) m = _
    simp only [cl_trace, List.append_assoc]
    rw [ih]
    simp [upd_all]

theorem x_fiber_step_cl (ops : FiberOps) (s : WeaveGraph × List Fiber) (xf : Fiber)
    (r : (WeaveGraph × List Fiber) × Fiber) (h : x_fiber_step ops s xf = Except.ok r) :
    getCLPoints r.1.1 = getCLPoints s.1 ++
        cl_trace ops (xf.ints.map fun xi => (xf, xi)) (s.2.map Fiber.marks) ∧
      r.1.2.map Fiber.marks = upd_all ops (xf.ints.map fun xi => (xf, xi)) (s.2.map Fiber.marks) := by
  unfold x_fiber_step at h
  by_cases ht : (!xf.ints.isEmpty) = true
  · simp only [ht, if_true] at h
    cases hc : foreach (x_interval_step ops xf) s xf.ints with
    | error e => simp only [hc] at h; cases h
    | ok c =>
      simp only [hc] at h
      cases h
      exact x_interval_loop_cl ops xf s xf.ints c hc
  · simp only [ht] at h
    cases h
    have : xf.ints = [] := by simpa using ht
    simp [this, cl_trace, upd_all]

theorem x_fiber_loop_cl (ops : FiberOps) (s : WeaveGraph × List Fiber) (xs : List Fiber)
    (r : (WeaveGraph × List Fiber) × List Fiber)
    (h : foreach (x_fiber_step ops) s xs = Except.ok r) :
    getCLPoints r.1.1 = getCLPoints s.1 ++ cl_trace ops (x_tasks xs) (s.2.map Fiber.marks) := by
  have := foreach_induction (x_fiber_step ops)
    (fun s' _ rest =>
      getCLPoints s'.1 ++ cl_trace ops (x_tasks rest) (s'.2.map Fiber.marks)
        = getCLPoints s.1 ++ cl_trace ops (x_tasks xs) (s.2.map Fiber.marks))
    (by
      intro s' done a rest r' hI hs
      obtain ⟨h1, h2⟩ := x_fiber_step_cl ops s' a r' hs
      rw [← hI, h1, h2]
      simp [x_tasks, List.flatMap_cons, cl_trace_append])
    xs s r rfl h
  simpa [x_tasks, cl_trace] using this

theorem sort_fibers_xfibers (ops : FiberOps) (w : Weave) :
    (sort_fibers ops w).xfibers
      = w.fibers.filter (fun f => ops.xParallel f.dir && !f.ints.isEmpty) := by
  simp [sort_fibers, foldl_sort_step]

theorem sort_fibers_yfibers (ops : FiberOps) (w : Weave) :
    (sort_fibers ops w).yfibers
      = w.fibers.filter (fun f => ops.yParallel f.dir && !f.ints.isEmpty) := by
  simp [sort_fibers, foldl_sort_step]

theorem perm_shuffle {α : Type} (a b c d : List α) :
    (a ++ b ++ (c ++ d)).Perm ((a ++ c) ++ (b ++ d)) := by
  rw [← Multiset.coe_eq_coe]
  simp only [← Multiset.coe_add]
  abel

theorem crosses_marks_flag (ops : FiberOps) (xf : Fiber) (xi : Interval) (p1 p2 : Point)
    (b : Int × Int × Bool) (x : Bool) :
    crosses_marks ops xf xi p1 p2 (b.1, b.2.1, x) = crosses_marks ops xf xi p1 p2 b := rfl

theorem cl_trace_perm (ops : FiberOps) (tasks : List (Fiber × Interval))
    (m : List FiberMarks) :
    (cl_trace ops tasks m).Perm
      ((tasks.flatMap fun t => if t.2.in_weave then [] else cl_points ops t.1 t.2) ++
        m.flatMap (crossed_points ops tasks)) := by
  induction tasks generalizing m with
  | nil =>
    have : m.flatMap (crossed_points ops []) = [] := by
      rw [List.flatMap_eq_nil_iff]
      intro fm _
      simp [crossed_points]
    simp [cl_trace, this]
  | cons t rest ih =>
    simp only [cl_trace, List.flatMap_cons]
    refine ((List.Perm.refl _).append (ih _)).trans ?_
    refine (perm_shuffle _ _ _ _).trans ?_
    refine (List.Perm.refl _).append ?_
    rw [List.flatMap_map]
    refine (List.flatMap_append_perm m _ _).trans ?_
    apply List.Perm.flatMap_left
    intro fm _
    simp only [delta_points, crossed_points, upd_marks, List.flatMap_map]
    refine (List.flatMap_append_perm fm.2.2 _ _).trans ?_
    apply List.Perm.flatMap_left
    intro b _
    simp only [crosses_marks_flag, List.any_cons]
    rcases Bool.eq_false_or_eq_true b.2.2 with h1 | h1 <;>
      rcases Bool.eq_false_or_eq_true (crosses_marks ops t.1 t.2 fm.1 fm.2.1 b) with h2 | h2 <;>
      rcases Bool.eq_false_or_eq_true
        (List.any rest (fun t => crosses_marks ops t.1 t.2 fm.1 fm.2.1 b)) with h3 | h3 <;>
      simp [h1, h2, h3]

theorem filter_flatMap_eq {α β : Type} (l : List α) (p : α → Bool) (f : α → List β) :
    (l.filter p).flatMap f = l.flatMap fun x => if p x then f x else [] := by
  induction l with
  | nil => rfl
  | cons a t ih =>
    by_cases h : p a = true
    · simp [List.filter_cons, h, List.flatMap_cons, ih]
    · simp [List.filter_cons, h, List.flatMap_cons, ih]

theorem any_x_tasks (xs : List Fiber) (p : Fiber → Interval → Bool) :
    (x_tasks xs).any (fun t => p t.1 t.2) = xs.any fun xf => xf.ints.any fun xi => p xf xi := by
  induction xs with
  | nil => rfl
  | cons a t ih =>
    simp only [x_tasks, List.flatMap_cons, List.any_append, List.any_cons] at ih ⊢
    rw [ih]
    congr 1
    generalize a.ints = l
    induction l with
    | nil => rfl
    | cons i l ihl => simp only [List.map_cons, List.any_cons, ihl]

theorem cl_trace_fresh (ops : FiberOps) (xs ys : List Fiber)
    (hx : ∀ f ∈ xs, ∀ i ∈ f.ints, i.in_weave = false)
    (hy : ∀ f ∈ ys, ∀ i ∈ f.ints, i.in_weave = false) :
    (cl_trace ops (x_tasks xs) (ys.map Fiber.marks)).Perm (expected_cl_points ops xs ys) := by
  refine (cl_trace_perm ops _ _).trans ?_
  unfold expected_cl_points
  have e1 : ((x_tasks xs).flatMap fun t => if t.2.in_weave then [] else cl_points ops t.1 t.2)
      = xs.flatMap fun xf => xf.ints.flatMap fun xi => cl_points ops xf xi := by
    simp only [x_tasks, List.flatMap_assoc, List.flatMap_map]
    apply List.flatMap_congr
    intro xf hxf
    apply List.flatMap_congr
    intro xi hxi
    simp [hx xf hxf xi hxi]
  have e2 : (ys.map Fiber.marks).flatMap (crossed_points ops (x_tasks xs))
      = ys.flatMap fun yf => (yf.ints.filter fun yi =>
          xs.any fun xf => xf.ints.any fun xi => decide (crosses ops xf xi yf yi)).flatMap
            fun yi => cl_points ops yf yi := by
    rw [List.flatMap_map]
    apply List.flatMap_congr
    intro yf hyf
    rw [filter_flatMap_eq]
    simp only [crossed_points, Fiber.marks, List.flatMap_map]
    apply List.flatMap_congr
    intro yi hyi
    rw [any_x_tasks xs (fun xf xi => crosses_marks ops xf xi yf.p1 yf.p2 yi.mark)]
    simp only [Interval.mark, hy yf hyf yi hyi, Bool.not_false, Bool.true_and]
    rfl
  rw [e1, e2]

/-! ## The ordered set: insertion and lookup in general -/

theorem insert_cases (s : VertexPairSet) (p : VertexPair) :
    (VertexPairSet.insert s p
        = s.take (VertexPairSet.lower_bound s p.2) ++ p :: s.drop (VertexPairSet.lower_bound s p.2)
      ∨ VertexPairSet.insert s p = s) ∧
    VertexPairSet.lower_bound (VertexPairSet.insert s p) p.2 = VertexPairSet.lower_bound s p.2 ∧
    VertexPairSet.lower_bound s p.2 ≤ s.length := by
  induction s with
  | nil => simp [VertexPairSet.insert, VertexPairSet.lower_bound]
  | cons q t ih =>
    obtain ⟨ih1, ih2, ih3⟩ := ih
    by_cases h1 : p.2 < q.2
    · have h2 : ¬ q.2 < p.2 := by omega
      simp [VertexPairSet.insert, VertexPairSet.lower_bound, h1, h2]
    · by_cases h2 : q.2 < p.2
      · simp only [VertexPairSet.insert, VertexPairSet.lower_bound, h1, h2, if_true, if_false,
          ih2, List.take_succ_cons, List.drop_succ_cons, List.cons_append, List.length_cons,
          true_and]
        refine ⟨?_, by omega⟩
        rcases ih1 with ih1 | ih1
        · left; rw [ih1]
        · right; rw [ih1]
      · simp [VertexPairSet.insert, VertexPairSet.lower_bound, h1, h2]

theorem mem_insert (s : VertexPairSet) (p q : VertexPair)
    (h : q ∈ VertexPairSet.insert s p) : q = p ∨ q ∈ s := by
  rcases (insert_cases s p).1 with h1 | h1
  · rw [h1] at h
    rcases List.mem_append.1 h with h | h
    · exact Or.inr (List.mem_of_mem_take h)
    · rcases List.mem_cons.1 h with h | h
      · exact Or.inl h
      · exact Or.inr (List.mem_of_mem_drop h)
  · rw [h1] at h
    exact Or.inr h

theorem nodup_insert (s : VertexPairSet) (p : VertexPair)
    (hs : (s.map Prod.fst).Nodup) (hp : ∀ q ∈ s, q.1 ≠ p.1) :
    ((VertexPairSet.insert s p).map Prod.fst).Nodup := by
  rcases (insert_cases s p).1 with h1 | h1
  · rw [h1]
    have hsplit : s = s.take (VertexPairSet.lower_bound s p.2)
        ++ s.drop (VertexPairSet.lower_bound s p.2) := (List.take_append_drop _ _).symm
    rw [hsplit, List.map_append, List.nodup_append] at hs
    obtain ⟨n1, n2, n3⟩ := hs
    rw [List.map_append, List.map_cons, List.nodup_append]
    refine ⟨n1, ?_, ?_⟩
    · rw [List.nodup_cons]
      refine ⟨?_, n2⟩
      intro hm
      obtain ⟨q, hq, hqe⟩ := List.mem_map.1 hm
      exact hp q (List.mem_of_mem_drop hq) hqe
    · intro x hx1 hx2
      rcases List.mem_cons.1 hx2 with hx2 | hx2
      · obtain ⟨q, hq, hqe⟩ := List.mem_map.1 hx1
        exact hp q (List.mem_of_mem_take hq) (hqe.trans hx2)
      · exact n3 hx1 hx2
  · rw [h1]
    exact hs

theorem getElem?_fst_ne (s : VertexPairSet) (hs : (s.map Prod.fst).Nodup) (i j : Nat)
    (a b : VertexPair) (hij : j < i) (ha : s[i]? = some a) (hb : s[j]? = some b) :
    a.1 ≠ b.1 := by
  intro hab
  have hi : i < s.length := (List.getElem?_eq_some_iff.1 ha).1
  have hj : j < s.length := (List.getElem?_eq_some_iff.1 hb).1
  have ha' : (s.map Prod.fst)[i]? = some a.1 := by simp [ha]
  have hb' : (s.map Prod.fst)[j]? = some b.1 := by simp [hb]
  have := (List.nodup_iff_getElem?_ne_getElem?.1 hs) j i hij (by simpa using hi)
  rw [ha', hb', hab] at this
  exact this rfl

/-- When the rewiring step following an insertion completes, it has joined the new vertex to
two entries `a` (above) and `b` (below) that were in the set before the insertion, at two
different places of it. -/
theorem rewire_insert_ok (s : VertexPairSet) (v : Nat) (key : Int)
    (g g' : WeaveGraph)
    (h : rewire (VertexPairSet.insert s (v, key)) v key g = Except.ok g') :
    ∃ (a b : VertexPair) (i j : Nat), j < i ∧ s[i]? = some a ∧ s[j]? = some b ∧
      g' = ⟨g.verts, g.edges.filter (fun e => !e.joins a.1 b.1) ++
        [⟨a.1, v, false, 0⟩, ⟨b.1, v, false, 0⟩]⟩ := by
  obtain ⟨hc, hlb, hle⟩ := insert_cases s (v, key)
  simp only at hlb hc hle
  unfold rewire at h
  rw [hlb] at h
  split at h
  · cases h
  · split at h
    · rename_i above below ha hb
      cases h
      split at hb
      · cases hb
      · rename_i hn0
        rcases hc with hc | hc
        · rw [hc] at ha hb
          refine ⟨above, below, VertexPairSet.lower_bound s key,
            VertexPairSet.lower_bound s key - 1, by omega, ?_, ?_, ?_⟩
          · rw [List.getElem?_append_right (by simp)] at ha
            simp only [List.length_take] at ha
            have e : VertexPairSet.lower_bound s key + 1
                - min (VertexPairSet.lower_bound s key) s.length = 1 := by omega
            rw [e] at ha
            simpa using ha
          · rw [List.getElem?_append_left (by simp; omega)] at hb
            rw [List.getElem?_take] at hb
            simpa [show VertexPairSet.lower_bound s key - 1 < VertexPairSet.lower_bound s key
              from by omega] using hb
          · simp [WeaveGraph.remove_edge, WeaveGraph.add_edge]
        · rw [hc] at ha hb
          exact ⟨above, below, VertexPairSet.lower_bound s key + 1,
            VertexPairSet.lower_bound s key - 1, by omega, ha, hb,
            by simp [WeaveGraph.remove_edge, WeaveGraph.add_edge]⟩
    · cases h

/-! ## No parallel edges: the invariant of the general construction -/

theorem edge_key_eq_iff (e : Edge) (a b : Nat) :
    edge_key e = s(a, b) ↔ e.joins a b = true := by
  simp only [edge_key, Sym2.eq_iff, Edge.joins, Bool.or_eq_true, Bool.and_eq_true, beq_iff_eq]

theorem setOK_mono (g g' : WeaveGraph) (s : VertexPairSet)
    (h : g.num_vertices ≤ g'.num_vertices) (hs : SetOK g s) : SetOK g' s :=
  ⟨hs.1, fun p hp => Nat.lt_of_lt_of_le (hs.2 p hp) h⟩

theorem setOK_insert (g g' : WeaveGraph) (s : VertexPairSet) (p : VertexPair)
    (hs : SetOK g s) (hp : g.num_vertices ≤ p.1) (hp' : p.1 < g'.num_vertices) :
    SetOK g' (VertexPairSet.insert s p) := by
  refine ⟨nodup_insert s p hs.1 ?_, ?_⟩
  · intro q hq he
    have := hs.2 q hq
    omega
  · intro q hq
    rcases mem_insert s p q hq with rfl | hq
    · exact hp'
    · have := hs.2 q hq
      omega

theorem add_endpoints_sets (ops : FiberOps) (f : Fiber) (key : Point → Int) (g : WeaveGraph)
    (i : Interval) (hs : SetOK g i.intersections) :
    g.num_vertices ≤ (add_endpoints ops f key g i).1.num_vertices ∧
      SetOK (add_endpoints ops f key g i).1 (add_endpoints ops f key g i).2.intersections ∧
      ∀ p ∈ (add_endpoints ops f key g i).2.intersections,
        p ∈ i.intersections ∨ g.num_vertices ≤ p.1 := by
  unfold add_endpoints
  split
  · simp only [add_vertex, WeaveGraph.new_vertex, WeaveGraph.num_vertices, List.length_append,
      List.length_cons, List.length_nil]
    refine ⟨by omega, ?_, ?_⟩
    · have h1 : SetOK ⟨g.verts ++ [⟨f.point ops i.lower, VertexType.CL, 0⟩], g.edges⟩
          (VertexPairSet.insert i.intersections (g.verts.length, key (f.point ops i.lower))) :=
        setOK_insert g _ _ _ hs (Nat.le_refl _) (by simp [WeaveGraph.num_vertices])
      exact setOK_insert _ _ _ _ h1 (by simp [WeaveGraph.num_vertices])
        (by simp [WeaveGraph.num_vertices])
    · intro p hp
      rcases mem_insert _ _ _ hp with rfl | hp
      · right; simp
      · rcases mem_insert _ _ _ hp with rfl | hp
        · right; simp
        · left; exact hp
  · exact ⟨Nat.le_refl _, hs, fun p hp => Or.inl hp⟩

theorem graphOK_rewire (verts : List VertexProps) (l : List Edge) (a b v : Nat)
    (hg : GraphOK ⟨verts, l⟩) (hab : a ≠ b) (hav : a ≠ v) (hbv : b ≠ v)
    (ha : a < verts.length) (hb : b < verts.length) (hv : v < verts.length)
    (hnew : ∀ e ∈ l, edge_key e ≠ s(a, v) ∧ edge_key e ≠ s(b, v)) :
    GraphOK ⟨verts, l.filter (fun e => !e.joins a b) ++
      [⟨a, v, false, 0⟩, ⟨b, v, false, 0⟩]⟩ := by
  obtain ⟨h1, h2, h3⟩ := hg
  simp only [WeaveGraph.num_vertices] at h3
  refine ⟨?_, ?_, ?_⟩
  · simp only [List.map_append, List.map_cons, List.map_nil]
    rw [List.nodup_append]
    refine ⟨(h1.sublist ((List.filter_sublist _).map _)), ?_, ?_⟩
    · simp only [List.nodup_cons, List.mem_singleton, List.not_mem_nil, not_false_eq_true,
        List.nodup_nil, and_true, edge_key]
      intro h
      rw [Sym2.congr_left] at h
      exact hab h
    · intro x hx1 hx2
      obtain ⟨e, he, rfl⟩ := List.mem_map.1 hx1
      have hel := (List.mem_filter.1 he).1
      rcases List.mem_cons.1 hx2 with hx2 | hx2
      · exact (hnew e hel).1 hx2
      · rcases List.mem_cons.1 hx2 with hx2 | hx2
        · exact (hnew e hel).2 hx2
        · cases hx2
  · intro e he
    rcases List.mem_append.1 he with he | he
    · exact h2 e (List.mem_filter.1 he).1
    · rcases List.mem_cons.1 he with rfl | he
      · exact hav
      · rcases List.mem_cons.1 he with rfl | he
        · exact hbv
        · cases he
  · intro e he
    simp only [WeaveGraph.num_vertices]
    rcases List.mem_append.1 he with he | he
    · exact h3 e (List.mem_filter.1 he).1
    · rcases List.mem_cons.1 he with rfl | he
      · exact ⟨ha, hv⟩
      · rcases List.mem_cons.1 he with rfl | he
        · exact ⟨hb, hv⟩
        · cases he

theorem edge_key_ne_of_lt (e : Edge) (a v n : Nat) (hs : e.source < n) (ht : e.target < n)
    (hv : n ≤ v) : edge_key e ≠ s(a, v) := by
  intro h
  rw [edge_key, Sym2.eq_iff] at h
  omega

theorem crossing_simple (ops : FiberOps) (xf yf : Fiber) (g : WeaveGraph) (xi yi : Interval)
    (r : WeaveGraph × Interval × Interval) (h : crossing ops xf yf g xi yi = Except.ok r)
    (hg : GraphOK g) (hx : SetOK g xi.intersections) (hy : SetOK g yi.intersections)
    (hd : SetsDisjoint xi.intersections yi.intersections) :
    GraphOK r.1 ∧ SetOK r.1 r.2.1.intersections ∧ SetOK r.1 r.2.2.intersections ∧
      g.num_vertices ≤ r.1.num_vertices ∧
      (∀ p ∈ r.2.1.intersections, p ∈ xi.intersections ∨ g.num_vertices ≤ p.1) ∧
      (∀ p ∈ r.2.2.intersections, p ∈ yi.intersections ∨ g.num_vertices ≤ p.1) := by
  obtain ⟨y1, y2, y3⟩ := add_endpoints_sets ops yf Point.y g yi hy
  have ye : (add_endpoints ops yf Point.y g yi).1.edges = g.edges := add_endpoints_edges _ _ _ _ _
  unfold crossing at h
  simp only at h
  generalize add_endpoints ops yf Point.y g yi = y at h y1 y2 y3 ye
  split at h
  · cases h
  · rename_i g3 h3
    split at h
    · cases h
    · rename_i g4 h4
      cases h
      obtain ⟨ax, bx, i, j, hij, hax, hbx, rfl⟩ := rewire_insert_ok _ _ _ _ _ h3
      obtain ⟨ay, by', i', j', hij', hay, hby, rfl⟩ := rewire_insert_ok _ _ _ _ _ h4
      have max : ax ∈ xi.intersections := List.getElem?_mem hax
      have mbx : bx ∈ xi.intersections := List.getElem?_mem hbx
      have may : ay ∈ y.2.intersections := List.getElem?_mem hay
      have mby : by' ∈ y.2.intersections := List.getElem?_mem hby
      have nx := getElem?_fst_ne _ hx.1 i j ax bx hij hax hbx
      have ny := getElem?_fst_ne _ y2.1 i' j' ay by' hij' hay hby
      have lax := hx.2 ax max
      have lbx := hx.2 bx mbx
      have lay := y2.2 ay may
      have lby := y2.2 by' mby
      simp only [WeaveGraph.num_vertices] at y1 lax lbx lay lby
      have dis : ∀ p ∈ xi.intersections, ∀ q ∈ y.2.intersections, p.1 ≠ q.1 := by
        intro p hp q hq
        rcases y3 q hq with hq | hq
        · exact hd p hp q hq
        · have := hx.2 p hp
          omega
      simp only [add_crossing_vertex, WeaveGraph.new_vertex, WeaveGraph.num_vertices,
        crossing_position, ye] at *
      have hg1 : GraphOK ⟨y.1.verts ++ [⟨⟨yf.p1.x, xf.p1.y, xf.p1.z⟩, VertexType.INT, 0⟩],
          g.edges⟩ := by
        refine ⟨hg.1, hg.2.1, ?_⟩
        intro e he
        have := hg.2.2 e he
        simp only [WeaveGraph.num_vertices, List.length_append, List.length_cons,
          List.length_nil] at this ⊢
        omega
      have hg3 := graphOK_rewire _ _ ax.1 bx.1 y.1.verts.length hg1 nx (by omega) (by omega)
        (by simp; omega) (by simp; omega) (by simp)
        (by
          intro e he
          have := hg.2.2 e he
          simp only [WeaveGraph.num_vertices] at this
          exact ⟨edge_key_ne_of_lt e _ _ _ this.1 this.2 y1,
            edge_key_ne_of_lt e _ _ _ this.1 this.2 y1⟩)
      have hg4 := graphOK_rewire _ _ ay.1 by'.1 y.1.verts.length hg3 ny (by omega) (by omega)
        (by simp; omega) (by simp; omega) (by simp)
        (by
          intro e he
          have key : ∀ c : VertexPair, c ∈ y.2.intersections →
              edge_key e ≠ s(c.1, y.1.verts.length) := by
            intro c hc
            rcases List.mem_append.1 he with he | he
            · have := hg.2.2 e (List.mem_filter.1 he).1
              simp only [WeaveGraph.num_vertices] at this
              exact edge_key_ne_of_lt e _ _ _ this.1 this.2 y1
            · rcases List.mem_cons.1 he with rfl | he
              · simp only [edge_key]
                intro hk
                rw [Sym2.congr_left] at hk
                exact dis ax max c hc hk
              · rcases List.mem_cons.1 he with rfl | he
                · simp only [edge_key]
                  intro hk
                  rw [Sym2.congr_left] at hk
                  exact dis bx mbx c hc hk
                · cases he
          exact ⟨key ay may, key by' mby⟩)
      refine ⟨hg4, ?_, ?_, by simp; omega, ?_, ?_⟩
      · exact setOK_insert g _ _ _ hx y1 (by simp [WeaveGraph.num_vertices])
      · exact setOK_insert y.1 _ _ _ y2 (Nat.le_refl _) (by simp [WeaveGraph.num_vertices])
      · intro p hp
        rcases mem_insert _ _ _ hp with rfl | hp
        · right; exact y1
        · left; exact hp
      · intro p hp
        rcases mem_insert _ _ _ hp with rfl | hp
        · right; exact y1
        · exact y3 p hp

theorem y_interval_loop_simple (ops : FiberOps) (xf yf : Fiber) (g : WeaveGraph)
    (xi : Interval) (yis : List Interval) (r : (WeaveGraph × Interval) × List Interval)
    (h : foreach (y_interval_step ops xf yf) (g, xi) yis = Except.ok r)
    (hg : GraphOK g) (hx : SetOK g xi.intersections)
    (hy : ∀ yj ∈ yis, SetOK g yj.intersections ∧
      SetsDisjoint xi.intersections yj.intersections) :
    GraphOK r.1.1 ∧ SetOK r.1.1 r.1.2.intersections ∧
      (∀ yj ∈ r.2, SetOK r.1.1 yj.intersections) ∧
      g.num_vertices ≤ r.1.1.num_vertices ∧
      (∀ p ∈ r.1.2.intersections, p ∈ xi.intersections ∨ g.num_vertices ≤ p.1) := by
  have := foreach_induction (y_interval_step ops xf yf)
    (fun s' done rest =>
      GraphOK s'.1 ∧ SetOK s'.1 s'.2.intersections ∧
        (∀ yj ∈ done, SetOK s'.1 yj.intersections) ∧
        (∀ yj ∈ rest, SetOK s'.1 yj.intersections ∧
          SetsDisjoint s'.2.intersections yj.intersections) ∧
        g.num_vertices ≤ s'.1.num_vertices ∧
        (∀ p ∈ s'.2.intersections, p ∈ xi.intersections ∨ g.num_vertices ≤ p.1))
    (by
      intro s' done a rest r' hI hs
      obtain ⟨i1, i2, i3, i4, i5, i6⟩ := hI
      unfold y_interval_step at hs
      split at hs
      · cases hc : crossing ops xf yf s'.1 s'.2 a with
        | error e => simp only [hc] at hs; cases hs
        | ok c =>
          simp only [hc] at hs
          cases hs
          obtain ⟨c1, c2, c3, c4, c5, c6⟩ := crossing_simple ops xf yf s'.1 s'.2 a c hc i1 i2
            (i4 a (List.mem_cons_self _ _)).1 (i4 a (List.mem_cons_self _ _)).2
          refine ⟨c1, c2, ?_, ?_, Nat.le_trans i5 c4, ?_⟩
          · intro yj hyj
            rcases List.mem_append.1 hyj with hyj | hyj
            · exact setOK_mono _ _ _ c4 (i3 yj hyj)
            · rcases List.mem_cons.1 hyj with rfl | hyj
              · exact c3
              · cases hyj
          · intro yj hyj
            have hj := i4 yj (List.mem_cons_of_mem _ hyj)
            refine ⟨setOK_mono _ _ _ c4 hj.1, ?_⟩
            intro p hp q hq
            rcases c5 p hp with hp | hp
            · exact hj.2 p hp q hq
            · have := hj.1.2 q hq
              omega
          · intro p hp
            rcases c5 p hp with hp | hp
            · exact i6 p hp
            · right; omega
      · cases hs
        refine ⟨i1, i2, ?_, ?_, i5, i6⟩
        · intro yj hyj
          rcases List.mem_append.1 hyj with hyj | hyj
          · exact i3 yj hyj
          · rcases List.mem_cons.1 hyj with rfl | hyj
            · exact (i4 _ (List.mem_cons_self _ _)).1
            · cases hyj
        · intro yj hyj
          exact i4 yj (List.mem_cons_of_mem _ hyj))
    yis (g, xi) r ⟨hg, hx, by simp, hy, Nat.le_refl _, fun p hp => Or.inl hp⟩ h
  exact ⟨this.1, this.2.1, this.2.2.1, this.2.2.2.2.1, this.2.2.2.2.2⟩

theorem y_fiber_loop_simple (ops : FiberOps) (xf : Fiber) (xi0 : Interval) (g : WeaveGraph)
    (xi : Interval) (ys : List Fiber) (r : (WeaveGraph × Interval) × List Fiber)
    (h : foreach (y_fiber_step ops xf xi0) (g, xi) ys = Except.ok r)
    (hg : GraphOK g) (hx : SetOK g xi.intersections)
    (hy : ∀ yf ∈ ys, ∀ yj ∈ yf.ints, SetOK g yj.intersections ∧
      SetsDisjoint xi.intersections yj.intersections) :
    GraphOK r.1.1 ∧ SetOK r.1.1 r.1.2.intersections ∧
      (∀ yf ∈ r.2, ∀ yj ∈ yf.ints, SetOK r.1.1 yj.intersections) ∧
      g.num_vertices ≤ r.1.1.num_vertices ∧
      (∀ p ∈ r.1.2.intersections, p ∈ xi.intersections ∨ g.num_vertices ≤ p.1) := by
  have := foreach_induction (y_fiber_step ops xf xi0)
    (fun s' done rest =>
      GraphOK s'.1 ∧ SetOK s'.1 s'.2.intersections ∧
        (∀ yf ∈ done, ∀ yj ∈ yf.ints, SetOK s'.1 yj.intersections) ∧
        (∀ yf ∈ rest, ∀ yj ∈ yf.ints, SetOK s'.1 yj.intersections ∧
          SetsDisjoint s'.2.intersections yj.intersections) ∧
        g.num_vertices ≤ s'.1.num_vertices ∧
        (∀ p ∈ s'.2.intersections, p ∈ xi.intersections ∨ g.num_vertices ≤ p.1))
    (by
      intro s' done a rest r' hI hs
      obtain ⟨i1, i2, i3, i4, i5, i6⟩ := hI
      unfold y_fiber_step at hs
      split at hs
      · cases hc : foreach (y_interval_step ops xf a) s' a.ints with
        | error e => simp only [hc] at hs; cases hs
        | ok c =>
          simp only [hc] at hs
          cases hs
          obtain ⟨c1, c2, c3, c4, c5⟩ := y_interval_loop_simple ops xf a s'.1 s'.2 a.ints c hc
            i1 i2 (i4 a (List.mem_cons_self _ _))
          refine ⟨c1, c2, ?_, ?_, Nat.le_trans i5 c4, ?_⟩
          · intro yf hyf
            rcases List.mem_append.1 hyf with hyf | hyf
            · exact fun yj hyj => setOK_mono _ _ _ c4 (i3 yf hyf yj hyj)
            · rcases List.mem_cons.1 hyf with rfl | hyf
              · exact c3
              · cases hyf
          · intro yf hyf yj hyj
            have hj := i4 yf (List.mem_cons_of_mem _ hyf) yj hyj
            refine ⟨setOK_mono _ _ _ c4 hj.1, ?_⟩
            intro p hp q hq
            rcases c5 p hp with hp | hp
            · exact hj.2 p hp q hq
            · have := hj.1.2 q hq
              omega
          · intro p hp
            rcases c5 p hp with hp | hp
            · exact i6 p hp
            · right; omega
      · cases hs
        refine ⟨i1, i2, ?_, ?_, i5, i6⟩
        · intro yf hyf
          rcases List.mem_append.1 hyf with hyf | hyf
          · exact i3 yf hyf
          · rcases List.mem_cons.1 hyf with rfl | hyf
            · exact fun yj hyj => (i4 _ (List.mem_cons_self _ _) yj hyj).1
            · cases hyf
        · intro yf hyf
          exact i4 yf (List.mem_cons_of_mem _ hyf))
    ys (g, xi) r ⟨hg, hx, by simp, hy, Nat.le_refl _, fun p hp => Or.inl hp⟩ h
  exact ⟨this.1, this.2.1, this.2.2.1, this.2.2.2.2.1, this.2.2.2.2.2⟩

theorem x_interval_step_simple (ops : FiberOps) (xf : Fiber) (s : WeaveGraph × List Fiber)
    (xi : Interval) (r : (WeaveGraph × List Fiber) × Interval)
    (h : x_interval_step ops xf s xi = Except.ok r)
    (hg : GraphOK s.1) (hx : xi.intersections = [])
    (hy : ∀ yf ∈ s.2, ∀ yj ∈ yf.ints, SetOK s.1 yj.intersections) :
    GraphOK r.1.1 ∧ (∀ yf ∈ r.1.2, ∀ yj ∈ yf.ints, SetOK r.1.1 yj.intersections) := by
  unfold x_interval_step at h
  cases hc : foreach (y_fiber_step ops xf xi) (add_endpoints ops xf Point.x s.1 xi) s.2 with
  | error e => simp only [hc] at h; cases h
  | ok c =>
    simp only [hc] at h
    cases h
    have hx0 : SetOK s.1 xi.intersections := by
      rw [hx]
      exact ⟨List.nodup_nil, fun p hp => by cases hp⟩
    obtain ⟨a1, a2, a3⟩ := add_endpoints_sets ops xf Point.x s.1 xi hx0
    have ae := add_endpoints_edges ops xf Point.x s.1 xi
    have hg1 : GraphOK (add_endpoints ops xf Point.x s.1 xi).1 := by
      refine ⟨by rw [ae]; exact hg.1, by rw [ae]; exact hg.2.1, ?_⟩
      intro e he
      rw [ae] at he
      have := hg.2.2 e he
      omega
    obtain ⟨c1, -, c3, -, -⟩ := y_fiber_loop_simple ops xf xi _ _ s.2 c hc hg1 a2 (by
      intro yf hyf yj hyj
      refine ⟨setOK_mono _ _ _ a1 (hy yf hyf yj hyj), ?_⟩
      intro p hp q hq
      rcases a3 p hp with hp | hp
      · rw [hx] at hp
        cases hp
      · have := (hy yf hyf yj hyj).2 q hq
        omega)
    exact ⟨c1, c3⟩

theorem x_interval_loop_simple (ops : FiberOps) (xf : Fiber) (s : WeaveGraph × List Fiber)
    (xis : List Interval) (r : (WeaveGraph × List Fiber) × List Interval)
    (h : foreach (x_interval_step ops xf) s xis = Except.ok r)
    (hg : GraphOK s.1) (hx : ∀ xi ∈ xis, xi.intersections = [])
    (hy : ∀ yf ∈ s.2, ∀ yj ∈ yf.ints, SetOK s.1 yj.intersections) :
    GraphOK r.1.1 ∧ (∀ yf ∈ r.1.2, ∀ yj ∈ yf.ints, SetOK r.1.1 yj.intersections) := by
  have := foreach_induction (x_interval_step ops xf)
    (fun s' _ rest =>
      GraphOK s'.1 ∧ (∀ yf ∈ s'.2, ∀ yj ∈ yf.ints, SetOK s'.1 yj.intersections) ∧
        ∀ xi ∈ rest, xi.intersections = [])
    (by
      intro s' done a rest r' hI hs
      obtain ⟨i1, i2, i3⟩ := hI
      obtain ⟨c1, c2⟩ := x_interval_step_simple ops xf s' a r' hs i1
        (i3 a (List.mem_cons_self _ _)) i2
      exact ⟨c1, c2, fun xi hxi => i3 xi (List.mem_cons_of_mem _ hxi)⟩)
    xis s r ⟨hg, hy, hx⟩ h
  exact ⟨this.1, this.2.1⟩

theorem x_fiber_loop_simple (ops : FiberOps) (s : WeaveGraph × List Fiber)
    (xs : List Fiber) (r : (WeaveGraph × List Fiber) × List Fiber)
    (h : foreach (x_fiber_step ops) s xs = Except.ok r)
    (hg : GraphOK s.1) (hx : ∀ xf ∈ xs, ∀ xi ∈ xf.ints, xi.intersections = [])
    (hy : ∀ yf ∈ s.2, ∀ yj ∈ yf.ints, SetOK s.1 yj.intersections) :
    GraphOK r.1.1 := by
  have := foreach_induction (x_fiber_step ops)
    (fun s' _ rest =>
      GraphOK s'.1 ∧ (∀ yf ∈ s'.2, ∀ yj ∈ yf.ints, SetOK s'.1 yj.intersections) ∧
        ∀ xf ∈ rest, ∀ xi ∈ xf.ints, xi.intersections = [])
    (by
      intro s' done a rest r' hI hs
      obtain ⟨i1, i2, i3⟩ := hI
      refine ⟨?_, ?_, fun xf hxf => i3 xf (List.mem_cons_of_mem _ hxf)⟩
      all_goals
        unfold x_fiber_step at hs
        split at hs
        · cases hc : foreach (x_interval_step ops a) s' a.ints with
          | error e => simp only [hc] at hs; cases hs
          | ok c =>
            simp only [hc] at hs
            cases hs
            obtain ⟨c1, c2⟩ := x_interval_loop_simple ops a s' a.ints c hc i1
              (i3 a (List.mem_cons_self _ _)) i2
            first | exact c1 | exact c2
        · cases hs
          first | exact i1 | exact i2)
    xs s r ⟨hg, hy, hx⟩ h
  exact this.1

theorem graphOK_empty : GraphOK WeaveGraph.empty := by
  simp [GraphOK, WeaveGraph.empty]

theorem build_graphOK (ops : FiberOps) (w w' : Weave) (hg : GraphOK w.g)
    (hf : ∀ f ∈ w.fibers, ∀ i ∈ f.ints, i.intersections = [])
    (h : build ops w = Except.ok w') : GraphOK w'.g := by
  unfold build at h
  cases hc : foreach (x_fiber_step ops) ((sort_fibers ops w).g, (sort_fibers ops w).yfibers)
      (sort_fibers ops w).xfibers with
  | error e => simp only [hc] at h; cases h
  | ok r =>
    simp only [hc] at h
    cases h
    refine x_fiber_loop_simple ops _ _ r hc hg ?_ ?_
    · intro f hfx
      rw [sort_fibers_xfibers] at hfx
      exact hf f (List.mem_filter.1 hfx).1
    · intro f hfy i hi
      rw [sort_fibers_yfibers] at hfy
      simp only
      rw [hf f (List.mem_filter.1 hfy).1 i hi]
      exact ⟨List.nodup_nil, fun p hp => by cases hp⟩


/-! ## Well-formed input: neighbours under one rewiring -/

theorem neighbours_append (l1 l2 : List Edge) (u : Nat) :
    neighbours (l1 ++ l2) u = neighbours l1 u ++ neighbours l2 u := by
  simp [neighbours, List.flatMap_append]

theorem neighbours_cons (e : Edge) (l : List Edge) (u : Nat) :
    neighbours (e :: l) u = ((if e.source = u then [e.target] else []) ++
      (if e.target = u then [e.source] else [])) ++ neighbours l u := by
  simp [neighbours, List.flatMap_cons]

theorem joins_comm (e : Edge) (a b : Nat) : e.joins a b = e.joins b a := by
  simp only [Edge.joins]
  rw [Bool.or_comm]

theorem joins_iff (e : Edge) (a b : Nat) :
    e.joins a b = true ↔ (e.source = a ∧ e.target = b) ∨ (e.source = b ∧ e.target = a) := by
  simp [Edge.joins]

theorem neighbours_filter_other (l : List Edge) (a b u : Nat) (hua : u ≠ a) (hub : u ≠ b) :
    neighbours (l.filter fun e => !e.joins b a) u = neighbours l u := by
  induction l with
  | nil => rfl
  | cons e t ih =>
    by_cases hj : e.joins b a = true
    · have hj' := (joins_iff e b a).1 hj
      have h1 : e.source ≠ u := by omega
      have h2 : e.target ≠ u := by omega
      simp [List.filter_cons, hj, neighbours_cons, ih, h1, h2]
    · simp [List.filter_cons, hj, neighbours_cons, ih]

theorem neighbours_filter_left (l : List Edge) (a b : Nat) (hab : a ≠ b) :
    neighbours (l.filter fun e => !e.joins b a) a = (neighbours l a).filter (fun w => w != b) := by
  have hba : b ≠ a := fun h => hab h.symm
  induction l with
  | nil => rfl
  | cons e t ih =>
    by_cases hj : e.joins b a = true
    · have hj' := (joins_iff e b a).1 hj
      rw [List.filter_cons, if_neg (by simp [hj]), ih, neighbours_cons, List.filter_append]
      rcases hj' with ⟨h1, h2⟩ | ⟨h1, h2⟩
      · simp [h1, h2, hba]
      · simp [h1, h2, hba]
    · have hj' : ¬ ((e.source = b ∧ e.target = a) ∨ (e.source = a ∧ e.target = b)) :=
        fun h => hj ((joins_iff e b a).2 h)
      rw [List.filter_cons, if_pos (by simp [hj]), neighbours_cons, ih, neighbours_cons,
        List.filter_append]
      congr 1
      by_cases h1 : e.source = a <;> by_cases h2 : e.target = a
      · simp [h1, h2, hab]
      · have : e.target ≠ b := fun h => hj' (Or.inr ⟨h1, h⟩)
        simp [h1, h2, this]
      · have : e.source ≠ b := fun h => hj' (Or.inl ⟨h, h2⟩)
        simp [h1, h2, this]
      · simp [h1, h2]

theorem neighbours_filter_right (l : List Edge) (a b : Nat) (hab : a ≠ b) :
    neighbours (l.filter fun e => !e.joins b a) b = (neighbours l b).filter (fun w => w != a) := by
  have := neighbours_filter_left l b a (fun h => hab h.symm)
  simpa only [joins_comm] using this

theorem count_neighbours (l : List Edge) (a b : Nat) (hab : a ≠ b) :
    (neighbours l a).count b = (l.map edge_key).count s(a, b) := by
  have hba : b ≠ a := fun h => hab h.symm
  induction l with
  | nil => rfl
  | cons e t ih =>
    rw [neighbours_cons, List.count_append, ih, List.map_cons, List.count_cons]
    have hk := edge_key_eq_iff e a b
    by_cases hj : e.joins a b = true
    · have hj' := (joins_iff e a b).1 hj
      have hke : (edge_key e == s(a, b)) = true := by simpa using hk.2 hj
      rw [hke]
      rcases hj' with ⟨h1, h2⟩ | ⟨h1, h2⟩
      · simp [h1, h2, hba, Nat.add_comm]
      · simp [h1, h2, hba, Nat.add_comm]
    · have hke : (edge_key e == s(a, b)) = false := by
        rw [beq_eq_false_iff_ne]
        exact fun h => hj (hk.1 h)
      have hj' : ¬ ((e.source = a ∧ e.target = b) ∨ (e.source = b ∧ e.target = a)) :=
        fun h => hj ((joins_iff e a b).2 h)
      rw [hke]
      have hz : List.count b ((if e.source = a then [e.target] else []) ++
          (if e.target = a then [e.source] else [])) = 0 := by
        rw [List.count_eq_zero]
        intro hm
        rcases List.mem_append.1 hm with hm | hm
        · by_cases h1 : e.source = a
          · rw [if_pos h1] at hm
            exact hj' (Or.inl ⟨h1, (List.mem_singleton.1 hm).symm⟩)
          · rw [if_neg h1] at hm
            cases hm
        · by_cases h2 : e.target = a
          · rw [if_pos h2] at hm
            exact hj' (Or.inr ⟨(List.mem_singleton.1 hm).symm, h2⟩)
          · rw [if_neg h2] at hm
            cases hm
      rw [hz]
      simp

theorem split_between (s : VertexPairSet) (k : Int)
    (hs : s.Pairwise (fun p q => p.2 < q.2)) (hb : Between s k) :
    ∃ pre a b post, s = pre ++ a :: b :: post ∧ a.2 < k ∧ k < b.2 := by
  induction s with
  | nil =>
    obtain ⟨⟨a, ha, -⟩, -, -⟩ := hb
    cases ha
  | cons x t ih =>
    obtain ⟨⟨a, ha, hak⟩, ⟨b, hb', hbk⟩, hne⟩ := hb
    rw [List.pairwise_cons] at hs
    cases t with
    | nil =>
      rw [List.mem_singleton] at ha hb'
      subst ha
      subst hb'
      omega
    | cons y t' =>
      have hxk : x.2 < k := by
        rcases List.mem_cons.1 ha with rfl | ha
        · exact hak
        · have := hs.1 a ha
          omega
      by_cases hyk : k < y.2
      · exact ⟨[], x, y, t', rfl, hxk, hyk⟩
      · have hyne := hne y (by simp)
        have hyk' : y.2 < k := by omega
        have hbt : b ∈ y :: t' := by
          rcases List.mem_cons.1 hb' with rfl | hb'
          · omega
          · exact hb'
        obtain ⟨pre, a', b', post, e, h1, h2⟩ := ih hs.2
          ⟨⟨y, by simp, hyk'⟩, ⟨b, hbt, hbk⟩, fun p hp => hne p (List.mem_cons_of_mem _ hp)⟩
        exact ⟨x :: pre, a', b', post, by rw [e]; rfl, h1, h2⟩

theorem chain_cons_cons (z w : Nat) (r : List Nat) :
    chain (z :: w :: r) = s(z, w) :: chain (w :: r) := rfl

theorem chain_split (l1 l2 : List Nat) (x y : Nat) :
    chain (l1 ++ x :: y :: l2) = chain (l1 ++ [x]) ++ s(x, y) :: chain (y :: l2) := by
  induction l1 with
  | nil => rfl
  | cons z t ih =>
    cases t with
    | nil => rfl
    | cons w t' =>
      simp only [List.cons_append] at ih ⊢
      rw [chain_cons_cons, chain_cons_cons, ih]
      rfl

theorem chain_edges_old (pre post : VertexPairSet) (a b : VertexPair)
    (h : 3 ≤ (pre ++ a :: b :: post).length) :
    chain_edges (pre ++ a :: b :: post)
      = (chain (pre.map Prod.fst ++ [a.1]) : Multiset (Sym2 Nat)) + {s(a.1, b.1)}
        + (chain (b.1 :: post.map Prod.fst) : Multiset (Sym2 Nat)) := by
  rw [chain_edges, if_pos h]
  simp only [List.map_append, List.map_cons]
  rw [chain_split, ← Multiset.coe_add, ← Multiset.cons_coe, ← Multiset.singleton_add]
  simp [add_assoc]

theorem chain_edges_new (pre post : VertexPairSet) (a b p : VertexPair) :
    chain_edges (pre ++ a :: p :: b :: post)
      = (chain (pre.map Prod.fst ++ [a.1]) : Multiset (Sym2 Nat)) + {s(a.1, p.1)}
        + {s(p.1, b.1)} + (chain (b.1 :: post.map Prod.fst) : Multiset (Sym2 Nat)) := by
  rw [chain_edges, if_pos (by simp; omega)]
  simp only [List.map_append, List.map_cons]
  rw [chain_split, chain_cons_cons]
  rw [← Multiset.coe_add, ← Multiset.cons_coe, ← Multiset.cons_coe, ← Multiset.singleton_add,
    ← Multiset.singleton_add]
  simp [add_assoc]

theorem map_key_filter (l : List Edge) (a b : Nat) :
    (l.filter fun e => !e.joins b a).map edge_key
      = (l.map edge_key).filter (fun x => decide (x ≠ s(a, b))) := by
  rw [List.filter_map]
  congr 1
  apply List.filter_congr
  intro e _
  have h := edge_key_eq_iff e b a
  rw [Sym2.eq_swap] at h
  by_cases hj : e.joins b a = true
  · simp [hj, h.2 hj]
  · have : edge_key e ≠ s(a, b) := fun hk => hj (h.1 hk)
    simp [hj, this]

theorem splice_keys (l : List Edge) (pre post : VertexPairSet) (a b : VertexPair) (v : Nat)
    (k : Int) (C : Multiset (Sym2 Nat)) (hab : a.1 ≠ b.1)
    (hnd : (l.map edge_key).Nodup)
    (hF : ((l.map edge_key : List (Sym2 Nat)) : Multiset (Sym2 Nat))
      = chain_edges (pre ++ a :: b :: post) + C)
    (hfresh : (pre ++ a :: b :: post).length ≤ 2 → neighbours l a.1 = []) :
    (((l.filter (fun e : Edge => !e.joins b.1 a.1) ++
        [(⟨b.1, v, false, 0⟩ : Edge), ⟨a.1, v, false, 0⟩]).map edge_key : List (Sym2 Nat)) :
        Multiset (Sym2 Nat))
      = chain_edges (pre ++ a :: (v, k) :: b :: post) + C := by
  rw [List.map_append, ← Multiset.coe_add, map_key_filter, ← Multiset.filter_coe, hF,
    chain_edges_new]
  have hnew : (([(⟨b.1, v, false, 0⟩ : Edge), ⟨a.1, v, false, 0⟩].map edge_key :
      List (Sym2 Nat)) : Multiset (Sym2 Nat)) = {s(a.1, v)} + {s(v, b.1)} := by
    simp only [List.map_cons, List.map_nil, edge_key]
    rw [← Multiset.cons_coe, ← Multiset.cons_coe, ← Multiset.singleton_add,
      ← Multiset.singleton_add, Sym2.eq_swap]
    simp [add_comm]
  rw [hnew]
  by_cases h3 : 3 ≤ (pre ++ a :: b :: post).length
  · rw [chain_edges_old pre post a b h3] at hF ⊢
    have hnd' : (((l.map edge_key : List (Sym2 Nat)) : Multiset (Sym2 Nat))).Nodup :=
      Multiset.coe_nodup.2 hnd
    rw [hF] at hnd'
    have e1 : (chain (pre.map Prod.fst ++ [a.1]) : Multiset (Sym2 Nat)) + {s(a.1, b.1)}
        + (chain (b.1 :: post.map Prod.fst) : Multiset (Sym2 Nat)) + C
        = s(a.1, b.1) ::ₘ ((chain (pre.map Prod.fst ++ [a.1]) : Multiset (Sym2 Nat))
          + (chain (b.1 :: post.map Prod.fst) : Multiset (Sym2 Nat)) + C) := by
      rw [← Multiset.singleton_add]
      abel
    rw [e1] at hnd' ⊢
    rw [Multiset.nodup_cons] at hnd'
    rw [Multiset.filter_cons_of_neg _ (fun h => h rfl),
      Multiset.filter_eq_self.2]
    · abel
    · intro x hx hxe
      exact hnd'.1 (hxe ▸ hx)
  · have hlen : pre = [] ∧ post = [] := by
      simp only [List.length_append, List.length_cons] at h3
      constructor
      · apply List.eq_nil_of_length_eq_zero; omega
      · apply List.eq_nil_of_length_eq_zero; omega
    obtain ⟨rfl, rfl⟩ := hlen
    have h0 : chain_edges ([] ++ a :: b :: []) = 0 := by
      rw [chain_edges, if_neg h3]
    rw [h0, zero_add] at hF ⊢
    have hz := hfresh (by omega)
    have hc := count_neighbours l a.1 b.1 hab
    rw [hz, List.count_nil] at hc
    have hnm : s(a.1, b.1) ∉ C := by
      rw [← hF, Multiset.mem_coe]
      exact fun hm => by
        have := List.count_pos_iff.2 hm
        omega
    rw [Multiset.filter_eq_self.2]
    · have hc1 : (chain (List.map Prod.fst ([] : VertexPairSet) ++ [a.1]) :
          Multiset (Sym2 Nat)) = 0 := rfl
      have hc2 : (chain (b.1 :: List.map Prod.fst ([] : VertexPairSet)) :
          Multiset (Sym2 Nat)) = 0 := rfl
      rw [hc1, hc2]
      abel
    · intro x hx hxe
      exact hnm (hxe ▸ hx)

theorem edge_slot_on_line (g : WeaveGraph) (horiz : Bool) (line : Int) (u w : VertexPair)
    (hu : OnLine g horiz line u) (hw : OnLine g horiz line w) (h : u.2 < w.2) :
    edge_slot g u.1 w.1 = some (if horiz then 3 else 2) ∧
      edge_slot g w.1 u.1 = some (if horiz then 1 else 0) := by
  cases horiz
  · simp only [OnLine, Bool.false_eq_true, if_false] at hu hw
    simp only [edge_slot, slot_of, hu.1, hu.2, hw.1, hw.2, Bool.false_eq_true, if_false]
    constructor
    · rw [if_neg (by omega), if_neg (by omega), if_pos (by omega)]
    · rw [if_pos (by omega)]
  · simp only [OnLine, if_true] at hu hw
    simp only [edge_slot, slot_of, hu.1, hu.2, hw.1, hw.2, if_true]
    constructor
    · rw [if_neg (by omega), if_neg (by omega), if_neg (by omega), if_pos (by omega)]
    · rw [if_neg (by omega), if_pos (by omega)]

theorem slots_replace (N : List Nat) (f : Nat → Option Nat) (b v : Nat)
    (hc : N.count b = 1) (hf : f v = f b) :
    ((N.filter (fun w => w != b) ++ [v]).map f).Perm (N.map f) := by
  have h1 : (N.filter (fun w => w != b) ++ N.filter (fun w => !(w != b))).Perm N :=
    List.filter_append_perm _ N
  have h2 : N.filter (fun w => !(w != b)) = [b] := by
    have : N.filter (fun w => !(w != b)) = N.filter (fun w => w == b) := by
      apply List.filter_congr
      intro x _
      simp [bne]
    rw [this, List.filter_beq, hc]
    rfl
  rw [h2] at h1
  have h3 := h1.map f
  simpa [hf] using h3

theorem splice_neighbours (l : List Edge) (a b v : Nat) (hab : a ≠ b) (hva : v ≠ a)
    (hvb : v ≠ b) :
    neighbours (l.filter (fun e : Edge => !e.joins b a) ++
        [(⟨b, v, false, 0⟩ : Edge), ⟨a, v, false, 0⟩]) v = neighbours l v ++ [b, a] ∧
      neighbours (l.filter (fun e : Edge => !e.joins b a) ++
        [(⟨b, v, false, 0⟩ : Edge), ⟨a, v, false, 0⟩]) a
          = (neighbours l a).filter (fun w => w != b) ++ [v] ∧
      neighbours (l.filter (fun e : Edge => !e.joins b a) ++
        [(⟨b, v, false, 0⟩ : Edge), ⟨a, v, false, 0⟩]) b
          = (neighbours l b).filter (fun w => w != a) ++ [v] ∧
      ∀ u, u ≠ a → u ≠ b → u ≠ v →
        neighbours (l.filter (fun e : Edge => !e.joins b a) ++
          [(⟨b, v, false, 0⟩ : Edge), ⟨a, v, false, 0⟩]) u = neighbours l u := by
  have hba : b ≠ a := fun h => hab h.symm
  have hav : a ≠ v := fun h => hva h.symm
  have hbv : b ≠ v := fun h => hvb h.symm
  refine ⟨?_, ?_, ?_, ?_⟩
  · rw [neighbours_append, neighbours_filter_other l a b v hva hvb]
    simp [neighbours, hbv, hav]
  · rw [neighbours_append, neighbours_filter_left l a b hab]
    simp [neighbours, hba, hva]
  · rw [neighbours_append, neighbours_filter_right l a b hab]
    simp [neighbours, hab, hvb]
  · intro u hua hub huv
    rw [neighbours_append, neighbours_filter_other l a b u hua hub]
    have h1 : a ≠ u := fun h => hua h.symm
    have h2 : b ≠ u := fun h => hub h.symm
    have h3 : v ≠ u := fun h => huv h.symm
    simp [neighbours, h1, h2, h3]

theorem mem_neighbours_of_key (l : List Edge) (e : Edge) (u v : Nat) (he : e ∈ l)
    (hk : edge_key e = s(u, v)) : u ∈ neighbours l v := by
  simp only [neighbours, List.mem_flatMap]
  refine ⟨e, he, ?_⟩
  rw [edge_key, Sym2.eq_iff] at hk
  rcases hk with ⟨h1, h2⟩ | ⟨h1, h2⟩
  · simp [h1, h2]
  · simp [h1, h2]

theorem vertexGood_replace {geo : Bool} (g : WeaveGraph) (l' : List Edge) (u w v : Nat)
    (hgood : VertexGood geo g u)
    (hn : neighbours l' u = (neighbours g.edges u).filter (fun x => x != w) ++ [v])
    (hcase : ((neighbours g.edges u).count w = 1 ∧
        (geo = true → edge_slot g u v = edge_slot g u w)) ∨
      (neighbours g.edges u = [] ∧ (geo = true → edge_slot g u v ≠ none))) :
    VertexGood geo ⟨g.verts, l'⟩ u := by
  obtain ⟨g1, g3, g5⟩ := hgood
  have hs : slots ⟨g.verts, l'⟩ u
      = ((neighbours g.edges u).filter (fun x => x != w) ++ [v]).map (edge_slot g u) := by
    simp only [slots, hn]
    rfl
  rcases hcase with ⟨hc, hf⟩ | ⟨hc, hf⟩
  · refine ⟨?_, ?_, ?_⟩
    · intro hgeo
      have hp := slots_replace (neighbours g.edges u) (edge_slot g u) w v hc (hf hgeo)
      refine ⟨?_, ?_⟩
      · rw [hs]
        exact hp.nodup_iff.2 (g1 hgeo).1
      · intro σ hσ
        rw [hs] at hσ
        exact (g1 hgeo).2 σ (hp.mem_iff.1 hσ)
    · intro ht
      have hd := g3 ht
      have hp := slots_replace (neighbours g.edges u) (fun _ => none) w v hc rfl
      have hl := hp.length_eq
      simp only [List.length_map] at hl
      simp only [WeaveGraph.degree, hn] at hd ⊢
      omega
    · intro ht
      have hd := g5 ht
      have hp := slots_replace (neighbours g.edges u) (fun _ => none) w v hc rfl
      have hl := hp.length_eq
      simp only [List.length_map] at hl
      simp only [WeaveGraph.degree, hn] at hd ⊢
      omega
  · refine ⟨?_, ?_, ?_⟩
    · intro hgeo
      refine ⟨?_, ?_⟩
      · rw [hs, hc]
        simp
      · intro σ hσ
        rw [hs, hc] at hσ
        simp only [List.filter_nil, List.nil_append, List.map_cons, List.map_nil,
          List.mem_singleton] at hσ
        rw [hσ]
        exact hf hgeo
    · intro ht
      have hd := g3 ht
      simp only [WeaveGraph.degree, hc, List.length_nil] at hd
      omega
    · intro _
      simp [WeaveGraph.degree, hn, hc]

theorem vertexGood_same {geo : Bool} (g : WeaveGraph) (l' : List Edge) (u : Nat)
    (hgood : VertexGood geo g u) (hn : neighbours l' u = neighbours g.edges u) :
    VertexGood geo ⟨g.verts, l'⟩ u := by
  obtain ⟨g1, g3, g5⟩ := hgood
  have hs : slots ⟨g.verts, l'⟩ u = slots g u := by
    simp only [slots, hn]
    rfl
  refine ⟨?_, ?_, ?_⟩
  · rw [hs]
    exact g1
  · intro ht
    have hd := g3 ht
    simp only [WeaveGraph.degree, hn] at hd ⊢
    exact hd
  · intro ht
    have hd := g5 ht
    simp only [WeaveGraph.degree, hn] at hd ⊢
    exact hd

/-- One rewiring on well-formed data: the new vertex `v`, with coordinate `k` strictly between
two entries of the ordered set `s`, is spliced between its two neighbours `a` and `b`. -/
theorem splice {geo : Bool} (g : WeaveGraph) (horiz : Bool) (line : Int) (s : VertexPairSet)
    (v : Nat)
    (k : Int) (C : Multiset (Sym2 Nat))
    (hg : GraphOK g) (hs : SetInv geo g horiz line s) (hb : Between s k)
    (hv : v < g.num_vertices) (hvs : ∀ p ∈ s, p.1 ≠ v) (hvl : geo = true → OnLine g horiz line
    (v, k))
    (hF : edge_keys g = chain_edges s + C)
    (hnv : ∀ p ∈ s, p.1 ∉ neighbours g.edges v) :
    ∃ (pre : VertexPairSet) (a b : VertexPair) (post : VertexPairSet) (l' : List Edge),
      s = pre ++ a :: b :: post ∧
      VertexPairSet.insert s (v, k) = pre ++ a :: (v, k) :: b :: post ∧
      rewire (VertexPairSet.insert s (v, k)) v k g = Except.ok ⟨g.verts, l'⟩ ∧
      GraphOK ⟨g.verts, l'⟩ ∧
      edge_keys ⟨g.verts, l'⟩ = chain_edges (VertexPairSet.insert s (v, k)) + C ∧
      neighbours l' v = neighbours g.edges v ++ [b.1, a.1] ∧
      (geo = true → edge_slot g v b.1 = some (if horiz then 3 else 2)) ∧
      (geo = true → edge_slot g v a.1 = some (if horiz then 1 else 0)) ∧
      (∀ u, u ≠ v → VertexGood geo g u → VertexGood geo ⟨g.verts, l'⟩ u) ∧
      (∀ u, u ≠ v → (∀ p ∈ s, p.1 ≠ u) → neighbours l' u = neighbours g.edges u) := by
  obtain ⟨⟨hnd, hlt⟩, ⟨hsorted, hline, -⟩, hfresh⟩ := hs
  obtain ⟨pre, a, b, post, rfl, hak, hkb⟩ := split_between s k hsorted hb
  have ma : a ∈ pre ++ a :: b :: post := by simp
  have mb : b ∈ pre ++ a :: b :: post := by simp
  have hab : a.1 ≠ b.1 := by
    have hnd' := hnd
    rw [List.map_append, List.nodup_append] at hnd'
    obtain ⟨-, h2, -⟩ := hnd'
    rw [List.map_cons, List.nodup_cons, List.map_cons] at h2
    exact fun h => h2.1 (List.mem_cons.2 (Or.inl h))
  have hva : v ≠ a.1 := fun h => hvs a ma h.symm
  have hvb : v ≠ b.1 := fun h => hvs b mb h.symm
  have hab2 : a.2 < b.2 := by omega
  have sav := fun hgeo : geo = true =>
    edge_slot_on_line g horiz line a (v, k) (hline hgeo a ma) (hvl hgeo) hak
  have svb := fun hgeo : geo = true =>
    edge_slot_on_line g horiz line (v, k) b (hvl hgeo) (hline hgeo b mb) hkb
  have sab := fun hgeo : geo = true =>
    edge_slot_on_line g horiz line a b (hline hgeo a ma) (hline hgeo b mb) hab2
  have hins := insert_between pre post a b (v, k) hsorted hak hkb
  have hsorted' := pairwise_insert_between pre post a b (v, k) hsorted hak hkb
  obtain ⟨n1, n2, n3, n4⟩ := splice_neighbours g.edges a.1 b.1 v hab hva hvb
  refine ⟨pre, a, b, post, g.edges.filter (fun e : Edge => !e.joins b.1 a.1) ++
    [(⟨b.1, v, false, 0⟩ : Edge), ⟨a.1, v, false, 0⟩], rfl, hins, ?_, ?_, ?_, n1,
    fun hgeo => (svb hgeo).1, fun hgeo => (sav hgeo).2, ?_, ?_⟩
  · rw [hins]
    exact rewire_between pre post a b v k g hsorted'
  · have := graphOK_rewire g.verts g.edges b.1 a.1 v hg (fun h => hab h.symm)
      (fun h => hvb h.symm) (fun h => hva h.symm) (hlt b mb) (hlt a ma) hv
      (by
        intro e he
        exact ⟨fun hk => hnv b mb (mem_neighbours_of_key g.edges e b.1 v he hk),
          fun hk => hnv a ma (mem_neighbours_of_key g.edges e a.1 v he hk)⟩)
    exact this
  · rw [hins]
    exact splice_keys g.edges pre post a b v k C hab hg.1 hF (fun h => hfresh h a ma)
  · intro u huv hgood
    by_cases hua : u = a.1
    · subst hua
      apply vertexGood_replace g _ a.1 b.1 v hgood n2
      by_cases h3 : 3 ≤ (pre ++ a :: b :: post).length
      · left
        refine ⟨?_, fun hgeo => by rw [(sav hgeo).1, (sab hgeo).1]⟩
        rw [count_neighbours g.edges a.1 b.1 hab]
        apply List.count_eq_one_of_mem hg.1
        have hm : s(a.1, b.1) ∈ edge_keys g := by
          rw [hF, chain_edges_old pre post a b h3]
          simp
        exact Multiset.mem_coe.1 hm
      · right
        exact ⟨hfresh (by omega) a ma, fun hgeo => by rw [(sav hgeo).1]; simp⟩
    · by_cases hub : u = b.1
      · subst hub
        apply vertexGood_replace g _ b.1 a.1 v hgood n3
        by_cases h3 : 3 ≤ (pre ++ a :: b :: post).length
        · left
          refine ⟨?_, fun hgeo => by rw [(svb hgeo).2, (sab hgeo).2]⟩
          rw [count_neighbours g.edges b.1 a.1 (fun h => hab h.symm)]
          apply List.count_eq_one_of_mem hg.1
          have hm : s(b.1, a.1) ∈ edge_keys g := by
            rw [hF, chain_edges_old pre post a b h3, Sym2.eq_swap]
            simp
          exact Multiset.mem_coe.1 hm
        · right
          exact ⟨hfresh (by omega) b mb, fun hgeo => by rw [(svb hgeo).2]; simp⟩
      · exact vertexGood_same g _ u hgood (n4 u hua hub huv)
  · intro u huv hus
    exact n4 u (fun h => hus a ma h.symm) (fun h => hus b mb h.symm) huv

/-! ## Well-formed input: growing the graph -/

theorem mem_neighbours (l : List Edge) (u w : Nat) (h : w ∈ neighbours l u) :
    ∃ e ∈ l, (e.source = u ∧ e.target = w) ∨ (e.target = u ∧ e.source = w) := by
  simp only [neighbours, List.mem_flatMap, List.mem_append] at h
  obtain ⟨e, he, h⟩ := h
  refine ⟨e, he, ?_⟩
  rcases h with h | h
  · by_cases h1 : e.source = u
    · rw [if_pos h1, List.mem_singleton] at h
      exact Or.inl ⟨h1, h.symm⟩
    · rw [if_neg h1] at h
      cases h
  · by_cases h1 : e.target = u
    · rw [if_pos h1, List.mem_singleton] at h
      exact Or.inr ⟨h1, h.symm⟩
    · rw [if_neg h1] at h
      cases h

theorem neighbours_eq_nil (g : WeaveGraph) (u : Nat) (hg : GraphOK g)
    (hu : g.num_vertices ≤ u) : neighbours g.edges u = [] := by
  rw [List.eq_nil_iff_forall_not_mem]
  intro w hw
  obtain ⟨e, he, h⟩ := mem_neighbours _ _ _ hw
  have := hg.2.2 e he
  omega

theorem neighbours_lt (g : WeaveGraph) (u w : Nat) (hg : GraphOK g)
    (hw : w ∈ neighbours g.edges u) : u < g.num_vertices ∧ w < g.num_vertices := by
  obtain ⟨e, he, h⟩ := mem_neighbours _ _ _ hw
  have := hg.2.2 e he
  omega

theorem position_append (verts extra : List VertexProps) (l l' : List Edge) (u : Nat)
    (hu : u < verts.length) :
    (⟨verts ++ extra, l'⟩ : WeaveGraph).position u = (⟨verts, l⟩ : WeaveGraph).position u ∧
      (⟨verts ++ extra, l'⟩ : WeaveGraph).vertex_type u
        = (⟨verts, l⟩ : WeaveGraph).vertex_type u := by
  simp [WeaveGraph.position, WeaveGraph.vertex_type, List.getElem?_append_left hu]

theorem position_last (verts : List VertexProps) (p : VertexProps) (l : List Edge) :
    (⟨verts ++ [p], l⟩ : WeaveGraph).position verts.length = p.position ∧
      (⟨verts ++ [p], l⟩ : WeaveGraph).vertex_type verts.length = some p.type := by
  simp [WeaveGraph.position, WeaveGraph.vertex_type]

/-- A graph that extends another: same edges, more vertices, the old vertices unchanged. -/
theorem vertexGood_grow {geo : Bool} (g g' : WeaveGraph) (u : Nat) (hg : GraphOK g)
    (he : g'.edges = g.edges)
    (hp : ∀ w < g.num_vertices, g'.position w = g.position w ∧
      g'.vertex_type w = g.vertex_type w)
    (hu : u < g.num_vertices) (hgood : VertexGood geo g u) : VertexGood geo g' u := by
  obtain ⟨g1, g3, g5⟩ := hgood
  have hs : slots g' u = slots g u := by
    simp only [slots, he]
    apply List.map_congr_left
    intro w hw
    have hw' := (neighbours_lt g u w hg hw).2
    simp only [edge_slot, (hp u hu).1, (hp w hw').1]
  refine ⟨by rw [hs]; exact g1, ?_, ?_⟩
  · intro ht
    rw [(hp u hu).2] at ht
    have := g3 ht
    simpa [WeaveGraph.degree, he] using this
  · intro ht
    rw [(hp u hu).2] at ht
    have := g5 ht
    simpa [WeaveGraph.degree, he] using this

theorem vertexGood_isolated {geo : Bool} (g : WeaveGraph) (u : Nat)
    (hn : neighbours g.edges u = []) (ht : g.vertex_type u ≠ some VertexType.INT) :
    VertexGood geo g u := by
  refine ⟨fun _ => ?_, fun h => absurd h ht, fun _ => ?_⟩
  · simp [slots, hn]
  · simp [WeaveGraph.degree, hn]

theorem onLine_grow (g g' : WeaveGraph) (horiz : Bool) (line : Int) (p : VertexPair)
    (hp : g'.position p.1 = g.position p.1) (h : OnLine g horiz line p) :
    OnLine g' horiz line p := by
  simp only [OnLine, hp] at h ⊢
  exact h

theorem setGeo_grow {geo : Bool} (g g' : WeaveGraph) (horiz : Bool) (line : Int)
    (s : VertexPairSet) (hs : SetOK g s)
    (hp : ∀ w < g.num_vertices, g'.position w = g.position w ∧
      g'.vertex_type w = g.vertex_type w)
    (h : SetGeo geo g horiz line s) : SetGeo geo g' horiz line s :=
  ⟨h.1, fun hgeo p hpm =>
    onLine_grow g g' horiz line p (hp p.1 (hs.2 p hpm)).1 (h.2.1 hgeo p hpm),
    fun p hpm => by rw [(hp p.1 (hs.2 p hpm)).1]; exact h.2.2 p hpm⟩

theorem sorted_insert (s : VertexPairSet) (p : VertexPair)
    (hs : s.Pairwise (fun p q => p.2 < q.2)) :
    (VertexPairSet.insert s p).Pairwise (fun p q => p.2 < q.2) := by
  induction s with
  | nil => simp [VertexPairSet.insert]
  | cons q t ih =>
    rw [List.pairwise_cons] at hs
    unfold VertexPairSet.insert
    split
    · rename_i h
      rw [List.pairwise_cons, List.pairwise_cons]
      refine ⟨?_, hs⟩
      intro x hx
      rcases List.mem_cons.1 hx with rfl | hx
      · exact h
      · have := hs.1 x hx
        omega
    · split
      · rename_i h1 h2
        rw [List.pairwise_cons]
        refine ⟨?_, ih hs.2⟩
        intro x hx
        rcases mem_insert t p x hx with rfl | hx
        · exact h2
        · exact hs.1 x hx
      · rw [List.pairwise_cons]
        exact hs

theorem mem_insert_of_mem (s : VertexPairSet) (p q : VertexPair) (h : q ∈ s) :
    q ∈ VertexPairSet.insert s p := by
  rcases (insert_cases s p).1 with h1 | h1
  · rw [h1]
    have : q ∈ s.take (VertexPairSet.lower_bound s p.2) ++ s.drop (VertexPairSet.lower_bound s p.2) := by
      rw [List.take_append_drop]
      exact h
    rcases List.mem_append.1 this with h2 | h2
    · exact List.mem_append_left _ h2
    · exact List.mem_append_right _ (List.mem_cons_of_mem _ h2)
  · rw [h1]
    exact h

theorem length_insert_le (s : VertexPairSet) (p : VertexPair) :
    (VertexPairSet.insert s p).length ≤ s.length + 1 := by
  rcases (insert_cases s p).1 with h1 | h1
  · rw [h1]
    simp only [List.length_append, List.length_cons, List.length_take, List.length_drop]
    omega
  · rw [h1]
    omega

theorem between_mono (s s' : VertexPairSet) (k : Int) (h : Between s k)
    (hsub : ∀ q ∈ s, q ∈ s') (hnew : ∀ q ∈ s', q ∈ s ∨ q.2 ≠ k) : Between s' k := by
  obtain ⟨⟨a, ha, hak⟩, ⟨b, hb, hbk⟩, hne⟩ := h
  refine ⟨⟨a, hsub a ha, hak⟩, ⟨b, hsub b hb, hbk⟩, ?_⟩
  intro q hq
  rcases hnew q hq with h | h
  · exact hne q h
  · exact h

theorem between_insert (s : VertexPairSet) (p : VertexPair) (k : Int) (h : Between s k)
    (hk : k ≠ p.2) : Between (VertexPairSet.insert s p) k := by
  apply between_mono s _ k h (fun q hq => mem_insert_of_mem s p q hq)
  intro q hq
  rcases mem_insert s p q hq with rfl | hq
  · exact Or.inr (fun h => hk h.symm)
  · exact Or.inl hq

theorem inner_insert (pre post : VertexPairSet) (a b p : VertexPair) (u : Nat)
    (h : Inner (pre ++ a :: b :: post) u) : Inner (pre ++ a :: p :: b :: post) u := by
  obtain ⟨h1, h2, h3⟩ := h
  refine ⟨?_, ?_, ?_⟩
  · simp only [List.map_append, List.map_cons, List.mem_append, List.mem_cons] at h1 ⊢
    tauto
  · intro q hq
    apply h2 q
    cases pre <;> simpa using hq
  · intro q hq
    apply h3 q
    simp only [List.getLast?_append, List.getLast?_cons_cons] at hq ⊢
    exact hq

theorem inner_new (pre post : VertexPairSet) (a b p : VertexPair)
    (ha : a.1 ≠ p.1) (hb : b.1 ≠ p.1) (hpre : ∀ q ∈ pre, q.1 ≠ p.1)
    (hpost : ∀ q ∈ post, q.1 ≠ p.1) : Inner (pre ++ a :: p :: b :: post) p.1 := by
  refine ⟨by simp, ?_, ?_⟩
  · intro q hq
    cases pre with
    | nil =>
      simp only [List.nil_append, List.head?_cons, Option.mem_def, Option.some.injEq] at hq
      rw [← hq]
      exact ha
    | cons x t =>
      simp only [List.cons_append, List.head?_cons, Option.mem_def, Option.some.injEq] at hq
      rw [← hq]
      exact hpre x (by simp)
  · intro q hq
    have hm : q ∈ b :: post := by
      have : q ∈ (pre ++ [a, p] ++ b :: post).getLast? := by simpa using hq
      rw [List.getLast?_append_of_ne_nil _ (by simp)] at this
      exact List.mem_of_mem_getLast? this
    rcases List.mem_cons.1 hm with rfl | hm
    · exact hb
    · exact hpost q hm

theorem getElem?_append_fst {α : Type} (l : List α) (x y : α) :
    (l ++ [x, y])[l.length]? = some x := by
  induction l with
  | nil => rfl
  | cons a t ih => simpa using ih

theorem getElem?_append_snd {α : Type} (l : List α) (x y : α) :
    (l ++ [x, y])[l.length + 1]? = some y := by
  induction l with
  | nil => rfl
  | cons a t ih => simpa using ih

theorem add_endpoints_woven (ops : FiberOps) (f : Fiber) (key : Point → Int) (g : WeaveGraph)
    (i : Interval) (hw : i.in_weave = true) : add_endpoints ops f key g i = (g, i) := by
  simp [add_endpoints, hw]

theorem add_endpoints_fresh (ops : FiberOps) (f : Fiber) (key : Point → Int) (g : WeaveGraph)
    (i : Interval) (hw : i.in_weave = false) :
    add_endpoints ops f key g i =
      (⟨g.verts ++ [⟨f.point ops i.lower, VertexType.CL, 0⟩,
          ⟨f.point ops i.upper, VertexType.CL, 0⟩], g.edges⟩,
        ⟨i.lower, i.upper, true,
          VertexPairSet.insert
            (VertexPairSet.insert i.intersections (g.verts.length, key (f.point ops i.lower)))
            (g.verts.length + 1, key (f.point ops i.upper))⟩) := by
  simp [add_endpoints, hw, add_vertex, WeaveGraph.new_vertex, WeaveGraph.num_vertices]

theorem materialise_wf {geo : Bool} (ops : FiberOps) (f : Fiber) (horiz : Bool) (key : Point → Int)
    (g : WeaveGraph) (i : Interval) (hkey : ∀ p, key p = axis_key horiz p)
    (hg : GraphOK g) (hV : ∀ u < g.num_vertices, VertexGood geo g u)
    (hs : IntervalStruct geo ops g horiz f i) :
    (add_endpoints ops f key g i).1.edges = g.edges ∧
      g.num_vertices ≤ (add_endpoints ops f key g i).1.num_vertices ∧
      (∀ w < g.num_vertices,
        (add_endpoints ops f key g i).1.position w = g.position w ∧
        (add_endpoints ops f key g i).1.vertex_type w = g.vertex_type w) ∧
      (∀ w, g.num_vertices ≤ w → w < (add_endpoints ops f key g i).1.num_vertices →
        (add_endpoints ops f key g i).1.vertex_type w = some VertexType.CL) ∧
      SetInv geo (add_endpoints ops f key g i).1 horiz (axis_line horiz f)
        (add_endpoints ops f key g i).2.intersections ∧
      chain_edges (add_endpoints ops f key g i).2.intersections = chain_edges i.intersections ∧
      (∀ p ∈ (add_endpoints ops f key g i).2.intersections,
        p ∈ i.intersections ∨ g.num_vertices ≤ p.1) ∧
      (add_endpoints ops f key g i).2.in_weave = true ∧
      (add_endpoints ops f key g i).2.lower = i.lower ∧
      (add_endpoints ops f key g i).2.upper = i.upper ∧
      GraphOK (add_endpoints ops f key g i).1 ∧
      (∀ u < (add_endpoints ops f key g i).1.num_vertices,
        VertexGood geo (add_endpoints ops f key g i).1 u) ∧
      (∀ k, KeyCond ops horiz f i k →
        Between (add_endpoints ops f key g i).2.intersections k) ∧
      (∀ u, Inner i.intersections u → Inner (add_endpoints ops f key g i).2.intersections u) := by
  cases hw : i.in_weave
  · simp only [IntervalStruct, hw, Bool.false_eq_true, if_false] at hs
    obtain ⟨hnil, hax⟩ := hs
    have hs0 : SetOK g i.intersections := by
      rw [hnil]
      exact ⟨List.nodup_nil, fun p hp => by cases hp⟩
    obtain ⟨a1, a2, a3⟩ := add_endpoints_sets ops f key g i hs0
    rw [add_endpoints_fresh ops f key g i hw] at a1 a2 a3 ⊢
    simp only [hnil] at a1 a2 a3 ⊢
    have hpos : ∀ w < g.num_vertices,
        (⟨g.verts ++ [⟨f.point ops i.lower, VertexType.CL, 0⟩,
          ⟨f.point ops i.upper, VertexType.CL, 0⟩], g.edges⟩ : WeaveGraph).position w
            = g.position w ∧
        (⟨g.verts ++ [⟨f.point ops i.lower, VertexType.CL, 0⟩,
          ⟨f.point ops i.upper, VertexType.CL, 0⟩], g.edges⟩ : WeaveGraph).vertex_type w
            = g.vertex_type w :=
      fun w hw' => position_append g.verts _ g.edges g.edges w hw'
    have hgraph : GraphOK (⟨g.verts ++ [⟨f.point ops i.lower, VertexType.CL, 0⟩,
          ⟨f.point ops i.upper, VertexType.CL, 0⟩], g.edges⟩ : WeaveGraph) := by
      refine ⟨hg.1, hg.2.1, ?_⟩
      intro e he
      have := hg.2.2 e he
      simp only [WeaveGraph.num_vertices, List.length_append, List.length_cons,
        List.length_nil] at this ⊢
      omega
    have htype : ∀ w, g.num_vertices ≤ w →
        w < (⟨g.verts ++ [⟨f.point ops i.lower, VertexType.CL, 0⟩,
          ⟨f.point ops i.upper, VertexType.CL, 0⟩], g.edges⟩ : WeaveGraph).num_vertices →
        (⟨g.verts ++ [⟨f.point ops i.lower, VertexType.CL, 0⟩,
          ⟨f.point ops i.upper, VertexType.CL, 0⟩], g.edges⟩ : WeaveGraph).vertex_type w
            = some VertexType.CL := by
      intro w h1 h2
      simp only [WeaveGraph.num_vertices, List.length_append, List.length_cons,
        List.length_nil] at h1 h2
      have hw' : w = g.verts.length ∨ w = g.verts.length + 1 := by omega
      rcases hw' with rfl | rfl
      · simp only [WeaveGraph.vertex_type, getElem?_append_fst]
        rfl
      · simp only [WeaveGraph.vertex_type, getElem?_append_snd]
        rfl
    have hmem : ∀ p ∈ VertexPairSet.insert
        (VertexPairSet.insert [] (g.verts.length, key (f.point ops i.lower)))
        (g.verts.length + 1, key (f.point ops i.upper)),
        p = (g.verts.length, key (f.point ops i.lower)) ∨
          p = (g.verts.length + 1, key (f.point ops i.upper)) := by
      intro p hp
      rcases mem_insert _ _ _ hp with h | h
      · exact Or.inr h
      · rcases mem_insert _ _ _ h with h | h
        · exact Or.inl h
        · cases h
    refine ⟨by first | rfl | trivial, a1, hpos, htype, ⟨a2, ⟨?_, ?_, ?_⟩, ?_⟩, ?_, a3,
      by first | rfl | trivial, by first | rfl | trivial, by first | rfl | trivial, hgraph,
      ?_, ?_, ?_⟩
    · exact sorted_insert _ _ (sorted_insert _ _ List.Pairwise.nil)
    · intro hgeo p hp
      obtain ⟨hax1, hax2⟩ := hax hgeo
      rcases hmem p hp with rfl | rfl
      · have hp1 : (⟨g.verts ++ [⟨f.point ops i.lower, VertexType.CL, 0⟩,
            ⟨f.point ops i.upper, VertexType.CL, 0⟩], g.edges⟩ : WeaveGraph).position
            g.verts.length = f.point ops i.lower := by
          simp only [WeaveGraph.position, getElem?_append_fst]
        cases horiz
        · simp only [OnLine, hp1, hkey, axis_key, axis_off, axis_line, Bool.false_eq_true,
            if_false] at hax1 ⊢
          exact ⟨trivial, hax1⟩
        · simp only [OnLine, hp1, hkey, axis_key, axis_off, axis_line, if_true] at hax1 ⊢
          exact ⟨trivial, hax1⟩
      · have hp1 : (⟨g.verts ++ [⟨f.point ops i.lower, VertexType.CL, 0⟩,
            ⟨f.point ops i.upper, VertexType.CL, 0⟩], g.edges⟩ : WeaveGraph).position
            (g.verts.length + 1) = f.point ops i.upper := by
          simp only [WeaveGraph.position, getElem?_append_snd]
        cases horiz
        · simp only [OnLine, hp1, hkey, axis_key, axis_off, axis_line, Bool.false_eq_true,
            if_false] at hax2 ⊢
          exact ⟨trivial, hax2⟩
        · simp only [OnLine, hp1, hkey, axis_key, axis_off, axis_line, if_true] at hax2 ⊢
          exact ⟨trivial, hax2⟩
    · intro p hp
      rcases hmem p hp with rfl | rfl
      · have hp1 : (⟨g.verts ++ [⟨f.point ops i.lower, VertexType.CL, 0⟩,
            ⟨f.point ops i.upper, VertexType.CL, 0⟩], g.edges⟩ : WeaveGraph).position
            g.verts.length = f.point ops i.lower := by
          simp only [WeaveGraph.position, getElem?_append_fst]
        simp only [hp1, hkey, axis_key]
      · have hp1 : (⟨g.verts ++ [⟨f.point ops i.lower, VertexType.CL, 0⟩,
            ⟨f.point ops i.upper, VertexType.CL, 0⟩], g.edges⟩ : WeaveGraph).position
            (g.verts.length + 1) = f.point ops i.upper := by
          simp only [WeaveGraph.position, getElem?_append_snd]
        simp only [hp1, hkey, axis_key]
    · intro _ p hp
      apply neighbours_eq_nil g p.1 hg
      rcases hmem p hp with rfl | rfl
      · exact Nat.le_refl _
      · exact Nat.le_succ _
    · have h1 := length_insert_le (VertexPairSet.insert []
        (g.verts.length, key (f.point ops i.lower))) (g.verts.length + 1, key (f.point ops i.upper))
      have h2 := length_insert_le [] (g.verts.length, key (f.point ops i.lower))
      simp only [List.length_nil] at h2
      rw [chain_edges, if_neg (by omega), chain_edges, if_neg (by simp)]
    · intro u hu
      by_cases hlt : u < g.num_vertices
      · exact vertexGood_grow g _ u hg rfl hpos hlt (hV u hlt)
      · apply vertexGood_isolated
        · exact neighbours_eq_nil g u hg (by omega)
        · rw [htype u (by omega) hu]
          simp
    · intro k hk
      simp only [KeyCond, hw, Bool.false_eq_true, if_false, hkey] at hk
      have m1 : (g.verts.length, key (f.point ops i.lower)) ∈ VertexPairSet.insert
          (VertexPairSet.insert [] (g.verts.length, key (f.point ops i.lower)))
          (g.verts.length + 1, key (f.point ops i.upper)) :=
        mem_insert_of_mem _ _ _ (mem_insert_of_new _ _ (fun q hq => by cases hq))
      have m2 : (g.verts.length + 1, key (f.point ops i.upper)) ∈ VertexPairSet.insert
          (VertexPairSet.insert [] (g.verts.length, key (f.point ops i.lower)))
          (g.verts.length + 1, key (f.point ops i.upper)) := by
        apply mem_insert_of_new
        intro q hq
        rcases mem_insert _ _ _ hq with rfl | hq
        · simp only [hkey]
          omega
        · cases hq
      refine ⟨⟨_, m1, by simp only [hkey]; exact hk.1⟩, ⟨_, m2, by simp only [hkey]; exact hk.2⟩, ?_⟩
      intro p hp
      rcases hmem p hp with rfl | rfl
      · simp only [hkey]
        omega
      · simp only [hkey]
        omega
    · intro u hu
      exact absurd hu.1 (by simp)
  · simp only [IntervalStruct, hw, if_true] at hs
    obtain ⟨h1, h2, h3⟩ := hs
    rw [add_endpoints_woven ops f key g i hw]
    refine ⟨rfl, Nat.le_refl _, fun w _ => ⟨rfl, rfl⟩, ?_, ⟨h1, h2, ?_⟩, rfl,
      fun p hp => Or.inl hp, hw, rfl, rfl, hg, hV, ?_, fun u hu => hu⟩
    · intro w h4 h5
      simp only at h5
      omega
    · intro h4
      simp only at h4
      omega
    · intro k hk
      simpa only [KeyCond, hw, if_true] using hk

theorem setOK_same_verts (g : WeaveGraph) (l : List Edge) (s : VertexPairSet)
    (h : SetOK g s) : SetOK ⟨g.verts, l⟩ s := h

theorem crossing_wf {geo : Bool} (ops : FiberOps) (xf yf : Fiber) (g : WeaveGraph)
    (xi yi : Interval)
    (C : Multiset (Sym2 Nat))
    (hg : GraphOK g) (hV : ∀ u < g.num_vertices, VertexGood geo g u)
    (hX : SetInv geo g true (axis_line true xf) xi.intersections)
    (hBx : Between xi.intersections yf.p1.x)
    (hY : IntervalStruct geo ops g false yf yi) (hBy : KeyCond ops false yf yi xf.p1.y)
    (hd : SetsDisjoint xi.intersections yi.intersections)
    (hF : edge_keys g = chain_edges xi.intersections + chain_edges yi.intersections + C) :
    ∃ r, crossing ops xf yf g xi yi = Except.ok r ∧ CrossPost geo ops xf yf g xi yi C r := by
  obtain ⟨m1, m2, m3, m4, m5, m6, m7, m8, m9, m10, m11, m12, m13, m14⟩ :=
    materialise_wf ops yf false Point.y g yi (fun _ => rfl) hg hV hY
  have hBy' := m13 _ hBy
  unfold crossing
  simp only [add_crossing_vertex, WeaveGraph.new_vertex, crossing_position]
  generalize add_endpoints ops yf Point.y g yi = y at *
  obtain ⟨⟨yverts, yedges⟩, yi1⟩ := y
  simp only at m1 m2 m3 m4 m5 m6 m7 m8 m9 m10 m11 m12 m13 m14 hBy' ⊢
  subst m1
  simp only [WeaveGraph.num_vertices] at m2 m4 m12
  -- the graph with the crossing vertex
  have hpos1 : ∀ w < yverts.length,
      (⟨yverts ++ [⟨⟨yf.p1.x, xf.p1.y, xf.p1.z⟩, VertexType.INT, 0⟩], g.edges⟩ :
        WeaveGraph).position w = (⟨yverts, g.edges⟩ : WeaveGraph).position w ∧
      (⟨yverts ++ [⟨⟨yf.p1.x, xf.p1.y, xf.p1.z⟩, VertexType.INT, 0⟩], g.edges⟩ :
        WeaveGraph).vertex_type w = (⟨yverts, g.edges⟩ : WeaveGraph).vertex_type w :=
    fun w hw => position_append yverts _ g.edges g.edges w hw
  have hposv := position_last yverts ⟨⟨yf.p1.x, xf.p1.y, xf.p1.z⟩, VertexType.INT, 0⟩ g.edges
  simp only at hposv
  have hpos0 : ∀ w < g.num_vertices,
      (⟨yverts ++ [⟨⟨yf.p1.x, xf.p1.y, xf.p1.z⟩, VertexType.INT, 0⟩], g.edges⟩ :
        WeaveGraph).position w = g.position w ∧
      (⟨yverts ++ [⟨⟨yf.p1.x, xf.p1.y, xf.p1.z⟩, VertexType.INT, 0⟩], g.edges⟩ :
        WeaveGraph).vertex_type w = g.vertex_type w := by
    intro w hw
    have h1 := hpos1 w (by simp only [WeaveGraph.num_vertices] at hw; omega)
    have h2 := m3 w hw
    exact ⟨h1.1.trans h2.1, h1.2.trans h2.2⟩
  have hg1 : GraphOK (⟨yverts ++ [⟨⟨yf.p1.x, xf.p1.y, xf.p1.z⟩, VertexType.INT, 0⟩],
      g.edges⟩ : WeaveGraph) := by
    refine ⟨m11.1, m11.2.1, ?_⟩
    intro e he
    have := m11.2.2 e he
    simp only [WeaveGraph.num_vertices, List.length_append, List.length_cons,
      List.length_nil] at this ⊢
    omega
  have hdis : ∀ p ∈ xi.intersections, ∀ q ∈ yi1.intersections, p.1 ≠ q.1 := by
    intro p hp q hq
    rcases m7 q hq with hq | hq
    · exact hd p hp q hq
    · have := hX.1.2 p hp
      simp only [WeaveGraph.num_vertices] at this hq
      omega
  have hltx : ∀ p ∈ xi.intersections, p.1 < yverts.length := by
    intro p hp
    have := hX.1.2 p hp
    simp only [WeaveGraph.num_vertices] at this
    omega
  -- first rewiring, along the X-fiber
  obtain ⟨pre, a, b, post, l3, e1, e2, e3, e4, e5, e6, e7, e8, e9, e10⟩ :=
    splice (⟨yverts ++ [⟨⟨yf.p1.x, xf.p1.y, xf.p1.z⟩, VertexType.INT, 0⟩], g.edges⟩ :
      WeaveGraph) true (axis_line true xf) xi.intersections yverts.length yf.p1.x
      (chain_edges yi1.intersections + C) hg1
      ⟨⟨hX.1.1, fun p hp => by
          have := hltx p hp
          simp only [WeaveGraph.num_vertices, List.length_append, List.length_cons,
            List.length_nil]
          omega⟩,
        setGeo_grow g _ true _ _ hX.1 hpos0 hX.2.1, hX.2.2⟩
      hBx (by simp [WeaveGraph.num_vertices])
      (fun p hp => by have := hltx p hp; omega)
      (by simp [OnLine, hposv.1, axis_line])
      (by rw [m6, ← add_assoc]; exact hF)
      (by
        intro p _
        rw [neighbours_eq_nil (⟨yverts, g.edges⟩ : WeaveGraph) yverts.length m11
          (Nat.le_refl _)]
        simp)
  -- second rewiring, along the Y-fiber
  have hpos3 : ∀ w < yverts.length,
      (⟨yverts ++ [⟨⟨yf.p1.x, xf.p1.y, xf.p1.z⟩, VertexType.INT, 0⟩], l3⟩ :
        WeaveGraph).position w = (⟨yverts, g.edges⟩ : WeaveGraph).position w ∧
      (⟨yverts ++ [⟨⟨yf.p1.x, xf.p1.y, xf.p1.z⟩, VertexType.INT, 0⟩], l3⟩ :
        WeaveGraph).vertex_type w = (⟨yverts, g.edges⟩ : WeaveGraph).vertex_type w :=
    fun w hw => position_append yverts _ g.edges l3 w hw
  have hposv3 := position_last yverts ⟨⟨yf.p1.x, xf.p1.y, xf.p1.z⟩, VertexType.INT, 0⟩ l3
  simp only at hposv3
  have hlty : ∀ p ∈ yi1.intersections, p.1 < yverts.length := fun p hp => m5.1.2 p hp
  obtain ⟨pre', a', b', post', l4, f1, f2, f3, f4, f5, f6, f7, f8, f9, f10⟩ :=
    splice (⟨yverts ++ [⟨⟨yf.p1.x, xf.p1.y, xf.p1.z⟩, VertexType.INT, 0⟩], l3⟩ :
      WeaveGraph) false (axis_line false yf) yi1.intersections yverts.length xf.p1.y
      (chain_edges (VertexPairSet.insert xi.intersections (yverts.length, yf.p1.x)) + C) e4
      ⟨⟨m5.1.1, fun p hp => by
          have := hlty p hp
          simp only [WeaveGraph.num_vertices, List.length_append, List.length_cons,
            List.length_nil]
          omega⟩,
        setGeo_grow (⟨yverts, g.edges⟩ : WeaveGraph) _ false _ _ m5.1 (fun w hw => hpos3 w hw) m5.2.1,
        fun hlen p hp => by
          have h1 := e10 p.1 (by have := hlty p hp; omega)
            (fun q hq => hdis q hq p hp)
          simp only at h1 ⊢
          rw [h1]
          exact m5.2.2 hlen p hp⟩
      hBy' (by simp [WeaveGraph.num_vertices])
      (fun p hp => by have := hlty p hp; omega)
      (by simp [OnLine, hposv3.1, axis_line])
      (by rw [e5]; abel)
      (by
        intro p hp
        simp only at e6 ⊢
        rw [e6, neighbours_eq_nil (⟨yverts, g.edges⟩ : WeaveGraph) yverts.length m11
          (Nat.le_refl _)]
        simp only [List.nil_append, List.mem_cons, List.mem_singleton, List.not_mem_nil,
          or_false, not_or]
        have mb : b ∈ xi.intersections := by rw [e1]; simp
        have ma : a ∈ xi.intersections := by rw [e1]; simp
        exact ⟨fun h => hdis b mb p hp h.symm, fun h => hdis a ma p hp h.symm⟩)
  simp only at e3 f3 e6 f6 e7 e8 f7 f8
  simp only [WeaveGraph.num_vertices]
  rw [e3]
  simp only
  rw [f3]
  have hnil : neighbours g.edges yverts.length = [] :=
    neighbours_eq_nil (⟨yverts, g.edges⟩ : WeaveGraph) yverts.length m11 (Nat.le_refl _)
  have hvx : ∀ q ∈ xi.intersections, q.1 ≠ (yverts.length, yf.p1.x).1 :=
    fun q hq => by have := hltx q hq; simp only; omega
  have hvy : ∀ q ∈ yi1.intersections, q.1 ≠ (yverts.length, xf.p1.y).1 :=
    fun q hq => by have := hlty q hq; simp only; omega
  have hpos4 : ∀ w < yverts.length,
      (⟨yverts ++ [⟨⟨yf.p1.x, xf.p1.y, xf.p1.z⟩, VertexType.INT, 0⟩], l4⟩ :
        WeaveGraph).position w = (⟨yverts, g.edges⟩ : WeaveGraph).position w ∧
      (⟨yverts ++ [⟨⟨yf.p1.x, xf.p1.y, xf.p1.z⟩, VertexType.INT, 0⟩], l4⟩ :
        WeaveGraph).vertex_type w = (⟨yverts, g.edges⟩ : WeaveGraph).vertex_type w :=
    fun w hw => position_append yverts _ g.edges l4 w hw
  have hposv4 := position_last yverts ⟨⟨yf.p1.x, xf.p1.y, xf.p1.z⟩, VertexType.INT, 0⟩ l4
  simp only at hposv4
  refine ⟨_, rfl, ⟨f4, ?_, ?_, ?_, ?_, ⟨?_, ⟨?_, ?_, ?_⟩, ?_⟩, ⟨?_, ⟨?_, ?_, ?_⟩, ?_⟩,
    ⟨rfl, rfl, rfl⟩,
    ⟨m8, m9, m10⟩, ?_, ?_, ?_, ?_, ?_, ?_, ?_⟩⟩
  · -- every vertex is good
    intro u hu
    simp only [WeaveGraph.num_vertices, List.length_append, List.length_cons,
      List.length_nil] at hu
    by_cases huv : u = yverts.length
    · subst huv
      have hn : neighbours l4 yverts.length = [b.1, a.1, b'.1, a'.1] := by
        rw [f6, e6, hnil]
        rfl
      have hsl : geo = true →
          slots (⟨yverts ++ [⟨⟨yf.p1.x, xf.p1.y, xf.p1.z⟩, VertexType.INT, 0⟩], l4⟩ :
            WeaveGraph) yverts.length = [some 3, some 1, some 2, some 0] := by
        intro hgeo
        simp only [slots, hn, List.map_cons, List.map_nil]
        have h1 : edge_slot (⟨yverts ++ [⟨⟨yf.p1.x, xf.p1.y, xf.p1.z⟩, VertexType.INT, 0⟩],
            l4⟩ : WeaveGraph) yverts.length b.1 = some 3 := e7 hgeo
        have h2 : edge_slot (⟨yverts ++ [⟨⟨yf.p1.x, xf.p1.y, xf.p1.z⟩, VertexType.INT, 0⟩],
            l4⟩ : WeaveGraph) yverts.length a.1 = some 1 := e8 hgeo
        have h3 : edge_slot (⟨yverts ++ [⟨⟨yf.p1.x, xf.p1.y, xf.p1.z⟩, VertexType.INT, 0⟩],
            l4⟩ : WeaveGraph) yverts.length b'.1 = some 2 := f7 hgeo
        have h4 : edge_slot (⟨yverts ++ [⟨⟨yf.p1.x, xf.p1.y, xf.p1.z⟩, VertexType.INT, 0⟩],
            l4⟩ : WeaveGraph) yverts.length a'.1 = some 0 := f8 hgeo
        rw [h1, h2, h3, h4]
      refine ⟨fun hgeo => ⟨by rw [hsl hgeo]; decide, by rw [hsl hgeo]; decide⟩, fun _ => ?_,
        fun ht => ?_⟩
      · simp only [WeaveGraph.degree, hn, List.length_cons, List.length_nil]
      · rw [hposv4.2] at ht
        cases ht
    · have hlt : u < yverts.length := by omega
      have g1 := vertexGood_grow (⟨yverts, g.edges⟩ : WeaveGraph)
        (⟨yverts ++ [⟨⟨yf.p1.x, xf.p1.y, xf.p1.z⟩, VertexType.INT, 0⟩], g.edges⟩ : WeaveGraph)
        u m11 rfl (fun w hw => hpos1 w hw) hlt (m12 u hlt)
      exact f9 u huv (e9 u huv g1)
  · -- the edges are those of the chains
    rw [f5]
    abel
  · simp only [WeaveGraph.num_vertices, List.length_append, List.length_cons, List.length_nil]
    omega
  · intro w hw
    have h1 := hpos4 w (by simp only [WeaveGraph.num_vertices] at hw; omega)
    have h2 := m3 w hw
    exact ⟨h1.1.trans h2.1, h1.2.trans h2.2⟩
  · exact setOK_insert g _ _ _ hX.1 (by simp only [WeaveGraph.num_vertices]; omega)
      (by simp [WeaveGraph.num_vertices])
  · exact sorted_insert _ _ hX.2.1.1
  · intro hgeo p hp
    rcases mem_insert _ _ _ hp with rfl | hp
    · simp [OnLine, hposv4.1, axis_line]
    · have hlt := hltx p hp
      refine onLine_grow g _ true _ p ?_ (hX.2.1.2.1 hgeo p hp)
      have := hX.1.2 p hp
      exact ((hpos4 p.1 hlt).1).trans (m3 p.1 this).1
  · intro p hp
    rcases mem_insert _ _ _ hp with rfl | hp
    · simp [hposv4.1]
    · have hlt := hltx p hp
      have := hX.1.2 p hp
      rw [((hpos4 p.1 hlt).1).trans (m3 p.1 this).1]
      exact hX.2.1.2.2 p hp
  · simp only
    rw [e2]
    simp only [List.length_append, List.length_cons]
    omega
  · exact setOK_insert (⟨yverts, g.edges⟩ : WeaveGraph) _ _ _ m5.1 (Nat.le_refl _)
      (by simp [WeaveGraph.num_vertices])
  · exact sorted_insert _ _ m5.2.1.1
  · intro hgeo p hp
    rcases mem_insert _ _ _ hp with rfl | hp
    · simp [OnLine, hposv4.1, axis_line]
    · exact onLine_grow (⟨yverts, g.edges⟩ : WeaveGraph) _ false _ p
        (hpos4 p.1 (hlty p hp)).1 (m5.2.1.2.1 hgeo p hp)
  · intro p hp
    rcases mem_insert _ _ _ hp with rfl | hp
    · simp [hposv4.1]
    · rw [(hpos4 p.1 (hlty p hp)).1]
      exact m5.2.1.2.2 p hp
  · simp only
    rw [f2]
    simp only [List.length_append, List.length_cons]
    omega
  · intro p hp
    rcases mem_insert _ _ _ hp with rfl | hp
    · right
      simp only [WeaveGraph.num_vertices]
      exact m2
    · exact Or.inl hp
  · intro p hp
    rcases mem_insert _ _ _ hp with rfl | hp
    · right
      simp only [WeaveGraph.num_vertices]
      exact m2
    · exact m7 p hp
  · intro k hk hb
    exact between_insert _ _ k hb hk
  · intro k hk hb
    exact between_insert _ _ k (m13 k hb) hk
  · intro u hu
    simp only
    rw [e2]
    rw [e1] at hu
    exact inner_insert pre post a b _ u hu
  · intro u hu
    have hu' := m14 u hu
    simp only
    rw [f2]
    rw [f1] at hu'
    exact inner_insert pre' post' a' b' _ u hu'
  · intro u hu ht
    simp only [WeaveGraph.num_vertices, List.length_append, List.length_cons,
      List.length_nil] at hu
    by_cases huv : u = yverts.length
    · right
      subst huv
      simp only
      rw [e2, f2]
      rw [e1] at hvx
      rw [f1] at hvy
      exact ⟨inner_new pre post a b (yverts.length, yf.p1.x) (hvx a (by simp)) (hvx b (by simp))
          (fun q hq => hvx q (by simp [hq])) (fun q hq => hvx q (by simp [hq])),
        inner_new pre' post' a' b' (yverts.length, xf.p1.y) (hvy a' (by simp))
          (hvy b' (by simp)) (fun q hq => hvy q (by simp [hq]))
          (fun q hq => hvy q (by simp [hq]))⟩
    · left
      have hlt : u < yverts.length := by omega
      rw [(hpos4 u hlt).2] at ht
      by_cases hug : u < g.num_vertices
      · exact ⟨hug, by rw [← (m3 u hug).2]; exact ht⟩
      · simp only [WeaveGraph.num_vertices] at hug
        rw [m4 u (by omega) hlt] at ht
        cases ht

/-! ## Well-formed input: the four loops -/

theorem extends_refl (g : WeaveGraph) : Extends g g :=
  ⟨Nat.le_refl _, fun _ _ => ⟨rfl, rfl⟩⟩

theorem extends_trans (g1 g2 g3 : WeaveGraph) (h12 : Extends g1 g2) (h23 : Extends g2 g3) :
    Extends g1 g3 := by
  refine ⟨Nat.le_trans h12.1 h23.1, ?_⟩
  intro w hw
  have h1 := h12.2 w hw
  have h2 := h23.2 w (Nat.lt_of_lt_of_le hw h12.1)
  exact ⟨h2.1.trans h1.1, h2.2.trans h1.2⟩

theorem intervalStruct_grow {geo : Bool} (ops : FiberOps) (g g' : WeaveGraph) (horiz : Bool)
    (f : Fiber)
    (i : Interval) (he : Extends g g') (h : IntervalStruct geo ops g horiz f i) :
    IntervalStruct geo ops g' horiz f i := by
  unfold IntervalStruct at h ⊢
  split
  · rename_i hw
    rw [if_pos hw] at h
    exact ⟨setOK_mono g g' _ he.1 h.1, setGeo_grow g g' horiz _ _ h.1 he.2 h.2.1, h.2.2⟩
  · rename_i hw
    rw [if_neg hw] at h
    exact h

theorem yInv_grow {geo : Bool} (ops : FiberOps) (g g' : WeaveGraph) (T : List (Fiber × Interval))
    (yf : Fiber) (yj : Interval) (he : Extends g g') (h : YInv geo ops g T yf yj) :
    YInv geo ops g' T yf yj :=
  ⟨intervalStruct_grow ops g g' false yf yj he h.1, h.2⟩

theorem intervalStruct_lt {geo : Bool} (ops : FiberOps) (g : WeaveGraph) (horiz : Bool) (f : Fiber)
    (i : Interval) (h : IntervalStruct geo ops g horiz f i) :
    ∀ p ∈ i.intersections, p.1 < g.num_vertices := by
  unfold IntervalStruct at h
  split at h
  · exact h.1.2
  · intro p hp
    rw [h.1] at hp
    cases hp

theorem crosses_iff_tests (ops : FiberOps) (xf : Fiber) (xi : Interval) (yf : Fiber)
    (yi : Interval) :
    crosses ops xf xi yf yi ↔
      (x_range_test ops xf xi yf = true ∧ y_range_test ops xf yf yi = true) := by
  simp [crosses, x_range_test, y_range_test]

theorem y_keys_cons_pos (ops : FiberOps) (t : Fiber × Interval) (T : List (Fiber × Interval))
    (yf : Fiber) (yi : Interval) (h : crosses ops t.1 t.2 yf yi) :
    y_keys ops (t :: T) yf yi = t.1.p1.y :: y_keys ops T yf yi := by
  simp [y_keys, List.filter_cons, h]

theorem y_keys_cons_neg (ops : FiberOps) (t : Fiber × Interval) (T : List (Fiber × Interval))
    (yf : Fiber) (yi : Interval) (h : ¬ crosses ops t.1 t.2 yf yi) :
    y_keys ops (t :: T) yf yi = y_keys ops T yf yi := by
  simp [y_keys, List.filter_cons, h]

theorem y_keys_congr (ops : FiberOps) (T : List (Fiber × Interval)) (yf : Fiber)
    (yi yi' : Interval) (hl : yi'.lower = yi.lower) (hu : yi'.upper = yi.upper) :
    y_keys ops T yf yi' = y_keys ops T yf yi := by
  simp only [y_keys, crosses, hl, hu]

theorem x_keys_ints_cons_pos (ops : FiberOps) (xf : Fiber) (xi : Interval) (yf : Fiber)
    (yi : Interval) (rest : List Interval) (h : crosses ops xf xi yf yi) :
    x_keys_ints ops xf xi yf (yi :: rest) = yf.p1.x :: x_keys_ints ops xf xi yf rest := by
  simp [x_keys_ints, List.filter_cons, h]

theorem x_keys_ints_cons_neg (ops : FiberOps) (xf : Fiber) (xi : Interval) (yf : Fiber)
    (yi : Interval) (rest : List Interval) (h : ¬ crosses ops xf xi yf yi) :
    x_keys_ints ops xf xi yf (yi :: rest) = x_keys_ints ops xf xi yf rest := by
  simp [x_keys_ints, List.filter_cons, h]

theorem ints_chain_append (l1 l2 : List Interval) :
    ints_chain (l1 ++ l2) = ints_chain l1 + ints_chain l2 := by
  simp [ints_chain]

theorem ints_chain_cons (i : Interval) (l : List Interval) :
    ints_chain (i :: l) = chain_edges i.intersections + ints_chain l := by
  simp [ints_chain]

theorem keyCond_woven (ops : FiberOps) (horiz : Bool) (f : Fiber) (i : Interval) (k : Int)
    (hw : i.in_weave = true) : KeyCond ops horiz f i k ↔ Between i.intersections k := by
  simp [KeyCond, hw]

theorem y_interval_step_wf {geo : Bool} (ops : FiberOps) (xf : Fiber) (xi0 : Interval) (yf : Fiber)
    (T : List (Fiber × Interval)) (K : List Int) (C : Multiset (Sym2 Nat))
    (PX PY : Nat → Prop) (g0 : WeaveGraph) (x0 : Interval)
    (hxt : x_range_test ops xf xi0 yf = true)
    (s : WeaveGraph × Interval) (done : List Interval) (a : Interval) (rest : List Interval)
    (hI : Inv4 geo ops xf xi0 yf T K C PX PY g0 x0 s done (a :: rest)) :
    ∃ r, y_interval_step ops xf yf s a = Except.ok r ∧
      Inv4 geo ops xf xi0 yf T K C PX PY g0 x0 r.1 (done ++ [r.2]) rest := by
  obtain ⟨⟨hg, hV⟩, hext, hmem, ⟨hXs, hKn, hKb⟩, hdone, hrest, hF, hM⟩ := hI
  obtain ⟨⟨hYs, hYn, hYc⟩, hdis⟩ := hrest a (List.mem_cons_self _ _)
  unfold y_interval_step
  by_cases ht : y_range_test ops xf yf a = true
  · have hc : crosses ops xf xi0 yf a := (crosses_iff_tests ops xf xi0 yf a).2 ⟨hxt, ht⟩
    rw [x_keys_ints_cons_pos ops xf xi0 yf a rest hc, List.cons_append] at hKn hKb
    rw [y_keys_cons_pos ops (xf, xi0) T yf a hc] at hYn hYc
    obtain ⟨r, hr, post⟩ := crossing_wf ops xf yf s.1 s.2 a
      (ints_chain done + ints_chain rest + C) hg hV hXs (hKb _ (List.mem_cons_self _ _)) hYs
      (hYc xf.p1.y (List.mem_cons_self _ _)) hdis
      (by rw [hF, ints_chain_append, ints_chain_cons]; abel)
    simp only [ht, if_true, hr]
    refine ⟨_, rfl, ?_⟩
    have hext' : Extends s.1 r.1 := ⟨post.grow, post.stable⟩
    rw [List.nodup_cons] at hKn hYn
    refine ⟨⟨post.graph, post.good⟩, extends_trans _ _ _ hext hext', ?_,
      ⟨⟨post.setX.1, post.setX.2.1, fun h => ?_⟩, hKn.2, ?_⟩, ?_, ?_, ?_, ?_⟩
    · intro p hp
      rcases post.memX p hp with h | h
      · exact hmem p h
      · right
        exact Nat.le_trans hext.1 h
    · have := post.setX.2.2
      simp only at h
      omega
    · intro k hk
      exact post.betweenX k (fun h => hKn.1 (h ▸ hk)) (hKb k (List.mem_cons_of_mem _ hk))
    · intro yj hyj
      rcases List.mem_append.1 hyj with hyj | hyj
      · exact yInv_grow ops _ _ T yf yj hext' (hdone yj hyj)
      · rw [List.mem_singleton] at hyj
        subst hyj
        have hk : y_keys ops T yf r.2.2 = y_keys ops T yf a :=
          y_keys_congr ops T yf a r.2.2 post.markY.2.1 post.markY.2.2
        refine ⟨?_, by rw [hk]; exact hYn.2, ?_⟩
        · simp only [IntervalStruct, post.markY.1, if_true]
          exact post.setY
        · intro k hk'
          rw [hk] at hk'
          rw [keyCond_woven ops false yf r.2.2 k post.markY.1]
          exact post.betweenY k (fun h => hYn.1 (h ▸ hk'))
            (hYc k (List.mem_cons_of_mem _ hk'))
    · intro yj hyj
      obtain ⟨h1, h2⟩ := hrest yj (List.mem_cons_of_mem _ hyj)
      refine ⟨yInv_grow ops _ _ _ yf yj hext' h1, ?_⟩
      intro p hp q hq
      rcases post.memX p hp with h | h
      · exact h2 p h q hq
      · have := intervalStruct_lt ops s.1 false yf yj h1.1 q hq
        omega
    · rw [post.keys, ints_chain_append, ints_chain_append, ints_chain_cons]
      simp only [ints_chain, List.map_nil, List.sum_nil]
      abel
    · intro u hu hty
      rcases post.ints u hu hty with ⟨h1, h2⟩ | ⟨h1, h2⟩
      · obtain ⟨m1, m2⟩ := hM u h1 h2
        constructor
        · rcases m1 with m1 | m1
          · exact Or.inl (post.innerX u m1)
          · exact Or.inr m1
        · rcases m2 with ⟨i, hi, hin⟩ | m2
          · left
            rcases List.mem_append.1 hi with hi | hi
            · exact ⟨i, by simp [hi], hin⟩
            · rcases List.mem_cons.1 hi with rfl | hi
              · exact ⟨r.2.2, by simp, post.innerY u hin⟩
              · exact ⟨i, by simp [hi], hin⟩
          · exact Or.inr m2
      · exact ⟨Or.inl h1, Or.inl ⟨r.2.2, by simp, h2⟩⟩
  · have hc : ¬ crosses ops xf xi0 yf a :=
      fun h => ht ((crosses_iff_tests ops xf xi0 yf a).1 h).2
    rw [x_keys_ints_cons_neg ops xf xi0 yf a rest hc] at hKn hKb
    rw [y_keys_cons_neg ops (xf, xi0) T yf a hc] at hYn hYc
    simp only [ht]
    refine ⟨_, rfl, ⟨hg, hV⟩, hext, hmem, ⟨hXs, hKn, hKb⟩, ?_, ?_, ?_, ?_⟩
    · intro yj hyj
      rcases List.mem_append.1 hyj with hyj | hyj
      · exact hdone yj hyj
      · rw [List.mem_singleton] at hyj
        subst hyj
        exact ⟨hYs, hYn, hYc⟩
    · intro yj hyj
      exact hrest yj (List.mem_cons_of_mem _ hyj)
    · rw [hF]
      simp only [List.append_assoc, List.singleton_append]
    · intro u hu hty
      have := hM u hu hty
      simpa only [List.append_assoc, List.singleton_append] using this

theorem y_interval_loop_wf {geo : Bool} (ops : FiberOps) (xf : Fiber) (xi0 : Interval) (yf : Fiber)
    (T : List (Fiber × Interval)) (K : List Int) (C : Multiset (Sym2 Nat))
    (PX PY : Nat → Prop) (g0 : WeaveGraph) (x0 : Interval)
    (hxt : x_range_test ops xf xi0 yf = true) (yis : List Interval)
    (hI : Inv4 geo ops xf xi0 yf T K C PX PY g0 x0 (g0, x0) [] yis) :
    ∃ r, foreach (y_interval_step ops xf yf) (g0, x0) yis = Except.ok r ∧
      Inv4 geo ops xf xi0 yf T K C PX PY g0 x0 r.1 r.2 [] :=
  foreach_total (y_interval_step ops xf yf) (Inv4 geo ops xf xi0 yf T K C PX PY g0 x0)
    (fun s done a rest h => y_interval_step_wf ops xf xi0 yf T K C PX PY g0 x0 hxt s done a rest h)
    yis (g0, x0) hI

theorem fibers_chain_append (l1 l2 : List Fiber) :
    fibers_chain (l1 ++ l2) = fibers_chain l1 + fibers_chain l2 := by
  simp [fibers_chain]

theorem fibers_chain_cons (f : Fiber) (l : List Fiber) :
    fibers_chain (f :: l) = ints_chain f.ints + fibers_chain l := by
  simp [fibers_chain]

theorem x_keys_cons (ops : FiberOps) (xf : Fiber) (xi : Interval) (yf : Fiber)
    (rest : List Fiber) :
    x_keys ops xf xi (yf :: rest) = x_keys_ints ops xf xi yf yf.ints ++ x_keys ops xf xi rest := by
  simp [x_keys, List.flatMap_cons]

theorem x_keys_ints_nil_of_test (ops : FiberOps) (xf : Fiber) (xi : Interval) (yf : Fiber)
    (yis : List Interval) (h : ¬ x_range_test ops xf xi yf = true) :
    x_keys_ints ops xf xi yf yis = [] := by
  simp only [x_keys_ints, List.map_eq_nil_iff, List.filter_eq_nil_iff, decide_eq_true_eq]
  intro yi _ hc
  exact h ((crosses_iff_tests ops xf xi yf yi).1 hc).1

theorem y_fiber_step_wf {geo : Bool} (ops : FiberOps) (xf : Fiber) (xi0 : Interval)
    (T : List (Fiber × Interval)) (C : Multiset (Sym2 Nat)) (PX : Nat → Prop)
    (g0 : WeaveGraph) (x0 : Interval)
    (s : WeaveGraph × Interval) (done : List Fiber) (a : Fiber) (rest : List Fiber)
    (hI : Inv3 geo ops xf xi0 T C PX g0 x0 s done (a :: rest)) :
    ∃ r, y_fiber_step ops xf xi0 s a = Except.ok r ∧
      Inv3 geo ops xf xi0 T C PX g0 x0 r.1 (done ++ [r.2]) rest := by
  obtain ⟨g', xi'⟩ := s
  obtain ⟨⟨hg, hV⟩, hext, hmem, ⟨hXs, hKn, hKb⟩, hdone, hrest, hF, hM⟩ := hI
  simp only at hg hV hext hmem hXs hKn hKb hdone hrest hF hM
  unfold y_fiber_step
  by_cases ht : x_range_test ops xf xi0 a = true
  · rw [x_keys_cons] at hKn hKb
    have hI4 : Inv4 geo ops xf xi0 a T (x_keys ops xf xi0 rest)
        (fibers_chain done + fibers_chain rest + C) PX (inner_fibers (done ++ rest)) g' xi'
        (g', xi') [] a.ints := by
      refine ⟨⟨hg, hV⟩, extends_refl _, fun p hp => Or.inl hp, ⟨hXs, hKn, hKb⟩, ?_,
        hrest a (List.mem_cons_self _ _), ?_, ?_⟩
      · intro yj hyj
        cases hyj
      · rw [hF, fibers_chain_append, fibers_chain_cons]
        simp only [List.nil_append]
        abel
      · intro u hu hty
        obtain ⟨m1, f, hf, hin⟩ := hM u hu hty
        refine ⟨m1, ?_⟩
        rcases List.mem_append.1 hf with hf | hf
        · exact Or.inr ⟨f, by simp [hf], hin⟩
        · rcases List.mem_cons.1 hf with rfl | hf
          · exact Or.inl hin
          · exact Or.inr ⟨f, by simp [hf], hin⟩
    obtain ⟨r, hr, post⟩ := y_interval_loop_wf ops xf xi0 a T (x_keys ops xf xi0 rest)
      (fibers_chain done + fibers_chain rest + C) PX (inner_fibers (done ++ rest)) g' xi' ht
      a.ints hI4
    simp only [ht, if_true, hr]
    refine ⟨_, rfl, ?_⟩
    obtain ⟨⟨pg, pV⟩, pext, pmem, ⟨pXs, pKn, pKb⟩, pdone, -, pF, pM⟩ := post
    simp only [x_keys_ints, List.filter_nil, List.map_nil, List.nil_append] at pKn pKb
    refine ⟨⟨pg, pV⟩, extends_trans _ _ _ hext pext, ?_, ⟨pXs, pKn, pKb⟩, ?_, ?_, ?_, ?_⟩
    · intro p hp
      rcases pmem p hp with h | h
      · exact hmem p h
      · right
        exact Nat.le_trans hext.1 h
    · intro yf hyf
      rcases List.mem_append.1 hyf with hyf | hyf
      · exact fun yj hyj => yInv_grow ops _ _ T yf yj pext (hdone yf hyf yj hyj)
      · rw [List.mem_singleton] at hyf
        subst hyf
        exact fun yj hyj => pdone yj hyj
    · intro yf hyf yj hyj
      obtain ⟨h1, h2⟩ := hrest yf (List.mem_cons_of_mem _ hyf) yj hyj
      refine ⟨yInv_grow ops _ _ _ yf yj pext h1, ?_⟩
      intro p hp q hq
      rcases pmem p hp with h | h
      · exact h2 p h q hq
      · have := intervalStruct_lt ops g' false yf yj h1.1 q hq
        omega
    · rw [pF, fibers_chain_append, fibers_chain_append, fibers_chain_cons]
      simp only [fibers_chain, List.map_nil, List.sum_nil, List.append_nil]
      abel
    · intro u hu hty
      obtain ⟨m1, m2⟩ := pM u hu hty
      refine ⟨m1, ?_⟩
      rcases m2 with ⟨i, hi, hin⟩ | ⟨f, hf, hin⟩
      · refine ⟨⟨a.p1, a.p2, a.dir, r.2⟩, by simp, i, ?_, hin⟩
        simpa using hi
      · rcases List.mem_append.1 hf with hf | hf
        · exact ⟨f, by simp [hf], hin⟩
        · exact ⟨f, by simp [hf], hin⟩
  · rw [x_keys_cons, x_keys_ints_nil_of_test ops xf xi0 a a.ints ht, List.nil_append]
      at hKn hKb
    simp only [ht]
    refine ⟨_, rfl, ⟨hg, hV⟩, hext, hmem, ⟨hXs, hKn, hKb⟩, ?_, ?_, ?_, ?_⟩
    · intro yf hyf
      rcases List.mem_append.1 hyf with hyf | hyf
      · exact hdone yf hyf
      · rw [List.mem_singleton] at hyf
        subst hyf
        intro yj hyj
        obtain ⟨⟨h1, h2, h3⟩, -⟩ := hrest yf (List.mem_cons_self _ _) yj hyj
        have hc : ¬ crosses ops (xf, xi0).1 (xf, xi0).2 yf yj :=
          fun h => ht ((crosses_iff_tests ops xf xi0 yf yj).1 h).1
        rw [y_keys_cons_neg ops (xf, xi0) T yf yj hc] at h2 h3
        exact ⟨h1, h2, h3⟩
    · intro yf hyf
      exact hrest yf (List.mem_cons_of_mem _ hyf)
    · rw [hF]
      simp only [List.append_assoc, List.singleton_append]
    · intro u hu hty
      have := hM u hu hty
      simpa only [List.append_assoc, List.singleton_append] using this

theorem y_fiber_loop_wf {geo : Bool} (ops : FiberOps) (xf : Fiber) (xi0 : Interval)
    (T : List (Fiber × Interval)) (C : Multiset (Sym2 Nat)) (PX : Nat → Prop)
    (g0 : WeaveGraph) (x0 : Interval) (ys : List Fiber)
    (hI : Inv3 geo ops xf xi0 T C PX g0 x0 (g0, x0) [] ys) :
    ∃ r, foreach (y_fiber_step ops xf xi0) (g0, x0) ys = Except.ok r ∧
      Inv3 geo ops xf xi0 T C PX g0 x0 r.1 r.2 [] :=
  foreach_total (y_fiber_step ops xf xi0) (Inv3 geo ops xf xi0 T C PX g0 x0)
    (fun s done a rest h => y_fiber_step_wf ops xf xi0 T C PX g0 x0 s done a rest h)
    ys (g0, x0) hI

theorem crosses_shape (ops : FiberOps) (xf : Fiber) (xi : Interval) (yf : Fiber)
    (yi : Interval) :
    decide (crosses ops xf xi yf yi)
      = crosses_marks ops xf xi yf.p1 yf.p2 (yi.lower, yi.upper, false) := by
  simp only [crosses, crosses_marks, Fiber.point]

theorem x_keys_shape (ops : FiberOps) (xf : Fiber) (xi : Interval) (ys : List Fiber) :
    x_keys ops xf xi ys
      = (ys.map Fiber.shape).flatMap fun sh =>
          (sh.2.2.2.filter fun b => crosses_marks ops xf xi sh.1 sh.2.1 (b.1, b.2, false)).map
            fun _ => sh.1.x := by
  simp only [x_keys, x_keys_ints, List.flatMap_map]
  apply List.flatMap_congr
  intro yf _
  simp only [Fiber.shape, Interval.bounds, List.filter_map, List.map_map]
  congr 1

theorem x_keys_congr (ops : FiberOps) (xf : Fiber) (xi : Interval) (ys ys' : List Fiber)
    (h : ys'.map Fiber.shape = ys.map Fiber.shape) :
    x_keys ops xf xi ys' = x_keys ops xf xi ys := by
  rw [x_keys_shape, x_keys_shape, h]

theorem xFresh_congr {geo : Bool} (ops : FiberOps) (xf : Fiber) (xi : Interval)
    (ys ys' : List Fiber)
    (h : ys'.map Fiber.shape = ys.map Fiber.shape) (hx : XFresh geo ops ys xf xi) :
    XFresh geo ops ys' xf xi := by
  unfold XFresh at hx ⊢
  rw [x_keys_congr ops xf xi ys ys' h]
  exact hx

theorem xDone_grow {geo : Bool} (g g' : WeaveGraph) (xf : Fiber) (xi : Interval) (he : Extends g g')
    (h : XDone geo g xf xi) : XDone geo g' xf xi :=
  ⟨setOK_mono g g' _ he.1 h.1, setGeo_grow g g' true _ _ h.1 he.2 h.2⟩

theorem x_interval_step_wf {geo : Bool} (ops : FiberOps) (xf : Fiber) (T : List (Fiber × Interval))
    (C : Multiset (Sym2 Nat)) (PX : Nat → Prop) (g0 : WeaveGraph)
    (s : WeaveGraph × List Fiber) (done : List Interval) (a : Interval) (rest : List Interval)
    (hI : Inv2 geo ops xf T C PX g0 s done (a :: rest)) :
    ∃ r, x_interval_step ops xf s a = Except.ok r ∧
      Inv2 geo ops xf T C PX g0 r.1 (done ++ [r.2]) rest := by
  obtain ⟨g, ys⟩ := s
  obtain ⟨⟨hg, hV⟩, hext, hdone, hrest, hY, hF, hM⟩ := hI
  simp only at hg hV hext hdone hrest hY hF hM
  obtain ⟨⟨hw, hnil, hax⟩, hKn, hKb⟩ := hrest a (List.mem_cons_self _ _)
  have hs : IntervalStruct geo ops g true xf a := by
    simp only [IntervalStruct, hw, Bool.false_eq_true, if_false]
    exact ⟨hnil, hax⟩
  obtain ⟨m1, m2, m3, m4, m5, m6, m7, m8, m9, m10, m11, m12, m13, -⟩ :=
    materialise_wf ops xf true Point.x g a (fun p => by simp [axis_key]) hg hV hs
  have hE1 : Extends g (add_endpoints ops xf Point.x g a).1 := ⟨m2, m3⟩
  have hI3 : Inv3 geo ops xf a ((rest.map fun xi => (xf, xi)) ++ T) (ints_chain done + C)
      (fun u => inner_in done u ∨ PX u) (add_endpoints ops xf Point.x g a).1
      (add_endpoints ops xf Point.x g a).2 (add_endpoints ops xf Point.x g a) [] ys := by
    refine ⟨⟨m11, m12⟩, extends_refl _, fun p hp => Or.inl hp, ⟨m5, hKn, ?_⟩, ?_, ?_, ?_, ?_⟩
    · intro k hk
      apply m13
      simp only [KeyCond, hw, Bool.false_eq_true, if_false, axis_key, if_true]
      exact hKb k hk
    · intro yf hyf
      cases hyf
    · intro yf hyf yj hyj
      have h1 := hY yf hyf yj hyj
      simp only [List.map_cons, List.cons_append] at h1
      refine ⟨yInv_grow ops _ _ _ yf yj hE1 h1, ?_⟩
      intro p hp q hq
      have hq' := intervalStruct_lt ops g false yf yj h1.1 q hq
      rcases m7 p hp with h | h
      · rw [hnil] at h
        cases h
      · omega
    · simp only [edge_keys, m1, List.nil_append] at hF ⊢
      rw [hF, m6, hnil]
      simp only [chain_edges, List.length_nil]
      simp only [show ¬ (3 ≤ 0) by omega, if_false]
      abel
    · intro u hu hty
      by_cases hlt : u < g.num_vertices
      · rw [(m3 u hlt).2] at hty
        obtain ⟨h1, h2⟩ := hM u hlt hty
        exact ⟨Or.inr h1, by simpa using h2⟩
      · rw [m4 u (by omega) hu] at hty
        cases hty
  obtain ⟨r, hr, post⟩ := y_fiber_loop_wf ops xf a _ _ _ _ _ ys hI3
  obtain ⟨-, -, hshape⟩ := y_fiber_loop_count ops xf a _ ys r hr
  unfold x_interval_step
  simp only [hr]
  refine ⟨_, rfl, ?_⟩
  obtain ⟨⟨pg, pV⟩, pext, -, ⟨pXs, -, -⟩, pdone, -, pF, pM⟩ := post
  have hE2 : Extends g r.1.1 := extends_trans _ _ _ hE1 pext
  refine ⟨⟨pg, pV⟩, extends_trans _ _ _ hext hE2, ?_, ?_, ?_, ?_, ?_⟩
  · intro xi hxi
    rcases List.mem_append.1 hxi with hxi | hxi
    · exact xDone_grow g _ xf xi hE2 (hdone xi hxi)
    · rw [List.mem_singleton] at hxi
      subst hxi
      exact ⟨pXs.1, pXs.2.1⟩
  · intro xi hxi
    exact xFresh_congr ops xf xi ys r.2 hshape (hrest xi (List.mem_cons_of_mem _ hxi))
  · intro yf hyf yj hyj
    exact pdone yf hyf yj hyj
  · simp only [List.append_nil] at pF
    rw [pF, ints_chain_append]
    simp only [ints_chain, List.map_cons, List.map_nil, List.sum_cons, List.sum_nil]
    abel
  · intro u hu hty
    obtain ⟨h1, h2⟩ := pM u hu hty
    simp only [List.append_nil] at h2
    refine ⟨?_, h2⟩
    rcases h1 with h1 | ⟨i, hi, hin⟩ | h1
    · exact Or.inl ⟨r.1.2, by simp, h1⟩
    · exact Or.inl ⟨i, by simp [hi], hin⟩
    · exact Or.inr h1

theorem x_interval_loop_wf {geo : Bool} (ops : FiberOps) (xf : Fiber) (T : List (Fiber × Interval))
    (C : Multiset (Sym2 Nat)) (PX : Nat → Prop) (g0 : WeaveGraph) (ys : List Fiber)
    (xis : List Interval) (hI : Inv2 geo ops xf T C PX g0 (g0, ys) [] xis) :
    ∃ r, foreach (x_interval_step ops xf) (g0, ys) xis = Except.ok r ∧
      Inv2 geo ops xf T C PX g0 r.1 r.2 [] :=
  foreach_total (x_interval_step ops xf) (Inv2 geo ops xf T C PX g0)
    (fun s done a rest h => x_interval_step_wf ops xf T C PX g0 s done a rest h)
    xis (g0, ys) hI

theorem x_tasks_cons (xf : Fiber) (rest : List Fiber) :
    x_tasks (xf :: rest) = (xf.ints.map fun xi => (xf, xi)) ++ x_tasks rest := by
  simp [x_tasks, List.flatMap_cons]

theorem x_fiber_step_wf {geo : Bool} (ops : FiberOps) (s : WeaveGraph × List Fiber)
    (done : List Fiber)
    (a : Fiber) (rest : List Fiber) (hI : Inv1 geo ops s done (a :: rest)) :
    ∃ r, x_fiber_step ops s a = Except.ok r ∧ Inv1 geo ops r.1 (done ++ [r.2]) rest := by
  obtain ⟨g, ys⟩ := s
  obtain ⟨⟨hg, hV⟩, hdone, hrest, hY, hF, hM⟩ := hI
  simp only at hg hV hdone hrest hY hF hM
  have hI2 : Inv2 geo ops a (x_tasks rest) (fibers_chain done) (inner_fibers done) g (g, ys) []
      a.ints := by
    refine ⟨⟨hg, hV⟩, extends_refl _, ?_, hrest a (List.mem_cons_self _ _), ?_, ?_, ?_⟩
    · intro xi hxi
      cases hxi
    · intro yf hyf yj hyj
      have := hY yf hyf yj hyj
      rw [x_tasks_cons] at this
      exact this
    · rw [hF]
      simp only [ints_chain, List.map_nil, List.sum_nil]
      abel
    · intro u hu hty
      obtain ⟨h1, h2⟩ := hM u hu hty
      exact ⟨Or.inr h1, h2⟩
  obtain ⟨r, hr, post⟩ := x_interval_loop_wf ops a _ _ _ g ys a.ints hI2
  obtain ⟨-, hshape, -⟩ := x_interval_loop_count ops a (g, ys) a.ints r hr
  obtain ⟨⟨pg, pV⟩, pext, pdone, -, pY, pF, pM⟩ := post
  simp only [List.map_nil, List.nil_append] at pY
  have hres : Inv1 geo ops r.1 (done ++ [{ a with ints := r.2 }]) rest := by
    refine ⟨⟨pg, pV⟩, ?_, ?_, pY, ?_, ?_⟩
    · intro xf hxf
      rcases List.mem_append.1 hxf with hxf | hxf
      · exact fun xi hxi => xDone_grow g _ xf xi pext (hdone xf hxf xi hxi)
      · rw [List.mem_singleton] at hxf
        subst hxf
        exact fun xi hxi => pdone xi hxi
    · intro xf hxf xi hxi
      exact xFresh_congr ops xf xi ys r.1.2 hshape
        (hrest xf (List.mem_cons_of_mem _ hxf) xi hxi)
    · rw [pF, fibers_chain_append, fibers_chain_cons]
      simp only [fibers_chain, List.map_nil, List.sum_nil]
      abel
    · intro u hu hty
      obtain ⟨h1, h2⟩ := pM u hu hty
      refine ⟨?_, h2⟩
      rcases h1 with h1 | ⟨f, hf, hin⟩
      · exact ⟨{ a with ints := r.2 }, by simp, h1⟩
      · exact ⟨f, by simp [hf], hin⟩
  unfold x_fiber_step
  by_cases ht : (!a.ints.isEmpty) = true
  · simp only [ht, if_true, hr]
    exact ⟨_, rfl, hres⟩
  · simp only [ht]
    have he : a.ints = [] := by
      simpa using ht
    rw [he] at hr
    simp only [foreach] at hr
    cases hr
    refine ⟨_, rfl, ?_⟩
    have : ({ a with ints := [] } : Fiber) = a := by
      cases a
      simp only at he
      simp [he]
    simp only [this] at hres
    exact hres

theorem x_fiber_loop_wf {geo : Bool} (ops : FiberOps) (s : WeaveGraph × List Fiber)
    (xs : List Fiber)
    (hI : Inv1 geo ops s [] xs) :
    ∃ r, foreach (x_fiber_step ops) s xs = Except.ok r ∧ Inv1 geo ops r.1 r.2 [] :=
  foreach_total (x_fiber_step ops) (Inv1 geo ops)
    (fun s done a rest h => x_fiber_step_wf ops s done a rest h) xs s hI

theorem fibers_chain_fresh (fs : List Fiber)
    (h : ∀ f ∈ fs, ∀ i ∈ f.ints, i.intersections = []) : fibers_chain fs = 0 := by
  unfold fibers_chain
  apply List.sum_eq_zero
  intro m hm
  obtain ⟨f, hf, rfl⟩ := List.mem_map.1 hm
  unfold ints_chain
  apply List.sum_eq_zero
  intro m hm
  obtain ⟨i, hi, rfl⟩ := List.mem_map.1 hm
  simp [chain_edges, h f hf i hi]

theorem build_wf {geo : Bool} (ops : FiberOps) (w : Weave) (hg : w.g = WeaveGraph.empty)
    (hwf : WellFormed geo ops (sort_fibers ops w).xfibers (sort_fibers ops w).yfibers) :
    ∃ w', build ops w = Except.ok w' ∧ Inv1 geo ops (w'.g, w'.yfibers) w'.xfibers [] := by
  have hI : Inv1 geo ops ((sort_fibers ops w).g, (sort_fibers ops w).yfibers) []
      (sort_fibers ops w).xfibers := by
    have hg' : (sort_fibers ops w).g = WeaveGraph.empty := hg
    rw [hg']
    refine ⟨⟨graphOK_empty, ?_⟩, ?_, ?_, ?_, ?_, ?_⟩
    · intro u hu
      simp [WeaveGraph.empty, WeaveGraph.num_vertices] at hu
    · intro xf hxf
      cases hxf
    · intro xf hxf xi hxi
      exact hwf.1 xf hxf xi hxi
    · intro yf hyf yj hyj
      obtain ⟨⟨h1, h2, h3⟩, h4, h5⟩ := hwf.2 yf hyf yj hyj
      refine ⟨?_, h4, ?_⟩
      · simp only [IntervalStruct, h1, Bool.false_eq_true, if_false]
        exact ⟨h2, h3⟩
      · intro k hk
        simp only [KeyCond, h1, Bool.false_eq_true, if_false, axis_key]
        exact h5 k hk
    · rw [fibers_chain_fresh _ (fun f hf i hi => (hwf.2 f hf i hi).1.2.1)]
      simp [edge_keys, WeaveGraph.empty, fibers_chain]
    · intro u hu
      simp [WeaveGraph.empty, WeaveGraph.num_vertices] at hu
  obtain ⟨r, hr, post⟩ := x_fiber_loop_wf ops _ _ hI
  unfold build
  simp only [hr]
  exact ⟨_, rfl, post⟩

theorem list_inner_consecutive (l : List Nat) (u : Nat) (hm : u ∈ l)
    (hh : l.head? ≠ some u) (hl : l.getLast? ≠ some u) :
    ∃ i a b, l[i]? = some a ∧ l[i + 1]? = some u ∧ l[i + 2]? = some b := by
  obtain ⟨j, hj⟩ := List.mem_iff_getElem?.1 hm
  have hlen : j < l.length := (List.getElem?_eq_some_iff.1 hj).1
  have h0 : j ≠ 0 := by
    intro h0
    subst h0
    rw [List.head?_eq_getElem?] at hh
    exact hh hj
  have h1 : j + 1 < l.length := by
    by_contra hc
    have hje : l.length - 1 = j := by omega
    rw [List.getLast?_eq_getElem?, hje] at hl
    exact hl hj
  cases ha : l[j - 1]? with
  | none =>
    have := List.getElem?_eq_none_iff.1 ha
    omega
  | some a =>
    cases hb : l[j + 1]? with
    | none =>
      have := List.getElem?_eq_none_iff.1 hb
      omega
    | some b =>
      refine ⟨j - 1, a, b, ha, ?_, ?_⟩
      · have : j - 1 + 1 = j := by omega
        rw [this, hj]
      · have : j - 1 + 2 = j + 1 := by omega
        rw [this, hb]

theorem inner_consecutive (s : VertexPairSet) (u : Nat) (h : Inner s u) :
    ∃ a b, Consecutive s a u b := by
  obtain ⟨hm, hh, hl⟩ := h
  obtain ⟨i, a, b, h1⟩ := list_inner_consecutive (s.map Prod.fst) u hm
    (by
      rw [List.head?_map]
      intro hc
      obtain ⟨p, hp, hpu⟩ := Option.map_eq_some'.1 hc
      exact hh p hp hpu)
    (by
      rw [List.getLast?_map]
      intro hc
      obtain ⟨p, hp, hpu⟩ := Option.map_eq_some'.1 hc
      exact hl p hp hpu)
  exact ⟨a, b, i, h1⟩

theorem consecutive_length (s : VertexPairSet) (a u b : Nat) (h : Consecutive s a u b) :
    3 ≤ s.length := by
  obtain ⟨i, -, -, h3⟩ := h
  have := (List.getElem?_eq_some_iff.1 h3).1
  simp only [List.length_map] at this
  omega

theorem consecutive_chain (s : VertexPairSet) (a u b : Nat) (h : Consecutive s a u b) :
    s(a, u) ∈ chain_edges s ∧ s(b, u) ∈ chain_edges s := by
  have hlen := consecutive_length s a u b h
  obtain ⟨i, h1, h2, h3⟩ := h
  rw [chain_edges, if_pos hlen]
  simp only [Multiset.mem_coe, chain]
  constructor
  · have hi : (List.zipWith (fun x y => s(x, y)) (s.map Prod.fst) (s.map Prod.fst).tail)[i]?
        = some s(a, u) := by
      rw [List.getElem?_zipWith, List.getElem?_tail, h1, h2]
    exact List.getElem?_mem hi
  · have hi : (List.zipWith (fun x y => s(x, y)) (s.map Prod.fst) (s.map Prod.fst).tail)[i + 1]?
        = some s(b, u) := by
      rw [List.getElem?_zipWith, List.getElem?_tail, h2, h3, Sym2.eq_swap]
    exact List.getElem?_mem hi

theorem consecutive_ne (s : VertexPairSet) (a u b : Nat) (hs : (s.map Prod.fst).Nodup)
    (h : Consecutive s a u b) : a ≠ b := by
  obtain ⟨i, h1, -, h3⟩ := h
  intro hab
  subst hab
  have hi := (List.getElem?_eq_some_iff.1 h1).1
  have := (List.nodup_iff_getElem?_ne_getElem?.1 hs) i (i + 2) (by omega)
    (List.getElem?_eq_some_iff.1 h3).1
  exact this (h1.trans h3.symm)

theorem mem_ints_chain (l : List Interval) (i : Interval) (e : Sym2 Nat) (hi : i ∈ l)
    (he : e ∈ chain_edges i.intersections) : e ∈ ints_chain l := by
  induction l with
  | nil => cases hi
  | cons j t ih =>
    rw [ints_chain_cons, Multiset.mem_add]
    rcases List.mem_cons.1 hi with rfl | hi
    · exact Or.inl he
    · exact Or.inr (ih hi)

theorem mem_fibers_chain (fs : List Fiber) (f : Fiber) (i : Interval) (e : Sym2 Nat)
    (hf : f ∈ fs) (hi : i ∈ f.ints) (he : e ∈ chain_edges i.intersections) :
    e ∈ fibers_chain fs := by
  induction fs with
  | nil => cases hf
  | cons f' t ih =>
    rw [fibers_chain_cons, Multiset.mem_add]
    rcases List.mem_cons.1 hf with rfl | hf
    · exact Or.inl (mem_ints_chain _ i e hi he)
    · exact Or.inr (ih hf)

theorem vertex_type_lt (g : WeaveGraph) (u : Nat) (t : VertexType)
    (h : g.vertex_type u = some t) : u < g.num_vertices := by
  simp only [WeaveGraph.vertex_type, Option.map_eq_some'] at h
  obtain ⟨p, hp, -⟩ := h
  exact (List.getElem?_eq_some_iff.1 hp).1

/-- The neighbourhood of a crossing vertex in a graph whose edges are exactly the chains of the
ordered sets. -/
theorem crossing_neighbourhood {geo : Bool} (ops : FiberOps) (g : WeaveGraph)
    (xs ys : List Fiber) (hI : Inv1 geo ops (g, ys) xs []) (u : Nat)
    (hu : g.vertex_type u = some VertexType.INT) :
    g.degree u = 4 ∧
      ∃ xf ∈ xs, ∃ xi ∈ xf.ints, ∃ yf ∈ ys, ∃ yi ∈ yf.ints, ∃ a b c d,
        Consecutive xi.intersections a u b ∧ Consecutive yi.intersections c u d ∧
        [a, b, c, d].Nodup ∧ (neighbours g.edges u).Perm [a, b, c, d] := by
  obtain ⟨⟨hg, hV⟩, hX, -, hY, hF, hM⟩ := hI
  simp only at hg hV hX hY hF hM
  have hlt := vertex_type_lt g u _ hu
  have hdeg : g.degree u = 4 := (hV u hlt).2.1 hu
  obtain ⟨⟨xf, hxf, xi, hxi, hinx⟩, ⟨yf, hyf, yi, hyi, hiny⟩⟩ := hM u hlt hu
  obtain ⟨a, b, hab⟩ := inner_consecutive _ u hinx
  obtain ⟨c, d, hcd⟩ := inner_consecutive _ u hiny
  refine ⟨hdeg, xf, hxf, xi, hxi, yf, hyf, yi, hyi, a, b, c, d, hab, hcd, ?_⟩
  have hxa := consecutive_chain _ a u b hab
  have hyc := consecutive_chain _ c u d hcd
  have mxa := mem_fibers_chain xs xf xi _ hxf hxi hxa.1
  have mxb := mem_fibers_chain xs xf xi _ hxf hxi hxa.2
  have myc := mem_fibers_chain ys yf yi _ hyf hyi hyc.1
  have myd := mem_fibers_chain ys yf yi _ hyf hyi hyc.2
  have hnd : (edge_keys g).Nodup := Multiset.coe_nodup.2 hg.1
  have hcross : ∀ v w, s(v, u) ∈ fibers_chain xs → s(w, u) ∈ fibers_chain ys → v ≠ w := by
    intro v w hv hw hvw
    subst hvw
    have h1 := Multiset.one_le_count_iff_mem.2 hv
    have h2 := Multiset.one_le_count_iff_mem.2 hw
    have h3 := Multiset.nodup_iff_count_le_one.1 hnd s(v, u)
    rw [hF, Multiset.count_add] at h3
    omega
  have hne_ab : a ≠ b := consecutive_ne _ a u b (hX xf hxf xi hxi).1.1 hab
  have hsy : (yi.intersections.map Prod.fst).Nodup := by
    have h := (hY yf hyf yi hyi).1
    unfold IntervalStruct at h
    split at h
    · exact h.1.1
    · rw [h.1]
      exact List.nodup_nil
  have hne_cd : c ≠ d := consecutive_ne _ c u d hsy hcd
  have hnodup : [a, b, c, d].Nodup := by
    have h1 := hcross a c mxa myc
    have h2 := hcross a d mxa myd
    have h3 := hcross b c mxb myc
    have h4 := hcross b d mxb myd
    simp only [List.nodup_cons, List.mem_cons, List.mem_singleton, List.not_mem_nil,
      List.nodup_nil, not_or, or_false, not_false_eq_true, and_true]
    exact ⟨⟨hne_ab, h1, h2⟩, ⟨h3, h4⟩, hne_cd⟩
  refine ⟨hnodup, ?_⟩
  have hin : ∀ v, s(v, u) ∈ edge_keys g → v ∈ neighbours g.edges u := by
    intro v hv
    obtain ⟨e, he, hk⟩ := List.mem_map.1 (Multiset.mem_coe.1 hv)
    exact mem_neighbours_of_key g.edges e v u he hk
  have hsub : [a, b, c, d] ⊆ neighbours g.edges u := by
    intro v hv
    simp only [List.mem_cons, List.mem_singleton, List.not_mem_nil, or_false] at hv
    apply hin
    rw [hF, Multiset.mem_add]
    rcases hv with rfl | rfl | rfl | rfl
    · exact Or.inl mxa
    · exact Or.inl mxb
    · exact Or.inr myc
    · exact Or.inr myd
  have hsp := (hnodup.subperm hsub).perm_of_length_le (by
    have : (neighbours g.edges u).length = 4 := hdeg
    rw [this]
    simp)
  exact hsp.symm

theorem slot_of_range (d : Point) :
    slot_of d = none ∨ slot_of d ∈ [some 0, some 1, some 2, some 3] := by
  unfold slot_of
  split
  · simp
  · split
    · simp
    · split
      · simp
      · split
        · simp
        · simp

theorem degree_le_four (g : WeaveGraph) (u : Nat) (h1 : (slots g u).Nodup)
    (h2 : ∀ σ ∈ slots g u, σ ≠ none) : g.degree u ≤ 4 := by
  have hsub : slots g u ⊆ [some 0, some 1, some 2, some 3] := by
    intro σ hσ
    have hn := h2 σ hσ
    simp only [slots, List.mem_map] at hσ
    obtain ⟨w, -, rfl⟩ := hσ
    rcases slot_of_range ⟨(g.position u).x - (g.position w).x,
      (g.position u).y - (g.position w).y, (g.position u).z - (g.position w).z⟩ with h | h
    · exact absurd h hn
    · exact h
  have := (h1.subperm hsub).length_le
  simpa [slots, WeaveGraph.degree] using this


theorem slot_of_lt (d : Point) (k : Nat) (h : slot_of d = some k) : k < 4 := by
  unfold slot_of at h
  split at h
  · cases h; decide
  · split at h
    · cases h; decide
    · split at h
      · cases h; decide
      · split at h
        · cases h; decide
        · cases h

theorem slot_of_none (d : Point) : slot_of d = none ↔ d.x = 0 ∧ d.y = 0 := by
  unfold slot_of
  split
  · simp only [reduceCtorEq, false_iff]; omega
  · split
    · simp only [reduceCtorEq, false_iff]; omega
    · split
      · simp only [reduceCtorEq, false_iff]; omega
      · split
        · simp only [reduceCtorEq, false_iff]; omega
        · simp only [true_iff]; omega

theorem edge_slot_none (g : WeaveGraph) (u w : Nat) :
    edge_slot g u w = none ↔
      (g.position u).x = (g.position w).x ∧ (g.position u).y = (g.position w).y := by
  rw [edge_slot, slot_of_none]
  simp only
  omega

theorem out_edges_from_snd (u : Nat) (l : List Edge) (i : Nat) :
    (out_edges_from u l i).map Prod.snd = neighbours l u := by
  induction l generalizing i with
  | nil => rfl
  | cons e t ih =>
    rw [out_edges_from, neighbours_cons, List.map_append, ih]
    by_cases h1 : e.source = u <;> by_cases h2 : e.target = u <;> simp [h1, h2]

theorem out_edges_snd (g : WeaveGraph) (u : Nat) :
    (out_edges g u).map Prod.snd = neighbours g.edges u :=
  out_edges_from_snd u g.edges 0

theorem getLast?_cons_or {α : Type} (a : α) (l : List α) :
    (a :: l).getLast? = (l.getLast?).or (some a) := by
  cases l with
  | nil => rfl
  | cons b t =>
    rw [List.getLast?_cons_cons]
    cases h : (b :: t).getLast? with
    | none => simp at h
    | some c => rfl

theorem classify_edges_spec (g : WeaveGraph) (u : Nat) (l : List EdgeDescriptor)
    (acc acc' : List (Option EdgeDescriptor))
    (h : classify_edges g u l acc = Except.ok acc') :
    acc'.length = acc.length ∧
      ∀ k < acc.length, acc'.getD k none
        = ((l.filter fun oe => edge_slot g u oe.2 == some k).getLast?).or (acc.getD k none) := by
  induction l generalizing acc with
  | nil =>
    simp only [classify_edges] at h
    cases h
    simp
  | cons oe t ih =>
    simp only [classify_edges, place_edge] at h
    cases hs : edge_slot g u oe.2 with
    | none => simp only [hs] at h; cases h
    | some k0 =>
      simp only [hs] at h
      obtain ⟨h1, h2⟩ := ih _ h
      rw [List.length_set] at h1 h2
      refine ⟨h1, fun k hk => ?_⟩
      rw [h2 k hk]
      by_cases hkk : k0 = k
      · subst hkk
        have : (List.filter (fun oe => edge_slot g u oe.2 == some k0) (oe :: t))
            = oe :: List.filter (fun oe => edge_slot g u oe.2 == some k0) t := by
          rw [List.filter_cons_of_pos]
          simp [hs]
        rw [this, getLast?_cons_or]
        have hg : (acc.set k0 (some oe)).getD k0 none = some oe := by
          simp [List.getD_eq_getElem?_getD, List.getElem?_set, hk]
        rw [hg]
        cases (List.filter (fun oe => edge_slot g u oe.2 == some k0) t).getLast? <;> rfl
      · have : (List.filter (fun oe => edge_slot g u oe.2 == some k) (oe :: t))
            = List.filter (fun oe => edge_slot g u oe.2 == some k) t := by
          rw [List.filter_cons_of_neg]
          simp [hs, hkk]
        rw [this]
        have hg : (acc.set k0 (some oe)).getD k none = acc.getD k none := by
          simp [List.getD_eq_getElem?_getD, List.getElem?_set, hkk]
        rw [hg]

theorem classify_edges_error (g : WeaveGraph) (u : Nat) (l : List EdgeDescriptor)
    (acc : List (Option EdgeDescriptor)) :
    (∃ oe ∈ l, edge_slot g u oe.2 = none) ∧
        classify_edges g u l acc = Except.error Failure.assertion ∨
      (∀ oe ∈ l, edge_slot g u oe.2 ≠ none) ∧ ∃ acc', classify_edges g u l acc = Except.ok acc' := by
  induction l generalizing acc with
  | nil => exact Or.inr ⟨fun _ h => (List.not_mem_nil _ h).elim, acc, rfl⟩
  | cons oe t ih =>
    simp only [classify_edges, place_edge]
    cases hs : edge_slot g u oe.2 with
    | none => exact Or.inl ⟨⟨oe, List.mem_cons_self _ _, hs⟩, rfl⟩
    | some k0 =>
      simp only
      rcases ih (acc.set k0 (some oe)) with ⟨⟨x, hx, hxs⟩, he⟩ | ⟨hall, acc', he⟩
      · exact Or.inl ⟨⟨x, List.mem_cons_of_mem _ hx, hxs⟩, he⟩
      · refine Or.inr ⟨?_, acc', he⟩
        intro x hx
        rcases List.mem_cons.1 hx with rfl | hx
        · rw [hs]; simp
        · exact hall x hx

theorem embedding_row_spec (g : WeaveGraph) (u : Nat) (row : List EdgeDescriptor)
    (h : embedding_row g u = Except.ok row) :
    row = [0, 1, 2, 3].filterMap (slot_edge g u) := by
  unfold embedding_row at h
  cases hc : classify_edges g u (out_edges g u) [none, none, none, none] with
  | error e => simp only [hc] at h; cases h
  | ok acc =>
    simp only [hc] at h
    cases h
    obtain ⟨h1, h2⟩ := classify_edges_spec g u _ _ acc hc
    simp only [List.length_cons, List.length_nil] at h1 h2
    match acc, h1 with
    | [a0, a1, a2, a3], _ =>
      have e0 := h2 0 (by omega)
      have e1 := h2 1 (by omega)
      have e2 := h2 2 (by omega)
      have e3 := h2 3 (by omega)
      simp only [List.getD_cons_zero, List.getD_cons_succ, Option.or_none] at e0 e1 e2 e3
      subst e0 e1 e2 e3
      rfl

theorem embedding_row_cases (g : WeaveGraph) (u : Nat) :
    (∃ w ∈ neighbours g.edges u, edge_slot g u w = none) ∧
        embedding_row g u = Except.error Failure.assertion ∨
      (∀ w ∈ neighbours g.edges u, edge_slot g u w ≠ none) ∧
        ∃ row, embedding_row g u = Except.ok row := by
  unfold embedding_row
  rw [← out_edges_snd]
  rcases classify_edges_error g u (out_edges g u) [none, none, none, none] with
    ⟨⟨oe, hoe, hs⟩, he⟩ | ⟨hall, acc', he⟩
  · left
    rw [he]
    exact ⟨⟨oe.2, List.mem_map.2 ⟨oe, hoe, rfl⟩, hs⟩, rfl⟩
  · right
    rw [he]
    refine ⟨?_, _, rfl⟩
    intro w hw
    obtain ⟨oe, hoe, rfl⟩ := List.mem_map.1 hw
    exact hall oe hoe

theorem embedding_rows_spec (g : WeaveGraph) (l : List Nat) (rows : List (List EdgeDescriptor))
    (h : embedding_rows g l = Except.ok rows) :
    rows = l.map fun u => [0, 1, 2, 3].filterMap (slot_edge g u) := by
  induction l generalizing rows with
  | nil =>
    simp only [embedding_rows] at h
    cases h
    rfl
  | cons u t ih =>
    simp only [embedding_rows] at h
    cases hr : embedding_row g u with
    | error e => simp only [hr] at h; cases h
    | ok row =>
      simp only [hr] at h
      cases ht : embedding_rows g t with
      | error e => simp only [ht] at h; cases h
      | ok rest =>
        simp only [ht] at h
        cases h
        rw [List.map_cons, ← ih rest ht, ← embedding_row_spec g u row hr]

theorem embedding_rows_cases (g : WeaveGraph) (l : List Nat) :
    (∃ u ∈ l, ∃ w ∈ neighbours g.edges u, edge_slot g u w = none) ∧
        embedding_rows g l = Except.error Failure.assertion ∨
      (∀ u ∈ l, ∀ w ∈ neighbours g.edges u, edge_slot g u w ≠ none) ∧
        ∃ rows, embedding_rows g l = Except.ok rows := by
  induction l with
  | nil => exact Or.inr ⟨fun _ h => (List.not_mem_nil _ h).elim, [], rfl⟩
  | cons u t ih =>
    simp only [embedding_rows]
    rcases embedding_row_cases g u with ⟨⟨w, hw, hs⟩, he⟩ | ⟨hall, row, he⟩
    · rw [he]
      exact Or.inl ⟨⟨u, List.mem_cons_self _ _, w, hw, hs⟩, rfl⟩
    · rw [he]
      simp only
      rcases ih with ⟨⟨x, hx, w, hw, hs⟩, het⟩ | ⟨hall', rows, het⟩
      · rw [het]
        exact Or.inl ⟨⟨x, List.mem_cons_of_mem _ hx, w, hw, hs⟩, rfl⟩
      · rw [het]
        refine Or.inr ⟨?_, _, rfl⟩
        intro x hx
        rcases List.mem_cons.1 hx with rfl | hx
        · exact hall
        · exact hall' x hx

theorem zero_delta_iff_slot (g : WeaveGraph) (hb : EdgesBounded g) :
    (∃ u ∈ List.range g.num_vertices, ∃ w ∈ neighbours g.edges u, edge_slot g u w = none) ↔
      ∃ e ∈ g.edges, zero_delta g e := by
  constructor
  · rintro ⟨u, -, w, hw, hs⟩
    obtain ⟨e, he, h⟩ := mem_neighbours g.edges u w hw
    rw [edge_slot_none] at hs
    refine ⟨e, he, ?_⟩
    rcases h with ⟨rfl, rfl⟩ | ⟨rfl, rfl⟩
    · exact hs
    · exact ⟨hs.1.symm, hs.2.symm⟩
  · rintro ⟨e, he, hz⟩
    refine ⟨e.source, List.mem_range.2 (hb e he).1, e.target, ?_, (edge_slot_none g _ _).2 hz⟩
    simp only [neighbours, List.mem_flatMap]
    exact ⟨e, he, by simp⟩

theorem put_type_getElem? (g : WeaveGraph) (v : Nat) (t : VertexType) (u : Nat) :
    (g.put_type v t).verts[u]?
      = (g.verts[u]?).map fun p => if u = v then { p with type := t } else p := by
  unfold WeaveGraph.put_type
  cases hv : g.verts[v]? with
  | none =>
    simp only
    by_cases huv : u = v
    · subst huv
      rw [hv]
      rfl
    · cases g.verts[u]? <;> simp [huv]
  | some p =>
    simp only [List.getElem?_set]
    by_cases huv : v = u
    · subst huv
      have hlt := (List.getElem?_eq_some_iff.1 hv).1
      simp [hlt, hv]
    · have huv' : ¬ u = v := fun h => huv h.symm
      cases g.verts[u]? <;> simp [huv, huv']

theorem put_type_edges (g : WeaveGraph) (v : Nat) (t : VertexType) :
    (g.put_type v t).edges = g.edges := by
  unfold WeaveGraph.put_type
  cases g.verts[v]? <;> rfl

/-- The loop of `split_components` over the vertices `l` of the copy: a vertex keeps its
position and component label, is retyped INT when it is in `l` and outside component `m`, and
an edge stays when none of its end-points is such a vertex. -/
theorem restrict_fold (m : Nat) (l : List Nat) (g : WeaveGraph) :
    (∀ u, (l.foldl (restrict_step m) g).verts[u]?
        = (g.verts[u]?).map fun p =>
            if u ∈ l ∧ p.component ≠ m then { p with type := VertexType.INT } else p) ∧
      (l.foldl (restrict_step m) g).edges
        = g.edges.filter fun e =>
            l.all fun v => g.component v == m || !(e.source == v || e.target == v) := by
  induction l generalizing g with
  | nil =>
    refine ⟨fun u => ?_, ?_⟩
    · simp only [List.foldl_nil, List.not_mem_nil, false_and, if_false]
      cases g.verts[u]? <;> rfl
    · simp
  | cons v t ih =>
    rw [List.foldl_cons]
    obtain ⟨h1, h2⟩ := ih (restrict_step m g v)
    have hverts : ∀ u, (restrict_step m g v).verts[u]?
        = (g.verts[u]?).map fun p =>
            if u = v ∧ p.component ≠ m then { p with type := VertexType.INT } else p := by
      intro u
      unfold restrict_step
      by_cases hc : g.component v = m
      · rw [if_neg (by simpa using hc)]
        cases hu : g.verts[u]? with
        | none => rfl
        | some p =>
          simp only [Option.map_some', Option.some.injEq]
          by_cases huv : u = v
          · subst huv
            simp only [WeaveGraph.component, hu] at hc
            simp [hc]
          · simp [huv]
      · rw [if_pos hc, put_type_getElem?]
        show Option.map _ g.verts[u]? = _
        cases hu : g.verts[u]? with
        | none => rfl
        | some p =>
          simp only [Option.map_some', Option.some.injEq]
          by_cases huv : u = v
          · subst huv
            simp only [WeaveGraph.component, hu] at hc
            simp [hc]
          · simp [huv]
    have hcomp : ∀ u, (restrict_step m g v).component u = g.component u := by
      intro u
      simp only [WeaveGraph.component, hverts u]
      cases g.verts[u]? with
      | none => rfl
      | some p =>
        simp only [Option.map_some']
        split <;> rfl
    have hedges : (restrict_step m g v).edges
        = g.edges.filter fun e => g.component v == m || !(e.source == v || e.target == v) := by
      unfold restrict_step
      by_cases hc : g.component v = m
      · rw [if_neg (by simpa using hc)]
        simp [hc]
      · rw [if_pos hc, put_type_edges]
        simp only [WeaveGraph.clear_vertex]
        apply List.filter_congr
        intro e _
        simp [hc]
    refine ⟨fun u => ?_, ?_⟩
    · rw [h1 u, hverts u]
      cases g.verts[u]? with
      | none => rfl
      | some p =>
        simp only [Option.map_some', Option.some.injEq, List.mem_cons]
        by_cases huv : u = v <;> by_cases hut : u ∈ t <;> by_cases hpc : p.component = m <;>
          simp [huv, hut, hpc]
    · rw [h2, hedges, List.filter_filter]
      apply List.filter_congr
      intro e _
      simp only [hcomp, List.all_cons]
      rw [Bool.and_comm]

theorem restrict_verts (g : WeaveGraph) (m : Nat) :
    (restrict g m).verts
      = g.verts.map fun p => if p.component ≠ m then { p with type := VertexType.INT } else p := by
  apply List.ext_getElem?
  intro u
  rw [restrict, (restrict_fold m (List.range g.num_vertices) g).1 u, List.getElem?_map]
  cases hu : g.verts[u]? with
  | none => rfl
  | some p =>
    have hlt : u ∈ List.range g.num_vertices :=
      List.mem_range.2 (List.getElem?_eq_some_iff.1 hu).1
    simp [hlt]

theorem restrict_edges (g : WeaveGraph) (hb : EdgesBounded g) (m : Nat) :
    (restrict g m).edges
      = g.edges.filter fun e => g.component e.source == m && g.component e.target == m := by
  rw [restrict, (restrict_fold m (List.range g.num_vertices) g).2]
  apply List.filter_congr
  intro e he
  obtain ⟨h1, h2⟩ := hb e he
  rw [Bool.eq_iff_iff]
  simp only [List.all_eq_true, List.mem_range, Bool.or_eq_true, beq_iff_eq, Bool.not_eq_true',
    Bool.or_eq_false_iff, beq_eq_false_iff_ne, ne_eq, Bool.and_eq_true]
  constructor
  · intro h
    refine ⟨?_, ?_⟩
    · rcases h e.source h1 with h | h
      · exact h
      · exact absurd rfl h.1
    · rcases h e.target h2 with h | h
      · exact h
      · exact absurd rfl h.2
  · rintro ⟨hs, ht⟩ v _
    by_cases h1 : e.source = v
    · subst h1
      exact Or.inl hs
    · by_cases h2 : e.target = v
      · subst h2
        exact Or.inl ht
      · exact Or.inr ⟨h1, h2⟩

theorem merge_roots_length (roots : List Nat) (e : Edge) :
    (merge_roots roots e).length = roots.length := by
  simp [merge_roots]

theorem foldl_merge_roots_length (l : List Edge) (roots : List Nat) :
    (l.foldl merge_roots roots).length = roots.length := by
  induction l generalizing roots with
  | nil => rfl
  | cons e t ih => rw [List.foldl_cons, ih, merge_roots_length]

theorem component_roots_length (g : WeaveGraph) :
    (component_roots g).length = g.num_vertices := by
  simp [component_roots, foldl_merge_roots_length]

theorem connected_components_verts (g : WeaveGraph) (u : Nat) :
    (connected_components g).1.verts[u]?
      = (g.verts[u]?).map fun p =>
          { p with component :=
              count_roots (component_roots g) ((component_roots g).getD u u) } := by
  simp only [connected_components, List.getElem?_zipWith]
  cases hu : g.verts[u]? with
  | none => rfl
  | some p =>
    have hlt : u < (component_roots g).length := by
      rw [component_roots_length]
      exact (List.getElem?_eq_some_iff.1 hu).1
    simp [List.getD_eq_getElem?_getD, List.getElem?_eq_getElem hlt]

theorem connected_components_frame (g : WeaveGraph) :
    (connected_components g).1.edges = g.edges ∧
      (connected_components g).1.num_vertices = g.num_vertices ∧
      (connected_components g).1.verts.map (fun p => (p.position, p.type))
        = g.verts.map (fun p => (p.position, p.type)) ∧
      (∀ u, (connected_components g).1.position u = g.position u) ∧
      (∀ u, (connected_components g).1.vertex_type u = g.vertex_type u) := by
  refine ⟨rfl, ?_, ?_, ?_, ?_⟩
  · simp [connected_components, WeaveGraph.num_vertices, component_roots_length]
  · apply List.ext_getElem?
    intro u
    rw [List.getElem?_map, List.getElem?_map, connected_components_verts]
    cases g.verts[u]? <;> rfl
  · intro u
    simp only [WeaveGraph.position, connected_components_verts]
    cases g.verts[u]? <;> rfl
  · intro u
    simp only [WeaveGraph.vertex_type, connected_components_verts]
    cases g.verts[u]? <;> rfl

theorem connected_components_label (g : WeaveGraph) (u : Nat) (hu : u < g.num_vertices) :
    (connected_components g).1.component u
      = count_roots (component_roots g) ((component_roots g).getD u u) := by
  simp only [WeaveGraph.component, connected_components_verts]
  have : g.verts[u]? = some (g.verts.get ⟨u, hu⟩) := List.getElem?_eq_getElem hu
  rw [this]
  rfl

theorem connected_refl (l : List Edge) (u : Nat) : Connected l u u :=
  Relation.EqvGen.refl u

theorem connected_symm (l : List Edge) (u v : Nat) (h : Connected l u v) : Connected l v u :=
  Relation.EqvGen.symm u v h

theorem connected_trans (l : List Edge) (u v w : Nat) (h1 : Connected l u v)
    (h2 : Connected l v w) : Connected l u w :=
  Relation.EqvGen.trans u v w h1 h2

theorem connected_mono (l l' : List Edge) (hsub : ∀ e ∈ l, e ∈ l') (u v : Nat)
    (h : Connected l u v) : Connected l' u v := by
  apply Relation.EqvGen.mono _ h
  rintro a b ⟨e, he, h1, h2⟩
  exact ⟨e, hsub e he, h1, h2⟩

theorem connected_edge (l : List Edge) (e : Edge) (he : e ∈ l) :
    Connected l e.source e.target :=
  Relation.EqvGen.rel _ _ ⟨e, he, rfl, rfl⟩

/-- Connected vertices receive the same colour from every colouring that gives the two
end-points of every edge the same colour. -/
theorem connected_colour (l : List Edge) (c : Nat → Nat)
    (hc : ∀ e ∈ l, c e.source = c e.target) (u v : Nat) (h : Connected l u v) : c u = c v := by
  induction h with
  | rel a b hab =>
    obtain ⟨e, he, rfl, rfl⟩ := hab
    exact hc e he
  | refl a => rfl
  | symm a b _ ih => exact ih.symm
  | trans a b d _ _ ih1 ih2 => exact ih1.trans ih2

theorem merge_roots_getD (roots : List Nat) (e : Edge) (v : Nat)
    (hhi : max (roots.getD e.source e.source) (roots.getD e.target e.target) < roots.length) :
    (merge_roots roots e).getD v v
      = if roots.getD v v
            = max (roots.getD e.source e.source) (roots.getD e.target e.target) then
          min (roots.getD e.source e.source) (roots.getD e.target e.target)
        else roots.getD v v := by
  by_cases hv : v < roots.length
  · simp [merge_roots, List.getD_eq_getElem?_getD, List.getElem?_map,
      List.getElem?_eq_getElem hv]
  · have h1 : roots.getD v v = v := by
      simp [List.getD_eq_getElem?_getD, List.getElem?_eq_none (Nat.le_of_not_lt hv)]
    have h2 : (merge_roots roots e).getD v v = v := by
      simp [merge_roots, List.getD_eq_getElem?_getD, List.getElem?_map,
        List.getElem?_eq_none (Nat.le_of_not_lt hv)]
    rw [h2, h1, if_neg]
    omega

theorem rootsInv_init (n : Nat) : RootsInv n [] (List.range n) := by
  have hg : ∀ v, (List.range n).getD v v = v := by
    intro v
    by_cases hv : v < n
    · simp [List.getD_eq_getElem?_getD, List.getElem?_range hv]
    · simp [List.getD_eq_getElem?_getD, List.getElem?_eq_none, Nat.le_of_not_lt hv]
  refine ⟨by simp, ?_, ?_, ?_, ?_⟩
  · intro v hv
    rw [hg]
    exact hv
  · intro v _
    rw [hg, hg]
  · intro e he
    cases he
  · intro v _
    rw [hg]
    exact connected_refl _ _

theorem rootsInv_step (n : Nat) (l : List Edge) (roots : List Nat) (e : Edge)
    (hI : RootsInv n l roots) (hs : e.source < n) (ht : e.target < n) :
    RootsInv n (l ++ [e]) (merge_roots roots e) := by
  obtain ⟨hlen, hlt, hidem, hedge, hconn⟩ := hI
  have ha := hlt e.source hs
  have hb := hlt e.target ht
  have hhi : max (roots.getD e.source e.source) (roots.getD e.target e.target) < roots.length := by
    rw [hlen]
    omega
  have hg := fun v => merge_roots_getD roots e v hhi
  generalize hA : roots.getD e.source e.source = a at *
  generalize hB : roots.getD e.target e.target = b at *
  have hra : roots.getD a a = a := by
    rw [← hA]
    exact hidem e.source hs
  have hrb : roots.getD b b = b := by
    rw [← hB]
    exact hidem e.target ht
  have hmono : ∀ u v, Connected l u v → Connected (l ++ [e]) u v :=
    fun u v h => connected_mono l _ (fun x hx => List.mem_append_left _ hx) u v h
  have hab : Connected (l ++ [e]) a b := by
    have h1 : Connected (l ++ [e]) e.source a := by
      rw [← hA]
      exact hmono _ _ (hconn e.source hs)
    have h2 : Connected (l ++ [e]) e.target b := by
      rw [← hB]
      exact hmono _ _ (hconn e.target ht)
    have h3 : Connected (l ++ [e]) e.source e.target := connected_edge _ e (by simp)
    exact connected_trans _ _ _ _ (connected_symm _ _ _ h1) (connected_trans _ _ _ _ h3 h2)
  have hhl : Connected (l ++ [e]) (max a b) (min a b) := by
    rcases Nat.le_total a b with h | h
    · rw [Nat.max_eq_right h, Nat.min_eq_left h]
      exact connected_symm _ _ _ hab
    · rw [Nat.max_eq_left h, Nat.min_eq_right h]
      exact hab
  have hrlo : roots.getD (min a b) (min a b) = min a b := by
    rcases Nat.le_total a b with h | h
    · rw [Nat.min_eq_left h]
      exact hra
    · rw [Nat.min_eq_right h]
      exact hrb
  refine ⟨by rw [merge_roots_length, hlen], ?_, ?_, ?_, ?_⟩
  · intro v hv
    rw [hg]
    have := hlt v hv
    split
    · omega
    · exact this
  · intro v hv
    rw [hg v]
    by_cases h : roots.getD v v = max a b
    · rw [if_pos h, hg, hrlo]
      split
      · rfl
      · rfl
    · rw [if_neg h, hg, hidem v hv, if_neg h]
  · intro x hx
    rw [hg, hg]
    rcases List.mem_append.1 hx with hx | hx
    · rw [hedge x hx]
    · rw [List.mem_singleton] at hx
      subst hx
      rw [hA, hB]
      rcases Nat.le_total a b with h | h
      · rw [Nat.max_eq_right h, Nat.min_eq_left h]
        by_cases hab' : a = b
        · subst hab'
          simp
        · rw [if_neg hab', if_pos rfl]
      · rw [Nat.max_eq_left h, Nat.min_eq_right h]
        by_cases hab' : b = a
        · subst hab'
          simp
        · rw [if_pos rfl, if_neg hab']
  · intro v hv
    rw [hg]
    by_cases h : roots.getD v v = max a b
    · rw [if_pos h]
      have := hmono _ _ (hconn v hv)
      rw [h] at this
      exact connected_trans _ _ _ _ this hhl
    · rw [if_neg h]
      exact hmono _ _ (hconn v hv)

theorem rootsInv_foldl (n : Nat) (l0 l : List Edge) (roots : List Nat)
    (hI : RootsInv n l0 roots) (hb : ∀ e ∈ l, e.source < n ∧ e.target < n) :
    RootsInv n (l0 ++ l) (l.foldl merge_roots roots) := by
  induction l generalizing l0 roots with
  | nil => simpa using hI
  | cons e t ih =>
    rw [List.foldl_cons]
    have h1 := rootsInv_step n l0 roots e hI (hb e (List.mem_cons_self _ _)).1
      (hb e (List.mem_cons_self _ _)).2
    have h2 := ih (l0 ++ [e]) (merge_roots roots e) h1
      (fun x hx => hb x (List.mem_cons_of_mem _ hx))
    simpa using h2

theorem component_roots_inv (g : WeaveGraph) (hb : EdgesBounded g) :
    RootsInv g.num_vertices g.edges (component_roots g) := by
  have := rootsInv_foldl g.num_vertices [] g.edges _ (rootsInv_init g.num_vertices) hb
  simpa [component_roots] using this

theorem count_roots_mono (roots : List Nat) (a b : Nat) (h : a ≤ b) :
    count_roots roots a ≤ count_roots roots b := by
  induction b with
  | zero =>
    have : a = 0 := by omega
    rw [this]
  | succ k ih =>
    by_cases hk : a ≤ k
    · have := ih hk
      rw [count_roots]
      omega
    · have : a = k + 1 := by omega
      rw [this]

theorem count_roots_lt (roots : List Nat) (a b : Nat) (h : a < b)
    (ha : roots.getD a a = a) : count_roots roots a < count_roots roots b := by
  have h1 : count_roots roots (a + 1) = count_roots roots a + 1 := by
    rw [count_roots, if_pos ha]
  have h2 := count_roots_mono roots (a + 1) b h
  omega

theorem count_roots_surj (roots : List Nat) (k m : Nat) (h : m < count_roots roots k) :
    ∃ v < k, roots.getD v v = v ∧ count_roots roots v = m := by
  induction k with
  | zero => simp [count_roots] at h
  | succ k ih =>
    by_cases hm : m < count_roots roots k
    · obtain ⟨v, hv, h1, h2⟩ := ih hm
      exact ⟨v, by omega, h1, h2⟩
    · rw [count_roots] at h
      by_cases hr : roots.getD k k = k
      · rw [if_pos hr] at h
        exact ⟨k, by omega, hr, by omega⟩
      · rw [if_neg hr] at h
        omega

/-- The labels written by `connected_components` are the numbers of the connected components:
they are below the returned count, every number below the count labels some vertex, and two
vertices have the same label exactly when a path of edges joins them. -/
theorem connected_components_spec (g : WeaveGraph) (hb : EdgesBounded g) :
    (∀ v < g.num_vertices,
        (connected_components g).1.component v < (connected_components g).2) ∧
      (∀ m < (connected_components g).2,
        ∃ v < g.num_vertices, (connected_components g).1.component v = m) ∧
      ∀ u < g.num_vertices, ∀ v < g.num_vertices,
        ((connected_components g).1.component u = (connected_components g).1.component v ↔
          Connected g.edges u v) := by
  obtain ⟨hlen, hlt, hidem, hedge, hconn⟩ := component_roots_inv g hb
  refine ⟨?_, ?_, ?_⟩
  · intro v hv
    rw [connected_components_label g v hv]
    exact count_roots_lt _ _ _ (hlt v hv) (hidem v hv)
  · intro m hm
    obtain ⟨v, hv, h1, h2⟩ := count_roots_surj _ _ m hm
    refine ⟨v, hv, ?_⟩
    rw [connected_components_label g v hv, h1, h2]
  · intro u hu v hv
    rw [connected_components_label g u hu, connected_components_label g v hv]
    constructor
    · intro h
      have hr : (component_roots g).getD u u = (component_roots g).getD v v := by
        rcases Nat.lt_trichotomy ((component_roots g).getD u u)
          ((component_roots g).getD v v) with h1 | h1 | h1
        · have := count_roots_lt (component_roots g) _ _ h1 (hidem u hu)
          omega
        · exact h1
        · have := count_roots_lt (component_roots g) _ _ h1 (hidem v hv)
          omega
      have h1 := hconn u hu
      have h2 := hconn v hv
      rw [hr] at h1
      exact connected_trans _ _ _ _ h1 (connected_symm _ _ _ h2)
    · intro h
      have := connected_colour g.edges (fun x => (component_roots g).getD x x) hedge u v h
      simp only at this
      rw [this]

theorem neighbours_nil_iff (l : List Edge) (v : Nat) :
    neighbours l v = [] ↔ ∀ e ∈ l, e.source ≠ v ∧ e.target ≠ v := by
  simp only [neighbours, List.flatMap_eq_nil_iff, List.append_eq_nil, ite_eq_right_iff,
    List.cons_ne_self, imp_false, reduceCtorEq]

theorem split_components_getElem? (w : Weave) (m : Nat) (sub : Weave)
    (h : (split_components w).2[m]? = some sub) :
    m < (connected_components w.g).2 ∧
      sub = ⟨[], [], [], restrict (connected_components w.g).1 m⟩ := by
  simp only [split_components, List.getElem?_map, Option.map_eq_some'] at h
  obtain ⟨k, hk, rfl⟩ := h
  have hlt : m < (List.range (connected_components w.g).2).length :=
    (List.getElem?_eq_some_iff.1 hk).1
  rw [List.length_range] at hlt
  rw [List.getElem?_range hlt] at hk
  cases hk
  exact ⟨hlt, rfl⟩

theorem isolated_alone (l : List Edge) (u v : Nat) (hv : neighbours l v = [])
    (h : Connected l u v) : u = v := by
  rw [neighbours_nil_iff] at hv
  have := connected_colour l (fun x => if x = v then 1 else 0)
    (fun e he => by simp [(hv e he).1, (hv e he).2]) u v h
  simp only [if_true] at this
  by_contra hne
  rw [if_neg hne] at this
  cases this

theorem mem_out_edges_from (u : Nat) (l : List Edge) (i : Nat) (oe : EdgeDescriptor) :
    oe ∈ out_edges_from u l i ↔
      ∃ j ed, l[j]? = some ed ∧ oe.1 = i + j ∧
        ((ed.source = u ∧ oe.2 = ed.target) ∨ (ed.target = u ∧ oe.2 = ed.source)) := by
  induction l generalizing i with
  | nil => simp [out_edges_from]
  | cons e t ih =>
    rw [out_edges_from, List.mem_append, List.mem_append, ih]
    constructor
    · rintro ((h | h) | ⟨j, ed, h1, h2, h3⟩)
      · by_cases hs : e.source = u
        · rw [if_pos hs, List.mem_singleton] at h
          subst h
          exact ⟨0, e, List.getElem?_cons_zero, rfl, Or.inl ⟨hs, rfl⟩⟩
        · rw [if_neg hs] at h
          cases h
      · by_cases hs : e.target = u
        · rw [if_pos hs, List.mem_singleton] at h
          subst h
          exact ⟨0, e, List.getElem?_cons_zero, rfl, Or.inr ⟨hs, rfl⟩⟩
        · rw [if_neg hs] at h
          cases h
      · exact ⟨j + 1, ed, by simpa using h1, by omega, h3⟩
    · rintro ⟨j, ed, h1, h2, h3⟩
      cases j with
      | zero =>
        simp only [List.getElem?_cons_zero, Option.some.injEq] at h1
        subst h1
        have hoe : oe.1 = i := by omega
        rcases h3 with ⟨hs, ht⟩ | ⟨hs, ht⟩
        · left
          left
          rw [if_pos hs, List.mem_singleton]
          exact Prod.ext hoe ht
        · left
          right
          rw [if_pos hs, List.mem_singleton]
          exact Prod.ext hoe ht
      | succ j =>
        right
        exact ⟨j, ed, by simpa using h1, by omega, h3⟩

theorem mem_out_edges (g : WeaveGraph) (u : Nat) (oe : EdgeDescriptor) :
    oe ∈ out_edges g u ↔
      ∃ ed, g.edges[oe.1]? = some ed ∧
        ((ed.source = u ∧ oe.2 = ed.target) ∨ (ed.target = u ∧ oe.2 = ed.source)) := by
  rw [out_edges, mem_out_edges_from]
  constructor
  · rintro ⟨j, ed, h1, h2, h3⟩
    have : oe.1 = j := by omega
    rw [this]
    exact ⟨ed, h1, h3⟩
  · rintro ⟨ed, h1, h3⟩
    exact ⟨oe.1, ed, h1, by omega, h3⟩

theorem mem_darts_from (l : List Edge) (i : Nat) (d : Dart) :
    d ∈ darts_from l i ↔
      ∃ j ed, l[j]? = some ed ∧ d.2 = i + j ∧ (d.1 = ed.source ∨ d.1 = ed.target) := by
  induction l generalizing i with
  | nil => simp [darts_from]
  | cons e t ih =>
    rw [darts_from, List.mem_cons, List.mem_cons, ih]
    constructor
    · rintro (h | h | ⟨j, ed, h1, h2, h3⟩)
      · subst h
        exact ⟨0, e, List.getElem?_cons_zero, rfl, Or.inl rfl⟩
      · subst h
        exact ⟨0, e, List.getElem?_cons_zero, rfl, Or.inr rfl⟩
      · exact ⟨j + 1, ed, by simpa using h1, by omega, h3⟩
    · rintro ⟨j, ed, h1, h2, h3⟩
      cases j with
      | zero =>
        simp only [List.getElem?_cons_zero, Option.some.injEq] at h1
        subst h1
        have hd : d.2 = i := by omega
        rcases h3 with h3 | h3
        · exact Or.inl (Prod.ext h3 hd)
        · exact Or.inr (Or.inl (Prod.ext h3 hd))
      | succ j =>
        right
        right
        exact ⟨j, ed, by simpa using h1, by omega, h3⟩

theorem mem_darts (g : WeaveGraph) (d : Dart) :
    d ∈ darts g ↔ ∃ ed, g.edges[d.2]? = some ed ∧ (d.1 = ed.source ∨ d.1 = ed.target) := by
  rw [darts, mem_darts_from]
  constructor
  · rintro ⟨j, ed, h1, h2, h3⟩
    have : d.2 = j := by omega
    rw [this]
    exact ⟨ed, h1, h3⟩
  · rintro ⟨ed, h1, h3⟩
    exact ⟨d.2, ed, h1, by omega, h3⟩

theorem darts_from_nodup (l : List Edge) (i : Nat) (h : ∀ e ∈ l, e.source ≠ e.target) :
    (darts_from l i).Nodup := by
  induction l generalizing i with
  | nil => exact List.nodup_nil
  | cons e t ih =>
    rw [darts_from, List.nodup_cons, List.nodup_cons]
    have hlater : ∀ v, (v, i) ∉ darts_from t (i + 1) := by
      intro v hv
      obtain ⟨j, ed, -, h2, -⟩ := (mem_darts_from t (i + 1) (v, i)).1 hv
      simp only at h2
      omega
    refine ⟨?_, hlater _, ih (i + 1) (fun x hx => h x (List.mem_cons_of_mem _ hx))⟩
    rw [List.mem_cons]
    rintro (h1 | h1)
    · exact h e (List.mem_cons_self _ _) (congrArg Prod.fst h1)
    · exact hlater _ h1

theorem darts_length (g : WeaveGraph) : (darts g).length = 2 * g.edges.length := by
  have : ∀ l i, (darts_from l i).length = 2 * l.length := by
    intro l
    induction l with
    | nil => intro i; rfl
    | cons e t ih =>
      intro i
      simp only [darts_from, List.length_cons, ih (i + 1)]
      omega
  exact this g.edges 0

theorem slots_out_edges (g : WeaveGraph) (u : Nat) :
    slots g u = (out_edges g u).map fun oe => edge_slot g u oe.2 := by
  rw [slots, ← out_edges_snd, List.map_map]
  rfl

/-- When the out-edges of `u` fall into pairwise distinct slots, the row of `u` holds exactly
the out-edges of `u`. -/
theorem embedding_row_mem (g : WeaveGraph) (u : Nat) (row : List EdgeDescriptor)
    (hn : (slots g u).Nodup) (h : embedding_row g u = Except.ok row) (oe : EdgeDescriptor) :
    oe ∈ row ↔ oe ∈ out_edges g u := by
  rw [embedding_row_spec g u row h]
  simp only [List.mem_filterMap, slot_edge]
  constructor
  · rintro ⟨k, -, hk⟩
    exact (List.mem_filter.1 (List.mem_of_mem_getLast? hk)).1
  · intro hoe
    rcases embedding_row_cases g u with ⟨-, he⟩ | ⟨hall, -⟩
    · rw [he] at h
      cases h
    · have hs := hall oe.2 (by rw [← out_edges_snd]; exact List.mem_map.2 ⟨oe, hoe, rfl⟩)
      cases hk : edge_slot g u oe.2 with
      | none => exact absurd hk hs
      | some k =>
        have hk4 : k < 4 := slot_of_lt _ k hk
        refine ⟨k, by simp only [List.mem_cons, List.mem_singleton]; omega, ?_⟩
        have hmem : oe ∈ (out_edges g u).filter fun x => edge_slot g u x.2 == some k :=
          List.mem_filter.2 ⟨hoe, by simp [hk]⟩
        cases hl : ((out_edges g u).filter fun x => edge_slot g u x.2 == some k).getLast? with
        | none =>
          rw [List.getLast?_eq_none_iff] at hl
          rw [hl] at hmem
          cases hmem
        | some oe' =>
          obtain ⟨h1, h2⟩ := List.mem_filter.1 (List.mem_of_mem_getLast? hl)
          rw [slots_out_edges] at hn
          have := List.inj_on_of_nodup_map hn h1 hoe (by
            simp only [beq_iff_eq] at h2
            simp only [h2, hk])
          rw [this]

theorem foldl_next_none (e : Nat) (ps : List (Nat × Nat)) (init : Option Nat)
    (h : ∀ p ∈ ps, p.1 ≠ e) :
    ps.foldl (fun acc p => if p.1 = e then some p.2 else acc) init = init := by
  induction ps generalizing init with
  | nil => rfl
  | cons p t ih =>
    rw [List.foldl_cons, if_neg (h p (List.mem_cons_self _ _))]
    exact ih init (fun q hq => h q (List.mem_cons_of_mem _ hq))

theorem foldl_next_some (e : Nat) (ps : List (Nat × Nat)) (init : Option Nat)
    (h : ∃ p ∈ ps, p.1 = e) :
    ∃ p ∈ ps, p.1 = e ∧
      ps.foldl (fun acc p => if p.1 = e then some p.2 else acc) init = some p.2 := by
  induction ps generalizing init with
  | nil =>
    obtain ⟨p, hp, -⟩ := h
    cases hp
  | cons p t ih =>
    rw [List.foldl_cons]
    by_cases ht : ∃ q ∈ t, q.1 = e
    · obtain ⟨q, hq, h1, h2⟩ := ih _ ht
      exact ⟨q, List.mem_cons_of_mem _ hq, h1, h2⟩
    · have hp : p.1 = e := by
        obtain ⟨q, hq, hqe⟩ := h
        rcases List.mem_cons.1 hq with rfl | hq
        · exact hqe
        · exact absurd ⟨q, hq, hqe⟩ ht
      refine ⟨p, List.mem_cons_self _ _, hp, ?_⟩
      rw [if_pos hp]
      exact foldl_next_none e t _ (fun q hq hqe => ht ⟨q, hq, hqe⟩)

theorem row_next_of_mem (row : List Nat) (e : Nat) (h : e ∈ row) :
    ∃ e', row_next row e = some e' ∧ e' ∈ row := by
  have hlen : row.length ≤ (row.rotate 1).length := by rw [List.length_rotate]
  have hex : ∃ p ∈ List.zip row (row.rotate 1), p.1 = e := by
    have : e ∈ (List.zip row (row.rotate 1)).map Prod.fst := by
      rw [List.map_fst_zip _ _ hlen]
      exact h
    obtain ⟨p, hp, hpe⟩ := List.mem_map.1 this
    exact ⟨p, hp, hpe⟩
  obtain ⟨p, hp, -, hf⟩ := foldl_next_some e _ none hex
  refine ⟨p.2, hf, ?_⟩
  have := (List.of_mem_zip hp).2
  exact List.mem_rotate.1 this

theorem nodup_subset_length {α : Type} [DecidableEq α] (l l' : List α) (hn : l.Nodup)
    (hs : l ⊆ l') : l.length ≤ l'.length :=
  (hn.subperm hs).length_le

theorem face_walk_visited (g : WeaveGraph) (emb : List (List EdgeDescriptor)) (fuel e v : Nat)
    (visited face : List Dart) (h : (v, e) ∈ visited) :
    face_walk g emb fuel e v visited face = Except.ok (visited, face) := by
  cases fuel with
  | zero => rw [face_walk, if_pos h]
  | succ f => rw [face_walk, if_pos h]

/-- One face walk on a graph whose embedding serves every directed edge: with fuel for every
directed edge not yet consumed the walk completes; it consumes new directed edges only, each
once, the one it started from among them, and appends them to the face in the order of the
traversal rule. -/
theorem face_walk_spec (g : WeaveGraph) (emb : List (List EdgeDescriptor))
    (hR : RotationSystem g emb) (k : Nat) :
    ∀ (fuel e v : Nat) (visited face : List Dart),
      (v, e) ∈ darts g → visited.Nodup → visited ⊆ darts g →
      (darts g).length ≤ visited.length + k → k ≤ fuel →
      List.Chain' (Follows g emb) face →
      (∀ d ∈ face.getLast?, Follows g emb d (v, e)) →
      ∃ new, face_walk g emb fuel e v visited face
            = Except.ok (new.reverse ++ visited, face ++ new) ∧
          (new.reverse ++ visited).Nodup ∧ new.reverse ++ visited ⊆ darts g ∧
          (v, e) ∈ new.reverse ++ visited ∧ List.Chain' (Follows g emb) (face ++ new) := by
  induction k with
  | zero =>
    intro fuel e v visited face hd hn hs hlen _ hc _
    have hv : (v, e) ∈ visited := by
      by_contra hnot
      have h1 : ((v, e) :: visited).Nodup := List.nodup_cons.2 ⟨hnot, hn⟩
      have h2 : (v, e) :: visited ⊆ darts g := List.cons_subset.2 ⟨hd, hs⟩
      have := nodup_subset_length _ _ h1 h2
      simp only [List.length_cons] at this
      omega
    refine ⟨[], ?_, ?_, ?_, ?_, ?_⟩
    · rw [face_walk_visited g emb fuel e v visited face hv]
      simp
    · simpa using hn
    · simpa using hs
    · simpa using hv
    · simpa using hc
  | succ k ih =>
    intro fuel e v visited face hd hn hs hlen hfuel hc hlast
    by_cases hv : (v, e) ∈ visited
    · refine ⟨[], ?_, ?_, ?_, ?_, ?_⟩
      · rw [face_walk_visited g emb fuel e v visited face hv]
        simp
      · simpa using hn
      · simpa using hs
      · simpa using hv
      · simpa using hc
    · obtain ⟨f, rfl⟩ : ∃ f, fuel = f + 1 := ⟨fuel - 1, by omega⟩
      obtain ⟨e', hnext, hd'⟩ := hR (v, e) hd
      simp only at hnext hd'
      rw [face_walk, if_neg hv, hnext]
      simp only
      have hc' : List.Chain' (Follows g emb) (face ++ [(v, e)]) :=
        List.Chain'.append hc (List.chain'_singleton _) (fun x hx y hy => by
          simp only [List.head?_cons, Option.mem_def, Option.some.injEq] at hy
          subst hy
          exact hlast x hx)
      obtain ⟨new, h1, h2, h3, h4, h5⟩ := ih f e' (opposite g e v) ((v, e) :: visited)
        (face ++ [(v, e)]) hd' (List.nodup_cons.2 ⟨hv, hn⟩) (List.cons_subset.2 ⟨hd, hs⟩)
        (by simp only [List.length_cons]; omega) (by omega) hc'
        (by
          intro d hdl
          rw [List.getLast?_concat] at hdl
          simp only [Option.mem_def, Option.some.injEq] at hdl
          subst hdl
          exact ⟨rfl, hnext⟩)
      refine ⟨(v, e) :: new, ?_, ?_, ?_, ?_, ?_⟩
      · rw [h1]
        simp
      · simpa using h2
      · simpa using h3
      · simp
      · simpa using h5

theorem visit_dart_spec (g : WeaveGraph) (emb : List (List EdgeDescriptor))
    (hR : RotationSystem g emb) (fuel : Nat) (hfuel : (darts g).length ≤ fuel)
    (s : List Dart × List (List Dart)) (d : Dart) (hd : d ∈ darts g) (hn : s.1.Nodup)
    (hs : s.1 ⊆ darts g) (hp : s.2.flatten.Perm s.1)
    (hc : ∀ face ∈ s.2, List.Chain' (Follows g emb) face) :
    ∃ s', visit_dart g emb fuel s d = Except.ok s' ∧ s'.1.Nodup ∧ s'.1 ⊆ darts g ∧
      s'.2.flatten.Perm s'.1 ∧ (∀ face ∈ s'.2, List.Chain' (Follows g emb) face) ∧
      s.1 ⊆ s'.1 ∧ d ∈ s'.1 := by
  unfold visit_dart
  by_cases hv : d ∈ s.1
  · rw [if_pos hv]
    exact ⟨s, rfl, hn, hs, hp, hc, List.Subset.refl _, hv⟩
  · rw [if_neg hv]
    obtain ⟨new, h1, h2, h3, h4, h5⟩ := face_walk_spec g emb hR (darts g).length fuel d.2 d.1
      s.1 [] hd hn hs (by omega) hfuel List.chain'_nil (fun x hx => by cases hx)
    rw [h1]
    refine ⟨_, rfl, h2, h3, ?_, ?_, ?_, h4⟩
    · simp only [List.flatten_append, List.flatten_cons, List.flatten_nil, List.nil_append,
        List.append_nil]
      have e1 : (s.2.flatten ++ new).Perm (new ++ s.2.flatten) := List.perm_append_comm
      have e2 : (new ++ s.2.flatten).Perm (new.reverse ++ s.1) :=
        List.Perm.append (List.reverse_perm new).symm hp
      exact e1.trans e2
    · intro face hf
      rcases List.mem_append.1 hf with hf | hf
      · exact hc face hf
      · rw [List.mem_singleton] at hf
        subst hf
        simpa using h5
    · intro x hx
      exact List.mem_append_right _ hx

theorem visit_darts_spec (g : WeaveGraph) (emb : List (List EdgeDescriptor))
    (hR : RotationSystem g emb) (fuel : Nat) (hfuel : (darts g).length ≤ fuel)
    (ds : List Dart) :
    ∀ s : List Dart × List (List Dart), ds ⊆ darts g → s.1.Nodup → s.1 ⊆ darts g →
      s.2.flatten.Perm s.1 → (∀ face ∈ s.2, List.Chain' (Follows g emb) face) →
      ∃ s', visit_darts g emb fuel ds s = Except.ok s' ∧ s'.1.Nodup ∧ s'.1 ⊆ darts g ∧
        s'.2.flatten.Perm s'.1 ∧ (∀ face ∈ s'.2, List.Chain' (Follows g emb) face) ∧
        s.1 ⊆ s'.1 ∧ ds ⊆ s'.1 := by
  induction ds with
  | nil =>
    intro s _ hn hs hp hc
    exact ⟨s, rfl, hn, hs, hp, hc, List.Subset.refl _, List.nil_subset _⟩
  | cons d t ih =>
    intro s hds hn hs hp hc
    obtain ⟨hd, ht⟩ := List.cons_subset.1 hds
    obtain ⟨s1, h1, n1, s1s, p1, c1, m1, d1⟩ :=
      visit_dart_spec g emb hR fuel hfuel s d hd hn hs hp hc
    obtain ⟨s2, h2, n2, s2s, p2, c2, m2, d2⟩ := ih s1 ht n1 s1s p1 c1
    refine ⟨s2, ?_, n2, s2s, p2, c2, fun x hx => m2 (m1 hx), ?_⟩
    · rw [visit_darts, h1]
      exact h2
    · exact List.cons_subset.2 ⟨m2 d1, d2⟩

theorem self_loop_faces_nil (l : List Edge) (i : Nat) (h : ∀ e ∈ l, e.source ≠ e.target) :
    self_loop_faces l i = [] := by
  induction l generalizing i with
  | nil => rfl
  | cons e t ih =>
    rw [self_loop_faces, if_neg (h e (List.mem_cons_self _ _)),
      ih (i + 1) (fun x hx => h x (List.mem_cons_of_mem _ hx))]
    rfl

theorem face_walk_succ (g : WeaveGraph) (emb : List (List EdgeDescriptor)) (fuel : Nat) :
    ∀ (e v : Nat) (visited face : List Dart) (r : List Dart × List Dart),
      face_walk g emb fuel e v visited face = Except.ok r →
      face_walk g emb (fuel + 1) e v visited face = Except.ok r := by
  induction fuel with
  | zero =>
    intro e v visited face r h
    by_cases hv : (v, e) ∈ visited
    · rw [face_walk_visited g emb _ e v visited face hv] at h ⊢
      exact h
    · rw [face_walk, if_neg hv] at h
      cases h
  | succ f ih =>
    intro e v visited face r h
    by_cases hv : (v, e) ∈ visited
    · rw [face_walk_visited g emb _ e v visited face hv] at h ⊢
      exact h
    · rw [face_walk, if_neg hv] at h ⊢
      cases hn : row_next (rotation emb (opposite g e v)) e with
      | none => simp only [hn] at h; cases h
      | some e' =>
        simp only [hn] at h ⊢
        exact ih _ _ _ _ r h

theorem face_walk_mono (g : WeaveGraph) (emb : List (List EdgeDescriptor)) (fuel fuel' : Nat)
    (hle : fuel ≤ fuel') (e v : Nat) (visited face : List Dart) (r : List Dart × List Dart)
    (h : face_walk g emb fuel e v visited face = Except.ok r) :
    face_walk g emb fuel' e v visited face = Except.ok r := by
  induction fuel' with
  | zero =>
    have : fuel = 0 := by omega
    rw [← this]
    exact h
  | succ f ih =>
    by_cases hf : fuel ≤ f
    · exact face_walk_succ g emb f e v visited face r (ih hf)
    · have : fuel = f + 1 := by omega
      rw [← this]
      exact h

theorem visit_darts_mono (g : WeaveGraph) (emb : List (List EdgeDescriptor)) (fuel fuel' : Nat)
    (hle : fuel ≤ fuel') (ds : List Dart) :
    ∀ s s' : List Dart × List (List Dart), visit_darts g emb fuel ds s = Except.ok s' →
      visit_darts g emb fuel' ds s = Except.ok s' := by
  induction ds with
  | nil =>
    intro s s' h
    exact h
  | cons d t ih =>
    intro s s' h
    rw [visit_darts] at h ⊢
    have hstep : ∀ r, visit_dart g emb fuel s d = Except.ok r →
        visit_dart g emb fuel' s d = Except.ok r := by
      intro r hr
      unfold visit_dart at hr ⊢
      by_cases hv : d ∈ s.1
      · rw [if_pos hv] at hr ⊢
        exact hr
      · rw [if_neg hv] at hr ⊢
        cases hw : face_walk g emb fuel d.2 d.1 s.1 [] with
        | error x => simp only [hw] at hr; cases hr
        | ok q =>
          rw [face_walk_mono g emb fuel fuel' hle _ _ _ _ q hw]
          simp only [hw] at hr
          exact hr
    cases hd : visit_dart g emb fuel s d with
    | error x => simp only [hd] at h; cases h
    | ok r =>
      simp only [hd] at h
      rw [hstep r hd]
      exact ih r s' h

/-- The traversal on a graph without self-loops whose embedding serves every directed edge:
with fuel for every directed edge it completes, its faces consume every directed edge exactly
once, and inside every face each directed edge follows the one before by the traversal
rule. -/
theorem planar_face_traversal_spec (g : WeaveGraph) (emb : List (List EdgeDescriptor))
    (hR : RotationSystem g emb) (hl : ∀ e ∈ g.edges, e.source ≠ e.target) :
    ∃ faces, (∀ fuel, (darts g).length ≤ fuel →
        planar_face_traversal g emb fuel = Except.ok faces) ∧
      faces.flatten.Perm (darts g) ∧ ∀ face ∈ faces, List.Chain' (Follows g emb) face := by
  have hnd : (darts g).Nodup := darts_from_nodup g.edges 0 hl
  have key : ∀ fuel, (darts g).length ≤ fuel →
      ∃ faces, planar_face_traversal g emb fuel = Except.ok faces ∧
        faces.flatten.Perm (darts g) ∧ ∀ face ∈ faces, List.Chain' (Follows g emb) face := by
    intro fuel hfuel
    obtain ⟨s', h1, n1, s1, p1, c1, -, d1⟩ := visit_darts_spec g emb hR fuel hfuel (darts g)
      ([], []) (List.Subset.refl _) List.nodup_nil (List.nil_subset _) (by simp)
      (fun face hf => by cases hf)
    refine ⟨s'.2, ?_, ?_, c1⟩
    · rw [planar_face_traversal, h1, self_loop_faces_nil g.edges 0 hl]
      simp
    · exact p1.trans ((n1.subperm s1).antisymm (hnd.subperm d1))
  obtain ⟨faces, h0, hp, hc⟩ := key (darts g).length (Nat.le_refl _)
  refine ⟨faces, ?_, hp, hc⟩
  intro fuel hfuel
  unfold planar_face_traversal at h0 ⊢
  cases hv : visit_darts g emb (darts g).length (darts g) ([], []) with
  | error x => simp only [hv] at h0; cases h0
  | ok r =>
    rw [visit_darts_mono g emb _ fuel hfuel (darts g) _ r hv]
    simp only [hv] at h0
    exact h0

theorem out_edges_from_index (u : Nat) (l : List Edge) (i k : Nat) :
    out_edges_from u (index_from l i) k = out_edges_from u l k := by
  induction l generalizing i k with
  | nil => rfl
  | cons e t ih => simp only [index_from, out_edges_from, ih]

theorem darts_from_index (l : List Edge) (i k : Nat) :
    darts_from (index_from l i) k = darts_from l k := by
  induction l generalizing i k with
  | nil => rfl
  | cons e t ih => simp only [index_from, darts_from, ih]

theorem self_loop_faces_index (l : List Edge) (i k : Nat) :
    self_loop_faces (index_from l i) k = self_loop_faces l k := by
  induction l generalizing i k with
  | nil => rfl
  | cons e t ih => simp only [index_from, self_loop_faces, ih]

theorem index_from_getElem? (l : List Edge) (i j : Nat) :
    (index_from l i)[j]? = (l[j]?).map fun e => { e with index := i + j } := by
  induction l generalizing i j with
  | nil => rfl
  | cons e t ih =>
    cases j with
    | zero => simp [index_from]
    | succ j =>
      simp only [index_from, List.getElem?_cons_succ, ih]
      cases t[j]? with
      | none => rfl
      | some x =>
        simp only [Option.map_some', Option.some.injEq]
        congr 1
        omega

theorem mem_index_from (l : List Edge) (i : Nat) (e : Edge) (h : e ∈ index_from l i) :
    ∃ e0 ∈ l, e.source = e0.source ∧ e.target = e0.target ∧ e.color = e0.color := by
  obtain ⟨j, hj⟩ := List.mem_iff_getElem?.1 h
  rw [index_from_getElem?] at hj
  cases hl : l[j]? with
  | none => rw [hl] at hj; cases hj
  | some e0 =>
    rw [hl] at hj
    simp only [Option.map_some', Option.some.injEq] at hj
    subst hj
    exact ⟨e0, List.getElem?_mem hl, rfl, rfl, rfl⟩

theorem out_edges_index (g : WeaveGraph) (u : Nat) :
    out_edges (index_edges g) u = out_edges g u :=
  out_edges_from_index u g.edges 0 0

theorem darts_index (g : WeaveGraph) : darts (index_edges g) = darts g :=
  darts_from_index g.edges 0 0

theorem slots_index (g : WeaveGraph) (u : Nat) : slots (index_edges g) u = slots g u := by
  rw [slots_out_edges, slots_out_edges, out_edges_index]
  rfl

theorem edgesBounded_index (g : WeaveGraph) (h : EdgesBounded g) :
    EdgesBounded (index_edges g) := by
  intro e he
  obtain ⟨e0, h0, h1, h2, -⟩ := mem_index_from g.edges 0 e he
  rw [h1, h2]
  exact h e0 h0

theorem embedding_getD (g : WeaveGraph) (emb : List (List EdgeDescriptor))
    (h : build_embedding g = Except.ok emb) (u : Nat) (hu : u < g.num_vertices) :
    emb.getD u [] = [0, 1, 2, 3].filterMap (slot_edge g u) := by
  rw [embedding_rows_spec g _ emb h]
  simp [List.getD_eq_getElem?_getD, List.getElem?_map, List.getElem?_range hu]

/-- An embedding built on a graph whose edges join vertices of the graph and in which the
out-edges of every vertex fall into pairwise distinct slots serves every directed edge. -/
theorem rotationSystem_of_slots (g : WeaveGraph) (emb : List (List EdgeDescriptor))
    (hb : EdgesBounded g) (hn : ∀ u < g.num_vertices, (slots g u).Nodup)
    (h : build_embedding g = Except.ok emb) : RotationSystem g emb := by
  intro d hd
  obtain ⟨ed, hed, hends⟩ := (mem_darts g d).1 hd
  obtain ⟨hs, ht⟩ := hb ed (List.getElem?_mem hed)
  have hopp : opposite g d.2 d.1 = if ed.source = d.1 then ed.target else ed.source := by
    simp only [opposite, hed]
  have hv' : opposite g d.2 d.1 < g.num_vertices := by
    rw [hopp]
    split <;> assumption
  generalize opposite g d.2 d.1 = v' at hopp hv' ⊢
  obtain ⟨row, hrow⟩ : ∃ row, embedding_row g v' = Except.ok row := by
    rcases embedding_row_cases g v' with ⟨⟨w, hw, hsl⟩, -⟩ | ⟨-, hr⟩
    · exfalso
      rcases embedding_rows_cases g (List.range g.num_vertices) with ⟨-, he⟩ | ⟨hall, -⟩
      · unfold build_embedding at h
        rw [he] at h
        cases h
      · exact hall v' (List.mem_range.2 hv') w hw hsl
    · exact hr
  have hget : emb.getD v' [] = row := by
    rw [embedding_getD g emb h v' hv', ← embedding_row_spec g v' row hrow]
  have hmem := embedding_row_mem g v' row (hn v' hv') hrow
  have hin : ∃ t, (d.2, t) ∈ row := by
    by_cases hsd : ed.source = d.1
    · rw [if_pos hsd] at hopp
      exact ⟨ed.source, (hmem _).2 ((mem_out_edges g v' _).2
        ⟨ed, hed, Or.inr ⟨hopp.symm, rfl⟩⟩)⟩
    · rw [if_neg hsd] at hopp
      exact ⟨ed.target, (hmem _).2 ((mem_out_edges g v' _).2
        ⟨ed, hed, Or.inl ⟨hopp.symm, rfl⟩⟩)⟩
  obtain ⟨t, ht'⟩ := hin
  have hrot : d.2 ∈ rotation emb v' := by
    rw [rotation, hget]
    exact List.mem_map.2 ⟨(d.2, t), ht', rfl⟩
  obtain ⟨e', hnext, he'⟩ := row_next_of_mem _ _ hrot
  refine ⟨e', hnext, ?_⟩
  rw [rotation, hget] at he'
  obtain ⟨oe', hoe', rfl⟩ := List.mem_map.1 he'
  obtain ⟨ed', hed', hends'⟩ := (mem_out_edges g v' oe').1 ((hmem oe').1 hoe')
  rw [mem_darts]
  refine ⟨ed', hed', ?_⟩
  rcases hends' with ⟨h1, -⟩ | ⟨h1, -⟩
  · exact Or.inl h1.symm
  · exact Or.inr h1.symm

theorem face_traverse_spec (g : WeaveGraph) (hb : EdgesBounded g)
    (hl : ∀ e ∈ g.edges, e.source ≠ e.target)
    (hn : ∀ u < g.num_vertices, (slots g u).Nodup ∧ ∀ σ ∈ slots g u, σ ≠ none) :
    ∃ emb faces, build_embedding (index_edges g) = Except.ok emb ∧
      (∀ fuel, 2 * g.edges.length ≤ fuel →
        face_traverse g fuel = Except.ok (index_edges g, faces)) ∧
      faces.flatten.Perm (darts g) ∧ (darts g).Nodup ∧
      ∀ face ∈ faces, List.Chain' (Follows (index_edges g) emb) face := by
  have hn' : ∀ u < (index_edges g).num_vertices, (slots (index_edges g) u).Nodup := by
    intro u hu
    rw [slots_index]
    exact (hn u hu).1
  obtain ⟨emb, hemb⟩ : ∃ emb, build_embedding (index_edges g) = Except.ok emb := by
    unfold build_embedding
    rcases embedding_rows_cases (index_edges g) (List.range (index_edges g).num_vertices) with
      ⟨⟨u, hu, w, hw, hsl⟩, -⟩ | ⟨-, hr⟩
    · exfalso
      have hu' : u < g.num_vertices := List.mem_range.1 hu
      refine (hn u hu').2 none ?_ rfl
      rw [← slots_index, slots]
      exact List.mem_map.2 ⟨w, hw, hsl⟩
    · exact hr
  have hR := rotationSystem_of_slots (index_edges g) emb (edgesBounded_index g hb) hn' hemb
  have hl' : ∀ e ∈ (index_edges g).edges, e.source ≠ e.target := by
    intro e he
    obtain ⟨e0, h0, h1, h2, -⟩ := mem_index_from g.edges 0 e he
    rw [h1, h2]
    exact hl e0 h0
  obtain ⟨faces, hf, hp, hc⟩ := planar_face_traversal_spec (index_edges g) emb hR hl'
  rw [darts_index] at hf hp
  refine ⟨emb, faces, hemb, ?_, hp, darts_from_nodup g.edges 0 hl, hc⟩
  intro fuel hfuel
  rw [face_traverse, hemb]
  simp only
  rw [hf fuel (by rw [darts_length]; exact hfuel)]

/-! ## Properties kept by the graph primitives -/

theorem foreach_preserves {σ α : Type} (step : σ → α → Except Failure (σ × α))
    (P : σ → Prop) (hstep : ∀ s a r, P s → step s a = Except.ok r → P r.1)
    (l : List α) (s : σ) (r : σ × List α) (h0 : P s)
    (h : foreach step s l = Except.ok r) : P r.1 :=
  foreach_induction step (fun s' _ _ => P s')
    (fun s' _ a _ r' hI hs => hstep s' a r' hI hs) l s r h0 h

/-- A property of the graph that the three primitives used by `build` keep (a new CL or INT
vertex, the removal of the edges joining two vertices, a new edge) holds after `build` when it
held before. -/
theorem build_preserves (P : WeaveGraph → Prop)
    (hv : ∀ g p t, (t = VertexType.CL ∨ t = VertexType.INT) → P g → P (g.new_vertex p t))
    (hr : ∀ u v g, P g → P (g.remove_edge u v))
    (ha : ∀ u v g, P g → P (g.add_edge u v))
    (ops : FiberOps) (w w' : Weave) (h0 : P w.g) (h : build ops w = Except.ok w') : P w'.g := by
  have hend : ∀ f key g i, P g → P (add_endpoints ops f key g i).1 := by
    intro f key g i hg
    unfold add_endpoints
    split
    · exact hv _ _ _ (Or.inl rfl) (hv _ _ _ (Or.inl rfl) hg)
    · exact hg
  have hrew : ∀ s v key g g', P g → rewire s v key g = Except.ok g' → P g' := by
    intro s v key g g' hg h
    unfold rewire at h
    split at h
    · cases h
    · split at h
      · cases h
        exact ha _ _ _ (ha _ _ _ (hr _ _ _ hg))
      · cases h
  have hcross : ∀ xf yf g xi yi r, P g → crossing ops xf yf g xi yi = Except.ok r → P r.1 := by
    intro xf yf g xi yi r hg h
    unfold crossing at h
    simp only at h
    split at h
    · cases h
    · rename_i g3 h3
      split at h
      · cases h
      · rename_i g4 h4
        cases h
        refine hrew _ _ _ _ _ (hrew _ _ _ _ _ ?_ h3) h4
        exact hv _ _ _ (Or.inr rfl) (hend _ _ _ _ hg)
  have h4 : ∀ xf yf (s : WeaveGraph × Interval) yi r, P s.1 →
      y_interval_step ops xf yf s yi = Except.ok r → P r.1.1 := by
    intro xf yf s yi r hs h
    unfold y_interval_step at h
    split at h
    · cases hc : crossing ops xf yf s.1 s.2 yi with
      | error e => simp only [hc] at h; cases h
      | ok c =>
        simp only [hc] at h
        cases h
        exact hcross _ _ _ _ _ _ hs hc
    · cases h
      exact hs
  have h3 : ∀ xf xi0 (s : WeaveGraph × Interval) yf r, P s.1 →
      y_fiber_step ops xf xi0 s yf = Except.ok r → P r.1.1 := by
    intro xf xi0 s yf r hs h
    unfold y_fiber_step at h
    split at h
    · cases hc : foreach (y_interval_step ops xf yf) s yf.ints with
      | error e => simp only [hc] at h; cases h
      | ok c =>
        simp only [hc] at h
        cases h
        exact foreach_preserves _ (fun s => P s.1) (h4 xf yf) _ _ _ hs hc
    · cases h
      exact hs
  have h2 : ∀ xf (s : WeaveGraph × List Fiber) xi r, P s.1 →
      x_interval_step ops xf s xi = Except.ok r → P r.1.1 := by
    intro xf s xi r hs h
    unfold x_interval_step at h
    cases hc : foreach (y_fiber_step ops xf xi) (add_endpoints ops xf Point.x s.1 xi) s.2 with
    | error e => simp only [hc] at h; cases h
    | ok c =>
      simp only [hc] at h
      cases h
      exact foreach_preserves _ (fun s => P s.1) (h3 xf xi) _ _ _ (hend _ _ _ _ hs) hc
  have h1 : ∀ (s : WeaveGraph × List Fiber) xf r, P s.1 →
      x_fiber_step ops s xf = Except.ok r → P r.1.1 := by
    intro s xf r hs h
    unfold x_fiber_step at h
    split at h
    · cases hc : foreach (x_interval_step ops xf) s xf.ints with
      | error e => simp only [hc] at h; cases h
      | ok c =>
        simp only [hc] at h
        cases h
        exact foreach_preserves _ (fun s => P s.1) (h2 xf) _ _ _ hs hc
    · cases h
      exact hs
  unfold build at h
  cases hc : foreach (x_fiber_step ops) ((sort_fibers ops w).g, (sort_fibers ops w).yfibers)
      (sort_fibers ops w).xfibers with
  | error e => simp only [hc] at h; cases h
  | ok r =>
    simp only [hc] at h
    cases h
    exact foreach_preserves _ (fun s => P s.1) h1 _ _ _ h0 hc

theorem plain_read_out (g : WeaveGraph) (h : PlainGraph g) : PlainReadOut g := by
  obtain ⟨he, hv⟩ := h
  refine ⟨?_, ?_, ?_, ?_, ?_⟩
  · simp only [getCLEdges, List.map_eq_nil_iff, List.filter_eq_nil_iff]
    intro e hm
    simp [he e hm]
  · simp only [getADJPoints, List.map_eq_nil_iff, List.filter_eq_nil_iff]
    intro p hm
    rcases hv p hm with h1 | h1 <;> simp [h1]
  · simp only [get2ADJPoints, List.map_eq_nil_iff, List.filter_eq_nil_iff]
    intro p hm
    rcases hv p hm with h1 | h1 <;> simp [h1]
  · simp only [getEdges]
    congr 1
    rw [List.filter_eq_self]
    intro e hm
    simp [he e hm]
  · simp only [getCLPoints, getIPoints, ← List.map_append]
    apply List.Perm.map
    have : (g.verts.filter fun v => v.type == VertexType.INT)
        = g.verts.filter fun v => !(v.type == VertexType.CL) := by
      apply List.filter_congr
      intro p hm
      rcases hv p hm with h1 | h1 <;> simp [h1]
    rw [this]
    exact List.filter_append_perm _ _

theorem plain_restrict (g : WeaveGraph) (m : Nat) (h : PlainGraph g) :
    PlainGraph (restrict g m) := by
  obtain ⟨he, hv⟩ := h
  refine ⟨?_, ?_⟩
  · intro e hm
    rw [restrict, (restrict_fold m (List.range g.num_vertices) g).2] at hm
    exact he e (List.mem_filter.1 hm).1
  · intro p hm
    rw [restrict_verts, List.mem_map] at hm
    obtain ⟨q, hq, rfl⟩ := hm
    split
    · exact Or.inr rfl
    · exact hv q hq

theorem plain_components (g : WeaveGraph) (h : PlainGraph g) :
    PlainGraph (connected_components g).1 := by
  obtain ⟨he, hv⟩ := h
  obtain ⟨h1, -, h3, -, -⟩ := connected_components_frame g
  refine ⟨?_, ?_⟩
  · rw [h1]
    exact he
  · intro p hm
    have : (p.position, p.type) ∈ g.verts.map (fun p => (p.position, p.type)) := by
      rw [← h3]
      exact List.mem_map.2 ⟨p, hm, rfl⟩
    obtain ⟨q, hq, heq⟩ := List.mem_map.1 this
    have : q.type = p.type := congrArg Prod.snd heq
    rw [← this]
    exact hv q hq

theorem plain_build (ops : FiberOps) (w w' : Weave) (hg : PlainGraph w.g)
    (h : build ops w = Except.ok w') : PlainGraph w'.g := by
  refine build_preserves PlainGraph ?_ ?_ ?_ ops w w' hg h
  · intro g p t ht hp
    refine ⟨hp.1, ?_⟩
    intro q hq
    simp only [WeaveGraph.new_vertex, List.mem_append, List.mem_singleton] at hq
    rcases hq with hq | rfl
    · exact hp.2 q hq
    · exact ht
  · intro u v g hp
    exact ⟨fun e he => hp.1 e (List.mem_filter.1 he).1, hp.2⟩
  · intro u v g hp
    refine ⟨?_, hp.2⟩
    intro e he
    simp only [WeaveGraph.add_edge, List.mem_append, List.mem_singleton] at he
    rcases he with he | rfl
    · exact hp.1 e he
    · rfl

/-! ## The content of an embedding row -/

theorem slot_edge_slot (g : WeaveGraph) (v k : Nat) (oe : EdgeDescriptor)
    (h : slot_edge g v k = some oe) : oe ∈ out_edges g v ∧ edge_slot g v oe.2 = some k := by
  have hm := List.mem_filter.1 (List.mem_of_mem_getLast? h)
  exact ⟨hm.1, by simpa using hm.2⟩

theorem mem_slot_row (g : WeaveGraph) (v : Nat) (oe : EdgeDescriptor) :
    oe ∈ [0, 1, 2, 3].filterMap (slot_edge g v) ↔ ∃ k, slot_edge g v k = some oe := by
  rw [List.mem_filterMap]
  constructor
  · rintro ⟨k, -, hk⟩
    exact ⟨k, hk⟩
  · rintro ⟨k, hk⟩
    have hlt : k < 4 := slot_of_lt _ k (slot_edge_slot g v k oe hk).2
    refine ⟨k, ?_, hk⟩
    have : k = 0 ∨ k = 1 ∨ k = 2 ∨ k = 3 := by omega
    rcases this with rfl | rfl | rfl | rfl <;> simp

theorem slot_row_nodup (g : WeaveGraph) (v : Nat) :
    ([0, 1, 2, 3].filterMap (slot_edge g v)).Nodup := by
  refine List.Nodup.filterMap ?_ (by decide)
  intro k k' oe h1 h2
  have e1 := (slot_edge_slot g v k oe h1).2
  have e2 := (slot_edge_slot g v k' oe h2).2
  rw [e1] at e2
  exact Option.some.inj e2

theorem build_embedding_slots (g : WeaveGraph) (emb : List (List EdgeDescriptor))
    (h : build_embedding g = Except.ok emb) (v : Nat) (hv : v < g.num_vertices) :
    ∀ w ∈ neighbours g.edges v, edge_slot g v w ≠ none := by
  rcases embedding_rows_cases g (List.range g.num_vertices) with ⟨-, he⟩ | ⟨hall, -⟩
  · unfold build_embedding at h
    rw [he] at h
    cases h
  · exact hall v (List.mem_range.2 hv)

theorem slot_row_perm (g : WeaveGraph) (v : Nat) (hn : (slots g v).Nodup)
    (hs : ∀ w ∈ neighbours g.edges v, edge_slot g v w ≠ none) :
    ([0, 1, 2, 3].filterMap (slot_edge g v)).Perm (out_edges g v) := by
  have hno : (out_edges g v).Nodup := by
    rw [slots_out_edges] at hn
    exact List.Nodup.of_map _ hn
  rw [List.perm_ext_iff_of_nodup (slot_row_nodup g v) hno]
  intro oe
  rw [mem_slot_row]
  constructor
  · rintro ⟨k, hk⟩
    exact (slot_edge_slot g v k oe hk).1
  · intro hoe
    have hne := hs oe.2 (by rw [← out_edges_snd]; exact List.mem_map.2 ⟨oe, hoe, rfl⟩)
    cases hk : edge_slot g v oe.2 with
    | none => exact absurd hk hne
    | some k =>
      refine ⟨k, ?_⟩
      have hmem : oe ∈ (out_edges g v).filter fun oe' => edge_slot g v oe'.2 == some k :=
        List.mem_filter.2 ⟨hoe, by simp [hk]⟩
      cases hl : ((out_edges g v).filter fun oe' => edge_slot g v oe'.2 == some k).getLast? with
      | none =>
        rw [List.getLast?_eq_none_iff] at hl
        rw [hl] at hmem
        cases hmem
      | some oe' =>
        have hm' := List.mem_filter.1 (List.mem_of_mem_getLast? hl)
        have e' : edge_slot g v oe'.2 = some k := by simpa using hm'.2
        rw [slots_out_edges] at hn
        have := List.inj_on_of_nodup_map hn hm'.1 hoe (by rw [e', hk])
        rw [slot_edge, hl, this]

theorem length_flatMap_const {α β : Type} (l : List α) (f : α → List β) (n : Nat)
    (h : ∀ a ∈ l, (f a).length = n) : (l.flatMap f).length = n * l.length := by
  induction l with
  | nil => simp
  | cons a t ih =>
    rw [List.flatMap_cons, List.length_append, h a (List.mem_cons_self _ _),
      ih (fun b hb => h b (List.mem_cons_of_mem _ hb)), List.length_cons]
    ring

theorem length_flatMap_sum {α β : Type} (l : List α) (f : α → List β) :
    (l.flatMap f).length = (l.map fun a => (f a).length).sum := by
  induction l with
  | nil => rfl
  | cons a t ih => rw [List.flatMap_cons, List.length_append, ih, List.map_cons, List.sum_cons]

theorem sum_map_mul {α : Type} (l : List α) (f : α → Nat) (n : Nat) :
    (l.map fun a => n * f a).sum = n * (l.map f).sum := by
  induction l with
  | nil => rfl
  | cons a t ih => simp only [List.map_cons, List.sum_cons, ih]; ring

theorem expected_cl_points_length (ops : FiberOps) (xs ys : List Fiber) :
    (expected_cl_points ops xs ys).length
      = 2 * interval_count xs + 2 * crossed_y_count ops xs ys := by
  simp only [expected_cl_points, List.length_append, length_flatMap_sum, interval_count,
    crossed_y_count, cl_points, List.length_cons, List.length_nil,
    List.countP_eq_length_filter]
  rw [← sum_map_mul, ← sum_map_mul]
  congr 2
  · apply List.map_congr_left
    intro xf _
    simp [List.sum_const_nat, Nat.mul_comm]
  · apply List.map_congr_left
    intro yf _
    simp only [List.map_const', List.sum_replicate, smul_eq_mul]
    rw [Nat.mul_comm]
    rfl

/-- Without X-fiber that has an interval, `build` returns the graph as it was. -/
theorem build_no_xfibers (ops : FiberOps) (w : Weave)
    (hx : (sort_fibers ops w).xfibers = []) :
    build ops w = Except.ok { sort_fibers ops w with xfibers := [] } := by
  unfold build
  rw [hx]
  rfl

/-- Without Y-fiber that has an interval, the loop over the X-fibers completes, adds no edge
and adds only CL vertices. -/
theorem x_fiber_loop_no_yfibers (ops : FiberOps) (g : WeaveGraph) (xs : List Fiber) :
    ∃ r, foreach (x_fiber_step ops) (g, []) xs = Except.ok r ∧ r.1.1.edges = g.edges ∧
      r.1.2 = [] ∧ ∀ p ∈ r.1.1.verts, p ∈ g.verts ∨ p.type = VertexType.CL := by
  have hend : ∀ (f : Fiber) (g' : WeaveGraph) (i : Interval),
      ∀ p ∈ (add_endpoints ops f Point.x g' i).1.verts, p ∈ g'.verts ∨ p.type = VertexType.CL := by
    intro f g' i p hp
    unfold add_endpoints at hp
    split at hp
    · simp only [add_vertex, WeaveGraph.new_vertex, List.mem_append, List.mem_singleton] at hp
      rcases hp with (hp | rfl) | rfl
      · exact Or.inl hp
      · exact Or.inr rfl
      · exact Or.inr rfl
    · exact Or.inl hp
  have h2 : ∀ (xf : Fiber) (l : List Interval) (s : WeaveGraph × List Fiber),
      s.1.edges = g.edges ∧ s.2 = [] ∧ (∀ p ∈ s.1.verts, p ∈ g.verts ∨ p.type = VertexType.CL) →
      ∃ r, foreach (x_interval_step ops xf) s l = Except.ok r ∧ r.1.1.edges = g.edges ∧
        r.1.2 = [] ∧ ∀ p ∈ r.1.1.verts, p ∈ g.verts ∨ p.type = VertexType.CL := by
    intro xf l s hs
    obtain ⟨r, hr, hI⟩ := foreach_total (x_interval_step ops xf)
      (fun s' _ _ => s'.1.edges = g.edges ∧ s'.2 = [] ∧
        ∀ p ∈ s'.1.verts, p ∈ g.verts ∨ p.type = VertexType.CL)
      (by
        intro s' done a rest hI
        obtain ⟨i1, i2, i3⟩ := hI
        refine ⟨(((add_endpoints ops xf Point.x s'.1 a).1, []),
          (add_endpoints ops xf Point.x s'.1 a).2), ?_, ?_, rfl, ?_⟩
        · unfold x_interval_step
          rw [i2]
          rfl
        · simp only [add_endpoints_edges, i1]
        · intro p hp
          rcases hend xf s'.1 a p hp with h | h
          · exact i3 p h
          · exact Or.inr h)
      l s hs
    exact ⟨r, hr, hI⟩
  obtain ⟨r, hr, hI⟩ := foreach_total (x_fiber_step ops)
    (fun s' _ _ => s'.1.edges = g.edges ∧ s'.2 = [] ∧
      ∀ p ∈ s'.1.verts, p ∈ g.verts ∨ p.type = VertexType.CL)
    (by
      intro s' done a rest hI
      unfold x_fiber_step
      split
      · obtain ⟨c, hc, hJ⟩ := h2 a a.ints s' hI
        rw [hc]
        exact ⟨_, rfl, hJ⟩
      · exact ⟨_, rfl, hI⟩)
    xs (g, []) ⟨rfl, rfl, fun p hp => Or.inl hp⟩
  exact ⟨r, hr, hI⟩

theorem build_cl_perm (ops : FiberOps) (w w' : Weave) (hg : w.g = WeaveGraph.empty)
    (hf : ∀ f ∈ w.fibers, ∀ i ∈ f.ints, i.in_weave = false)
    (h : build ops w = Except.ok w') :
    (getCLPoints w'.g).Perm
      (expected_cl_points ops (sort_fibers ops w).xfibers (sort_fibers ops w).yfibers) := by
  unfold build at h
  cases hc : foreach (x_fiber_step ops) ((sort_fibers ops w).g, (sort_fibers ops w).yfibers)
      (sort_fibers ops w).xfibers with
  | error e => simp only [hc] at h; cases h
  | ok r =>
    simp only [hc] at h
    cases h
    have h1 := x_fiber_loop_cl ops _ _ r hc
    have h0 : (sort_fibers ops w).g = WeaveGraph.empty := hg
    simp only [h0] at h1
    have h2 : getCLPoints WeaveGraph.empty = [] := rfl
    simp only [h1, h2, List.nil_append]
    apply cl_trace_fresh
    · intro f hfx
      rw [sort_fibers_xfibers] at hfx
      exact hf f (List.mem_filter.1 hfx).1
    · intro f hfy
      rw [sort_fibers_yfibers] at hfy
      exact hf f (List.mem_filter.1 hfy).1

/-! ## Edges join vertices with different coordinates -/

theorem mem_x_keys (ops : FiberOps) (xf : Fiber) (xi : Interval) (ys : List Fiber) (k : Int)
    (h : k ∈ x_keys ops xf xi ys) : ∃ yf ∈ ys, ∃ yi ∈ yf.ints, crosses ops xf xi yf yi ∧
      k = yf.p1.x := by
  simp only [x_keys, x_keys_ints, List.mem_flatMap, List.mem_map, List.mem_filter,
    decide_eq_true_eq] at h
  obtain ⟨yf, hyf, yi, ⟨hyi, hc⟩, rfl⟩ := h
  exact ⟨yf, hyf, yi, hyi, hc, rfl⟩

theorem mem_y_keys (ops : FiberOps) (T : List (Fiber × Interval)) (yf : Fiber) (yi : Interval)
    (k : Int) (h : k ∈ y_keys ops T yf yi) : ∃ t ∈ T, crosses ops t.1 t.2 yf yi ∧
      k = t.1.p1.y := by
  simp only [y_keys, List.mem_map, List.mem_filter, decide_eq_true_eq] at h
  obtain ⟨t, ⟨ht, hc⟩, rfl⟩ := h
  exact ⟨t, ht, hc, rfl⟩

/-- Distinct coordinates give well-formed input: a crossing passes the range tests, so that a
coordinate different from both end-points lies strictly between them. -/
theorem wellFormed_of_distinct (ops : FiberOps) (xs ys : List Fiber)
    (h : DistinctCoordinates ops xs ys) : WellFormed false ops xs ys := by
  refine ⟨?_, ?_⟩
  · intro xf hxf xi hxi
    obtain ⟨⟨h1, h2⟩, h3, h4⟩ := h.1 xf hxf xi hxi
    refine ⟨⟨h1, h2, fun hgeo => by cases hgeo⟩, h3, ?_⟩
    intro k hk
    obtain ⟨yf, -, yi, -, hc, rfl⟩ := mem_x_keys ops xf xi ys k hk
    have := h4 _ hk
    obtain ⟨⟨c1, c2⟩, -⟩ := hc
    omega
  · intro yf hyf yi hyi
    obtain ⟨⟨h1, h2⟩, h3, h4⟩ := h.2 yf hyf yi hyi
    refine ⟨⟨h1, h2, fun hgeo => by cases hgeo⟩, h3, ?_⟩
    intro k hk
    obtain ⟨t, -, hc, rfl⟩ := mem_y_keys ops _ yf yi k hk
    have := h4 _ hk
    obtain ⟨-, c1, c2⟩ := hc
    omega

theorem mem_chain (l : List Nat) (e : Sym2 Nat) (h : e ∈ chain l) :
    ∃ i a b, l[i]? = some a ∧ l[i + 1]? = some b ∧ e = s(a, b) := by
  unfold chain at h
  obtain ⟨i, hi⟩ := List.getElem?_of_mem h
  rw [List.getElem?_zipWith, List.getElem?_tail] at hi
  cases ha : l[i]? with
  | none => simp [ha] at hi
  | some a =>
    cases hb : l[i + 1]? with
    | none => simp [ha, hb] at hi
    | some b =>
      simp only [ha, hb, Option.map_some', Option.bind_some, Option.some.injEq] at hi
      exact ⟨i, a, b, ha, hb, hi.symm⟩

theorem mem_chain_edges (s : VertexPairSet) (e : Sym2 Nat) (h : e ∈ chain_edges s) :
    ∃ i p q, s[i]? = some p ∧ s[i + 1]? = some q ∧ e = s(p.1, q.1) := by
  unfold chain_edges at h
  split at h
  · obtain ⟨i, a, b, h1, h2, h3⟩ := mem_chain _ e (Multiset.mem_coe.1 h)
    rw [List.getElem?_map] at h1 h2
    obtain ⟨p, hp, rfl⟩ := Option.map_eq_some'.1 h1
    obtain ⟨q, hq, rfl⟩ := Option.map_eq_some'.1 h2
    exact ⟨i, p, q, hp, hq, h3⟩
  · cases h

theorem mem_ints_chain_iff (l : List Interval) (e : Sym2 Nat) :
    e ∈ ints_chain l ↔ ∃ i ∈ l, e ∈ chain_edges i.intersections := by
  induction l with
  | nil => simp [ints_chain]
  | cons j t ih =>
    rw [ints_chain_cons, Multiset.mem_add, ih]
    simp

theorem mem_fibers_chain_iff (fs : List Fiber) (e : Sym2 Nat) :
    e ∈ fibers_chain fs ↔ ∃ f ∈ fs, ∃ i ∈ f.ints, e ∈ chain_edges i.intersections := by
  induction fs with
  | nil => simp [fibers_chain]
  | cons f t ih =>
    rw [fibers_chain_cons, Multiset.mem_add, ih, mem_ints_chain_iff]
    simp

/-- In a strictly sorted set whose entries are registered under their own coordinate, two
consecutive entries are vertices with different coordinates along the fiber. -/
theorem chain_edges_apart (g : WeaveGraph) (horiz : Bool) (s : VertexPairSet)
    (hs : s.Pairwise (fun p q => p.2 < q.2))
    (hk : ∀ p ∈ s, (if horiz then (g.position p.1).x else (g.position p.1).y) = p.2)
    (a b : Nat) (h : s(a, b) ∈ chain_edges s) :
    (if horiz then (g.position a).x else (g.position a).y)
      ≠ (if horiz then (g.position b).x else (g.position b).y) := by
  obtain ⟨i, p, q, hp, hq, he⟩ := mem_chain_edges s _ h
  have hlt : p.2 < q.2 := by
    have hi := (List.getElem?_eq_some_iff.1 hp)
    have hj := (List.getElem?_eq_some_iff.1 hq)
    obtain ⟨hi1, hi2⟩ := hi
    obtain ⟨hj1, hj2⟩ := hj
    rw [← hi2, ← hj2]
    exact List.pairwise_iff_getElem.1 hs i (i + 1) hi1 hj1 (by omega)
  have kp := hk p (List.getElem?_mem hp)
  have kq := hk q (List.getElem?_mem hq)
  rw [Sym2.eq_iff] at he
  rcases he with ⟨rfl, rfl⟩ | ⟨rfl, rfl⟩
  · rw [kp, kq]
    omega
  · rw [kp, kq]
    omega

/-- After the construction on well-formed input, two consecutive entries of the set of an
X-interval have different `x` and two consecutive entries of the set of a Y-interval have
different `y`. -/
theorem inv1_chains_apart {geo : Bool} (ops : FiberOps) (g : WeaveGraph) (xs ys : List Fiber)
    (hI : Inv1 geo ops (g, ys) xs []) :
    (∀ a b, s(a, b) ∈ fibers_chain xs → (g.position a).x ≠ (g.position b).x) ∧
      (∀ a b, s(a, b) ∈ fibers_chain ys → (g.position a).y ≠ (g.position b).y) := by
  obtain ⟨-, hX, -, hY, -, -⟩ := hI
  simp only at hX hY
  refine ⟨?_, ?_⟩
  · intro a b h
    obtain ⟨xf, hxf, xi, hxi, he⟩ := (mem_fibers_chain_iff xs _).1 h
    obtain ⟨-, h1, -, h3⟩ := hX xf hxf xi hxi
    simpa using chain_edges_apart g true xi.intersections h1 h3 a b he
  · intro a b h
    obtain ⟨yf, hyf, yi, hyi, he⟩ := (mem_fibers_chain_iff ys _).1 h
    obtain ⟨hs, -, -⟩ := hY yf hyf yi hyi
    unfold IntervalStruct at hs
    split at hs
    · obtain ⟨-, ⟨h1, -, h3⟩, -⟩ := hs
      simpa using chain_edges_apart g false yi.intersections h1 h3 a b he
    · rw [hs.1] at he
      simp [chain_edges] at he

/-! ## The coordinates registered on the intervals, through the four loops -/

theorem insert_keys (s : VertexPairSet) (p : VertexPair) :
    (VertexPairSet.insert s p).map Prod.snd = key_insert (s.map Prod.snd) p.2 := by
  induction s with
  | nil => rfl
  | cons q t ih =>
    simp only [VertexPairSet.insert, List.map_cons, key_insert]
    split
    · rfl
    · split
      · simp only [List.map_cons, ih]
      · rfl

theorem add_endpoints_view (ops : FiberOps) (f : Fiber) (key : Point → Int) (g : WeaveGraph)
    (i : Interval) :
    (add_endpoints ops f key g i).2.view
      = (i.lower, i.upper, true,
          end_keys (key (f.point ops i.lower)) (key (f.point ops i.upper)) i.in_weave
            (i.intersections.map Prod.snd)) := by
  cases hw : i.in_weave
  · rw [add_endpoints_fresh ops f key g i hw]
    simp only [Interval.view, end_keys, insert_keys, Bool.false_eq_true, if_false]
  · rw [add_endpoints_woven ops f key g i hw]
    simp only [Interval.view, end_keys, hw, if_true]

theorem crossing_view (ops : FiberOps) (xf yf : Fiber) (g : WeaveGraph)
    (xi yi : Interval) (r : WeaveGraph × Interval × Interval)
    (h : crossing ops xf yf g xi yi = Except.ok r) :
    r.2.1.view
        = (xi.lower, xi.upper, xi.in_weave, key_insert (xi.intersections.map Prod.snd) yf.p1.x) ∧
      r.2.2.view
        = (yi.lower, yi.upper, true,
            key_insert (end_keys (yf.point ops yi.lower).y (yf.point ops yi.upper).y yi.in_weave
              (yi.intersections.map Prod.snd)) xf.p1.y) := by
  unfold crossing at h
  simp only at h
  split at h
  · cases h
  · split at h
    · cases h
    · cases h
      have hv := add_endpoints_view ops yf Point.y g yi
      simp only [Interval.view, Prod.mk.injEq] at hv
      obtain ⟨v1, v2, v3, v4⟩ := hv
      refine ⟨?_, ?_⟩
      · simp only [add_crossing_vertex, Interval.view, insert_keys, crossing_position]
      · simp only [add_crossing_vertex, Interval.view, insert_keys, crossing_position, v1, v2,
          v3, v4]

theorem y_interval_step_view (ops : FiberOps) (xf yf : Fiber) (s : WeaveGraph × Interval)
    (yi : Interval) (r : (WeaveGraph × Interval) × Interval)
    (h : y_interval_step ops xf yf s yi = Except.ok r) :
    r.1.2.view
        = (s.2.lower, s.2.upper, s.2.in_weave,
            (if y_range_test ops xf yf yi then [yf.p1.x] else []).foldl key_insert
              (s.2.intersections.map Prod.snd)) ∧
      r.2.view
        = if y_range_test ops xf yf yi then
            (yi.lower, yi.upper, true,
              key_insert (end_keys (yf.point ops yi.lower).y (yf.point ops yi.upper).y
                yi.in_weave (yi.intersections.map Prod.snd)) xf.p1.y)
          else yi.view := by
  unfold y_interval_step at h
  by_cases ht : y_range_test ops xf yf yi = true
  · simp only [ht, if_true] at h ⊢
    cases hc : crossing ops xf yf s.1 s.2 yi with
    | error e => simp only [hc] at h; cases h
    | ok c =>
      simp only [hc] at h
      cases h
      obtain ⟨h1, h2⟩ := crossing_view ops xf yf s.1 s.2 yi c hc
      exact ⟨by rw [h1]; rfl, h2⟩
  · simp only [ht] at h ⊢
    cases h
    exact ⟨rfl, rfl⟩

theorem y_interval_loop_view (ops : FiberOps) (xf yf : Fiber) (s : WeaveGraph × Interval)
    (yis : List Interval) (r : (WeaveGraph × Interval) × List Interval)
    (h : foreach (y_interval_step ops xf yf) s yis = Except.ok r) :
    r.1.2.view
        = (s.2.lower, s.2.upper, s.2.in_weave,
            ((yis.filter (y_range_test ops xf yf)).map fun _ => yf.p1.x).foldl key_insert
              (s.2.intersections.map Prod.snd)) ∧
      r.2.map Interval.view = yis.map (y_step_view ops xf yf) := by
  have := foreach_induction (y_interval_step ops xf yf)
    (fun s' done rest =>
      (s'.2.lower, s'.2.upper, s'.2.in_weave,
          ((rest.filter (y_range_test ops xf yf)).map fun _ => yf.p1.x).foldl key_insert
            (s'.2.intersections.map Prod.snd))
        = (s.2.lower, s.2.upper, s.2.in_weave,
          ((yis.filter (y_range_test ops xf yf)).map fun _ => yf.p1.x).foldl key_insert
            (s.2.intersections.map Prod.snd)) ∧
        done.map Interval.view ++ rest.map (y_step_view ops xf yf)
          = yis.map (y_step_view ops xf yf))
    (by
      intro s' done a rest r' hI hs
      obtain ⟨h1, h2⟩ := y_interval_step_view ops xf yf s' a r' hs
      obtain ⟨i1, i2⟩ := hI
      simp only [Interval.view, Prod.mk.injEq] at h1
      obtain ⟨e1, e2, e3, e4⟩ := h1
      refine ⟨?_, ?_⟩
      · rw [← i1, e1, e2, e3, e4]
        by_cases ht : y_range_test ops xf yf a = true
        · simp [List.filter_cons, ht]
        · simp [List.filter_cons, ht]
      · rw [← i2]
        simp [h2, y_step_view])
    yis s r ⟨rfl, by simp⟩ h
  simp only [List.filter_nil, List.map_nil, List.foldl_nil, List.append_nil] at this
  exact ⟨this.1, this.2⟩

theorem y_step_view_eq (ops : FiberOps) (xf : Fiber) (xi : Interval) (yf : Fiber)
    (yi : Interval) (ht : x_range_test ops xf xi yf = true) :
    y_step_view ops xf yf yi = upd_interval_view ops xf xi yf.p1 yf.p2 yi.view := by
  have hc : crosses_marks ops xf xi yf.p1 yf.p2 (yi.lower, yi.upper, yi.in_weave)
      = y_range_test ops xf yf yi := by
    simp only [x_range_test, Bool.and_eq_true, decide_eq_true_eq, Fiber.point] at ht
    simp only [crosses_marks, y_range_test, Fiber.point, Bool.decide_and, ht.1, ht.2,
      decide_True, Bool.true_and]
  simp only [y_step_view, upd_interval_view, Interval.view, hc, Fiber.point]

theorem upd_interval_view_eq (ops : FiberOps) (xf : Fiber) (xi : Interval) (yf : Fiber)
    (b : IntervalView) (ht : ¬ x_range_test ops xf xi yf = true) :
    upd_interval_view ops xf xi yf.p1 yf.p2 b = b := by
  have hc : crosses_marks ops xf xi yf.p1 yf.p2 (b.1, b.2.1, b.2.2.1) = false := by
    simp only [x_range_test, Bool.and_eq_true, decide_eq_true_eq] at ht
    simp only [crosses_marks, decide_eq_false_iff_not]
    tauto
  simp only [upd_interval_view, hc, Bool.false_eq_true, if_false]

theorem x_keys_view_eq (ops : FiberOps) (xf : Fiber) (xi : Interval) (ys : List Fiber) :
    x_keys ops xf xi ys = x_keys_view ops xf xi (ys.map Fiber.view) := by
  simp only [x_keys, x_keys_ints, x_keys_view, List.flatMap_map]
  apply List.flatMap_congr
  intro yf _
  simp only [Fiber.view, Interval.view, List.filter_map, List.map_map]
  congr 1

theorem y_fiber_step_view (ops : FiberOps) (xf : Fiber) (xi0 : Interval)
    (s : WeaveGraph × Interval) (yf : Fiber) (r : (WeaveGraph × Interval) × Fiber)
    (h : y_fiber_step ops xf xi0 s yf = Except.ok r) :
    r.1.2.view
        = (s.2.lower, s.2.upper, s.2.in_weave,
            (x_keys_ints ops xf xi0 yf yf.ints).foldl key_insert
              (s.2.intersections.map Prod.snd)) ∧
      r.2.view = upd_view ops xf xi0 yf.view := by
  unfold y_fiber_step at h
  by_cases ht : x_range_test ops xf xi0 yf = true
  · simp only [ht, if_true] at h
    cases hc : foreach (y_interval_step ops xf yf) s yf.ints with
    | error e => simp only [hc] at h; cases h
    | ok c =>
      simp only [hc] at h
      cases h
      obtain ⟨h1, h2⟩ := y_interval_loop_view ops xf yf s yf.ints c hc
      refine ⟨?_, ?_⟩
      · rw [h1]
        have : yf.ints.filter (y_range_test ops xf yf)
            = yf.ints.filter fun yi => decide (crosses ops xf xi0 yf yi) := by
          apply List.filter_congr
          intro yi _
          rw [Bool.eq_iff_iff, decide_eq_true_eq, crosses_iff_tests]
          simp [ht]
        rw [this]
        rfl
      · simp only [Fiber.view, upd_view, h2, List.map_map, Prod.mk.injEq, true_and]
        apply List.map_congr_left
        intro yi _
        exact y_step_view_eq ops xf xi0 yf yi ht
  · simp only [ht] at h
    cases h
    refine ⟨?_, ?_⟩
    · have : x_keys_ints ops xf xi0 yf yf.ints = [] :=
        x_keys_ints_nil_of_test ops xf xi0 yf _ ht
      rw [this]
      rfl
    · simp only [Fiber.view, upd_view, List.map_map, Prod.mk.injEq, true_and]
      symm
      apply List.map_congr_left
      intro yi _
      exact upd_interval_view_eq ops xf xi0 yf _ ht

theorem y_fiber_loop_view (ops : FiberOps) (xf : Fiber) (xi0 : Interval)
    (s : WeaveGraph × Interval) (ys : List Fiber) (r : (WeaveGraph × Interval) × List Fiber)
    (h : foreach (y_fiber_step ops xf xi0) s ys = Except.ok r) :
    r.1.2.view
        = (s.2.lower, s.2.upper, s.2.in_weave,
            (x_keys ops xf xi0 ys).foldl key_insert (s.2.intersections.map Prod.snd)) ∧
      r.2.map Fiber.view = (ys.map Fiber.view).map (upd_view ops xf xi0) := by
  have := foreach_induction (y_fiber_step ops xf xi0)
    (fun s' done rest =>
      (s'.2.lower, s'.2.upper, s'.2.in_weave,
          (x_keys ops xf xi0 rest).foldl key_insert (s'.2.intersections.map Prod.snd))
        = (s.2.lower, s.2.upper, s.2.in_weave,
          (x_keys ops xf xi0 ys).foldl key_insert (s.2.intersections.map Prod.snd)) ∧
        done.map Fiber.view ++ (rest.map Fiber.view).map (upd_view ops xf xi0)
          = (ys.map Fiber.view).map (upd_view ops xf xi0))
    (by
      intro s' done a rest r' hI hs
      obtain ⟨h1, h2⟩ := y_fiber_step_view ops xf xi0 s' a r' hs
      obtain ⟨i1, i2⟩ := hI
      simp only [Interval.view, Prod.mk.injEq] at h1
      obtain ⟨e1, e2, e3, e4⟩ := h1
      refine ⟨?_, ?_⟩
      · rw [← i1, e1, e2, e3, e4, x_keys_cons, List.foldl_append]
      · rw [← i2]
        simp [h2])
    ys s r ⟨rfl, by simp⟩ h
  have h0 : x_keys ops xf xi0 [] = [] := rfl
  simp only [h0, List.foldl_nil, List.map_nil, List.append_nil] at this
  exact ⟨this.1, this.2⟩

theorem x_interval_step_view (ops : FiberOps) (xf : Fiber) (s : WeaveGraph × List Fiber)
    (xi : Interval) (r : (WeaveGraph × List Fiber) × Interval)
    (h : x_interval_step ops xf s xi = Except.ok r) :
    r.2.view = x_view ops xf xi (s.2.map Fiber.view) ∧
      r.1.2.map Fiber.view = (s.2.map Fiber.view).map (upd_view ops xf xi) := by
  unfold x_interval_step at h
  cases hc : foreach (y_fiber_step ops xf xi) (add_endpoints ops xf Point.x s.1 xi) s.2 with
  | error e => simp only [hc] at h; cases h
  | ok c =>
    simp only [hc] at h
    cases h
    obtain ⟨h1, h2⟩ := y_fiber_loop_view ops xf xi _ s.2 c hc
    refine ⟨?_, h2⟩
    have hv := add_endpoints_view ops xf Point.x s.1 xi
    simp only [Interval.view, Prod.mk.injEq] at hv
    obtain ⟨v1, v2, v3, v4⟩ := hv
    simp only
    rw [h1, v1, v2, v3, v4, x_view, x_keys_view_eq]

theorem x_keys_view_upd (ops : FiberOps) (xf xf' : Fiber) (xi xi' : Interval)
    (vs : List FiberView) :
    x_keys_view ops xf' xi' (vs.map (upd_view ops xf xi)) = x_keys_view ops xf' xi' vs := by
  simp only [x_keys_view, List.flatMap_map]
  apply List.flatMap_congr
  intro fv _
  simp only [upd_view, List.filter_map, List.map_map]
  congr 1
  apply List.filter_congr
  intro b _
  simp only [Function.comp, upd_interval_view]
  split
  · simp only [crosses_marks]
  · rfl

theorem x_view_congr (ops : FiberOps) (xf : Fiber) (xi : Interval) (vs vs' : List FiberView)
    (h : x_keys_view ops xf xi vs' = x_keys_view ops xf xi vs) :
    x_view ops xf xi vs' = x_view ops xf xi vs := by
  simp only [x_view, h]

theorem upd_all_view_append (ops : FiberOps) (t1 t2 : List (Fiber × Interval))
    (vs : List FiberView) :
    upd_all_view ops (t1 ++ t2) vs = upd_all_view ops t2 (upd_all_view ops t1 vs) := by
  simp [upd_all_view, List.foldl_append]

theorem x_keys_view_upd_all (ops : FiberOps) (tasks : List (Fiber × Interval)) (xf' : Fiber)
    (xi' : Interval) (vs : List FiberView) :
    x_keys_view ops xf' xi' (upd_all_view ops tasks vs) = x_keys_view ops xf' xi' vs := by
  induction tasks generalizing vs with
  | nil => rfl
  | cons t rest ih =>
    have : upd_all_view ops (t :: rest) vs
        = upd_all_view ops rest (vs.map (upd_view ops t.1 t.2)) := rfl
    rw [this, ih, x_keys_view_upd]

theorem x_interval_loop_view (ops : FiberOps) (xf : Fiber) (s : WeaveGraph × List Fiber)
    (xis : List Interval) (r : (WeaveGraph × List Fiber) × List Interval)
    (h : foreach (x_interval_step ops xf) s xis = Except.ok r) :
    r.2.map Interval.view = xis.map (fun xi => x_view ops xf xi (s.2.map Fiber.view)) ∧
      r.1.2.map Fiber.view
        = upd_all_view ops (xis.map fun xi => (xf, xi)) (s.2.map Fiber.view) := by
  have := foreach_induction (x_interval_step ops xf)
    (fun s' done rest =>
      done.map Interval.view ++ rest.map (fun xi => x_view ops xf xi (s.2.map Fiber.view))
          = xis.map (fun xi => x_view ops xf xi (s.2.map Fiber.view)) ∧
        upd_all_view ops (rest.map fun xi => (xf, xi)) (s'.2.map Fiber.view)
          = upd_all_view ops (xis.map fun xi => (xf, xi)) (s.2.map Fiber.view) ∧
        ∀ xf' xi', x_keys_view ops xf' xi' (s'.2.map Fiber.view)
          = x_keys_view ops xf' xi' (s.2.map Fiber.view))
    (by
      intro s' done a rest r' hI hs
      obtain ⟨h1, h2⟩ := x_interval_step_view ops xf s' a r' hs
      obtain ⟨i1, i2, i3⟩ := hI
      refine ⟨?_, ?_, ?_⟩
      · rw [← i1, List.map_append, List.map_cons, List.map_nil, h1,
          x_view_congr ops xf a _ _ (i3 xf a)]
        simp
      · rw [← i2, h2]
        rfl
      · intro xf' xi'
        rw [h2, x_keys_view_upd, i3])
    xis s r ⟨by simp, rfl, fun _ _ => rfl⟩ h
  obtain ⟨t1, t2, -⟩ := this
  simp only [List.map_nil, List.append_nil] at t1 t2
  exact ⟨t1, t2⟩

theorem x_fiber_step_view (ops : FiberOps) (s : WeaveGraph × List Fiber) (xf : Fiber)
    (r : (WeaveGraph × List Fiber) × Fiber) (h : x_fiber_step ops s xf = Except.ok r) :
    r.2.view
        = (xf.p1, xf.p2, xf.ints.map fun xi => x_view ops xf xi (s.2.map Fiber.view)) ∧
      r.1.2.map Fiber.view
        = upd_all_view ops (xf.ints.map fun xi => (xf, xi)) (s.2.map Fiber.view) := by
  unfold x_fiber_step at h
  by_cases ht : (!xf.ints.isEmpty) = true
  · simp only [ht, if_true] at h
    cases hc : foreach (x_interval_step ops xf) s xf.ints with
    | error e => simp only [hc] at h; cases h
    | ok c =>
      simp only [hc] at h
      cases h
      obtain ⟨h1, h2⟩ := x_interval_loop_view ops xf s xf.ints c hc
      exact ⟨by simp only [Fiber.view, h1], h2⟩
  · simp only [ht] at h
    cases h
    have : xf.ints = [] := by simpa using ht
    simp [Fiber.view, this, upd_all_view]

theorem x_fiber_loop_view (ops : FiberOps) (s : WeaveGraph × List Fiber) (xs : List Fiber)
    (r : (WeaveGraph × List Fiber) × List Fiber)
    (h : foreach (x_fiber_step ops) s xs = Except.ok r) :
    r.2.map Fiber.view
        = xs.map (fun xf =>
            (xf.p1, xf.p2, xf.ints.map fun xi => x_view ops xf xi (s.2.map Fiber.view))) ∧
      r.1.2.map Fiber.view = upd_all_view ops (x_tasks xs) (s.2.map Fiber.view) := by
  have := foreach_induction (x_fiber_step ops)
    (fun s' done rest =>
      done.map Fiber.view ++ rest.map (fun xf =>
            (xf.p1, xf.p2, xf.ints.map fun xi => x_view ops xf xi (s.2.map Fiber.view)))
          = xs.map (fun xf =>
            (xf.p1, xf.p2, xf.ints.map fun xi => x_view ops xf xi (s.2.map Fiber.view))) ∧
        upd_all_view ops (x_tasks rest) (s'.2.map Fiber.view)
          = upd_all_view ops (x_tasks xs) (s.2.map Fiber.view) ∧
        ∀ xf' xi', x_keys_view ops xf' xi' (s'.2.map Fiber.view)
          = x_keys_view ops xf' xi' (s.2.map Fiber.view))
    (by
      intro s' done a rest r' hI hs
      obtain ⟨h1, h2⟩ := x_fiber_step_view ops s' a r' hs
      obtain ⟨i1, i2, i3⟩ := hI
      refine ⟨?_, ?_, ?_⟩
      · rw [← i1, List.map_append, List.map_cons, List.map_nil, h1]
        have : (a.ints.map fun xi => x_view ops a xi (s'.2.map Fiber.view))
            = a.ints.map fun xi => x_view ops a xi (s.2.map Fiber.view) := by
          apply List.map_congr_left
          intro xi _
          exact x_view_congr ops a xi _ _ (i3 a xi)
        rw [this]
        simp
      · rw [← i2, h2, x_tasks_cons, upd_all_view_append]
      · intro xf' xi'
        rw [h2, x_keys_view_upd_all, i3])
    xs s r ⟨by simp, rfl, fun _ _ => rfl⟩ h
  obtain ⟨t1, t2, -⟩ := this
  have h0 : x_tasks [] = [] := rfl
  simp only [List.map_nil, List.append_nil, h0] at t1 t2
  exact ⟨t1, t2⟩

/-! ## The size of the ordered sets after the construction -/

theorem mem_key_insert (l : List Int) (k x : Int) : x ∈ key_insert l k ↔ x = k ∨ x ∈ l := by
  induction l with
  | nil => simp [key_insert]
  | cons q t ih =>
    simp only [key_insert]
    split
    · simp
    · split
      · simp only [List.mem_cons, ih]
        tauto
      · have : k = q := by omega
        subst this
        simp

theorem length_key_insert (l : List Int) (k : Int) (h : k ∉ l) :
    (key_insert l k).length = l.length + 1 := by
  induction l with
  | nil => rfl
  | cons q t ih =>
    simp only [List.mem_cons, not_or] at h
    simp only [key_insert]
    split
    · rfl
    · split
      · simp [ih h.2]
      · exfalso
        omega

theorem length_key_insert_le (l : List Int) (k : Int) :
    (key_insert l k).length ≤ l.length + 1 := by
  induction l with
  | nil => simp [key_insert]
  | cons q t ih =>
    simp only [key_insert]
    split
    · simp
    · split
      · simp only [List.length_cons]
        omega
      · simp

theorem length_foldl_key_insert (ks : List Int) (l : List Int) (hn : ks.Nodup)
    (hd : ∀ k ∈ ks, k ∉ l) : (ks.foldl key_insert l).length = l.length + ks.length := by
  induction ks generalizing l with
  | nil => rfl
  | cons k t ih =>
    rw [List.nodup_cons] at hn
    rw [List.foldl_cons, ih _ hn.2, length_key_insert l k (hd k (List.mem_cons_self _ _)),
      List.length_cons]
    · omega
    · intro x hx hm
      rcases (mem_key_insert l k x).1 hm with rfl | hm
      · exact hn.1 hx
      · exact hd x (List.mem_cons_of_mem _ hx) hm

/-- The size of a set that started empty, received its two end-points with coordinates `lo`
and `up` and then the crossings with the pairwise distinct coordinates `ks`, all strictly
between `lo` and `up`: two more than the number of crossings when there is one, at most two
otherwise. -/
theorem length_set_keys (lo up : Int) (ks : List Int) (hn : ks.Nodup)
    (hk : ∀ k ∈ ks, lo < k ∧ k < up) :
    (ks = [] → (ks.foldl key_insert (end_keys lo up false [])).length ≤ 2) ∧
      (ks ≠ [] → (ks.foldl key_insert (end_keys lo up false [])).length = ks.length + 2) := by
  have hmem : ∀ x ∈ end_keys lo up false [], x = lo ∨ x = up := by
    intro x hx
    simp only [end_keys, Bool.false_eq_true, if_false] at hx
    rcases (mem_key_insert _ _ _).1 hx with h | h
    · exact Or.inr h
    · rcases (mem_key_insert _ _ _).1 h with h | h
      · exact Or.inl h
      · cases h
  have hlen : (ks.foldl key_insert (end_keys lo up false [])).length
      = (end_keys lo up false []).length + ks.length := by
    apply length_foldl_key_insert _ _ hn
    intro k hk' hm
    have := hk k hk'
    rcases hmem k hm with rfl | rfl <;> omega
  refine ⟨?_, ?_⟩
  · intro h0
    subst h0
    simp only [List.foldl_nil, end_keys, Bool.false_eq_true, if_false]
    have := length_key_insert_le (key_insert [] lo) up
    simp only [key_insert, List.length_cons, List.length_nil] at this ⊢
    exact this
  · intro h0
    obtain ⟨k, hk'⟩ := List.exists_mem_of_ne_nil ks h0
    have hlu := hk k hk'
    have : (end_keys lo up false []).length = 2 := by
      simp only [end_keys, Bool.false_eq_true, if_false]
      rw [length_key_insert]
      · rfl
      · simp only [key_insert, List.mem_singleton]
        omega
    rw [hlen, this]
    omega

theorem upd_all_view_map (ops : FiberOps) (tasks : List (Fiber × Interval))
    (vs : List FiberView) :
    upd_all_view ops tasks vs
      = vs.map fun fv => (fv.1, fv.2.1, fv.2.2.map (y_view ops tasks fv.1 fv.2.1)) := by
  induction tasks generalizing vs with
  | nil =>
    simp only [upd_all_view, List.foldl_nil]
    symm
    conv_rhs => rw [← List.map_id vs]
    apply List.map_congr_left
    intro fv _
    have : y_view ops [] fv.1 fv.2.1 = id := funext fun b => rfl
    rw [this, List.map_id]
    rfl
  | cons t rest ih =>
    have : upd_all_view ops (t :: rest) vs
        = upd_all_view ops rest (vs.map (upd_view ops t.1 t.2)) := rfl
    rw [this, ih, List.map_map]
    apply List.map_congr_left
    intro fv _
    simp only [Function.comp, upd_view, List.map_map]
    rfl

theorem y_view_spec (ops : FiberOps) (tasks : List (Fiber × Interval)) (p1 p2 : Point)
    (b : IntervalView) :
    y_view ops tasks p1 p2 b
      = if tasks.filter (fun t => crosses_marks ops t.1 t.2 p1 p2 (b.1, b.2.1, false)) = []
        then b
        else (b.1, b.2.1, true,
          ((tasks.filter fun t => crosses_marks ops t.1 t.2 p1 p2 (b.1, b.2.1, false)).map
            fun t => t.1.p1.y).foldl key_insert
            (end_keys (ops.point p1 p2 b.1).y (ops.point p1 p2 b.2.1).y b.2.2.1 b.2.2.2)) := by
  induction tasks generalizing b with
  | nil => simp [y_view]
  | cons t rest ih =>
    have hstep : y_view ops (t :: rest) p1 p2 b
        = y_view ops rest p1 p2 (upd_interval_view ops t.1 t.2 p1 p2 b) := rfl
    have hflag : crosses_marks ops t.1 t.2 p1 p2 (b.1, b.2.1, b.2.2.1)
        = crosses_marks ops t.1 t.2 p1 p2 (b.1, b.2.1, false) := rfl
    rw [hstep, ih]
    by_cases hc : crosses_marks ops t.1 t.2 p1 p2 (b.1, b.2.1, false) = true
    · have hu : upd_interval_view ops t.1 t.2 p1 p2 b
          = (b.1, b.2.1, true,
              key_insert (end_keys (ops.point p1 p2 b.1).y (ops.point p1 p2 b.2.1).y b.2.2.1
                b.2.2.2) t.1.p1.y) := by
        simp only [upd_interval_view, hflag, hc, if_true]
      rw [hu, List.filter_cons, if_pos hc, if_neg (List.cons_ne_nil _ _), List.map_cons,
        List.foldl_cons]
      dsimp only
      by_cases h0 : rest.filter
          (fun t => crosses_marks ops t.1 t.2 p1 p2 (b.1, b.2.1, false)) = []
      · rw [if_pos h0, h0]
        rfl
      · rw [if_neg h0]
        simp only [end_keys, if_true]
    · have hu : upd_interval_view ops t.1 t.2 p1 p2 b = b := by
        simp only [upd_interval_view, hflag, hc, Bool.false_eq_true, if_false]
      rw [hu, List.filter_cons, if_neg hc]

theorem y_keys_marks (ops : FiberOps) (T : List (Fiber × Interval)) (yf : Fiber)
    (yi : Interval) :
    y_keys ops T yf yi
      = ((T.filter fun t =>
          crosses_marks ops t.1 t.2 yf.p1 yf.p2 (yi.lower, yi.upper, false)).map
          fun t => t.1.p1.y) := by
  simp only [y_keys]
  congr 1

/-- The size of the set of a Y-interval that has not been materialised, after the X-intervals
`T` have been processed on well-formed input. -/
theorem y_view_length (ops : FiberOps) (T : List (Fiber × Interval)) (yf : Fiber)
    (yi : Interval) (hf : yi.in_weave = false ∧ yi.intersections = [])
    (hn : (y_keys ops T yf yi).Nodup)
    (hk : ∀ k ∈ y_keys ops T yf yi,
      (yf.point ops yi.lower).y < k ∧ k < (yf.point ops yi.upper).y) :
    (y_view ops T yf.p1 yf.p2 yi.view).2.2.2.length
      = if y_keys ops T yf yi = [] then 0 else (y_keys ops T yf yi).length + 2 := by
  rw [y_view_spec]
  simp only [Interval.view, hf.1, hf.2, List.map_nil]
  rw [← y_keys_marks ops T yf yi]
  have hnil : (T.filter fun t => crosses_marks ops t.1 t.2 yf.p1 yf.p2
      (yi.lower, yi.upper, false)) = [] ↔ y_keys ops T yf yi = [] := by
    rw [y_keys_marks ops T yf yi, List.map_eq_nil_iff]
  by_cases h0 : y_keys ops T yf yi = []
  · rw [if_pos (hnil.2 h0), if_pos h0]
    rfl
  · rw [if_neg (fun h => h0 (hnil.1 h)), if_neg h0]
    exact (length_set_keys _ _ _ hn hk).2 h0

/-! ## Counting the edges -/

theorem sum_map_ite {α : Type} (l : List α) (p : α → Bool) :
    (l.map fun a => if p a then 1 else 0).sum = l.countP p := by
  induction l with
  | nil => rfl
  | cons a t ih =>
    rw [List.map_cons, List.sum_cons, ih, List.countP_cons]
    omega

theorem sum_map_sum_comm {α β : Type} (A : List α) (B : List β) (f : α → β → Nat) :
    (A.map fun a => (B.map fun b => f a b).sum).sum
      = (B.map fun b => (A.map fun a => f a b).sum).sum := by
  induction A with
  | nil => simp
  | cons a t ih =>
    simp only [List.map_cons, List.sum_cons, ih, List.sum_map_add]

theorem sum_countP_comm {α β : Type} (A : List α) (B : List β) (p : α → β → Bool) :
    (A.map fun a => B.countP (p a)).sum = (B.map fun b => A.countP fun a => p a b).sum := by
  have h1 : ∀ a, B.countP (p a) = (B.map fun b => if p a b then 1 else 0).sum :=
    fun a => (sum_map_ite B (p a)).symm
  have h2 : ∀ b, (A.countP fun a => p a b) = (A.map fun a => if p a b then 1 else 0).sum :=
    fun b => (sum_map_ite A fun a => p a b).symm
  simp only [h1, h2]
  exact sum_map_sum_comm A B fun a b => if p a b then 1 else 0

theorem sum_map_flatMap {α β : Type} (l : List α) (f : α → List β) (g : β → Nat) :
    ((l.flatMap f).map g).sum = (l.map fun a => ((f a).map g).sum).sum := by
  induction l with
  | nil => rfl
  | cons a t ih => simp only [List.flatMap_cons, List.map_append, List.sum_append, ih,
      List.map_cons, List.sum_cons]

theorem chain_length (l : List Nat) : (chain l).length = l.length - 1 := by
  simp only [chain, List.length_zipWith, List.length_tail]
  omega

theorem card_chain_edges (s : VertexPairSet) :
    Multiset.card (chain_edges s) = chain_count s.length := by
  unfold chain_edges chain_count
  split
  · simp [chain_length]
  · rfl

theorem card_ints_chain (l : List Interval) :
    Multiset.card (ints_chain l)
      = ((l.map Interval.view).map fun b => chain_count b.2.2.2.length).sum := by
  induction l with
  | nil => rfl
  | cons i t ih =>
    rw [ints_chain_cons, Multiset.card_add, ih, card_chain_edges]
    simp [Interval.view]

theorem card_fibers_chain (fs : List Fiber) :
    Multiset.card (fibers_chain fs)
      = ((fs.map Fiber.view).map fun fv =>
          (fv.2.2.map fun b => chain_count b.2.2.2.length).sum).sum := by
  induction fs with
  | nil => rfl
  | cons f t ih =>
    rw [fibers_chain_cons, Multiset.card_add, ih, card_ints_chain]
    simp [Fiber.view]

theorem x_keys_length (ops : FiberOps) (xf : Fiber) (xi : Interval) (ys : List Fiber) :
    (x_keys ops xf xi ys).length
      = (ys.map fun yf => yf.ints.countP fun yi => decide (crosses ops xf xi yf yi)).sum := by
  simp only [x_keys, x_keys_ints, length_flatMap_sum, List.length_map,
    List.countP_eq_length_filter]

theorem x_crossed_iff (ops : FiberOps) (ys : List Fiber) (xf : Fiber) (xi : Interval) :
    x_crossed ops ys xf xi = true ↔ x_keys ops xf xi ys ≠ [] := by
  simp only [x_crossed, List.any_eq_true, decide_eq_true_eq, ne_eq, x_keys, x_keys_ints,
    List.flatMap_eq_nil_iff, List.map_eq_nil_iff, List.filter_eq_nil_iff, not_forall,
    not_not, exists_prop]

theorem y_keys_length (ops : FiberOps) (T : List (Fiber × Interval)) (yf : Fiber)
    (yi : Interval) :
    (y_keys ops T yf yi).length = T.countP fun t => decide (crosses ops t.1 t.2 yf yi) := by
  simp only [y_keys, List.length_map, List.countP_eq_length_filter]

theorem y_crossed_iff (ops : FiberOps) (xs : List Fiber) (yf : Fiber) (yi : Interval) :
    y_crossed ops xs yf yi = true ↔ y_keys ops (x_tasks xs) yf yi ≠ [] := by
  simp only [y_crossed, List.any_eq_true, decide_eq_true_eq, ne_eq, y_keys, x_tasks,
    List.map_eq_nil_iff, List.filter_eq_nil_iff, List.mem_flatMap, List.mem_map, not_forall,
    not_not, exists_prop]
  constructor
  · rintro ⟨xf, hxf, xi, hxi, hc⟩
    exact ⟨(xf, xi), ⟨xf, hxf, xi, hxi, rfl⟩, hc⟩
  · rintro ⟨t, ⟨xf, hxf, xi, hxi, rfl⟩, hc⟩
    exact ⟨xf, hxf, xi, hxi, hc⟩

/-- The number of crossings, counted from the Y-intervals. -/
theorem crossing_count_y (ops : FiberOps) (xs ys : List Fiber) :
    crossing_count ops xs ys
      = (ys.map fun yf =>
          (yf.ints.map fun yi => (y_keys ops (x_tasks xs) yf yi).length).sum).sum := by
  have h1 : crossing_count ops xs ys
      = ((x_tasks xs).map fun t =>
          (ys.map fun yf => yf.ints.countP fun yi => decide (crosses ops t.1 t.2 yf yi)).sum).sum := by
    simp only [crossing_count, x_tasks, sum_map_flatMap, List.map_map]
    rfl
  rw [h1, sum_map_sum_comm]
  congr 1
  apply List.map_congr_left
  intro yf _
  rw [sum_countP_comm]
  congr 1
  apply List.map_congr_left
  intro yi _
  rw [y_keys_length]

theorem build_view (ops : FiberOps) (w w' : Weave) (h : build ops w = Except.ok w') :
    w'.xfibers.map Fiber.view
        = (sort_fibers ops w).xfibers.map (fun xf =>
            (xf.p1, xf.p2, xf.ints.map fun xi =>
              x_view ops xf xi ((sort_fibers ops w).yfibers.map Fiber.view))) ∧
      w'.yfibers.map Fiber.view
        = upd_all_view ops (x_tasks (sort_fibers ops w).xfibers)
            ((sort_fibers ops w).yfibers.map Fiber.view) := by
  unfold build at h
  cases hc : foreach (x_fiber_step ops) ((sort_fibers ops w).g, (sort_fibers ops w).yfibers)
      (sort_fibers ops w).xfibers with
  | error e => simp only [hc] at h; cases h
  | ok r =>
    simp only [hc] at h
    cases h
    exact x_fiber_loop_view ops _ _ r hc

theorem forall₂_of_map_eq {α β γ : Type} (f : α → γ) (g : β → γ) (P : α → β → Prop)
    (out : List α) (inp : List β) (h : out.map f = inp.map g)
    (hP : ∀ o i, i ∈ inp → f o = g i → P o i) : List.Forall₂ P out inp := by
  induction out generalizing inp with
  | nil =>
    cases inp with
    | nil => exact List.Forall₂.nil
    | cons i t => cases h
  | cons o t ih =>
    cases inp with
    | nil => cases h
    | cons i t' =>
      simp only [List.map_cons, List.cons.injEq] at h
      exact List.Forall₂.cons (hP o i (List.mem_cons_self _ _) h.1)
        (ih t' h.2 fun o' i' hi' => hP o' i' (List.mem_cons_of_mem _ hi'))

theorem sum_map_split {α : Type} (l : List α) (F a b : α → Nat)
    (h : ∀ x ∈ l, F x = a x + b x) : (l.map F).sum = (l.map a).sum + (l.map b).sum := by
  rw [List.map_congr_left h, List.sum_map_add]

theorem x_view_length (ops : FiberOps) (xf : Fiber) (xi : Interval) (ys : List Fiber)
    (hf : xi.in_weave = false ∧ xi.intersections = [])
    (hn : (x_keys ops xf xi ys).Nodup)
    (hk : ∀ k ∈ x_keys ops xf xi ys,
      (xf.point ops xi.lower).x < k ∧ k < (xf.point ops xi.upper).x) :
    (x_keys ops xf xi ys = [] →
        (x_view ops xf xi (ys.map Fiber.view)).2.2.2.length ≤ 2) ∧
      (x_keys ops xf xi ys ≠ [] →
        (x_view ops xf xi (ys.map Fiber.view)).2.2.2.length
          = (x_keys ops xf xi ys).length + 2) := by
  simp only [x_view, ← x_keys_view_eq, hf.1, hf.2, List.map_nil]
  exact length_set_keys _ _ _ hn hk

theorem x_chain_count (ops : FiberOps) (xf : Fiber) (xi : Interval) (ys : List Fiber)
    (hf : xi.in_weave = false ∧ xi.intersections = [])
    (hn : (x_keys ops xf xi ys).Nodup)
    (hk : ∀ k ∈ x_keys ops xf xi ys,
      (xf.point ops xi.lower).x < k ∧ k < (xf.point ops xi.upper).x) :
    chain_count (x_view ops xf xi (ys.map Fiber.view)).2.2.2.length
      = (x_keys ops xf xi ys).length + (if x_crossed ops ys xf xi then 1 else 0) := by
  obtain ⟨h1, h2⟩ := x_view_length ops xf xi ys hf hn hk
  by_cases h0 : x_keys ops xf xi ys = []
  · have hc : ¬ x_crossed ops ys xf xi = true := fun h => (x_crossed_iff ops ys xf xi).1 h h0
    have h3 : ¬ 3 ≤ (x_view ops xf xi (ys.map Fiber.view)).2.2.2.length := by
      have := h1 h0
      omega
    rw [if_neg hc, h0, chain_count, if_neg h3]
    rfl
  · have hc : x_crossed ops ys xf xi = true := (x_crossed_iff ops ys xf xi).2 h0
    have h3 : 3 ≤ (x_keys ops xf xi ys).length + 2 := by
      have := List.length_pos.2 h0
      omega
    rw [if_pos hc, h2 h0, chain_count, if_pos h3]
    omega

theorem y_chain_count (ops : FiberOps) (xs : List Fiber) (yf : Fiber) (yi : Interval)
    (hf : yi.in_weave = false ∧ yi.intersections = [])
    (hn : (y_keys ops (x_tasks xs) yf yi).Nodup)
    (hk : ∀ k ∈ y_keys ops (x_tasks xs) yf yi,
      (yf.point ops yi.lower).y < k ∧ k < (yf.point ops yi.upper).y) :
    chain_count (y_view ops (x_tasks xs) yf.p1 yf.p2 yi.view).2.2.2.length
      = (y_keys ops (x_tasks xs) yf yi).length + (if y_crossed ops xs yf yi then 1 else 0) := by
  rw [y_view_length ops _ yf yi hf hn hk]
  by_cases h0 : y_keys ops (x_tasks xs) yf yi = []
  · have hc : ¬ y_crossed ops xs yf yi = true := fun h => (y_crossed_iff ops xs yf yi).1 h h0
    rw [if_neg hc, if_pos h0, h0]
    rfl
  · have hc : y_crossed ops xs yf yi = true := (y_crossed_iff ops xs yf yi).2 h0
    have h3 : 3 ≤ (y_keys ops (x_tasks xs) yf yi).length + 2 := by
      have := List.length_pos.2 h0
      omega
    rw [if_pos hc, if_neg h0, chain_count, if_pos h3]
    omega

/-- On well-formed input the ordered sets of the built X-set account for one edge per crossing
and one more per crossed interval, and so do those of the built Y-set. -/
theorem card_fibers_chain_built (ops : FiberOps) (w w' : Weave)
    (hwf : WellFormed false ops (sort_fibers ops w).xfibers (sort_fibers ops w).yfibers)
    (h : build ops w = Except.ok w') :
    Multiset.card (fibers_chain w'.xfibers)
        = crossing_count ops (sort_fibers ops w).xfibers (sort_fibers ops w).yfibers
          + crossed_x_count ops (sort_fibers ops w).xfibers (sort_fibers ops w).yfibers ∧
      Multiset.card (fibers_chain w'.yfibers)
        = crossing_count ops (sort_fibers ops w).xfibers (sort_fibers ops w).yfibers
          + crossed_y_count ops (sort_fibers ops w).xfibers (sort_fibers ops w).yfibers := by
  obtain ⟨hx, hy⟩ := build_view ops w w' h
  generalize (sort_fibers ops w).xfibers = xs at hwf hx hy ⊢
  generalize (sort_fibers ops w).yfibers = ys at hwf hx hy ⊢
  refine ⟨?_, ?_⟩
  · rw [card_fibers_chain, hx, List.map_map]
    refine sum_map_split xs _
      (fun xf => (xf.ints.map fun xi =>
        (ys.map fun yf => yf.ints.countP fun yi => decide (crosses ops xf xi yf yi)).sum).sum)
      (fun xf => xf.ints.countP (x_crossed ops ys xf)) ?_
    intro xf hxf
    simp only [Function.comp, List.map_map]
    rw [← sum_map_ite]
    refine sum_map_split xf.ints _ _ _ ?_
    intro xi hxi
    obtain ⟨⟨h1, h2, -⟩, h3, h4⟩ := hwf.1 xf hxf xi hxi
    simp only [Function.comp]
    rw [x_chain_count ops xf xi ys ⟨h1, h2⟩ h3 h4, x_keys_length]
  · rw [card_fibers_chain, hy, upd_all_view_map, List.map_map, List.map_map, crossing_count_y]
    refine sum_map_split ys _
      (fun yf => (yf.ints.map fun yi => (y_keys ops (x_tasks xs) yf yi).length).sum)
      (fun yf => yf.ints.countP (y_crossed ops xs yf)) ?_
    intro yf hyf
    simp only [Function.comp, Fiber.view, List.map_map]
    rw [← sum_map_ite]
    refine sum_map_split yf.ints _ _ _ ?_
    intro yi hyi
    obtain ⟨⟨h1, h2, -⟩, h3, h4⟩ := hwf.2 yf hyf yi hyi
    simp only [Function.comp]
    rw [y_chain_count ops xs yf yi ⟨h1, h2⟩ h3 h4]

theorem intervalEdges_of_length (crossed : Bool) (n : Nat) (i : Interval)
    (h0 : crossed = false → i.intersections.length ≤ 2)
    (h1 : crossed = true → i.intersections.length = n + 2 ∧ 1 ≤ n) :
    IntervalEdges crossed n i := by
  unfold IntervalEdges
  cases crossed
  · have := h0 rfl
    simp only [Bool.false_eq_true, if_false, chain_edges]
    rw [if_neg (by omega)]
  · obtain ⟨h2, h3⟩ := h1 rfl
    simp only [if_true, chain_edges]
    rw [if_pos (by omega)]
    exact ⟨h2, rfl⟩

/-- On well-formed input, interval by interval in the order of the input: a crossed interval
with `n` crossings ends with a set of `n + 2` entries, all of whose consecutive pairs are
edges, and an interval that is not crossed accounts for no edge. -/
theorem intervalEdges_built (ops : FiberOps) (w w' : Weave)
    (hwf : WellFormed false ops (sort_fibers ops w).xfibers (sort_fibers ops w).yfibers)
    (h : build ops w = Except.ok w') :
    List.Forall₂ (fun xf' xf => List.Forall₂ (fun xi' xi =>
        IntervalEdges (x_crossed ops (sort_fibers ops w).yfibers xf xi)
          (x_keys ops xf xi (sort_fibers ops w).yfibers).length xi') xf'.ints xf.ints)
        w'.xfibers (sort_fibers ops w).xfibers ∧
      List.Forall₂ (fun yf' yf => List.Forall₂ (fun yi' yi =>
        IntervalEdges (y_crossed ops (sort_fibers ops w).xfibers yf yi)
          (y_keys ops (x_tasks (sort_fibers ops w).xfibers) yf yi).length yi') yf'.ints yf.ints)
        w'.yfibers (sort_fibers ops w).yfibers := by
  obtain ⟨hx, hy⟩ := build_view ops w w' h
  generalize (sort_fibers ops w).xfibers = xs at hwf hx hy ⊢
  generalize (sort_fibers ops w).yfibers = ys at hwf hx hy ⊢
  refine ⟨?_, ?_⟩
  · refine forall₂_of_map_eq Fiber.view _ _ _ _ hx ?_
    intro xf' xf hxf hv
    have hv3 : xf'.ints.map Interval.view
        = xf.ints.map fun xi => x_view ops xf xi (ys.map Fiber.view) :=
      congrArg (fun v : FiberView => v.2.2) hv
    refine forall₂_of_map_eq Interval.view _ _ _ _ hv3 ?_
    intro xi' xi hxi hvi
    have hlen : xi'.intersections.length
        = (x_view ops xf xi (ys.map Fiber.view)).2.2.2.length := by
      rw [← hvi]
      simp [Interval.view]
    obtain ⟨⟨h1, h2, -⟩, h3, h4⟩ := hwf.1 xf hxf xi hxi
    obtain ⟨l1, l2⟩ := x_view_length ops xf xi ys ⟨h1, h2⟩ h3 h4
    apply intervalEdges_of_length
    · intro hc
      rw [hlen]
      apply l1
      by_contra h0
      rw [(x_crossed_iff ops ys xf xi).2 h0] at hc
      cases hc
    · intro hc
      have h0 := (x_crossed_iff ops ys xf xi).1 hc
      rw [hlen, l2 h0]
      exact ⟨rfl, List.length_pos.2 h0⟩
  · rw [upd_all_view_map] at hy
    refine forall₂_of_map_eq Fiber.view _ _ _ _
      (hy.trans (List.map_map _ _ _)) ?_
    intro yf' yf hyf hv
    have hv3 : yf'.ints.map Interval.view
        = yf.ints.map fun yi => y_view ops (x_tasks xs) yf.p1 yf.p2 yi.view := by
      have := congrArg (fun v : FiberView => v.2.2) hv
      simpa [Fiber.view, Function.comp] using this
    refine forall₂_of_map_eq Interval.view _ _ _ _ hv3 ?_
    intro yi' yi hyi hvi
    have hlen : yi'.intersections.length
        = (y_view ops (x_tasks xs) yf.p1 yf.p2 yi.view).2.2.2.length := by
      rw [← hvi]
      simp [Interval.view]
    obtain ⟨⟨h1, h2, -⟩, h3, h4⟩ := hwf.2 yf hyf yi hyi
    have l1 := y_view_length ops (x_tasks xs) yf yi ⟨h1, h2⟩ h3 h4
    apply intervalEdges_of_length
    · intro hc
      rw [hlen, l1]
      have h0 : y_keys ops (x_tasks xs) yf yi = [] := by
        by_contra h0
        rw [(y_crossed_iff ops xs yf yi).2 h0] at hc
        cases hc
      rw [if_pos h0]
      omega
    · intro hc
      have h0 := (y_crossed_iff ops xs yf yi).1 hc
      rw [hlen, l1, if_neg h0]
      exact ⟨rfl, List.length_pos.2 h0⟩

/-! ## The content of the weaves returned by `split_components` -/

/-- The copy restricted to label `m`, written on the original graph: the same vertices at the
same positions, the original edges whose two end-points carry the label `m`, the vertices with
another label isolated and typed INT, the vertices with label `m` typed as before. -/
theorem restrict_component_content (g : WeaveGraph) (hb : EdgesBounded g) (m : Nat) :
    (restrict (connected_components g).1 m).num_vertices = g.num_vertices ∧
      (∀ v, (restrict (connected_components g).1 m).position v = g.position v) ∧
      (restrict (connected_components g).1 m).edges = g.edges.filter (fun e =>
        (connected_components g).1.component e.source == m &&
          (connected_components g).1.component e.target == m) ∧
      ∀ v < g.num_vertices,
        ((connected_components g).1.component v ≠ m →
          (restrict (connected_components g).1 m).degree v = 0 ∧
            (restrict (connected_components g).1 m).vertex_type v = some VertexType.INT) ∧
        ((connected_components g).1.component v = m →
          (restrict (connected_components g).1 m).vertex_type v = g.vertex_type v) := by
  obtain ⟨f1, f2, -, f4, f5⟩ := connected_components_frame g
  have hb' : EdgesBounded (connected_components g).1 := by
    intro e he
    rw [f1] at he
    rw [f2]
    exact hb e he
  have hv := restrict_verts (connected_components g).1 m
  have he := restrict_edges (connected_components g).1 hb' m
  refine ⟨?_, ?_, ?_, ?_⟩
  · simp only [WeaveGraph.num_vertices, hv, List.length_map]
    exact f2
  · intro v
    rw [← f4 v]
    simp only [WeaveGraph.position, hv, List.getElem?_map]
    cases (connected_components g).1.verts[v]? with
    | none => rfl
    | some p =>
      simp only [Option.map_some']
      split <;> rfl
  · rw [he, f1]
  · intro v hvn
    have hlt : v < (connected_components g).1.verts.length := by
      have := f2
      simp only [WeaveGraph.num_vertices] at this hvn
      omega
    have hget : (connected_components g).1.verts[v]?
        = some ((connected_components g).1.verts.get ⟨v, hlt⟩) :=
      List.getElem?_eq_getElem hlt
    constructor
    · intro hc
      constructor
      · simp only [WeaveGraph.degree, List.length_eq_zero, neighbours_nil_iff, he]
        intro e hem
        obtain ⟨-, hp⟩ := List.mem_filter.1 hem
        simp only [Bool.and_eq_true, beq_iff_eq] at hp
        exact ⟨fun h => hc (h ▸ hp.1), fun h => hc (h ▸ hp.2)⟩
      · simp only [WeaveGraph.component, hget] at hc
        simp only [WeaveGraph.vertex_type, hv, List.getElem?_map, hget, Option.map_some']
        rw [if_pos hc]
    · intro hc
      rw [← f5 v]
      simp only [WeaveGraph.component, hget] at hc
      simp only [WeaveGraph.vertex_type, hv, List.getElem?_map, hget, Option.map_some']
      rw [if_neg (by simpa using hc)]


/-! ## The claims -/

/-- C10: `sort_fibers` makes the X-set the sub-list, in input order, of the fibers that are
X-parallel and have at least one interval, and the Y-set the sub-list of those that are
Y-parallel and have at least one interval. The result does not depend on the previous content
of the two sets, and the fiber list is unchanged. -/
theorem sort_fibers_partition (ops : FiberOps) (w : Weave) :
    (sort_fibers ops w).xfibers
        = w.fibers.filter (fun f => ops.xParallel f.dir && decide (0 < f.ints.length)) ∧
      (sort_fibers ops w).yfibers
        = w.fibers.filter (fun f => ops.yParallel f.dir && decide (0 < f.ints.length)) ∧
      (sort_fibers ops w).fibers = w.fibers := by
  have e : ∀ f : Fiber, (!f.ints.isEmpty) = decide (0 < f.ints.length) := by
    intro f
    cases f.ints <;> simp
  simp [sort_fibers, foldl_sort_step, e]

/-- C1: when `build` completes on a weave whose graph is empty, the number of INT vertices of
the built graph is the number of pairs of an X-interval of the X-set and a Y-interval of the
Y-set that pass both range tests (bounds inclusive). -/
theorem build_crossing_count (ops : FiberOps) (w w' : Weave) (hg : w.g = WeaveGraph.empty)
    (h : build ops w = Except.ok w') :
    (getIPoints w'.g).length
      = crossing_count ops (sort_fibers ops w).xfibers (sort_fibers ops w).yfibers := by
  unfold build at h
  cases hc : foreach (x_fiber_step ops) ((sort_fibers ops w).g, (sort_fibers ops w).yfibers)
      (sort_fibers ops w).xfibers with
  | error e => simp only [hc] at h; cases h
  | ok r =>
    simp only [hc] at h
    cases h
    obtain ⟨h1, -, -⟩ := x_fiber_loop_count ops _ _ r hc
    have h0 : (sort_fibers ops w).g = WeaveGraph.empty := hg
    simp only [h1, h0]
    simp [getIPoints, WeaveGraph.empty]

theorem build_crossing_count_witness :
    weaveCross.g = WeaveGraph.empty ∧
      build axisOps weaveCross = Except.ok (built axisOps weaveCross) ∧
      (getIPoints (built axisOps weaveCross).g).length
        = crossing_count axisOps (sort_fibers axisOps weaveCross).xfibers
            (sort_fibers axisOps weaveCross).yfibers :=
  ⟨rfl, rfl, build_crossing_count axisOps weaveCross (built axisOps weaveCross) rfl rfl⟩

/-- C2: when the crossing vertex `v` has been inserted in an ordered set between the previously
adjacent entries `a` and `b`, the rewiring step completes; it removes every edge joining `a`
and `b`, appends the edges `(b, v)` and `(a, v)`, and leaves every other edge and every vertex
as it was, so that afterwards no edge joins `a` and `b`. -/
theorem rewire_inserted (pre post : VertexPairSet) (a b : VertexPair) (v : Nat)
    (key : Int) (g : WeaveGraph)
    (hs : (pre ++ a :: b :: post).Pairwise (fun p q => p.2 < q.2))
    (ha : a.2 < key) (hb : key < b.2) (hva : v ≠ a.1) (hvb : v ≠ b.1) :
    ∃ g', rewire (VertexPairSet.insert (pre ++ a :: b :: post) (v, key)) v key g = Except.ok g' ∧
      g'.verts = g.verts ∧
      g'.edges = g.edges.filter (fun e => !e.joins a.1 b.1) ++
        [⟨b.1, v, false, 0⟩, ⟨a.1, v, false, 0⟩] ∧
      ∀ e ∈ g'.edges, e.joins a.1 b.1 = false := by
  have hj : ∀ e : Edge, e.joins b.1 a.1 = e.joins a.1 b.1 := by
    intro e
    simp only [Edge.joins]
    rw [Bool.or_comm]
  refine ⟨⟨g.verts, g.edges.filter (fun e => !e.joins a.1 b.1) ++
    [⟨b.1, v, false, 0⟩, ⟨a.1, v, false, 0⟩]⟩, ?_, rfl, rfl, ?_⟩
  · rw [insert_between pre post a b (v, key) hs ha hb,
      rewire_between pre post a b v key g (pairwise_insert_between pre post a b (v, key) hs ha hb)]
    simp only [hj]
  · intro e he
    rcases List.mem_append.1 he with he | he
    · simpa using (List.mem_filter.1 he).2
    · have hva' : ¬ a.1 = v := fun h => hva h.symm
      have hvb' : ¬ b.1 = v := fun h => hvb h.symm
      rcases List.mem_cons.1 he with rfl | he
      · simp [Edge.joins, hva, hvb, hva', hvb']
      · rcases List.mem_cons.1 he with rfl | he
        · simp [Edge.joins, hva, hvb, hva', hvb']
        · cases he

theorem rewire_inserted_witness :
    ∃ g', rewire (VertexPairSet.insert ([] ++ (0, 0) :: (1, 10) :: []) (4, 5)) 4 5
        ⟨[], [⟨0, 1, false, 0⟩, ⟨2, 3, false, 0⟩]⟩ = Except.ok g' ∧
      g'.verts = [] ∧
      g'.edges = [(⟨0, 1, false, 0⟩ : Edge), ⟨2, 3, false, 0⟩].filter
          (fun e => !e.joins 0 1) ++ [⟨1, 4, false, 0⟩, ⟨0, 4, false, 0⟩] ∧
      ∀ e ∈ g'.edges, e.joins 0 1 = false :=
  rewire_inserted [] [] (0, 0) (1, 10) 4 5 ⟨[], [⟨0, 1, false, 0⟩, ⟨2, 3, false, 0⟩]⟩
    (by decide) (by decide) (by decide) (by decide) (by decide)

/-- C7 (the code does not abort): on one X-fiber crossed at the same point by two Y-fibers the
coordinate of the second crossing vertex is already present in the X-interval's set, and
`build` completes with a graph of eight vertices; on a Y-fiber through the lower end-point of
the X-interval the crossing vertex has no predecessor, and construction runs into the
unguarded iterator decrement instead of stopping on its assertion. -/
theorem build_no_abort_on_malformed :
    build axisOps weaveTwice = Except.ok (built axisOps weaveTwice) ∧
      (built axisOps weaveTwice).g.verts.length = 8 ∧
      (built axisOps weaveTwice).g.edges.length = 8 ∧
      build axisOps weaveCorner = Except.error Failure.undefinedBehaviour :=
  ⟨rfl, rfl, rfl, rfl⟩

/-- C8 (as amended): a step of the loop over the Y-intervals that completes has created a
crossing vertex if and only if the anchor y of the X-fiber `xf` lies within the y-range of
`yi`; when it does not, the graph and both intervals are left as they were. -/
theorem y_interval_step_creates_iff (ops : FiberOps) (xf yf : Fiber) (g : WeaveGraph)
    (xi yi : Interval) (r : (WeaveGraph × Interval) × Interval)
    (h : y_interval_step ops xf yf (g, xi) yi = Except.ok r) :
    ((getIPoints r.1.1).length = (getIPoints g).length + 1 ↔
        ((yf.point ops yi.lower).y ≤ xf.p1.y ∧ xf.p1.y ≤ (yf.point ops yi.upper).y)) ∧
      (¬ ((yf.point ops yi.lower).y ≤ xf.p1.y ∧ xf.p1.y ≤ (yf.point ops yi.upper).y) →
        r = ((g, xi), yi)) := by
  obtain ⟨h1, -, -⟩ := y_interval_step_count ops xf yf (g, xi) yi r h
  have ht : y_range_test ops xf yf yi = true ↔
      ((yf.point ops yi.lower).y ≤ xf.p1.y ∧ xf.p1.y ≤ (yf.point ops yi.upper).y) := by
    simp [y_range_test]
  constructor
  · rw [← ht, h1]
    by_cases hb : y_range_test ops xf yf yi = true <;> simp [hb]
  · intro hn
    rw [← ht] at hn
    unfold y_interval_step at h
    simp only [hn] at h
    cases h
    rfl

theorem y_interval_step_creates_iff_witness :
    ((getIPoints (result_or (stateX0, ⟨-8, -5, false, []⟩)
          (y_interval_step axisOps fiberX0 fiberY5far (stateX0.1, stateX0.2)
            ⟨-8, -5, false, []⟩)).1.1).length = (getIPoints stateX0.1).length + 1 ↔
        ((fiberY5far.point axisOps (-8)).y ≤ fiberX0.p1.y ∧
          fiberX0.p1.y ≤ (fiberY5far.point axisOps (-5)).y)) ∧
      (¬ ((fiberY5far.point axisOps (-8)).y ≤ fiberX0.p1.y ∧
          fiberX0.p1.y ≤ (fiberY5far.point axisOps (-5)).y) →
        result_or (stateX0, ⟨-8, -5, false, []⟩)
          (y_interval_step axisOps fiberX0 fiberY5far (stateX0.1, stateX0.2)
            ⟨-8, -5, false, []⟩) = ((stateX0.1, stateX0.2), ⟨-8, -5, false, []⟩)) :=
  y_interval_step_creates_iff axisOps fiberX0 fiberY5far stateX0.1 stateX0.2
    ⟨-8, -5, false, []⟩ _ rfl

/-- C8 (the claim as stated fails): the Y-fiber `fiberY5far` passes the necessary range test
against the interval of `fiberX0`, its own anchor y (7) lies outside the y-range `[-1, 2]` of
its interval, and `build` nevertheless creates the crossing vertex at `(5, 0, 0)`. -/
theorem crossing_with_anchor_outside :
    x_range_test axisOps fiberX0 ⟨0, 10, false, []⟩ fiberY5far = true ∧
      ¬ ((fiberY5far.point axisOps (-8)).y ≤ fiberY5far.p1.y ∧
          fiberY5far.p1.y ≤ (fiberY5far.point axisOps (-5)).y) ∧
      build axisOps weaveFar = Except.ok (built axisOps weaveFar) ∧
      getIPoints (built axisOps weaveFar).g = [⟨5, 0, 0⟩] :=
  ⟨rfl, by decide, rfl, rfl⟩

/-- Lines 188-195 append exactly one vertex to the graph, of type INT and at position
`(yf.p1.x, xf.p1.y, xf.p1.z)`, leaving the earlier vertices and the edges as they were; when
no entry of the set of `xi` has the coordinate `yf.p1.x` the new vertex is registered there
under that coordinate, and likewise in the set of `yi` under `xf.p1.y`. -/
theorem add_crossing_vertex_spec (xf yf : Fiber) (g : WeaveGraph) (xi yi : Interval) :
    (add_crossing_vertex xf yf g xi yi).1.verts
        = g.verts ++ [⟨⟨yf.p1.x, xf.p1.y, xf.p1.z⟩, VertexType.INT, 0⟩] ∧
      (add_crossing_vertex xf yf g xi yi).1.num_vertices = g.num_vertices + 1 ∧
      (add_crossing_vertex xf yf g xi yi).1.edges = g.edges ∧
      ((∀ p ∈ xi.intersections, p.2 ≠ yf.p1.x) →
        (g.num_vertices, yf.p1.x) ∈ (add_crossing_vertex xf yf g xi yi).2.1.intersections) ∧
      ((∀ p ∈ yi.intersections, p.2 ≠ xf.p1.y) →
        (g.num_vertices, xf.p1.y) ∈ (add_crossing_vertex xf yf g xi yi).2.2.intersections) := by
  refine ⟨rfl, ?_, rfl, ?_, ?_⟩
  · simp [add_crossing_vertex, WeaveGraph.new_vertex, WeaveGraph.num_vertices]
  · intro h
    exact mem_insert_of_new xi.intersections (g.num_vertices, yf.p1.x) h
  · intro h
    exact mem_insert_of_new yi.intersections (g.num_vertices, xf.p1.y) h

theorem add_crossing_vertex_spec_witness :
    (stateX0.1.num_vertices, fiberY5.p1.x)
        ∈ (add_crossing_vertex fiberX0 fiberY5 stateX0.1 stateX0.2
            ⟨-1, 2, false, []⟩).2.1.intersections ∧
      (stateX0.1.num_vertices, fiberX0.p1.y)
        ∈ (add_crossing_vertex fiberX0 fiberY5 stateX0.1 stateX0.2
            ⟨-1, 2, false, []⟩).2.2.intersections :=
  ⟨(add_crossing_vertex_spec fiberX0 fiberY5 stateX0.1 stateX0.2 ⟨-1, 2, false, []⟩).2.2.2.1
      (by decide),
   (add_crossing_vertex_spec fiberX0 fiberY5 stateX0.1 stateX0.2 ⟨-1, 2, false, []⟩).2.2.2.2
      (by decide)⟩

/-- C9 (the code does not register the vertex): in `weaveTwice` the second crossing of the
X-interval is vertex 7, an INT vertex at `(5, 0, 0)`. The `insert` of line 194 is given the
coordinate 5, which the set of the X-interval already holds for vertex 4, and leaves the set
as it was; its result is not looked at. After `build` the set of the X-interval holds the
vertices 0, 4 and 1 only, so vertex 7 is not registered in it, while it is registered in the set
of its Y-interval. -/
theorem second_crossing_not_registered :
    build axisOps weaveTwice = Except.ok (built axisOps weaveTwice) ∧
      (built axisOps weaveTwice).g.verts[7]? = some ⟨⟨5, 0, 0⟩, VertexType.INT, 0⟩ ∧
      VertexPairSet.insert [(0, 0), (4, 5), (1, 10)] (7, 5) = [(0, 0), (4, 5), (1, 10)] ∧
      (built axisOps weaveTwice).xfibers.map (fun f => f.ints.map fun i => i.intersections)
        = [[[(0, 0), (4, 5), (1, 10)]]] ∧
      (built axisOps weaveTwice).yfibers.map (fun f => f.ints.map fun i => i.intersections)
        = [[[(2, -1), (4, 0), (3, 2)]], [[(5, -1), (7, 0), (6, 2)]]] :=
  ⟨rfl, rfl, rfl, rfl, rfl⟩

/-- C3 (as amended): when `build` completes on a weave whose graph is empty and whose intervals
have not been materialised before, the CL vertices of the built graph are, counted with
multiplicity, exactly the lower and the upper end-point of every interval of the X-set (whether
or not it is crossed) and the lower and the upper end-point of every interval of the Y-set
that passes both range tests against at least one X-interval: each such interval contributes
its two end-points once, whatever the number of its crossings. -/
theorem build_cl_points (ops : FiberOps) (w w' : Weave) (hg : w.g = WeaveGraph.empty)
    (hf : ∀ f ∈ w.fibers, ∀ i ∈ f.ints, i.in_weave = false)
    (h : build ops w = Except.ok w') :
    (getCLPoints w'.g).Perm
      (expected_cl_points ops (sort_fibers ops w).xfibers (sort_fibers ops w).yfibers) := by
  unfold build at h
  cases hc : foreach (x_fiber_step ops) ((sort_fibers ops w).g, (sort_fibers ops w).yfibers)
      (sort_fibers ops w).xfibers with
  | error e => simp only [hc] at h; cases h
  | ok r =>
    simp only [hc] at h
    cases h
    have h1 := x_fiber_loop_cl ops _ _ r hc
    have h0 : (sort_fibers ops w).g = WeaveGraph.empty := hg
    simp only [h0] at h1
    have h2 : getCLPoints WeaveGraph.empty = [] := rfl
    simp only [h1, h2, List.nil_append]
    apply cl_trace_fresh
    · intro f hfx
      rw [sort_fibers_xfibers] at hfx
      exact hf f (List.mem_filter.1 hfx).1
    · intro f hfy
      rw [sort_fibers_yfibers] at hfy
      exact hf f (List.mem_filter.1 hfy).1

theorem build_cl_points_witness :
    weaveCross.g = WeaveGraph.empty ∧
      (∀ f ∈ weaveCross.fibers, ∀ i ∈ f.ints, i.in_weave = false) ∧
      build axisOps weaveCross = Except.ok (built axisOps weaveCross) ∧
      (getCLPoints (built axisOps weaveCross).g).Perm
        (expected_cl_points axisOps (sort_fibers axisOps weaveCross).xfibers
          (sort_fibers axisOps weaveCross).yfibers) :=
  ⟨rfl, by decide, rfl,
    build_cl_points axisOps weaveCross (built axisOps weaveCross) rfl (by decide) rfl⟩

/-- C3 (the claim as stated fails): in a weave holding a single Y-fiber the Y-set holds that
fiber with its interval, `build` completes, and the built graph has no vertex at all, so the
end-points of the interval do not appear in it. -/
theorem uncrossed_y_interval_not_materialised :
    (sort_fibers axisOps weaveOnlyY).yfibers = [fiberY5] ∧
      fiberY5.ints = [⟨-1, 2, false, []⟩] ∧
      build axisOps weaveOnlyY = Except.ok (built axisOps weaveOnlyY) ∧
      (built axisOps weaveOnlyY).g.verts = [] :=
  ⟨rfl, rfl, rfl, rfl⟩

/-- C6 (the code reads past the end of the set): for the X-fiber on `y = 0` with the interval
`x` in `[0, 10]` and a Y-fiber on `x = 10`, through its upper end-point, the crossing vertex 4
is not registered in the set of the X-interval, whose coordinate 10 is taken by the end-point
vertex 1. `lower_bound` (line 200) returns the entry of vertex 1, the last of the set, so the
assertion of line 201 passes and the iterator incremented at line 204 is `end()`: line 207
dereferences it without any guard, which has no defined result, and construction does not end
on a guard of the code. -/
theorem end_point_crossing_reads_past_end :
    (add_crossing_vertex fiberX0 fiberY10
        (add_endpoints axisOps fiberY10 Point.y stateX0.1 ⟨-1, 2, false, []⟩).1 stateX0.2
        (add_endpoints axisOps fiberY10 Point.y stateX0.1 ⟨-1, 2, false, []⟩).2).2.1.intersections
        = [(0, 0), (1, 10)] ∧
      VertexPairSet.lower_bound [(0, 0), (1, 10)] 10 = 1 ∧
      ([(0, 0), (1, 10)] : VertexPairSet)[1]? = some (1, 10) ∧
      ([(0, 0), (1, 10)] : VertexPairSet)[1 + 1]? = none ∧
      rewire [(0, 0), (1, 10)] 4 10
          (add_crossing_vertex fiberX0 fiberY10
            (add_endpoints axisOps fiberY10 Point.y stateX0.1 ⟨-1, 2, false, []⟩).1 stateX0.2
            (add_endpoints axisOps fiberY10 Point.y stateX0.1 ⟨-1, 2, false, []⟩).2).1
        = Except.error Failure.undefinedBehaviour ∧
      build axisOps weaveEnd = Except.error Failure.undefinedBehaviour :=
  ⟨rfl, rfl, rfl, rfl, rfl, rfl⟩

/-- When `build` completes on a weave whose intervals have empty intersection sets and whose
graph has no parallel edge and no self-loop (in particular the empty graph), without running
into a dereference that has no defined result, the built graph has no two edges joining the
same unordered pair of vertices and no self-loop. -/
theorem build_no_parallel_edges (ops : FiberOps) (w w' : Weave) (hg : GraphOK w.g)
    (hf : ∀ f ∈ w.fibers, ∀ i ∈ f.ints, i.intersections = [])
    (h : build ops w = Except.ok w') :
    w'.g.edges.Pairwise (fun e f => e.joins f.source f.target = false) ∧
      ∀ e ∈ w'.g.edges, e.source ≠ e.target := by
  obtain ⟨h1, h2, -⟩ := build_graphOK ops w w' hg hf h
  refine ⟨?_, h2⟩
  have h3 : w'.g.edges.Pairwise (fun e f => edge_key e ≠ edge_key f) :=
    List.pairwise_map.1 h1
  refine h3.imp ?_
  intro e f hne
  cases hj : e.joins f.source f.target with
  | false => rfl
  | true => exact absurd ((edge_key_eq_iff e f.source f.target).2 hj) hne

theorem build_no_parallel_edges_witness :
    GraphOK weaveCross.g ∧
      (∀ f ∈ weaveCross.fibers, ∀ i ∈ f.ints, i.intersections = []) ∧
      build axisOps weaveCross = Except.ok (built axisOps weaveCross) ∧
      (built axisOps weaveCross).g.edges.Pairwise
        (fun e f => e.joins f.source f.target = false) ∧
      ∀ e ∈ (built axisOps weaveCross).g.edges, e.source ≠ e.target :=
  ⟨graphOK_empty, by decide, rfl,
    build_no_parallel_edges axisOps weaveCross (built axisOps weaveCross) graphOK_empty
      (by decide) rfl⟩

/-- C4: on well-formed input (an empty graph, no interval materialised, and on every interval
the coordinates of its crossings pairwise distinct and strictly between those of its two
end-points) `build` completes, and every INT vertex `u` of the built graph has degree exactly
4: it is registered in the set of one X-interval between a predecessor `a` and a successor
`b`, in the set of one Y-interval between a predecessor `c` and a successor `d`, the four are
pairwise distinct, and the neighbours of `u` over its out-edges are exactly `a`, `b`, `c`, `d`,
one edge each. -/
theorem build_crossing_degree_four (ops : FiberOps) (w : Weave) (hg : w.g = WeaveGraph.empty)
    (hwf : WellFormed false ops (sort_fibers ops w).xfibers (sort_fibers ops w).yfibers) :
    ∃ w', build ops w = Except.ok w' ∧
      ∀ u, w'.g.vertex_type u = some VertexType.INT →
        w'.g.degree u = 4 ∧
          ∃ xf ∈ w'.xfibers, ∃ xi ∈ xf.ints, ∃ yf ∈ w'.yfibers, ∃ yi ∈ yf.ints, ∃ a b c d,
            Consecutive xi.intersections a u b ∧ Consecutive yi.intersections c u d ∧
            [a, b, c, d].Nodup ∧ (neighbours w'.g.edges u).Perm [a, b, c, d] := by
  obtain ⟨w', hb, hI⟩ := build_wf ops w hg hwf
  exact ⟨w', hb, fun u hu => crossing_neighbourhood ops w'.g w'.xfibers w'.yfibers hI u hu⟩

theorem build_crossing_degree_four_witness :
    weaveGrid.g = WeaveGraph.empty ∧
      WellFormed false axisOps (sort_fibers axisOps weaveGrid).xfibers
        (sort_fibers axisOps weaveGrid).yfibers ∧
      ∃ w', build axisOps weaveGrid = Except.ok w' ∧
        ∀ u, w'.g.vertex_type u = some VertexType.INT →
          w'.g.degree u = 4 ∧
            ∃ xf ∈ w'.xfibers, ∃ xi ∈ xf.ints, ∃ yf ∈ w'.yfibers, ∃ yi ∈ yf.ints, ∃ a b c d,
              Consecutive xi.intersections a u b ∧ Consecutive yi.intersections c u d ∧
              [a, b, c, d].Nodup ∧ (neighbours w'.g.edges u).Perm [a, b, c, d] :=
  ⟨rfl,
    by
      unfold WellFormed
      simp only [Bool.false_eq_true, false_implies, and_true]
      decide,
    build_crossing_degree_four axisOps weaveGrid rfl
      (by
        unfold WellFormed
        simp only [Bool.false_eq_true, false_implies, and_true]
        decide)⟩

/-- C5 (the code leaves two edges of one vertex in the same slot): with two Y-fibers on the
same line `x = 5` crossing one X-interval, the second crossing vertex 7 is not registered in
the set of the X-interval, whose coordinate 5 is taken by the first crossing vertex 4; the
look-up of lines 198-201 finds vertex 4 and lines 204-209 join vertex 7 to the neighbours of
vertex 4. `build` completes, and the end-point vertex 0 at `(0, 0)` has two out-edges, to the
crossing vertices 4 and 7, both at `(5, 0)`, which `build_embedding` classifies into the same
slot (3). -/
theorem repeated_crossing_shares_slot :
    build axisOps weaveTwice = Except.ok (built axisOps weaveTwice) ∧
      (built axisOps weaveTwice).xfibers.map (fun f => f.ints.map fun i => i.intersections)
        = [[[(0, 0), (4, 5), (1, 10)]]] ∧
      neighbours (built axisOps weaveTwice).g.edges 0 = [4, 7] ∧
      (built axisOps weaveTwice).g.position 4 = ⟨5, 0, 0⟩ ∧
      (built axisOps weaveTwice).g.position 7 = ⟨5, 0, 0⟩ ∧
      slots (built axisOps weaveTwice).g 0 = [some 3, some 3] ∧
      ¬ (slots (built axisOps weaveTwice).g 0).Nodup := by
  refine ⟨rfl, rfl, rfl, rfl, rfl, rfl, ?_⟩
  decide

/-- On well-formed input whose interval end-points lie on the lines of their fibers (an empty
graph, no interval materialised, on every interval the coordinates of its crossings pairwise
distinct and strictly between those of its two end-points) `build` completes, and every vertex
of the built graph has degree at most 4, its out-edges fall into pairwise distinct slots of
`build_embedding`, and none reaches the `assert(0)`. -/
theorem build_slots_distinct (ops : FiberOps) (w : Weave) (hg : w.g = WeaveGraph.empty)
    (hwf : WellFormed true ops (sort_fibers ops w).xfibers (sort_fibers ops w).yfibers) :
    ∃ w', build ops w = Except.ok w' ∧
      ∀ u < w'.g.num_vertices,
        w'.g.degree u ≤ 4 ∧ (slots w'.g u).Nodup ∧ ∀ σ ∈ slots w'.g u, σ ≠ none := by
  obtain ⟨w', hb, hI⟩ := build_wf ops w hg hwf
  refine ⟨w', hb, fun u hu => ?_⟩
  obtain ⟨h1, h2⟩ := (hI.1.2 u hu).1 rfl
  exact ⟨degree_le_four w'.g u h1 h2, h1, h2⟩

theorem build_slots_distinct_witness :
    weaveGrid.g = WeaveGraph.empty ∧
      WellFormed true axisOps (sort_fibers axisOps weaveGrid).xfibers
        (sort_fibers axisOps weaveGrid).yfibers ∧
      ∃ w', build axisOps weaveGrid = Except.ok w' ∧
        ∀ u < w'.g.num_vertices,
          w'.g.degree u ≤ 4 ∧ (slots w'.g u).Nodup ∧ ∀ σ ∈ slots w'.g u, σ ≠ none :=
  ⟨rfl,
    by
      unfold WellFormed OnAxis
      simp only [true_implies]
      decide,
    build_slots_distinct axisOps weaveGrid rfl
      (by
        unfold WellFormed OnAxis
        simp only [true_implies]
        decide)⟩

/-- C11, as stated, fails: the fiber `fiberDot`, whose direction is the zero vector, passes
both orientation tests and `sort_fibers` places it in the X-set and in the Y-set. -/
theorem degenerate_fiber_in_both_sets :
    fiberDot ∈ weaveDot.fibers ∧
      fiberDot ∈ (sort_fibers axisOps weaveDot).xfibers ∧
      fiberDot ∈ (sort_fibers axisOps weaveDot).yfibers := by
  decide

/-- C11 (amended): the X-set and the Y-set produced by `sort_fibers` have no fiber in common
exactly when no fiber with at least one interval has a direction that passes both the
X-parallel and the Y-parallel test; a fiber that passes both is placed in both sets. -/
theorem sort_fibers_disjoint_iff (ops : FiberOps) (w : Weave) :
    List.Disjoint (sort_fibers ops w).xfibers (sort_fibers ops w).yfibers ↔
      ∀ f ∈ w.fibers, f.ints ≠ [] →
        ¬ (ops.xParallel f.dir = true ∧ ops.yParallel f.dir = true) := by
  rw [sort_fibers_xfibers, sort_fibers_yfibers]
  constructor
  · intro hd f hf hne hb
    have hi : (!f.ints.isEmpty) = true := by
      cases hfi : f.ints with
      | nil => exact absurd hfi hne
      | cons a t => rfl
    have hx : f ∈ w.fibers.filter (fun f => ops.xParallel f.dir && !f.ints.isEmpty) :=
      List.mem_filter.2 ⟨hf, by simp [hb.1, hi]⟩
    have hy : f ∈ w.fibers.filter (fun f => ops.yParallel f.dir && !f.ints.isEmpty) :=
      List.mem_filter.2 ⟨hf, by simp [hb.2, hi]⟩
    exact hd hx hy
  · intro h f hx hy
    obtain ⟨hf, hx'⟩ := List.mem_filter.1 hx
    obtain ⟨-, hy'⟩ := List.mem_filter.1 hy
    simp only [Bool.and_eq_true] at hx' hy'
    refine h f hf ?_ ⟨hx'.1, hy'.1⟩
    intro he
    rw [he] at hx'
    simp at hx'

/-- C12 (the code adds the end-points again): `build` on the weave of one X-fiber crossed by
one Y-fiber gives 4 CL vertices; a second `build` on the result completes and the graph then
has 8 CL vertices, every end-point twice, because `sort_fibers` refills the two sets from the
untouched fiber list, whose intervals still have their guard `in_weave` unset. -/
theorem second_build_duplicates_endpoints :
    build axisOps weaveCross = Except.ok (built axisOps weaveCross) ∧
      build axisOps (built axisOps weaveCross)
        = Except.ok (built axisOps (built axisOps weaveCross)) ∧
      getCLPoints (built axisOps weaveCross).g
        = [⟨0, 0, 0⟩, ⟨10, 0, 0⟩, ⟨5, -1, 0⟩, ⟨5, 2, 0⟩] ∧
      getCLPoints (built axisOps (built axisOps weaveCross)).g
        = [⟨0, 0, 0⟩, ⟨10, 0, 0⟩, ⟨5, -1, 0⟩, ⟨5, 2, 0⟩,
           ⟨0, 0, 0⟩, ⟨10, 0, 0⟩, ⟨5, -1, 0⟩, ⟨5, 2, 0⟩] ∧
      (built axisOps weaveCross).fibers = weaveCross.fibers :=
  ⟨rfl, rfl, rfl, rfl, rfl⟩

/-- C19: scenario A. For one X-fiber on `y = 0` with the interval `x` in `[0, 10]` and one
Y-fiber on `x = 5` with the interval `y` in `[-1, 2]`, `build` completes with exactly 1 INT
vertex, 4 CL vertices, 4 edges whose capping flag is not set and no edge whose flag is set. -/
theorem scenario_a :
    build axisOps weaveCross = Except.ok (built axisOps weaveCross) ∧
      (getIPoints (built axisOps weaveCross).g).length = 1 ∧
      (getCLPoints (built axisOps weaveCross).g).length = 4 ∧
      (built axisOps weaveCross).g.num_vertices = 5 ∧
      (getEdges (built axisOps weaveCross).g).length = 4 ∧
      (getCLEdges (built axisOps weaveCross).g).length = 0 ∧
      (built axisOps weaveCross).g.edges.length = 4 :=
  ⟨rfl, rfl, rfl, rfl, rfl, rfl, rfl⟩

/-- C20, as stated, fails: in scenario B the built graph has 6 CL vertices, not 4. -/
theorem scenario_b_cl_count :
    build axisOps weaveTwoX = Except.ok (built axisOps weaveTwoX) ∧
      (getCLPoints (built axisOps weaveTwoX).g).length ≠ 4 := by
  refine ⟨rfl, ?_⟩
  decide

/-- C20 (amended): scenario B. For two X-fibers on `y = 0` and `y = 1`, each with the interval
`x` in `[0, 10]`, and one Y-fiber on `x = 5` with the interval `y` in `[-1, 2]`, `build`
completes with exactly 2 INT vertices, one crossing on each X-fiber, and 6 CL vertices: the
two end-points of each of the three intervals. -/
theorem scenario_b :
    build axisOps weaveTwoX = Except.ok (built axisOps weaveTwoX) ∧
      getIPoints (built axisOps weaveTwoX).g = [⟨5, 0, 0⟩, ⟨5, 1, 0⟩] ∧
      getCLPoints (built axisOps weaveTwoX).g
        = [⟨0, 0, 0⟩, ⟨10, 0, 0⟩, ⟨5, -1, 0⟩, ⟨5, 2, 0⟩, ⟨0, 1, 0⟩, ⟨10, 1, 0⟩] :=
  ⟨rfl, rfl, rfl⟩

/-- C16: when `build_embedding` completes the embedding has one row per vertex, and the row of
vertex `v` lists, in the slot order 0 (N), 1 (E), 2 (S), 3 (W) and skipping the slots left
empty, the edge stored in each slot. The edge stored in slot `k` is an out-edge of `v` that the
chain of tests on `delta = position v - position neighbour` (`delta.y > 0` gives N, else
`delta.x > 0` gives E, else `delta.y < 0` gives S, else `delta.x < 0` gives W) classifies into
`k`, namely the last such out-edge, and slot `k` is empty only when no out-edge of `v` is
classified into it. -/
theorem build_embedding_rows (g : WeaveGraph) (emb : List (List EdgeDescriptor))
    (h : build_embedding g = Except.ok emb) :
    emb.length = g.num_vertices ∧
      ∀ v < g.num_vertices,
        emb[v]? = some ([0, 1, 2, 3].filterMap (slot_edge g v)) ∧
        (∀ k oe, slot_edge g v k = some oe →
          oe ∈ out_edges g v ∧
            slot_of ⟨(g.position v).x - (g.position oe.2).x,
              (g.position v).y - (g.position oe.2).y,
              (g.position v).z - (g.position oe.2).z⟩ = some k) ∧
        (∀ k, slot_edge g v k = none →
          ∀ oe ∈ out_edges g v, edge_slot g v oe.2 ≠ some k) := by
  have hrows := embedding_rows_spec g _ emb h
  refine ⟨by rw [hrows]; simp, fun v hv => ⟨?_, ?_, ?_⟩⟩
  · rw [hrows, List.getElem?_map, List.getElem?_range hv]
    rfl
  · intro k oe hk
    have hm := List.mem_of_mem_getLast? hk
    obtain ⟨h1, h2⟩ := List.mem_filter.1 hm
    refine ⟨h1, ?_⟩
    simpa [edge_slot] using h2
  · intro k hk oe hoe hs
    simp only [slot_edge, List.getLast?_eq_none_iff, List.filter_eq_nil_iff] at hk
    exact hk oe hoe (by simp [hs])

theorem build_embedding_rows_witness :
    [[(1, 4)], [(0, 4)], [(3, 4)], [(2, 4)], [(3, 2), (1, 0), (2, 3), (0, 1)]].length
        = (built axisOps weaveCross).g.num_vertices ∧
      ∀ v < (built axisOps weaveCross).g.num_vertices,
        [[(1, 4)], [(0, 4)], [(3, 4)], [(2, 4)], [(3, 2), (1, 0), (2, 3), (0, 1)]][v]?
          = some ([0, 1, 2, 3].filterMap (slot_edge (built axisOps weaveCross).g v)) ∧
        (∀ k oe, slot_edge (built axisOps weaveCross).g v k = some oe →
          oe ∈ out_edges (built axisOps weaveCross).g v ∧
            slot_of ⟨((built axisOps weaveCross).g.position v).x
                - ((built axisOps weaveCross).g.position oe.2).x,
              ((built axisOps weaveCross).g.position v).y
                - ((built axisOps weaveCross).g.position oe.2).y,
              ((built axisOps weaveCross).g.position v).z
                - ((built axisOps weaveCross).g.position oe.2).z⟩ = some k) ∧
        (∀ k, slot_edge (built axisOps weaveCross).g v k = none →
          ∀ oe ∈ out_edges (built axisOps weaveCross).g v,
            edge_slot (built axisOps weaveCross).g v oe.2 ≠ some k) :=
  build_embedding_rows (built axisOps weaveCross).g
    [[(1, 4)], [(0, 4)], [(3, 4)], [(2, 4)], [(3, 2), (1, 0), (2, 3), (0, 1)]] rfl

/-- C17: on a graph whose edges join vertices of the graph, `build_embedding` stops on its
`assert(0)` if and only if some edge joins two vertices with equal `x` and equal `y` (`z` is
not looked at); on a graph without such an edge it completes. -/
theorem build_embedding_fails_iff (g : WeaveGraph) (hb : EdgesBounded g) :
    (build_embedding g = Except.error Failure.assertion ↔ ∃ e ∈ g.edges, zero_delta g e) ∧
      ((¬ ∃ e ∈ g.edges, zero_delta g e) → ∃ emb, build_embedding g = Except.ok emb) := by
  rw [← zero_delta_iff_slot g hb]
  unfold build_embedding
  rcases embedding_rows_cases g (List.range g.num_vertices) with ⟨hex, he⟩ | ⟨hall, rows, he⟩
  · rw [he]
    exact ⟨⟨fun _ => hex, fun _ => rfl⟩, fun hn => absurd hex hn⟩
  · rw [he]
    refine ⟨⟨?_, ?_⟩, fun _ => ⟨rows, rfl⟩⟩
    · intro h
      cases h
    · rintro ⟨u, hu, w, hw, hs⟩
      exact absurd hs (hall u hu w hw)

theorem build_embedding_fails_iff_witness :
    EdgesBounded graphCoincident ∧
      (build_embedding graphCoincident = Except.error Failure.assertion ↔
        ∃ e ∈ graphCoincident.edges, zero_delta graphCoincident e) ∧
      ((¬ ∃ e ∈ graphCoincident.edges, zero_delta graphCoincident e) →
        ∃ emb, build_embedding graphCoincident = Except.ok emb) ∧
      build_embedding graphCoincident = Except.error Failure.assertion :=
  ⟨by unfold EdgesBounded; decide,
    (build_embedding_fails_iff graphCoincident (by unfold EdgesBounded; decide)).1,
    (build_embedding_fails_iff graphCoincident (by unfold EdgesBounded; decide)).2, rfl⟩

/-- C13: for every weave that `split_components` returns, at position `m` of its list, on a
graph whose edges join vertices of the graph: the graph of that weave has the vertices of the
original at the same positions; its edges are exactly the original edges, in their order, whose
two end-points both carry the component label `m`; a vertex whose label is not `m` has degree
0 and type INT; a vertex whose label is `m` keeps its type. -/
theorem split_components_restricts (w : Weave) (hb : EdgesBounded w.g) (m : Nat) (sub : Weave)
    (h : (split_components w).2[m]? = some sub) :
    sub.g.num_vertices = w.g.num_vertices ∧
      (∀ v, sub.g.position v = w.g.position v) ∧
      sub.g.edges = w.g.edges.filter (fun e =>
        (split_components w).1.g.component e.source == m &&
          (split_components w).1.g.component e.target == m) ∧
      ∀ v < w.g.num_vertices,
        ((split_components w).1.g.component v ≠ m →
          sub.g.degree v = 0 ∧ sub.g.vertex_type v = some VertexType.INT) ∧
        ((split_components w).1.g.component v = m →
          sub.g.vertex_type v = w.g.vertex_type v) := by
  obtain ⟨-, rfl⟩ := split_components_getElem? w m sub h
  obtain ⟨f1, f2, -, f4, f5⟩ := connected_components_frame w.g
  have hb' : EdgesBounded (connected_components w.g).1 := by
    intro e he
    rw [f1] at he
    rw [f2]
    exact hb e he
  have hv := restrict_verts (connected_components w.g).1 m
  have he := restrict_edges (connected_components w.g).1 hb' m
  simp only [split_components]
  refine ⟨?_, ?_, ?_, ?_⟩
  · simp only [WeaveGraph.num_vertices, hv, List.length_map]
    exact f2
  · intro v
    rw [← f4 v]
    simp only [WeaveGraph.position, hv, List.getElem?_map]
    cases (connected_components w.g).1.verts[v]? with
    | none => rfl
    | some p =>
      simp only [Option.map_some']
      split <;> rfl
  · rw [he, f1]
  · intro v hvn
    have hlt : v < (connected_components w.g).1.verts.length := by
      have := f2
      simp only [WeaveGraph.num_vertices] at this hvn
      omega
    have hget : (connected_components w.g).1.verts[v]?
        = some ((connected_components w.g).1.verts.get ⟨v, hlt⟩) :=
      List.getElem?_eq_getElem hlt
    constructor
    · intro hc
      constructor
      · simp only [WeaveGraph.degree, List.length_eq_zero, neighbours_nil_iff, he]
        intro e hem
        obtain ⟨-, hp⟩ := List.mem_filter.1 hem
        simp only [Bool.and_eq_true, beq_iff_eq] at hp
        exact ⟨fun h => hc (h ▸ hp.1), fun h => hc (h ▸ hp.2)⟩
      · simp only [WeaveGraph.component, hget] at hc
        simp only [WeaveGraph.vertex_type, hv, List.getElem?_map, hget, Option.map_some']
        rw [if_pos hc]
    · intro hc
      rw [← f5 v]
      simp only [WeaveGraph.component, hget] at hc
      simp only [WeaveGraph.vertex_type, hv, List.getElem?_map, hget, Option.map_some']
      rw [if_neg (by simpa using hc)]

theorem split_components_restricts_witness :
    EdgesBounded graphThree ∧
      (split_components ⟨[], [], [], graphThree⟩).2[0]?
        = some ⟨[], [], [], restrict (connected_components graphThree).1 0⟩ ∧
      (restrict (connected_components graphThree).1 0).num_vertices
        = graphThree.num_vertices ∧
      (∀ v, (restrict (connected_components graphThree).1 0).position v
        = graphThree.position v) ∧
      (restrict (connected_components graphThree).1 0).edges = graphThree.edges.filter (fun e =>
        (split_components ⟨[], [], [], graphThree⟩).1.g.component e.source == 0 &&
          (split_components ⟨[], [], [], graphThree⟩).1.g.component e.target == 0) ∧
      ∀ v < graphThree.num_vertices,
        ((split_components ⟨[], [], [], graphThree⟩).1.g.component v ≠ 0 →
          (restrict (connected_components graphThree).1 0).degree v = 0 ∧
            (restrict (connected_components graphThree).1 0).vertex_type v
              = some VertexType.INT) ∧
        ((split_components ⟨[], [], [], graphThree⟩).1.g.component v = 0 →
          (restrict (connected_components graphThree).1 0).vertex_type v
            = graphThree.vertex_type v) :=
  ⟨by unfold EdgesBounded; decide, rfl,
    split_components_restricts ⟨[], [], [], graphThree⟩ (by unfold EdgesBounded; decide) 0
      ⟨[], [], [], restrict (connected_components graphThree).1 0⟩ rfl⟩

/-- C14: on a graph whose edges join vertices of the graph, `split_components` returns one
weave per connected component of the vertex set, in increasing order of the component label.
Every vertex has a label below the length of the list, every such label is carried by some
vertex, and two vertices have the same label exactly when a path of edges joins them, so the
two end-points of an edge have the same label. The weave at position `m` is the weave of the
component labelled `m`: it has no fibers, all the vertices of the graph at their positions,
and as edges exactly the edges of the graph, in their order, whose end-points carry the label
`m`; the vertices with another label are isolated in it and typed INT, those with label `m`
keep their type. A vertex without edges shares its label with no other vertex, and a graph
without vertices gives the empty list. -/
theorem split_components_per_component (w : Weave) (hb : EdgesBounded w.g) :
    (∀ m < (split_components w).2.length, ∃ sub,
        (split_components w).2[m]? = some sub ∧
        sub.fibers = [] ∧ sub.xfibers = [] ∧ sub.yfibers = [] ∧
        sub.g.num_vertices = w.g.num_vertices ∧
        (∀ v, sub.g.position v = w.g.position v) ∧
        sub.g.edges = w.g.edges.filter (fun e =>
          (split_components w).1.g.component e.source == m &&
            (split_components w).1.g.component e.target == m) ∧
        ∀ v < w.g.num_vertices,
          ((split_components w).1.g.component v ≠ m →
            sub.g.degree v = 0 ∧ sub.g.vertex_type v = some VertexType.INT) ∧
          ((split_components w).1.g.component v = m →
            sub.g.vertex_type v = w.g.vertex_type v)) ∧
      (∀ v < w.g.num_vertices,
        (split_components w).1.g.component v < (split_components w).2.length) ∧
      (∀ m < (split_components w).2.length,
        ∃ v < w.g.num_vertices, (split_components w).1.g.component v = m) ∧
      (∀ u < w.g.num_vertices, ∀ v < w.g.num_vertices,
        ((split_components w).1.g.component u = (split_components w).1.g.component v ↔
          Connected w.g.edges u v)) ∧
      (∀ e ∈ w.g.edges,
        (split_components w).1.g.component e.source
          = (split_components w).1.g.component e.target) ∧
      (∀ v < w.g.num_vertices, neighbours w.g.edges v = [] →
        ∀ u < w.g.num_vertices,
          (split_components w).1.g.component u = (split_components w).1.g.component v →
            u = v) ∧
      (w.g.num_vertices = 0 → (split_components w).2 = []) := by
  obtain ⟨s1, s2, s3⟩ := connected_components_spec w.g hb
  have hlen : (split_components w).2.length = (connected_components w.g).2 := by
    simp [split_components]
  rw [hlen]
  refine ⟨?_, s1, s2, s3, ?_, ?_, ?_⟩
  · intro m hm
    refine ⟨⟨[], [], [], restrict (connected_components w.g).1 m⟩, ?_, rfl, rfl, rfl,
      restrict_component_content w.g hb m⟩
    simp only [split_components, List.getElem?_map, List.getElem?_range hm, Option.map_some']
  · intro e he
    obtain ⟨h1, h2⟩ := hb e he
    exact (s3 e.source h1 e.target h2).2 (connected_edge w.g.edges e he)
  · intro v hv hiso u hu hc
    exact isolated_alone w.g.edges u v hiso ((s3 u hu v hv).1 hc)
  · intro h0
    have : (connected_components w.g).2 = 0 := by
      simp only [connected_components, h0]
      rfl
    simp [split_components, this]

theorem split_components_per_component_witness :
    EdgesBounded graphThree ∧
      (split_components ⟨[], [], [], graphThree⟩).2.length = 3 ∧
      (split_components ⟨[], [], [], graphThree⟩).2.map
          (fun sub => sub.g.edges.map fun e => (e.source, e.target))
        = [[(1, 0)], [], [(3, 3)]] ∧
      (∀ m < (split_components ⟨[], [], [], graphThree⟩).2.length, ∃ sub,
        (split_components ⟨[], [], [], graphThree⟩).2[m]? = some sub ∧
        sub.fibers = [] ∧ sub.xfibers = [] ∧ sub.yfibers = [] ∧
        sub.g.num_vertices = graphThree.num_vertices ∧
        (∀ v, sub.g.position v = graphThree.position v) ∧
        sub.g.edges = graphThree.edges.filter (fun e =>
          (split_components ⟨[], [], [], graphThree⟩).1.g.component e.source == m &&
            (split_components ⟨[], [], [], graphThree⟩).1.g.component e.target == m) ∧
        ∀ v < graphThree.num_vertices,
          ((split_components ⟨[], [], [], graphThree⟩).1.g.component v ≠ m →
            sub.g.degree v = 0 ∧ sub.g.vertex_type v = some VertexType.INT) ∧
          ((split_components ⟨[], [], [], graphThree⟩).1.g.component v = m →
            sub.g.vertex_type v = graphThree.vertex_type v)) ∧
      (∀ u < graphThree.num_vertices, ∀ v < graphThree.num_vertices,
        ((split_components ⟨[], [], [], graphThree⟩).1.g.component u
            = (split_components ⟨[], [], [], graphThree⟩).1.g.component v ↔
          Connected graphThree.edges u v)) :=
  ⟨by unfold EdgesBounded; decide, rfl, by decide,
    (split_components_per_component ⟨[], [], [], graphThree⟩
      (by unfold EdgesBounded; decide)).1,
    (split_components_per_component ⟨[], [], [], graphThree⟩
      (by unfold EdgesBounded; decide)).2.2.2.1⟩

/-- C15: `split_components` leaves the weave it is called on as it was in its fibers, its
X-set, its Y-set, the edges of its graph with their flags, and the vertices of its graph with
their positions and types; the one thing it writes is the component label of the vertices. -/
theorem split_components_parent (w : Weave) :
    (split_components w).1.fibers = w.fibers ∧
      (split_components w).1.xfibers = w.xfibers ∧
      (split_components w).1.yfibers = w.yfibers ∧
      (split_components w).1.g.edges = w.g.edges ∧
      (split_components w).1.g.num_vertices = w.g.num_vertices ∧
      (split_components w).1.g.verts.map (fun p => (p.position, p.type))
        = w.g.verts.map (fun p => (p.position, p.type)) := by
  obtain ⟨f1, f2, f3, -, -⟩ := connected_components_frame w.g
  exact ⟨rfl, rfl, rfl, f1, f2, f3⟩

/-- C18: on well-formed input whose interval end-points lie on the lines of their fibers (an
empty graph, no interval materialised, on every interval the coordinates of its crossings
pairwise distinct and strictly between those of its two end-points) `build` completes,
`build_embedding` completes on the built graph, and `face_traverse` terminates: with fuel for
the `2 * |E|` directed edges it returns faces that, put end to end, hold every directed edge of
the graph (every edge from its source and from its target) exactly once, and inside every face
each directed edge leaves the vertex at which the one before arrives, along the edge that
follows the edge arrived on in the rotation of that vertex. -/
theorem face_traverse_consumes (ops : FiberOps) (w : Weave) (hg : w.g = WeaveGraph.empty)
    (hwf : WellFormed true ops (sort_fibers ops w).xfibers (sort_fibers ops w).yfibers) :
    ∃ w', build ops w = Except.ok w' ∧
      ∃ emb faces, build_embedding (index_edges w'.g) = Except.ok emb ∧
        (∀ fuel, 2 * w'.g.edges.length ≤ fuel →
          face_traverse w'.g fuel = Except.ok (index_edges w'.g, faces)) ∧
        faces.flatten.Perm (darts w'.g) ∧ (darts w'.g).Nodup ∧
        ∀ face ∈ faces, List.Chain' (Follows (index_edges w'.g) emb) face := by
  obtain ⟨w', hb, hI⟩ := build_wf ops w hg hwf
  obtain ⟨⟨-, hloop, hbound⟩, hV⟩ := hI.1
  exact ⟨w', hb, face_traverse_spec w'.g hbound hloop (fun u hu => (hV u hu).1 rfl)⟩

theorem face_traverse_consumes_witness :
    weaveGrid.g = WeaveGraph.empty ∧
      WellFormed true axisOps (sort_fibers axisOps weaveGrid).xfibers
        (sort_fibers axisOps weaveGrid).yfibers ∧
      ∃ w', build axisOps weaveGrid = Except.ok w' ∧
        ∃ emb faces, build_embedding (index_edges w'.g) = Except.ok emb ∧
          (∀ fuel, 2 * w'.g.edges.length ≤ fuel →
            face_traverse w'.g fuel = Except.ok (index_edges w'.g, faces)) ∧
          faces.flatten.Perm (darts w'.g) ∧ (darts w'.g).Nodup ∧
          ∀ face ∈ faces, List.Chain' (Follows (index_edges w'.g) emb) face :=
  ⟨rfl,
    by
      unfold WellFormed OnAxis
      simp only [true_implies]
      decide,
    face_traverse_consumes axisOps weaveGrid rfl
      (by
        unfold WellFormed OnAxis
        simp only [true_implies]
        decide)⟩

/-- C21: when no fiber of the weave is axis-parallel with an interval (every fiber is neither
X-parallel nor Y-parallel, or has no interval), `build` completes, both partitions are empty
and the graph, empty before, is empty after: no vertex and no edge. -/
theorem build_without_axis_fibers (ops : FiberOps) (w : Weave) (hg : w.g = WeaveGraph.empty)
    (h : ∀ f ∈ w.fibers,
      (ops.xParallel f.dir = false ∧ ops.yParallel f.dir = false) ∨ f.ints = []) :
    ∃ w', build ops w = Except.ok w' ∧ w'.xfibers = [] ∧ w'.yfibers = [] ∧
      w'.g.num_vertices = 0 ∧ w'.g.edges = [] := by
  have hx : (sort_fibers ops w).xfibers = [] := by
    rw [sort_fibers_xfibers, List.filter_eq_nil_iff]
    intro f hf
    rcases h f hf with ⟨h1, -⟩ | h1 <;> simp [h1]
  have hy : (sort_fibers ops w).yfibers = [] := by
    rw [sort_fibers_yfibers, List.filter_eq_nil_iff]
    intro f hf
    rcases h f hf with ⟨-, h1⟩ | h1 <;> simp [h1]
  have h0 : (sort_fibers ops w).g = WeaveGraph.empty := hg
  refine ⟨{ sort_fibers ops w with g := WeaveGraph.empty, xfibers := [], yfibers := [] },
    ?_, rfl, rfl, rfl, rfl⟩
  unfold build
  rw [hx, hy, h0]
  rfl

theorem build_without_axis_fibers_witness :
    (mkWeave [fiberDiag, fiberBare]).g = WeaveGraph.empty ∧
      (∀ f ∈ (mkWeave [fiberDiag, fiberBare]).fibers,
        (axisOps.xParallel f.dir = false ∧ axisOps.yParallel f.dir = false) ∨ f.ints = []) ∧
      ∃ w', build axisOps (mkWeave [fiberDiag, fiberBare]) = Except.ok w' ∧ w'.xfibers = [] ∧
        w'.yfibers = [] ∧ w'.g.num_vertices = 0 ∧ w'.g.edges = [] :=
  ⟨rfl, by decide,
    build_without_axis_fibers axisOps (mkWeave [fiberDiag, fiberBare]) rfl (by decide)⟩

/-- C22: when `build` completes on a weave whose graph has no capping edge and no ADJ or TWOADJ
vertex (in particular on an empty graph), the built graph and the graph of every weave that
`split_components` returns for it have no edge with the capping flag set and only vertices of
type CL or INT; on each of them `getCLEdges`, `getADJPoints` and `get2ADJPoints` return empty
lists, `getEdges` returns one position pair per edge of the graph, and `getCLPoints` together
with `getIPoints` list every vertex exactly once. -/
theorem build_plain_read_out (ops : FiberOps) (w w' : Weave) (hg : PlainGraph w.g)
    (h : build ops w = Except.ok w') :
    (PlainGraph w'.g ∧ PlainReadOut w'.g) ∧
      ∀ sub ∈ (split_components w').2, PlainGraph sub.g ∧ PlainReadOut sub.g := by
  have hp := plain_build ops w w' hg h
  refine ⟨⟨hp, plain_read_out _ hp⟩, ?_⟩
  intro sub hsub
  simp only [split_components, List.mem_map] at hsub
  obtain ⟨m, -, rfl⟩ := hsub
  have := plain_restrict _ m (plain_components _ hp)
  exact ⟨this, plain_read_out _ this⟩

theorem build_plain_read_out_witness :
    PlainGraph weaveCross.g ∧
      build axisOps weaveCross = Except.ok (built axisOps weaveCross) ∧
      (PlainGraph (built axisOps weaveCross).g ∧ PlainReadOut (built axisOps weaveCross).g) ∧
      ∀ sub ∈ (split_components (built axisOps weaveCross)).2,
        PlainGraph sub.g ∧ PlainReadOut sub.g :=
  ⟨by unfold PlainGraph; decide, rfl,
    build_plain_read_out axisOps weaveCross (built axisOps weaveCross)
      (by unfold PlainGraph; decide) rfl⟩

/-- C23 (what the code does): `build_embedding` classifies an out-edge by the sign of
`diff = v_pos - adj_pos`, the position of the vertex minus the position of the neighbour. When
it completes, the edge stored in slot 0 (labelled N) of the row of `v` therefore leads to a
neighbour whose `y` is strictly smaller than that of `v`, the edge in slot 1 (E) to a
neighbour with strictly smaller `x`, the edge in slot 2 (S) to a neighbour with strictly greater
`y` and the edge in slot 3 (W) to a neighbour with strictly greater `x`: every slot holds the
neighbour lying opposite to its label. -/
theorem embedding_slots_reversed (g : WeaveGraph) (emb : List (List EdgeDescriptor))
    (h : build_embedding g = Except.ok emb) (v : Nat) (hv : v < g.num_vertices) :
    emb[v]? = some ([0, 1, 2, 3].filterMap (slot_edge g v)) ∧
      (∀ oe, slot_edge g v 0 = some oe → (g.position oe.2).y < (g.position v).y) ∧
      (∀ oe, slot_edge g v 1 = some oe → (g.position oe.2).x < (g.position v).x) ∧
      (∀ oe, slot_edge g v 2 = some oe → (g.position v).y < (g.position oe.2).y) ∧
      (∀ oe, slot_edge g v 3 = some oe → (g.position v).x < (g.position oe.2).x) := by
  have hrows := embedding_rows_spec g _ emb h
  have key : ∀ k oe, slot_edge g v k = some oe → edge_slot g v oe.2 = some k := by
    intro k oe hk
    have hm := List.mem_of_mem_getLast? hk
    simpa using (List.mem_filter.1 hm).2
  refine ⟨?_, ?_, ?_, ?_, ?_⟩
  · rw [hrows, List.getElem?_map, List.getElem?_range hv]
    rfl
  all_goals
    intro oe hk
    have hs := key _ oe hk
    simp only [edge_slot, slot_of] at hs
    split_ifs at hs <;> first | omega | simp at hs

theorem embedding_slots_reversed_witness :
    build_embedding (built axisOps weaveCross).g
        = Except.ok [[(1, 4)], [(0, 4)], [(3, 4)], [(2, 4)], [(3, 2), (1, 0), (2, 3), (0, 1)]] ∧
      4 < (built axisOps weaveCross).g.num_vertices ∧
      slot_edge (built axisOps weaveCross).g 4 0 = some (3, 2) ∧
      ((built axisOps weaveCross).g.position 4).y = 0 ∧
      ((built axisOps weaveCross).g.position 2).y = -1 ∧
      ((built axisOps weaveCross).g.position (3, 2).2).y
        < ((built axisOps weaveCross).g.position 4).y :=
  ⟨rfl, by decide, by decide, by decide, by decide,
    (embedding_slots_reversed (built axisOps weaveCross).g
      [[(1, 4)], [(0, 4)], [(3, 4)], [(2, 4)], [(3, 2), (1, 0), (2, 3), (0, 1)]] rfl 4
      (by decide)).2.1 (3, 2) (by decide)⟩

/-- C27: when `build_embedding` completes, the row of every vertex `v` has at most 4 edges,
each an out-edge of `v`, and is empty when `v` has no incident edge. Every out-edge of `v` is
classified into one slot and is in the row exactly when it is the last out-edge, in iteration
order, classified into that slot: earlier edges of the same slot are left out, without failure.
When the out-edges of `v` fall into pairwise distinct slots the row is a permutation of the
out-edges of `v`; when this holds at every vertex of a graph whose edges join vertices of the
graph, every edge is listed in exactly two rows, those of its two distinct end-points. -/
theorem build_embedding_row_content (g : WeaveGraph) (emb : List (List EdgeDescriptor))
    (h : build_embedding g = Except.ok emb) :
    (∀ v < g.num_vertices, ∃ row, emb[v]? = some row ∧ row.length ≤ 4 ∧
      (∀ oe ∈ row, oe ∈ out_edges g v) ∧
      (g.degree v = 0 → row = []) ∧
      (∀ oe ∈ out_edges g v, ∃ k, edge_slot g v oe.2 = some k ∧
        (oe ∈ row ↔
          ((out_edges g v).filter fun oe' => edge_slot g v oe'.2 == some k).getLast?
            = some oe)) ∧
      ((slots g v).Nodup → row.Perm (out_edges g v))) ∧
    (EdgesBounded g → (∀ v < g.num_vertices, (slots g v).Nodup) →
      ∀ (i : Nat) (ed : Edge), g.edges[i]? = some ed →
        ed.source ≠ ed.target ∧ ed.source < g.num_vertices ∧ ed.target < g.num_vertices ∧
        ∀ (v : Nat) (row : List EdgeDescriptor), emb[v]? = some row →
          ((∃ oe ∈ row, oe.1 = i) ↔ (v = ed.source ∨ v = ed.target))) := by
  have hrows := embedding_rows_spec g _ emb h
  have hget : ∀ v < g.num_vertices, emb[v]? = some ([0, 1, 2, 3].filterMap (slot_edge g v)) := by
    intro v hv
    rw [hrows, List.getElem?_map, List.getElem?_range hv]
    rfl
  have hlen : emb.length = g.num_vertices := by rw [hrows]; simp
  refine ⟨fun v hv => ⟨_, hget v hv, ?_, ?_, ?_, ?_, ?_⟩, ?_⟩
  · exact (List.length_filterMap_le _ _).trans (by simp)
  · intro oe hoe
    obtain ⟨k, hk⟩ := (mem_slot_row g v oe).1 hoe
    exact (slot_edge_slot g v k oe hk).1
  · intro hd
    have hnil : out_edges g v = [] := by
      have : ((out_edges g v).map Prod.snd).length = 0 := by
        rw [out_edges_snd]
        exact hd
      simpa using this
    simp [slot_edge, hnil]
  · intro oe hoe
    have hne := build_embedding_slots g emb h v hv oe.2
      (by rw [← out_edges_snd]; exact List.mem_map.2 ⟨oe, hoe, rfl⟩)
    cases hk : edge_slot g v oe.2 with
    | none => exact absurd hk hne
    | some k =>
      refine ⟨k, rfl, ?_⟩
      rw [mem_slot_row]
      constructor
      · rintro ⟨k', hk'⟩
        have := (slot_edge_slot g v k' oe hk').2
        rw [hk] at this
        cases this
        exact hk'
      · intro hl
        exact ⟨k, hl⟩
  · intro hn
    exact slot_row_perm g v hn (build_embedding_slots g emb h v hv)
  · intro hb hn i ed hed
    obtain ⟨hs, ht⟩ := hb ed (List.getElem?_mem hed)
    have hne : ed.source ≠ ed.target := by
      intro heq
      have hm : ed.target ∈ neighbours g.edges ed.source := by
        simp only [neighbours, List.mem_flatMap]
        exact ⟨ed, List.getElem?_mem hed, by simp⟩
      refine build_embedding_slots g emb h ed.source hs ed.target hm ?_
      rw [edge_slot_none, heq]
      exact ⟨rfl, rfl⟩
    refine ⟨hne, hs, ht, ?_⟩
    intro v row hrow
    have hv : v < g.num_vertices := by
      rw [← hlen]
      exact (List.getElem?_eq_some_iff.1 hrow).1
    rw [hget v hv] at hrow
    cases hrow
    have hp := slot_row_perm g v (hn v hv) (build_embedding_slots g emb h v hv)
    constructor
    · rintro ⟨oe, hoe, rfl⟩
      obtain ⟨ed', hed', hends⟩ := (mem_out_edges g v oe).1 (hp.mem_iff.1 hoe)
      rw [hed] at hed'
      cases hed'
      rcases hends with ⟨h1, -⟩ | ⟨h1, -⟩
      · exact Or.inl h1.symm
      · exact Or.inr h1.symm
    · rintro (rfl | rfl)
      · exact ⟨(i, ed.target), hp.mem_iff.2 ((mem_out_edges g _ _).2
          ⟨ed, hed, Or.inl ⟨rfl, rfl⟩⟩), rfl⟩
      · exact ⟨(i, ed.source), hp.mem_iff.2 ((mem_out_edges g _ _).2
          ⟨ed, hed, Or.inr ⟨rfl, rfl⟩⟩), rfl⟩

theorem build_embedding_row_content_witness :
    build_embedding (built axisOps weaveTwice).g
        = Except.ok [[(5, 7)], [(4, 7)], [(3, 4)], [(2, 4)], [(3, 2), (1, 0), (2, 3), (0, 1)],
          [(7, 7)], [(6, 7)], [(7, 5), (5, 0), (6, 6), (4, 1)]] ∧
      out_edges (built axisOps weaveTwice).g 0 = [(1, 4), (5, 7)] ∧
      ∃ row, [[(5, 7)], [(4, 7)], [(3, 4)], [(2, 4)], [(3, 2), (1, 0), (2, 3), (0, 1)],
          [(7, 7)], [(6, 7)], [(7, 5), (5, 0), (6, 6), (4, 1)]][0]? = some row ∧
        row.length ≤ 4 ∧
        (∀ oe ∈ row, oe ∈ out_edges (built axisOps weaveTwice).g 0) ∧
        ((built axisOps weaveTwice).g.degree 0 = 0 → row = []) ∧
        (∀ oe ∈ out_edges (built axisOps weaveTwice).g 0,
          ∃ k, edge_slot (built axisOps weaveTwice).g 0 oe.2 = some k ∧
            (oe ∈ row ↔
              ((out_edges (built axisOps weaveTwice).g 0).filter fun oe' =>
                edge_slot (built axisOps weaveTwice).g 0 oe'.2 == some k).getLast?
                = some oe)) ∧
        ((slots (built axisOps weaveTwice).g 0).Nodup →
          row.Perm (out_edges (built axisOps weaveTwice).g 0)) :=
  ⟨rfl, by decide,
    (build_embedding_row_content (built axisOps weaveTwice).g
      [[(5, 7)], [(4, 7)], [(3, 4)], [(2, 4)], [(3, 2), (1, 0), (2, 3), (0, 1)],
        [(7, 7)], [(6, 7)], [(7, 5), (5, 0), (6, 6), (4, 1)]] rfl).1 0 (by decide)⟩

/-- C26: on a weave whose graph is empty and whose intervals have not been materialised, write
`xs` and `ys` for the X-set and the Y-set. When `build` completes, the CL vertices are the two
end-points of every interval of `xs`, crossed or not, and of those intervals of `ys` only that
pass both range tests against at least one X-interval, so their number is
`2 * (number of intervals of xs) + 2 * (number of crossed intervals of ys)`. With an empty
X-set `build` completes with an empty graph, whatever the Y-set holds; with an empty Y-set it
completes with a graph without edges whose vertices are all CL, two per X-interval. -/
theorem build_cl_asymmetric (ops : FiberOps) (w : Weave) (hg : w.g = WeaveGraph.empty)
    (hf : ∀ f ∈ w.fibers, ∀ i ∈ f.ints, i.in_weave = false) :
    (∀ w', build ops w = Except.ok w' →
      (getCLPoints w'.g).Perm
        (expected_cl_points ops (sort_fibers ops w).xfibers (sort_fibers ops w).yfibers) ∧
      (getCLPoints w'.g).length
        = 2 * interval_count (sort_fibers ops w).xfibers
          + 2 * crossed_y_count ops (sort_fibers ops w).xfibers (sort_fibers ops w).yfibers) ∧
    ((sort_fibers ops w).xfibers = [] →
      ∃ w', build ops w = Except.ok w' ∧ w'.g.num_vertices = 0 ∧ w'.g.edges = []) ∧
    ((sort_fibers ops w).yfibers = [] →
      ∃ w', build ops w = Except.ok w' ∧ w'.g.edges = [] ∧ (∀ u, w'.g.degree u = 0) ∧
        (∀ p ∈ w'.g.verts, p.type = VertexType.CL) ∧
        w'.g.num_vertices = 2 * interval_count (sort_fibers ops w).xfibers) := by
  have h0 : (sort_fibers ops w).g = WeaveGraph.empty := hg
  have hcount : ∀ w', build ops w = Except.ok w' →
      (getCLPoints w'.g).Perm
        (expected_cl_points ops (sort_fibers ops w).xfibers (sort_fibers ops w).yfibers) ∧
      (getCLPoints w'.g).length
        = 2 * interval_count (sort_fibers ops w).xfibers
          + 2 * crossed_y_count ops (sort_fibers ops w).xfibers (sort_fibers ops w).yfibers := by
    intro w' h
    have hp := build_cl_perm ops w w' hg hf h
    exact ⟨hp, by rw [hp.length_eq, expected_cl_points_length]⟩
  refine ⟨hcount, ?_, ?_⟩
  · intro hx
    refine ⟨_, build_no_xfibers ops w hx, ?_, ?_⟩
    · show (sort_fibers ops w).g.num_vertices = 0
      rw [h0]
      rfl
    · show (sort_fibers ops w).g.edges = []
      rw [h0]
      rfl
  · intro hy
    obtain ⟨r, hr, he, -, hv⟩ :=
      x_fiber_loop_no_yfibers ops WeaveGraph.empty (sort_fibers ops w).xfibers
    have hb : build ops w = Except.ok
        { sort_fibers ops w with g := r.1.1, xfibers := r.2, yfibers := r.1.2 } := by
      unfold build
      rw [h0, hy, hr]
    have hcl : ∀ p ∈ r.1.1.verts, p.type = VertexType.CL := by
      intro p hp
      rcases hv p hp with h | h
      · cases h
      · exact h
    refine ⟨_, hb, he, ?_, hcl, ?_⟩
    · intro u
      show (neighbours r.1.1.edges u).length = 0
      rw [he]
      rfl
    · have := (hcount _ hb).2
      simp only [hy, crossed_y_count, List.map_nil, List.sum_nil, Nat.mul_zero,
        Nat.add_zero] at this
      rw [← this]
      simp only [getCLPoints, List.length_map, WeaveGraph.num_vertices]
      rw [List.filter_eq_self.2]
      intro p hp
      simp [hcl p hp]

theorem build_cl_asymmetric_witness :
    weaveOnlyX.g = WeaveGraph.empty ∧
      (∀ f ∈ weaveOnlyX.fibers, ∀ i ∈ f.ints, i.in_weave = false) ∧
      (sort_fibers axisOps weaveOnlyX).yfibers = [] ∧
      ∃ w', build axisOps weaveOnlyX = Except.ok w' ∧ w'.g.edges = [] ∧
        (∀ u, w'.g.degree u = 0) ∧ (∀ p ∈ w'.g.verts, p.type = VertexType.CL) ∧
        w'.g.num_vertices = 2 * interval_count (sort_fibers axisOps weaveOnlyX).xfibers :=
  ⟨rfl, by decide, by decide,
    (build_cl_asymmetric axisOps weaveOnlyX rfl (by decide)).2.2 (by decide)⟩

/-- C25: on a weave whose graph is empty and on whose intervals the registered coordinates are
distinct (the coordinates of the crossings of an interval are pairwise distinct and differ from
those of its two end-points), `build` completes and `build_embedding` completes on the built
graph, without reaching `assert(0)`: every edge of the built graph joins two consecutive entries
of the set of an X-interval, which have different `x`, or two consecutive entries of the set of
a Y-interval, which have different `y`. -/
theorem build_embedding_completes (ops : FiberOps) (w : Weave) (hg : w.g = WeaveGraph.empty)
    (hd : DistinctCoordinates ops (sort_fibers ops w).xfibers (sort_fibers ops w).yfibers) :
    ∃ w', build ops w = Except.ok w' ∧ (∃ emb, build_embedding w'.g = Except.ok emb) ∧
      ∀ e ∈ w'.g.edges,
        (edge_key e ∈ fibers_chain w'.xfibers ∧
          (w'.g.position e.source).x ≠ (w'.g.position e.target).x) ∨
        (edge_key e ∈ fibers_chain w'.yfibers ∧
          (w'.g.position e.source).y ≠ (w'.g.position e.target).y) := by
  obtain ⟨w', hb, hI⟩ := build_wf ops w hg (wellFormed_of_distinct ops _ _ hd)
  obtain ⟨hx, hy⟩ := inv1_chains_apart ops _ _ _ hI
  have hF : edge_keys w'.g = fibers_chain w'.xfibers + fibers_chain w'.yfibers := hI.2.2.2.2.1
  have hedge : ∀ e ∈ w'.g.edges,
      (edge_key e ∈ fibers_chain w'.xfibers ∧
        (w'.g.position e.source).x ≠ (w'.g.position e.target).x) ∨
      (edge_key e ∈ fibers_chain w'.yfibers ∧
        (w'.g.position e.source).y ≠ (w'.g.position e.target).y) := by
    intro e he
    have hm : edge_key e ∈ edge_keys w'.g := Multiset.mem_coe.2 (List.mem_map.2 ⟨e, he, rfl⟩)
    rw [hF, Multiset.mem_add] at hm
    rcases hm with hm | hm
    · exact Or.inl ⟨hm, hx _ _ hm⟩
    · exact Or.inr ⟨hm, hy _ _ hm⟩
  refine ⟨w', hb, ?_, hedge⟩
  unfold build_embedding
  rcases embedding_rows_cases w'.g (List.range w'.g.num_vertices) with
    ⟨⟨u, -, v, hv, hs⟩, -⟩ | ⟨-, hr⟩
  · exfalso
    rw [edge_slot_none] at hs
    obtain ⟨e, he, hends⟩ := mem_neighbours _ u v hv
    rcases hends with ⟨rfl, rfl⟩ | ⟨rfl, rfl⟩
    · rcases hedge e he with ⟨-, h⟩ | ⟨-, h⟩
      · exact h hs.1
      · exact h hs.2
    · rcases hedge e he with ⟨-, h⟩ | ⟨-, h⟩
      · exact h hs.1.symm
      · exact h hs.2.symm
  · exact hr

theorem build_embedding_completes_witness :
    weaveGrid.g = WeaveGraph.empty ∧
      DistinctCoordinates axisOps (sort_fibers axisOps weaveGrid).xfibers
        (sort_fibers axisOps weaveGrid).yfibers ∧
      ∃ w', build axisOps weaveGrid = Except.ok w' ∧
        (∃ emb, build_embedding w'.g = Except.ok emb) ∧
        ∀ e ∈ w'.g.edges,
          (edge_key e ∈ fibers_chain w'.xfibers ∧
            (w'.g.position e.source).x ≠ (w'.g.position e.target).x) ∨
          (edge_key e ∈ fibers_chain w'.yfibers ∧
            (w'.g.position e.source).y ≠ (w'.g.position e.target).y) :=
  ⟨rfl, by unfold DistinctCoordinates; decide,
    build_embedding_completes axisOps weaveGrid rfl (by unfold DistinctCoordinates; decide)⟩

/-- C24: on well-formed input (an empty graph, no interval materialised, and on every interval
the coordinates of its crossings pairwise distinct and strictly between those of its two
end-points) `build` completes and the edges of the built graph are, without repetition, exactly
the pairs of consecutive entries of the ordered sets that hold three entries or more. Interval
by interval, in the order of the input, an interval with `n ≥ 1` crossings has a set of `n + 2`
entries and accounts for all its consecutive pairs, and an interval without crossing accounts
for no edge. The number of edges is therefore `2 * (number of crossings) + (number of crossed
X-intervals) + (number of crossed Y-intervals)`, and every CL vertex has degree at most 1. -/
theorem build_edge_set (ops : FiberOps) (w : Weave) (hg : w.g = WeaveGraph.empty)
    (hwf : WellFormed false ops (sort_fibers ops w).xfibers (sort_fibers ops w).yfibers) :
    ∃ w', build ops w = Except.ok w' ∧
      edge_keys w'.g = fibers_chain w'.xfibers + fibers_chain w'.yfibers ∧
      (edge_keys w'.g).Nodup ∧
      List.Forall₂ (fun xf' xf => List.Forall₂ (fun xi' xi =>
        IntervalEdges (x_crossed ops (sort_fibers ops w).yfibers xf xi)
          (x_keys ops xf xi (sort_fibers ops w).yfibers).length xi') xf'.ints xf.ints)
        w'.xfibers (sort_fibers ops w).xfibers ∧
      List.Forall₂ (fun yf' yf => List.Forall₂ (fun yi' yi =>
        IntervalEdges (y_crossed ops (sort_fibers ops w).xfibers yf yi)
          (y_keys ops (x_tasks (sort_fibers ops w).xfibers) yf yi).length yi') yf'.ints yf.ints)
        w'.yfibers (sort_fibers ops w).yfibers ∧
      w'.g.edges.length
        = 2 * crossing_count ops (sort_fibers ops w).xfibers (sort_fibers ops w).yfibers
          + crossed_x_count ops (sort_fibers ops w).xfibers (sort_fibers ops w).yfibers
          + crossed_y_count ops (sort_fibers ops w).xfibers (sort_fibers ops w).yfibers ∧
      ∀ u, w'.g.vertex_type u = some VertexType.CL → w'.g.degree u ≤ 1 := by
  obtain ⟨w', hb, hI⟩ := build_wf ops w hg hwf
  obtain ⟨⟨hG, hV⟩, -, -, -, hF, -⟩ := hI
  simp only at hG hV hF
  obtain ⟨ex, ey⟩ := intervalEdges_built ops w w' hwf hb
  obtain ⟨cx, cy⟩ := card_fibers_chain_built ops w w' hwf hb
  refine ⟨w', hb, hF, Multiset.coe_nodup.2 hG.1, ex, ey, ?_, ?_⟩
  · have : w'.g.edges.length = Multiset.card (edge_keys w'.g) := by
      simp [edge_keys]
    rw [this, hF, Multiset.card_add, cx, cy]
    omega
  · intro u hu
    exact (hV u (vertex_type_lt _ u _ hu)).2.2 hu

theorem build_edge_set_witness :
    weaveSparse.g = WeaveGraph.empty ∧
      WellFormed false axisOps (sort_fibers axisOps weaveSparse).xfibers
        (sort_fibers axisOps weaveSparse).yfibers ∧
      crossing_count axisOps (sort_fibers axisOps weaveSparse).xfibers
        (sort_fibers axisOps weaveSparse).yfibers = 1 ∧
      crossed_x_count axisOps (sort_fibers axisOps weaveSparse).xfibers
        (sort_fibers axisOps weaveSparse).yfibers = 1 ∧
      crossed_y_count axisOps (sort_fibers axisOps weaveSparse).xfibers
        (sort_fibers axisOps weaveSparse).yfibers = 1 ∧
      ∃ w', build axisOps weaveSparse = Except.ok w' ∧
        edge_keys w'.g = fibers_chain w'.xfibers + fibers_chain w'.yfibers ∧
        (edge_keys w'.g).Nodup ∧
        List.Forall₂ (fun xf' xf => List.Forall₂ (fun xi' xi =>
          IntervalEdges (x_crossed axisOps (sort_fibers axisOps weaveSparse).yfibers xf xi)
            (x_keys axisOps xf xi (sort_fibers axisOps weaveSparse).yfibers).length xi')
            xf'.ints xf.ints)
          w'.xfibers (sort_fibers axisOps weaveSparse).xfibers ∧
        List.Forall₂ (fun yf' yf => List.Forall₂ (fun yi' yi =>
          IntervalEdges (y_crossed axisOps (sort_fibers axisOps weaveSparse).xfibers yf yi)
            (y_keys axisOps (x_tasks (sort_fibers axisOps weaveSparse).xfibers) yf yi).length
            yi') yf'.ints yf.ints)
          w'.yfibers (sort_fibers axisOps weaveSparse).yfibers ∧
        w'.g.edges.length
          = 2 * crossing_count axisOps (sort_fibers axisOps weaveSparse).xfibers
              (sort_fibers axisOps weaveSparse).yfibers
            + crossed_x_count axisOps (sort_fibers axisOps weaveSparse).xfibers
              (sort_fibers axisOps weaveSparse).yfibers
            + crossed_y_count axisOps (sort_fibers axisOps weaveSparse).xfibers
              (sort_fibers axisOps weaveSparse).yfibers ∧
        ∀ u, w'.g.vertex_type u = some VertexType.CL → w'.g.degree u ≤ 1 :=
  ⟨rfl,
    by
      unfold WellFormed
      simp only [Bool.false_eq_true, false_implies, and_true]
      decide,
    by decide, by decide, by decide,
    build_edge_set axisOps weaveSparse rfl
      (by
        unfold WellFormed
        simp only [Bool.false_eq_true, false_implies, and_true]
        decide)⟩

end ocl
